import Mathlib

/-!
# Vault-Mapper: map state and route search

A shallow embedding of the map core of `src/main.cpp` and `src/types.hpp`:
grid addressing (`point_id`), the room table (`add_room`), the path history
ring buffer (`push_path`) and the route search (`find_path`).

Conventions of the embedding.
* `glm::ivec2` is a pair of integers; every coordinate the program handles lies
  within `[-201, 201]`, far away from the 32-bit limits.
* `unsigned` values are natural numbers; where the source does `unsigned`
  arithmetic the result is reduced modulo `2^32` explicitly.
* `std::map<point_id_t, T>` is a lookup function `Nat → Option T`; the core never
  iterates a map, it only calls `find`, `at` and `operator[]`.
* `std::priority_queue<queued_point>` is the list of queued entries. `top()` is an
  entry of least heuristic; which one among several entries of the same least
  heuristic is left open by the library, so the search takes a stream of
  tie-break numbers and every statement is proved for every such stream.
* A function that may throw (`std::map::at`) or loop returns `Option`; loops carry
  a fuel counter and `none` also stands for exhausted fuel.
-/

namespace VaultMapper

/-! ## Data model (`types.hpp`, `__global_type::__map`) -/

/-- Integer vector `glm::ivec2`. -/
structure ivec2 where
  x : Int
  y : Int
deriving DecidableEq, Repr

instance : Add ivec2 := ⟨fun a b => ⟨a.x + b.x, a.y + b.y⟩⟩

instance : Neg ivec2 := ⟨fun a => ⟨-a.x, -a.y⟩⟩

/-- Unit vector `constants::north`. -/
def north : ivec2 := ⟨0, -1⟩

/-- Unit vector `constants::south`. -/
def south : ivec2 := ⟨0, 1⟩

/-- Unit vector `constants::west`. -/
def west : ivec2 := ⟨-1, 0⟩

/-- Unit vector `constants::east`. -/
def east : ivec2 := ⟨1, 0⟩

/-- Origin `constants::zero`. -/
def zero : ivec2 := ⟨0, 0⟩

/-- Grid radius `constants::map::radius`. -/
def radius : Nat := 200

/-- Enumerator `room_flag::portal`. -/
def room_flag_portal : Nat := 1

/-- Enumerator `room_flag::avoid`. -/
def room_flag_avoid : Nat := 2

/-- Enumerator `path_flag::all`. -/
def path_flag_all : Nat := 15

/-- Record `room_data`; `paths` and `flags` hold the enumerators as numbers. -/
structure room_data where
  position : ivec2
  paths : Nat
  flags : Nat
  visited : Bool
deriving DecidableEq, Repr

/-- Record `astar_point`. -/
structure astar_point where
  position : ivec2
  parent_dir : List ivec2
  path_length : Nat
  heuristic : Nat
deriving DecidableEq, Repr

/-- Record `queued_point`; `point` is the `point_id_t` key. -/
structure queued_point where
  heuristic : Nat
  point : Nat
deriving DecidableEq, Repr

/-- The map part of `global_state` (`__global_type::__map`). -/
structure map_state where
  position : ivec2
  view_position : ivec2
  target_view_position : ivec2
  view_portal_room : Bool
  show_scale_meter : Bool
  scale : Nat
  rooms : Nat → Option room_data
  pick_direction : Bool
  path : Nat → ivec2 × Nat
  path_head : Nat
  path_size : Nat
  portal_path : List ivec2

/-- Working variables of the search loop of `find_path`. -/
structure search_state where
  point_data : Nat → Option astar_point
  points : List queued_point
  found_portal : Bool
  max_length : Nat

/-! ## Grid addressing -/

/-- Conversion of an `int` to `unsigned` (reduction modulo `2^32`). -/
def to_unsigned (i : Int) : Nat := (i % 4294967296).toNat

/-- Function `point_id`: `(p.x + offset) + (p.y + offset) * size` in `unsigned`
arithmetic, with `offset = 200` and `size = 401`. -/
def point_id (p : ivec2) : Nat :=
  ((to_unsigned p.x + 200) % 4294967296
    + ((to_unsigned p.y + 200) % 4294967296 * 401) % 4294967296) % 4294967296

/-- The test `std::abs(p.x) > radius || std::abs(p.y) > radius` of the source,
negated: the coordinate lies in `[-200, 200]` on both axes. -/
def in_bounds (p : ivec2) : Bool :=
  !(decide (p.x.natAbs > radius) || decide (p.y.natAbs > radius))

/-- Store `m[k] = v` of a `std::map`. -/
def map_insert {α : Type} (m : Nat → Option α) (k : Nat) (v : α) : Nat → Option α :=
  fun j => if j = k then some v else m j

/-! ## Room table and path history -/

/-- Function `add_room`: insert a record unless the key is present. -/
def add_room (g : map_state) (pos : ivec2) (paths flags : Nat) (visited : Bool) : map_state :=
  match g.rooms (point_id pos) with
  | some _ => g
  | none => { g with rooms := map_insert g.rooms (point_id pos) ⟨pos, paths, flags, visited⟩ }

/-- Store into slot `i` of the array `path`. -/
def slot_set (path : Nat → ivec2 × Nat) (i : Nat) (e : ivec2 × Nat) : Nat → ivec2 × Nat :=
  fun j => if j = i then e else path j

/-- Function `push_path`. -/
def push_path (g : map_state) (point : ivec2) (direction : Nat) : map_state :=
  if g.path_size = 10 then
    { g with
      path_head := if g.path_head = 9 then 0 else (g.path_head + 1) % 4294967296
      path := slot_set g.path g.path_head (point, direction) }
  else
    { g with
      path_size := (g.path_size + 1) % 4294967296
      path := slot_set g.path g.path_size (point, direction) }

/-- The slot index computed by `render_last_path` for its loop counter `i`. -/
def path_index (g : map_state) (i : Nat) : Nat :=
  let index := (i + g.path_head) % 4294967296
  if index ≥ 10 then index - 10 else index

/-- The entries `render_last_path` reads, in its loop order. -/
def read_path (g : map_state) : List (ivec2 × Nat) :=
  (List.range g.path_size).map (fun i => g.path (path_index g i))

/-- Function `reset_map` (the call that refreshes the GL uniform is left out). -/
def reset_map (g : map_state) : map_state :=
  { g with
    position := ⟨0, 0⟩
    view_position := ⟨0, 0⟩
    target_view_position := ⟨0, 0⟩
    view_portal_room := false
    rooms := fun _ => none
    pick_direction := true
    path_head := 0
    path_size := 0
    portal_path := [] }

/-- A run of `push_path` calls, one per entry of the list, in list order. -/
def push_all (g : map_state) (entries : List (ivec2 × Nat)) : map_state :=
  entries.foldl (fun s e => push_path s e.1 e.2) g

/-! ## Route search -/

/-- Function `calc_heuristic`. -/
def calc_heuristic (p : ivec2) : Nat := to_unsigned (p.x * p.x + p.y * p.y)

/-- The array `directions` of `find_path`. -/
def directions : List ivec2 := [south, east, north, west]

/-- The entry `directions[i]`. -/
def dir_at (i : Nat) : ivec2 := directions.getD i zero

/-- The passage test `(unsigned) paths & (1 << i)`. -/
def has_path (paths i : Nat) : Bool := paths &&& (1 <<< i) != 0

/-- Passage flags the search uses for key `k`: those of the room, or
`path_flag::all` when the table has no such room. -/
def paths_of (rooms : Nat → Option room_data) (k : Nat) : Nat :=
  match rooms k with
  | some r => r.paths
  | none => path_flag_all

/-- The `scale` chosen for a neighbour, as a fraction `num / 2`:
`5` for an avoid room, `1.5` for an unvisited room, `3` for a missing room,
`1` otherwise. -/
def scale_num (rooms : Nat → Option room_data) (ni : Nat) : Nat :=
  match rooms ni with
  | some r =>
    if r.flags &&& room_flag_avoid != 0 then 10
    else if !r.visited then 3
    else 2
  | none => 6

/-- The value `(unsigned) ((float) calc_heuristic(n) * scale)`. For a coordinate
within the grid the heuristic is at most `80000`, so the product is a multiple of
one half below `2^23`, which `float` holds exactly; the conversion truncates. -/
def point_heuristic (rooms : Nat → Option room_data) (n : ivec2) : Nat :=
  calc_heuristic n * scale_num rooms (point_id n) / 2

/-- One pass of the inner `for` loop of `find_path`, for direction index `i`,
from the popped node `p` whose room has flags `paths`. -/
def visit (rooms : Nat → Option room_data) (p : astar_point) (paths : Nat)
    (st : search_state) (i : Nat) : search_state :=
  if !has_path paths i then st
  else
    let dir := dir_at i
    let n := p.position + dir
    let ni := point_id n
    if !in_bounds n then st
    else
      match st.point_data ni with
      | some fd =>
        if p.path_length < fd.path_length then
          { st with point_data :=
              map_insert st.point_data ni { fd with parent_dir := fd.parent_dir ++ [-dir] } }
        else st
      | none =>
        let h := point_heuristic rooms n
        let len := (p.path_length + 1) % 4294967296
        { point_data := map_insert st.point_data ni ⟨n, [-dir], len, h⟩
          points := st.points ++ [⟨h, ni⟩]
          found_portal := decide (ni = point_id zero)
          max_length := if ni = point_id zero then len else st.max_length }

/-- Least heuristic among `a` and the entries of a list. -/
def least_heuristic (a : Nat) (q : List queued_point) : Nat :=
  q.foldl (fun m e => min m e.heuristic) a

/-- The entry `top()` returns and the queue after `pop()`: an entry of least
heuristic, the tie-break number `t` choosing among several of them. -/
def pq_pop (t : Nat) (q : List queued_point) : Option (queued_point × List queued_point) :=
  match q with
  | [] => none
  | a :: as =>
    let m := least_heuristic a.heuristic as
    let top :=
      match (a :: as).filter (fun e => e.heuristic = m) with
      | [] => a
      | [c] => c
      | c :: cs => (c :: cs).getD (t % (c :: cs).length) c
    some (top, (a :: as).erase top)

/-- The record `point_data[pi]` yields: the stored one, or a value-initialised
`astar_point` that `operator[]` inserts when the key is missing. -/
def fetch_point (pd : Nat → Option astar_point) (k : Nat) :
    astar_point × (Nat → Option astar_point) :=
  match pd k with
  | some a => (a, pd)
  | none => (⟨⟨0, 0⟩, [], 0, 0⟩, map_insert pd k ⟨⟨0, 0⟩, [], 0, 0⟩)

/-- One pass of the `while` loop of `find_path`; `none` when the queue is empty. -/
def search_step (t : Nat) (rooms : Nat → Option room_data) (st : search_state) :
    Option search_state :=
  match pq_pop t st.points with
  | none => none
  | some (top, rest) =>
    let pi := top.point
    let p := (fetch_point st.point_data pi).1
    let st1 : search_state := { st with point_data := (fetch_point st.point_data pi).2, points := rest }
    let paths := paths_of rooms pi
    if (p.path_length + 1) % 4294967296 > st1.max_length then some st1
    else some ([0, 1, 2, 3].foldl (visit rooms p paths) st1)

/-- The `while` loop of `find_path` run with a fuel counter; pass number `fuel`
takes its tie-break from `tie fuel`. -/
def search (tie : Nat → Nat) (rooms : Nat → Option room_data) : Nat → search_state → Option search_state
  | 0, _ => none
  | fuel + 1, st =>
    match search_step (tie fuel) rooms st with
    | none => some st
    | some st1 => search tie rooms fuel st1

/-- The inner `for` loop of the reconstruction: scan the candidate directions and
keep the first whose node has the strictly least path length; `none` when
`point_data.at` throws. -/
def select_next (pd : Nat → Option astar_point) (pos : ivec2) : ivec2 → List ivec2 → Option ivec2
  | next, [] => some next
  | next, item :: rest =>
    match pd (point_id (pos + item)), pd (point_id (pos + next)) with
    | some point_test, some point_next =>
      select_next pd pos (if point_test.path_length < point_next.path_length then item else next) rest
    | _, _ => none

/-- The `while (dest.path_length != 0)` loop of `find_path`, appending to `acc`;
`none` when `front()` is called on an empty vector or `at` throws. -/
def reconstruct (pd : Nat → Option astar_point) : Nat → ivec2 → astar_point → List ivec2 → Option (List ivec2)
  | fuel, pos, dest, acc =>
    if dest.path_length = 0 then some acc
    else
      match fuel with
      | 0 => none
      | fuel1 + 1 =>
        match dest.parent_dir with
        | [] => none
        | first :: _ =>
          match select_next pd pos first dest.parent_dir with
          | none => none
          | some next =>
            match pd (point_id (pos + next)) with
            | none => none
            | some dest1 => reconstruct pd fuel1 (pos + next) dest1 (acc ++ [next])

/-- Fuel for the loops of `find_path`: one more than the `401 * 401` grid cells. -/
def search_fuel : Nat := 160802

/-- State of the search when the `while` loop is entered. -/
def search_init (position : ivec2) : search_state :=
  { point_data := map_insert (fun _ => none) (point_id position)
      ⟨position, [], 0, calc_heuristic position⟩
    points := [⟨calc_heuristic position, point_id position⟩]
    found_portal := false
    max_length := 64 }

/-- Function `find_path`; the result is the state with the new `portal_path`. -/
def find_path (tie : Nat → Nat) (g : map_state) : Option map_state :=
  if g.position = zero then some { g with portal_path := [] }
  else
    match search tie g.rooms search_fuel (search_init g.position) with
    | none => none
    | some st =>
      match st.point_data (point_id zero) with
      | none => some { g with portal_path := [] }
      | some dest =>
        match reconstruct st.point_data search_fuel zero dest [] with
        | none => none
        | some route => some { g with portal_path := route }

/-! ## Concrete inputs -/

/-- A state with the given room table and player position; the view is at rest,
the history is empty and no route is stored. -/
def state_of (rooms : Nat → Option room_data) (position : ivec2) : map_state :=
  { position := position
    view_position := zero
    target_view_position := zero
    view_portal_room := false
    show_scale_meter := false
    scale := 6
    rooms := rooms
    pick_direction := false
    path := fun _ => (zero, 0)
    path_head := 0
    path_size := 0
    portal_path := [] }

/-- The table holding exactly the listed rooms, each under the key of its position. -/
def table_of (l : List room_data) : Nat → Option room_data :=
  l.foldl (fun m r => map_insert m (point_id r.position) r) (fun _ => none)

/-- The tie-break stream that always takes the first candidate. -/
def first_tie : Nat → Nat := fun _ => 0

/-- A state at the origin that still stores a route. -/
def stale_origin_state : map_state :=
  { state_of (table_of [⟨zero, 1, room_flag_portal, true⟩]) zero with portal_path := [south, east] }

/-! ## Invariants of the search -/

/-- Invariant of the search loop of `find_path` for a search started at `start`:
every key holds the record of its own in-bounds coordinate, the start has path
length `0`, every other node has a path length from `1` to `64` and a candidate
list that is not empty, every candidate direction of a node leads to an in-bounds
recorded node of strictly smaller path length whose room permits the passage, every queued
key is recorded, and `max_length` is at most `64`. -/
structure search_inv (rooms : Nat → Option room_data) (start : ivec2) (st : search_state) : Prop where
  key_pos : ∀ k a, st.point_data k = some a → in_bounds a.position = true ∧ point_id a.position = k
  start_rec : ∃ a, st.point_data (point_id start) = some a ∧ a.path_length = 0
  len_pos : ∀ k a, st.point_data k = some a → k ≠ point_id start → 1 ≤ a.path_length
  len_le : ∀ k a, st.point_data k = some a → a.path_length ≤ 64
  parents : ∀ k a, st.point_data k = some a → ∀ d ∈ a.parent_dir,
    ∃ i, i < 4 ∧ d = -(dir_at i) ∧ in_bounds (a.position + d) = true
      ∧ ∃ b, st.point_data (point_id (a.position + d)) = some b
        ∧ b.path_length < a.path_length
        ∧ has_path (paths_of rooms (point_id (a.position + d))) i = true
  parents_ne : ∀ k a, st.point_data k = some a → k ≠ point_id start → a.parent_dir ≠ []
  queued : ∀ q ∈ st.points, ∃ a, st.point_data q.point = some a
  max_le : st.max_length ≤ 64

/-- The node map `pd1` keeps every node of `pd`, with its position and path length. -/
def pd_le (pd pd1 : Nat → Option astar_point) : Prop :=
  ∀ k a, pd k = some a →
    ∃ a1, pd1 k = some a1 ∧ a1.position = a.position ∧ a1.path_length = a.path_length

/-- Number of grid keys that hold no node yet. -/
def unrecorded (pd : Nat → Option astar_point) : Nat :=
  ((Finset.range 160801).filter (fun k => pd k = none)).card

/-- Termination measure of the search loop: unrecorded grid keys plus queued entries. -/
def search_measure (st : search_state) : Nat := unrecorded st.point_data + st.points.length

/-! ## Routes -/

/-- Sum of the elements of a route, starting from the origin. -/
def route_sum (route : List ivec2) : ivec2 := route.foldl (fun c v => c + v) zero

/-- The route leads from `c` to `target`: each element `v`, taken from the
coordinate reached so far, is the reverse of a direction `dir_at i` whose passage
the room at the next coordinate permits (its flags, or all passages when the table
has no such room), and the next coordinate lies within the grid. -/
def route_chain (rooms : Nat → Option room_data) : ivec2 → List ivec2 → ivec2 → Prop
  | c, [], target => c = target
  | c, v :: rest, target =>
    (∃ i, i < 4 ∧ v = -(dir_at i) ∧ has_path (paths_of rooms (point_id (c + v))) i = true)
      ∧ in_bounds (c + v) = true ∧ route_chain rooms (c + v) rest target

/-- Walking from `c` along the directions with the given indices stays within the
grid and uses only permitted passages: the room being left has the passage bit
set, or the table has no such room. -/
def permitted_walk (rooms : Nat → Option room_data) : ivec2 → List Nat → Bool
  | _, [] => true
  | c, i :: rest =>
    decide (i < 4) && has_path (paths_of rooms (point_id c)) i && in_bounds (c + dir_at i)
      && permitted_walk rooms (c + dir_at i) rest

/-- The coordinate a walk ends at. -/
def walk_end : ivec2 → List Nat → ivec2
  | c, [] => c
  | c, i :: rest => walk_end (c + dir_at i) rest

/-- Manhattan distance of a coordinate from the origin. -/
def manhattan (p : ivec2) : Nat := p.x.natAbs + p.y.natAbs

/-- The queue has at most one entry of least heuristic. -/
def unique_least (q : List queued_point) : Bool :=
  match q with
  | [] => true
  | a :: as =>
    decide (((a :: as).filter (fun e => e.heuristic = least_heuristic a.heuristic as)).length ≤ 1)

/-- The search meets no tie: at every pass of the loop the queue has a single entry
of least heuristic. -/
def search_tie_free (rooms : Nat → Option room_data) : Nat → search_state → Bool
  | 0, _ => true
  | fuel + 1, st =>
    unique_least st.points &&
      match search_step 0 rooms st with
      | none => true
      | some st1 => search_tie_free rooms fuel st1

/-- Room table of the detour example: the player's room `(3,0)` opens south and west;
west of it lies the avoid room `(2,0)`, open to the west, and then the undiscovered
coordinate `(1,0)`; south of it the visited corridor `(3,1)`, `(2,1)`, `(1,1)`, `(0,1)`
leads west and then north into the portal. -/
def detour_rooms : Nat → Option room_data :=
  table_of [⟨⟨3, 0⟩, 9, 0, true⟩, ⟨⟨2, 0⟩, 8, room_flag_avoid, true⟩, ⟨⟨3, 1⟩, 8, 0, true⟩,
    ⟨⟨2, 1⟩, 8, 0, true⟩, ⟨⟨1, 1⟩, 12, 0, true⟩, ⟨⟨0, 1⟩, 4, 0, true⟩,
    ⟨⟨0, 0⟩, 1, room_flag_portal, true⟩]

/-- The detour example with the player at `(3,0)`. -/
def detour_state : map_state := state_of detour_rooms ⟨3, 0⟩

/-- The table of a single room at `(2,-3)` with no passage open. -/
def sealed_rooms : Nat → Option room_data := table_of [⟨⟨2, -3⟩, 0, 0, true⟩]

/-- The player in the sealed room at `(2,-3)`, with a route still stored. -/
def sealed_state : map_state :=
  { state_of sealed_rooms ⟨2, -3⟩ with portal_path := [north, west] }

/-- Index of the direction opposite to `dir_at i`. -/
def opposite (i : Nat) : Nat := (i + 2) % 4

/-- Passage bits of the L-shaped corridor from the player at `-dir_at i - dir_at j`
over the corner room `-dir_at j` to the origin: bit `k` of the room at `p` is set
exactly for the two ends of each of the two corridor passages. -/
def corridor_open (i j : Nat) (p : ivec2) (k : Nat) : Bool :=
  (decide (p = -(dir_at i) + -(dir_at j)) && decide (k = i))
    || (decide (p = -(dir_at j)) && (decide (k = opposite i) || decide (k = j)))
    || (decide (p = zero) && decide (k = opposite j))

/-- All nine rooms of the 3x3 block around the origin are in the table and their
passage bits are exactly those of the corridor. -/
def l_corridor (rooms : Nat → Option room_data) (i j : Nat) : Prop :=
  ∀ p : ivec2, -1 ≤ p.x → p.x ≤ 1 → -1 ≤ p.y → p.y ≤ 1 →
    ∃ r, rooms (point_id p) = some r ∧ ∀ k, k < 4 → has_path r.paths k = corridor_open i j p k

/-- State of the corridor search after the pass that pops the player's node. -/
def corridor_st1 (rooms : Nat → Option room_data) (S c : ivec2) (i : Nat) : search_state :=
  ⟨map_insert (search_init S).point_data (point_id c) ⟨c, [-(dir_at i)], 1, point_heuristic rooms c⟩,
    [⟨point_heuristic rooms c, point_id c⟩], false, 64⟩

/-- State of the corridor search after the pass that pops the corner's node. -/
def corridor_st2 (rooms : Nat → Option room_data) (S c : ivec2) (i j : Nat) : search_state :=
  ⟨map_insert (corridor_st1 rooms S c i).point_data (point_id zero)
      ⟨zero, [-(dir_at j)], 2, point_heuristic rooms zero⟩,
    [⟨point_heuristic rooms zero, point_id zero⟩], true, 2⟩

/-- The 3x3 block with the corridor `(-1,-1)`, `(-1,0)`, `(0,0)` open both ways and
every other passage closed; the rooms differ in annotation and visited state. -/
def corridor_rooms : Nat → Option room_data :=
  table_of [⟨⟨-1, -1⟩, 1, 0, true⟩, ⟨⟨-1, 0⟩, 6, room_flag_avoid, true⟩,
    ⟨⟨0, 0⟩, 8, room_flag_portal, true⟩, ⟨⟨0, -1⟩, 0, 0, false⟩, ⟨⟨1, -1⟩, 0, 0, false⟩,
    ⟨⟨1, 0⟩, 0, 4, true⟩, ⟨⟨-1, 1⟩, 0, 0, false⟩, ⟨⟨0, 1⟩, 0, 8, true⟩, ⟨⟨1, 1⟩, 0, 0, false⟩]

/-- The player at the far end `(-1,-1)` of the corridor of `corridor_rooms`. -/
def corridor_state : map_state := state_of corridor_rooms ⟨-1, -1⟩

/-- The candidate direction `d` was stored on key `k` by the inner loop run from node
`p`: it is the reverse of an open direction from `p` to the in-bounds coordinate of
key `k`. -/
def stored_from (p : astar_point) (paths : Nat) (k : Nat) (d : ivec2) : Prop :=
  ∃ i, i < 4 ∧ d = -(dir_at i) ∧ in_bounds (p.position + dir_at i) = true
    ∧ point_id (p.position + dir_at i) = k ∧ has_path paths i = true

/-- Effect of passes of the inner loop run from node `p` with passage flags `paths`,
relating the state before to the state after: a recorded node only gains candidate
directions, and only when `p` has the smaller path length; a new node is the
neighbour in an open direction, with path length one more than that of `p`, the
scaled heuristic of its coordinate, and it is queued; queued entries stay queued and
new entries belong to new nodes; `max_length` changes only when the origin is new. -/
structure visit_effect (rooms : Nat → Option room_data) (p : astar_point) (paths : Nat)
    (st st1 : search_state) : Prop where
  old_node : ∀ k a, st.point_data k = some a →
    ∃ extra, st1.point_data k = some ⟨a.position, a.parent_dir ++ extra, a.path_length, a.heuristic⟩
      ∧ (extra ≠ [] → p.path_length < a.path_length)
      ∧ ∀ d ∈ extra, stored_from p paths k d
  new_node : ∀ k a1, st.point_data k = none → st1.point_data k = some a1 →
    ∃ i extra, i < 4 ∧ has_path paths i = true ∧ in_bounds (p.position + dir_at i) = true
      ∧ point_id (p.position + dir_at i) = k
      ∧ a1 = ⟨p.position + dir_at i, -(dir_at i) :: extra, (p.path_length + 1) % 4294967296,
          point_heuristic rooms (p.position + dir_at i)⟩
      ∧ (∀ d ∈ extra, stored_from p paths k d)
      ∧ (⟨point_heuristic rooms (p.position + dir_at i), k⟩ : queued_point) ∈ st1.points
  new_queued : ∀ q ∈ st1.points, q ∈ st.points ∨
    (st.point_data q.point = none ∧ ∃ i, i < 4 ∧ in_bounds (p.position + dir_at i) = true
      ∧ q = ⟨point_heuristic rooms (p.position + dir_at i), point_id (p.position + dir_at i)⟩)
  old_queued : ∀ q ∈ st.points, q ∈ st1.points
  max_change : st1.max_length = st.max_length ∨
    (st.point_data (point_id zero) = none ∧ st1.point_data (point_id zero) ≠ none
      ∧ st1.max_length = (p.path_length + 1) % 4294967296)

/-- The nodes of the coordinate `b` and of the origin fix the route: the node of `b`
has path length `1` and every candidate direction on it is `to_start`, and the first
candidate direction on the origin's node is `b` itself. -/
def route_fixed (pd : Nat → Option astar_point) (b to_start : ivec2) : Prop :=
  (∃ nb, pd (point_id b) = some nb ∧ nb.path_length = 1 ∧ ∀ d ∈ nb.parent_dir, d = to_start)
    ∧ ∃ o rest, pd (point_id zero) = some o ∧ o.parent_dir = b :: rest

/-- The player at `(1,1)` with both neighbours towards the origin discovered and fully
open; the one to the south-west side, `(0,1)`, carries the avoid annotation. -/
def avoid_rooms : Nat → Option room_data :=
  table_of [⟨⟨1, 1⟩, 15, 0, true⟩, ⟨⟨0, 1⟩, 15, room_flag_avoid, true⟩,
    ⟨⟨1, 0⟩, 15, 0, false⟩, ⟨⟨0, 0⟩, 15, room_flag_portal, true⟩]

/-- The avoid example with the player at `(1,1)`. -/
def avoid_state : map_state := state_of avoid_rooms ⟨1, 1⟩

/-! ## Discovery, map set-up and the key handler -/

/-- Enumerator `room_flag::important_1`. -/
def room_flag_important_1 : Nat := 4

/-- Enumerator `room_flag::important_2`. -/
def room_flag_important_2 : Nat := 8

/-- A value-initialised `room_data`, as `operator[]` inserts it. -/
def default_room : room_data := ⟨⟨0, 0⟩, path_flag_all, 0, false⟩

/-- The value `b << k` for a `bool` operand. -/
def bit_at (b : Bool) (k : Nat) : Nat := if b then 1 <<< k else 0

/-- The value `index = i + (i > 3)` of `add_surrounding_rooms`. -/
def surround_index (i : Nat) : Nat := i + (if i > 3 then 1 else 0)

/-- The offset `(x, y) = (index % 3 - 1, index / 3 - 1)` of neighbour number `i`. -/
def offset_at (i : Nat) : ivec2 :=
  ⟨((surround_index i % 3 : Nat) : Int) - 1, ((surround_index i / 3 : Nat) : Int) - 1⟩

/-- The mask `open` that `add_surrounding_rooms` computes for the neighbour `around`
at offset `off` of a room with passage flags `p`. -/
def surround_open (p : Nat) (off around : ivec2) : Nat :=
  let corner := off.x != 0 && off.y != 0
  let left := off.x == -1
  let right := off.x == 1
  let down := off.y == 1
  let up := off.y == -1
  let edge_up := around.y.natAbs == radius && decide (around.y < 0)
  let edge_left := around.x.natAbs == radius && decide (around.x < 0)
  let edge_down := around.y.natAbs == radius && decide (around.y > 0)
  let edge_right := around.x.natAbs == radius && decide (around.x > 0)
  if corner then
    bit_at (!edge_down) 0 ||| bit_at (!edge_right) 1 ||| bit_at (!edge_up) 2
      ||| bit_at (!edge_left) 3
  else
    bit_at (((p &&& 4 != 0) || !up) && !edge_down) 0
      ||| bit_at (((p &&& 8 != 0) || !left) && !edge_right) 1
      ||| bit_at (((p &&& 1 != 0) || !down) && !edge_up) 2
      ||| bit_at (((p &&& 2 != 0) || !right) && !edge_left) 3

/-- One pass of the `for` loop of `add_surrounding_rooms`, for neighbour number `i`. -/
def surround_step (pos : ivec2) (p : Nat) (rooms : Nat → Option room_data) (i : Nat) :
    Nat → Option room_data :=
  let off := offset_at i
  let around : ivec2 := pos + off
  if !in_bounds around then rooms
  else
    match rooms (point_id around) with
    | some found =>
      if off.x != 0 && off.y != 0 then rooms
      else map_insert rooms (point_id around)
        ⟨found.position, found.paths &&& surround_open p off around, found.flags, found.visited⟩
    | none =>
      map_insert rooms (point_id around) ⟨around, surround_open p off around, 0, false⟩

/-- The table after `rooms[k]` was evaluated: a missing key gets a value-initialised
record. -/
def touch_room (rooms : Nat → Option room_data) (k : Nat) : Nat → Option room_data :=
  match rooms k with
  | some _ => rooms
  | none => map_insert rooms k default_room

/-- Function `add_surrounding_rooms`. -/
def add_surrounding_rooms (g : map_state) (pos : ivec2) : map_state :=
  let rooms0 := touch_room g.rooms (point_id pos)
  let p := paths_of g.rooms (point_id pos)
  { g with rooms := [0, 1, 2, 3, 4, 5, 6, 7].foldl (surround_step pos p) rooms0 }

/-- Function `init_map`. -/
def init_map (g : map_state) (paths : Nat) : map_state :=
  { add_surrounding_rooms (add_room g ⟨0, 0⟩ paths room_flag_portal true) ⟨0, 0⟩ with
    pick_direction := false }

/-- The globals of `__global_type` outside the window and OpenGL handles. -/
structure global_type where
  blocking_keys : Bool
  enable_global_keys : Bool
  running : Bool
  redraw : Bool
  discard : Bool
  global_scale : Nat
  queue_update : Bool
  show_help : Bool
  map : map_state

/-- GLFW constant `GLFW_RELEASE`. -/
def GLFW_RELEASE : Int := 0

/-- GLFW constant `GLFW_PRESS`. -/
def GLFW_PRESS : Int := 1

/-- GLFW constant `GLFW_REPEAT`. -/
def GLFW_REPEAT : Int := 2

/-- GLFW constant `GLFW_MOD_ALT`. -/
def GLFW_MOD_ALT : Nat := 4

/-- GLFW constant `GLFW_KEY_ESCAPE`. -/
def GLFW_KEY_ESCAPE : Int := 256

/-- GLFW constant `GLFW_KEY_RIGHT`. -/
def GLFW_KEY_RIGHT : Int := 262

/-- GLFW constant `GLFW_KEY_LEFT`. -/
def GLFW_KEY_LEFT : Int := 263

/-- GLFW constant `GLFW_KEY_DOWN`. -/
def GLFW_KEY_DOWN : Int := 264

/-- GLFW constant `GLFW_KEY_UP`. -/
def GLFW_KEY_UP : Int := 265

/-- GLFW constant `GLFW_KEY_PAGE_UP`. -/
def GLFW_KEY_PAGE_UP : Int := 266

/-- GLFW constant `GLFW_KEY_PAGE_DOWN`. -/
def GLFW_KEY_PAGE_DOWN : Int := 267

/-- GLFW constant `GLFW_KEY_HOME`. -/
def GLFW_KEY_HOME : Int := 268

/-- GLFW constant `GLFW_KEY_END`. -/
def GLFW_KEY_END : Int := 269

/-- GLFW constant `GLFW_KEY_F1`. -/
def GLFW_KEY_F1 : Int := 290

/-- The macro `DISCARD`: set the flag and return. -/
def DISCARD (g : global_type) : Option global_type := some { g with discard := true }

/-- The bounds test that opens each arrow-key case, for direction index `i`:
`position.y + 1 > radius` (south), `position.x + 1 > radius` (east),
`position.y - 1 < -radius` (north), `position.x - 1 < -radius` (west). -/
def arrow_blocked (position : ivec2) (i : Nat) : Bool :=
  match i with
  | 0 => decide (position.y + 1 > 200)
  | 1 => decide (position.x + 1 > 200)
  | 2 => decide (position.y - 1 < -200)
  | _ => decide (position.x - 1 < -200)

/-- The update of `target_view_position` that closes a move: the `y` component after
a move north or south, the `x` component after a move east or west. -/
def arrow_view (target position : ivec2) (i : Nat) : ivec2 :=
  if i % 2 = 0 then ⟨target.x, position.y * -40⟩ else ⟨position.x * -40, target.y⟩

/-- The record `p` with bit mask `m` of its passage flags inverted (`paths ^= m`). -/
def flip_path (r : room_data) (m : Nat) : room_data :=
  ⟨r.position, r.paths ^^^ m, r.flags, r.visited⟩

/-- The `ALT` branch of an arrow-key case (link toggle) for direction index `i`; `room`
is the record `room` points to and `pid` its key. -/
def toggle_link (tie : Nat → Nat) (g : global_type) (room : room_data) (pid : Nat) (i : Nat)
    (action : Int) : Option global_type :=
  if room.flags = room_flag_portal then DISCARD g
  else
    let fid := point_id (g.map.position + dir_at i)
    let rooms1 := touch_room g.map.rooms fid
    let g1 : global_type := { g with map := { g.map with rooms := rooms1 } }
    match rooms1 fid with
    | none => none
    | some facing =>
      if facing.flags = room_flag_portal then DISCARD g1
      else if action = GLFW_RELEASE then some g1
      else
        match rooms1 pid with
        | none => none
        | some r =>
          let rooms2 := map_insert rooms1 pid (flip_path r (1 <<< i))
          match rooms2 fid with
          | none => none
          | some f =>
            let rooms3 := map_insert rooms2 fid (flip_path f (1 <<< opposite i))
            match find_path tie { g.map with rooms := rooms3 } with
            | none => none
            | some m => some { g with map := m, redraw := true }

/-- The record `r` after `visited = true`. -/
def visited_room (r : room_data) : room_data := ⟨r.position, r.paths, r.flags, true⟩

/-- The statements of a move that follow the call of `find_path`, for the state `m2`
it left, the new coordinate `position` and direction index `i`: mark the destination
visited, run `add_surrounding_rooms` on it, set the view target and `redraw`. -/
def finish_move (g : global_type) (m2 : map_state) (position : ivec2) (i : Nat) :
    Option global_type :=
  match m2.rooms (point_id position) with
  | none => none
  | some dest =>
    let m3 : map_state :=
      { m2 with rooms := map_insert m2.rooms (point_id position) (visited_room dest) }
    let m4 := add_surrounding_rooms m3 position
    some { g with
      map := { m4 with target_view_position := arrow_view m4.target_view_position position i }
      redraw := true }

/-- The move that closes an arrow-key case, for direction index `i`. -/
def move_player (tie : Nat → Nat) (g : global_type) (room : room_data) (i : Nat)
    (action : Int) : Option global_type :=
  if room.paths &&& (1 <<< i) = 0 then DISCARD g
  else if action = GLFW_RELEASE then some g
  else
    let position := g.map.position + dir_at i
    let m1 := push_path { g.map with position := position } position (1 <<< opposite i)
    match find_path tie m1 with
    | none => none
    | some m2 => finish_move g m2 position i

/-- An arrow-key case of `keyboard_callback` for direction index `i`
(`GLFW_KEY_DOWN` 0, `GLFW_KEY_RIGHT` 1, `GLFW_KEY_UP` 2, `GLFW_KEY_LEFT` 3); the four
cases of the source differ only in the constants that `i` selects. -/
def arrow_key (tie : Nat → Nat) (g : global_type) (room : room_data) (pid : Nat) (i : Nat)
    (action : Int) (mods : Nat) : Option global_type :=
  if g.show_help then DISCARD g
  else if g.map.pick_direction then
    if mods &&& GLFW_MOD_ALT != 0 then DISCARD g
    else if action = GLFW_RELEASE then some g
    else some { g with map := init_map g.map (1 <<< i), redraw := true }
  else if g.map.view_portal_room then DISCARD g
  else if arrow_blocked g.map.position i then DISCARD g
  else if mods &&& GLFW_MOD_ALT != 0 then toggle_link tie g room pid i action
  else move_player tie g room i action

/-- The annotation toggle that closes the `GLFW_KEY_PAGE_DOWN`, `GLFW_KEY_PAGE_UP` and
`GLFW_KEY_END` cases, for the annotation `kind`. -/
def toggle_flag (g : global_type) (room : room_data) (pid : Nat) (kind : Nat) (action : Int) :
    Option global_type :=
  if room.flags = room_flag_portal then DISCARD g
  else if action = GLFW_RELEASE then some g
  else
    let r : room_data :=
      ⟨room.position, room.paths, if room.flags = kind then 0 else kind, room.visited⟩
    some { g with map := { g.map with rooms := map_insert g.map.rooms pid r }, redraw := true }

/-- The case `GLFW_KEY_PAGE_DOWN` of `keyboard_callback`. -/
def page_down_key (g : global_type) (room : room_data) (pid : Nat) (action : Int)
    (mods : Nat) : Option global_type :=
  if g.show_help then DISCARD g
  else if g.map.view_portal_room then DISCARD g
  else if mods &&& GLFW_MOD_ALT != 0 then
    if g.map.scale ≤ 1 then DISCARD g
    else if action = GLFW_RELEASE then some g
    else some { g with
      map := { g.map with scale := max (g.map.scale - 1) 1, show_scale_meter := true }
      redraw := true }
  else if g.map.pick_direction then DISCARD g
  else toggle_flag g room pid room_flag_important_1 action

/-- The case `GLFW_KEY_PAGE_UP` of `keyboard_callback`. -/
def page_up_key (g : global_type) (room : room_data) (pid : Nat) (action : Int)
    (mods : Nat) : Option global_type :=
  if g.show_help then DISCARD g
  else if g.map.view_portal_room then DISCARD g
  else if mods &&& GLFW_MOD_ALT != 0 then
    if g.map.scale ≥ 8 then DISCARD g
    else if action = GLFW_RELEASE then some g
    else some { g with
      map := { g.map with scale := min (g.map.scale + 1) 8, show_scale_meter := true }
      redraw := true }
  else if g.map.pick_direction then DISCARD g
  else toggle_flag g room pid room_flag_important_2 action

/-- The case `GLFW_KEY_HOME` of `keyboard_callback`. -/
def home_key (g : global_type) (action : Int) (mods : Nat) : Option global_type :=
  if g.show_help then DISCARD g
  else if mods &&& GLFW_MOD_ALT != 0 then
    if action = GLFW_RELEASE then some g
    else if action ≠ GLFW_PRESS then DISCARD g
    else some { g with enable_global_keys := !g.enable_global_keys, redraw := true }
  else if g.map.pick_direction then DISCARD g
  else if action = GLFW_REPEAT then DISCARD g
  else if action = GLFW_PRESS then
    some { g with
      map := { g.map with target_view_position := zero, view_portal_room := true }
      redraw := true }
  else
    some { g with
      map := { g.map with
        target_view_position := ⟨g.map.position.x * -40, g.map.position.y * -40⟩
        view_portal_room := false }
      redraw := true }

/-- The case `GLFW_KEY_END` of `keyboard_callback`. -/
def end_key (g : global_type) (room : room_data) (pid : Nat) (action : Int)
    (mods : Nat) : Option global_type :=
  if g.show_help then DISCARD g
  else if g.map.view_portal_room then DISCARD g
  else if g.map.pick_direction then DISCARD g
  else if mods &&& GLFW_MOD_ALT != 0 then
    if action ≠ GLFW_PRESS then DISCARD g
    else some { g with map := reset_map g.map, redraw := true }
  else toggle_flag g room pid room_flag_avoid action

/-- The case `GLFW_KEY_F1` of `keyboard_callback`. -/
def f1_key (g : global_type) (action : Int) : Option global_type :=
  if action = GLFW_REPEAT then DISCARD g
  else if g.map.view_portal_room then DISCARD g
  else if !g.show_help && action = GLFW_RELEASE then DISCARD g
  else some { g with show_help := !g.show_help, redraw := true }

/-- The `switch` of `keyboard_callback` on the key code, for the record `room` points
to and its key `pid`. -/
def key_switch (tie : Nat → Nat) (g : global_type) (room : room_data) (pid : Nat)
    (key action : Int) (mods : Nat) : Option global_type :=
  if key = GLFW_KEY_UP then arrow_key tie g room pid 2 action mods
  else if key = GLFW_KEY_DOWN then arrow_key tie g room pid 0 action mods
  else if key = GLFW_KEY_LEFT then arrow_key tie g room pid 3 action mods
  else if key = GLFW_KEY_RIGHT then arrow_key tie g room pid 1 action mods
  else if key = GLFW_KEY_PAGE_DOWN then page_down_key g room pid action mods
  else if key = GLFW_KEY_PAGE_UP then page_up_key g room pid action mods
  else if key = GLFW_KEY_HOME then home_key g action mods
  else if key = GLFW_KEY_END then end_key g room pid action mods
  else if key = GLFW_KEY_F1 then f1_key g action
  else if key = GLFW_KEY_ESCAPE then some { g with running := false }
  else DISCARD g

/-- Function `keyboard_callback`. Calls into GLFW, OpenGL and Win32 are left out;
`none` stands for the exception of `rooms.at`. -/
def keyboard_callback (tie : Nat → Nat) (g0 : global_type) (key action : Int) (mods : Nat) :
    Option global_type :=
  let g : global_type := { g0 with discard := false }
  let pid := point_id g.map.position
  match (if g.map.pick_direction then some (⟨zero, 0, 0, false⟩ : room_data)
      else g.map.rooms pid) with
  | none => none
  | some room => key_switch tie g room pid key action mods

/-- The globals as the program initialises them. -/
def initial_state : global_type :=
  { blocking_keys := true
    enable_global_keys := true
    running := true
    redraw := true
    discard := false
    global_scale := 1
    queue_update := false
    show_help := false
    map :=
      { position := ⟨0, 0⟩
        view_position := ⟨0, 0⟩
        target_view_position := ⟨0, 0⟩
        view_portal_room := false
        show_scale_meter := false
        scale := 6
        rooms := fun _ => none
        pick_direction := true
        path := fun _ => (⟨0, 0⟩, 0)
        path_head := 0
        path_size := 0
        portal_path := [] } }

/-- The two states agree on the room table, the player coordinate, the phase flag, the
path history and the stored route. -/
def same_core (g g1 : global_type) : Prop :=
  g1.map.rooms = g.map.rooms ∧ g1.map.position = g.map.position
    ∧ g1.map.pick_direction = g.map.pick_direction ∧ g1.map.path = g.map.path
    ∧ g1.map.path_head = g.map.path_head ∧ g1.map.path_size = g.map.path_size
    ∧ g1.map.portal_path = g.map.portal_path

/-- States the program can be in: the initial state, the state after any key event
handled by `keyboard_callback` (with any tie-breaks in its route search), and any
state that differs from such a state only outside the room table, the player
coordinate, the phase flag, the path history and the stored route. The last rule
stands for what the embedding leaves out: `update` moving the view, the render
loop clearing flags, and the key-up message that the `ALT`+`HOME` branch sends to the
window, whose handling only touches the view and the discard flag. -/
inductive reachable : global_type → Prop
  | start : reachable initial_state
  | key_event (tie : Nat → Nat) (g g1 : global_type) (key action : Int) (mods : Nat) :
      reachable g → keyboard_callback tie g key action mods = some g1 → reachable g1
  | outside (g g1 : global_type) : reachable g → same_core g g1 → reachable g1

/-- The table `rooms1` keeps every room of `rooms`, with the same position, annotation
and visited flag, and with passage flags that are a bitwise subset of those before. -/
def narrows (rooms rooms1 : Nat → Option room_data) : Prop :=
  ∀ k r, rooms k = some r →
    ∃ r1, rooms1 k = some r1 ∧ r1.position = r.position ∧ r1.flags = r.flags
      ∧ r1.visited = r.visited ∧ ∀ b, r1.paths.testBit b = true → r.paths.testBit b = true

/-- Every key of `rooms` is a key of `rooms1`. -/
def keeps_keys (rooms rooms1 : Nat → Option room_data) : Prop :=
  ∀ k r, rooms k = some r → ∃ r1, rooms1 k = some r1

/-- Facts about the map that hold in every state the program reaches: the path history
has at most ten entries, its head is a slot index and is `0` until the history is
full; the player is within the grid, and at the origin during the direction-selection
phase; after that phase the table holds the player's room and every in-bounds one of
the eight coordinates around it. -/
structure map_inv (m : map_state) : Prop where
  size_le : m.path_size ≤ 10
  head_lt : m.path_head < 10
  head_zero : m.path_size < 10 → m.path_head = 0
  pick_pos : m.pick_direction = true → m.position = zero
  bounds : in_bounds m.position = true
  room : m.pick_direction = false → ∃ r, m.rooms (point_id m.position) = some r
  around : m.pick_direction = false → ∀ i, i < 8 →
    in_bounds (m.position + offset_at i) = true →
      ∃ r, m.rooms (point_id (m.position + offset_at i)) = some r

/-- The key code of the arrow key for direction index `i`. -/
def arrow_code (i : Nat) : Int :=
  match i with
  | 0 => GLFW_KEY_DOWN
  | 1 => GLFW_KEY_RIGHT
  | 2 => GLFW_KEY_UP
  | _ => GLFW_KEY_LEFT

/-- The key code of the annotation toggle for the annotation `kind`. -/
def kind_code (kind : Nat) : Int :=
  if kind = room_flag_avoid then GLFW_KEY_END
  else if kind = room_flag_important_1 then GLFW_KEY_PAGE_DOWN
  else GLFW_KEY_PAGE_UP

/-- The state after the first key event of a session, a press of the down arrow:
the map is seeded with the portal open to the south. -/
def seeded_state : global_type := { initial_state with map := init_map initial_state.map 1 }

/-- The state after a second press of the down arrow: the player stands at `(0,1)`. -/
def moved_state : global_type :=
  (keyboard_callback first_tie seeded_state GLFW_KEY_DOWN GLFW_PRESS 0).getD seeded_state

/-- The route `find_path` stores for a room table and a player position. -/
def route_of (tie : Nat → Nat) (rooms : Nat → Option room_data) (position : ivec2) :
    Option (List ivec2) :=
  (find_path tie (state_of rooms position)).map (fun m => m.portal_path)

/-- The entries `top()` can return: those of least heuristic. -/
def pop_choices (q : List queued_point) : List queued_point :=
  match q with
  | [] => []
  | a :: as =>
    match (a :: as).filter (fun e => e.heuristic = least_heuristic a.heuristic as) with
    | [] => [a]
    | c :: cs => c :: cs

/-- The body of one pass of the `while` loop of `find_path` once `top` was popped. -/
def search_pass (rooms : Nat → Option room_data) (st : search_state) (top : queued_point) :
    search_state :=
  let pi := top.point
  let p := (fetch_point st.point_data pi).1
  let st1 : search_state :=
    { st with point_data := (fetch_point st.point_data pi).2, points := st.points.erase top }
  let paths := paths_of rooms pi
  if (p.path_length + 1) % 4294967296 > st1.max_length then st1
  else [0, 1, 2, 3].foldl (visit rooms p paths) st1

/-- The reconstruction loop of `find_path`, run on the final state of the search,
yields a route that satisfies `ok`. -/
def route_final (ok : List ivec2 → Bool) (st : search_state) : Bool :=
  match st.point_data (point_id zero) with
  | none => ok []
  | some dest =>
    match reconstruct st.point_data search_fuel zero dest [] with
    | none => false
    | some route => ok route

/-- The search loop, started in the first state, can end in the second: each pass pops
some entry of least heuristic. -/
inductive search_runs (rooms : Nat → Option room_data) : search_state → search_state → Prop
  | done (st : search_state) : st.points = [] → search_runs rooms st st
  | pass (st fin : search_state) (top : queued_point) :
      top ∈ pop_choices st.points → search_runs rooms (search_pass rooms st top) fin →
        search_runs rooms st fin

/-- The entry's node is recorded and the length bound cuts its pass off: popping it
only removes it from the queue. -/
def idle_entry (st : search_state) (c : queued_point) : Bool :=
  match st.point_data c.point with
  | some a => decide ((a.path_length + 1) % 4294967296 > st.max_length)
  | none => false

/-- The state `st1` is `st` with the idle entry `c` removed from the queue. -/
structure drops (c : queued_point) (st st1 : search_state) : Prop where
  pd : st1.point_data = st.point_data
  found : st1.found_portal = st.found_portal
  max : st1.max_length = st.max_length
  points : st1.points = st.points.erase c
  mem : c ∈ st.points
  idle : idle_entry st c = true

/-- Whichever entry of least heuristic each pass pops, the search loop ends in a state
that satisfies `final`. The check follows every choice, except that an idle entry
among the candidates is popped at once: popping it earlier or later makes no
difference to the states the loop can end in. -/
def search_pruned (rooms : Nat → Option room_data) (final : search_state → Bool) :
    Nat → search_state → Bool
  | 0, _ => false
  | fuel + 1, st =>
    match st.points with
    | [] => final st
    | _ :: _ =>
      match (pop_choices st.points).find? (idle_entry st) with
      | some c => search_pruned rooms final fuel (search_pass rooms st c)
      | none =>
        (pop_choices st.points).all
          (fun top => search_pruned rooms final fuel (search_pass rooms st top))

/-- Whichever way ties are broken, `find_path` stores a route that satisfies `ok`. -/
def route_pruned (rooms : Nat → Option room_data) (position : ivec2) (ok : List ivec2 → Bool) :
    Bool :=
  in_bounds position &&
    (if position = zero then ok []
    else search_pruned rooms (route_final ok) search_fuel (search_init position))

/-- The player is past the direction-selection phase and neither the help overlay nor
the portal view is on. -/
def playing (g : global_type) : Prop :=
  g.map.pick_direction = false ∧ g.show_help = false ∧ g.map.view_portal_room = false

/-- The room table after a move to `pos`, where the record `dest` stood before: the
destination is marked visited and `add_surrounding_rooms` runs on it. -/
def moved_rooms (rooms : Nat → Option room_data) (pos : ivec2) (dest : room_data) :
    Nat → Option room_data :=
  (add_surrounding_rooms (state_of (map_insert rooms (point_id pos) (visited_room dest)) pos)
    pos).rooms

/-- The room table after the link between the player's room `room` at `pos` and the
room `facing` in direction `i` was toggled. -/
def toggled_rooms (rooms : Nat → Option room_data) (pos : ivec2) (i : Nat)
    (room facing : room_data) : Nat → Option room_data :=
  map_insert (map_insert rooms (point_id pos) (flip_path room (1 <<< i)))
    (point_id (pos + dir_at i)) (flip_path facing (1 <<< opposite i))

/-- The effect on room table and player coordinate of an accepted press of the arrow
key for direction `c.1`, with `ALT` when `c.2` is set; `none` when the key handler
would not accept the press as a move or a link toggle. -/
def walk_step (s : (Nat → Option room_data) × ivec2) (c : Nat × Bool) :
    Option ((Nat → Option room_data) × ivec2) :=
  if c.1 < 4 ∧ in_bounds s.2 = true ∧ in_bounds (s.2 + dir_at c.1) = true then
    match s.1 (point_id s.2), s.1 (point_id (s.2 + dir_at c.1)) with
    | some room, some facing =>
      if c.2 then
        if room.flags = room_flag_portal ∨ facing.flags = room_flag_portal then none
        else some (toggled_rooms s.1 s.2 c.1 room facing, s.2)
      else if has_path room.paths c.1 then
        some (moved_rooms s.1 (s.2 + dir_at c.1) facing, s.2 + dir_at c.1)
      else none
    | _, _ => none
  else none

/-- A run of `walk_step`. -/
def walk (s : (Nat → Option room_data) × ivec2) :
    List (Nat × Bool) → Option ((Nat → Option room_data) × ivec2)
  | [] => some s
  | c :: rest =>
    match walk_step s c with
    | none => none
    | some s1 => walk s1 rest

/-- The state after the first key event of a session when it is a press of the left
arrow: the map is seeded with the portal open to the west. -/
def seeded_west : global_type := { initial_state with map := init_map initial_state.map 8 }

/-- A run of key presses after the seeding: west, toggle west, south, west, west,
north, toggle north, west, north, north. -/
def stale_walk : List (Nat × Bool) :=
  [(3, false), (3, true), (0, false), (3, false), (3, false), (2, false), (2, true),
    (3, false), (2, false), (2, false)]

/-- Room table and player coordinate after `stale_walk` from `seeded_west`. -/
def stale_table : (Nat → Option room_data) × ivec2 :=
  (walk (seeded_west.map.rooms, seeded_west.map.position) stale_walk).getD
    (seeded_west.map.rooms, seeded_west.map.position)

/-- The route stored by the move east that follows `stale_walk`. -/
def stale_route : List ivec2 := [⟨-1, 0⟩, ⟨0, -1⟩, ⟨-1, 0⟩, ⟨-1, 0⟩, ⟨0, -1⟩]

/-- The route `find_path` computes on the table that move leaves. -/
def fresh_route : List ivec2 := [⟨-1, 0⟩, ⟨0, -1⟩, ⟨-1, 0⟩, ⟨0, -1⟩, ⟨-1, 0⟩]

/-! ## Further notions for the search -/

/-- The state of the `while` loop of `find_path` after at most `n` passes: it stops early
when the queue is empty. Pass number `k`, counted down from `n`, takes its tie-break
from `tie (k - 1)`. -/
def search_upto (tie : Nat → Nat) (rooms : Nat → Option room_data) :
    Nat → search_state → search_state
  | 0, st => st
  | n + 1, st =>
    match search_step (tie n) rooms st with
    | none => st
    | some st1 => search_upto tie rooms n st1

/-- The edge-cost scale as the specification words it, for the entry of the room table
under a coordinate: `5` for a room with the avoid annotation, otherwise `1.5` for a
room that is unvisited, otherwise `3` when there is no room, otherwise `1`. -/
def spec_scale (room : Option room_data) : ℚ :=
  if room.any (fun r => r.flags &&& room_flag_avoid != 0) then 5
  else if room.any (fun r => !r.visited) then 3 / 2
  else if room.isNone then 3
  else 1

/-- The heuristic as the specification words it: the squared Euclidean distance of the
coordinate from the origin times the scale, rounded down. -/
def spec_heuristic (rooms : Nat → Option room_data) (n : ivec2) : ℤ :=
  ⌊((n.x * n.x + n.y * n.y : ℤ) : ℚ) * spec_scale (rooms (point_id n))⌋

/-- The heuristics of a search state are those of the specification: the node of the
start coordinate has its squared distance from the origin, every other node the scaled
value, and every queued entry carries the heuristic of its node. -/
def spec_heuristics (rooms : Nat → Option room_data) (start : ivec2) (st : search_state) :
    Prop :=
  (∀ k a, st.point_data k = some a →
      (a.heuristic : ℤ) = if a.position = start then start.x * start.x + start.y * start.y
        else spec_heuristic rooms a.position)
    ∧ ∀ q ∈ st.points, ∃ a, st.point_data q.point = some a ∧ q.heuristic = a.heuristic

/-- The tests `edge_down`, `edge_right`, `edge_up`, `edge_left` of
`add_surrounding_rooms`, by direction index: the coordinate lies on the edge of the grid
in that direction. -/
def on_edge (a : ivec2) (e : Nat) : Bool :=
  match e with
  | 0 => a.y.natAbs == radius && decide (a.y > 0)
  | 1 => a.x.natAbs == radius && decide (a.x > 0)
  | 2 => a.y.natAbs == radius && decide (a.y < 0)
  | _ => a.x.natAbs == radius && decide (a.x < 0)

/-- The grid-edge mask of a coordinate: the bit of a direction is cleared exactly when
the coordinate lies on the edge of the grid in that direction. -/
def edge_mask (a : ivec2) : Nat :=
  bit_at (!on_edge a 0) 0 ||| bit_at (!on_edge a 1) 1 ||| bit_at (!on_edge a 2) 2
    ||| bit_at (!on_edge a 3) 3

/-- A table whose only room `(200,1)` lies on the east edge and has all four passage
bits set, with the player at `(199,0)`. -/
def edge_corner_state : map_state :=
  state_of (table_of [⟨⟨200, 1⟩, 15, 0, false⟩]) ⟨199, 0⟩

/-- What one key event does to the room table, the player coordinate and the phase
flag: nothing; `init_map` with the flag of one direction, in the direction-selection
phase; `reset_map`; an annotation toggle on the player's room, which is not the portal;
a link toggle between the player's room and the facing room, neither of them the
portal; or a move through an open passage to a room of the table. -/
inductive table_step (m m1 : map_state) : Prop
  | same : m1.rooms = m.rooms → m1.position = m.position
      → m1.pick_direction = m.pick_direction → table_step m m1
  | init (i : Nat) : i < 4 → m.pick_direction = true
      → m1.rooms = (init_map m (1 <<< i)).rooms → m1.position = m.position
      → m1.pick_direction = false → table_step m m1
  | reset : m1.rooms = (fun _ => none) → m1.position = zero
      → m1.pick_direction = true → table_step m m1
  | flag (room : room_data) (kind : Nat) : m.pick_direction = false
      → m.rooms (point_id m.position) = some room → room.flags ≠ room_flag_portal
      → (kind = room_flag_avoid ∨ kind = room_flag_important_1 ∨ kind = room_flag_important_2)
      → m1.rooms = map_insert m.rooms (point_id m.position)
          ⟨room.position, room.paths, if room.flags = kind then 0 else kind, room.visited⟩
      → m1.position = m.position → m1.pick_direction = false → table_step m m1
  | link (i : Nat) (room facing : room_data) : i < 4 → m.pick_direction = false
      → in_bounds (m.position + dir_at i) = true
      → m.rooms (point_id m.position) = some room
      → m.rooms (point_id (m.position + dir_at i)) = some facing
      → room.flags ≠ room_flag_portal → facing.flags ≠ room_flag_portal
      → m1.rooms = toggled_rooms m.rooms m.position i room facing
      → m1.position = m.position → m1.pick_direction = false → table_step m m1
  | move (i : Nat) (room dest : room_data) : i < 4 → m.pick_direction = false
      → in_bounds (m.position + dir_at i) = true
      → m.rooms (point_id m.position) = some room → has_path room.paths i = true
      → m.rooms (point_id (m.position + dir_at i)) = some dest
      → m1.rooms = moved_rooms m.rooms (m.position + dir_at i) dest
      → m1.position = m.position + dir_at i → m1.pick_direction = false → table_step m m1

/-- Facts about the room table that hold in every state the program reaches: every key
holds a record whose position lies within the grid and has that key; passages are
symmetric between grid neighbours, where a coordinate without a room counts as open
in all four directions; after the direction-selection phase the player's room is
visited; during that phase the table is empty. -/
structure table_inv (m : map_state) : Prop where
  keys : ∀ k r, m.rooms k = some r → in_bounds r.position = true ∧ point_id r.position = k
  sym : ∀ c e, e < 4 → in_bounds c = true → in_bounds (c + dir_at e) = true →
    has_path (paths_of m.rooms (point_id c)) e
      = has_path (paths_of m.rooms (point_id (c + dir_at e))) (opposite e)
  seen : m.pick_direction = false →
    ∃ r, m.rooms (point_id m.position) = some r ∧ r.visited = true
  empty : m.pick_direction = true → ∀ k, m.rooms k = none

/-- States of a session that began with `init_map` for the direction `d`: the state
after the arrow key of direction `d` ended the direction-selection phase of a reachable
state, and every state that follows by key events that leave the phase flag cleared
(`reset_map` sets it) or by changes outside the core of the map. -/
inductive played (d : Nat) : global_type → Prop
  | seed (tie : Nat → Nat) (g g1 : global_type) (action : Int) (mods : Nat) :
      d < 4 → reachable g → g.map.pick_direction = true
      → keyboard_callback tie g (arrow_code d) action mods = some g1
      → g1.map.pick_direction = false → played d g1
  | key_event (tie : Nat → Nat) (g g1 : global_type) (key action : Int) (mods : Nat) :
      played d g → keyboard_callback tie g key action mods = some g1
      → g1.map.pick_direction = false → played d g1
  | outside (g g1 : global_type) : played d g → same_core g g1 → played d g1

/-- No room of the table has a passage flag outside the four direction bits or towards
a coordinate outside the grid. -/
def edge_inv (rooms : Nat → Option room_data) : Prop :=
  ∀ k r, rooms k = some r →
    r.paths < 16 ∧ ∀ e, e < 4 → has_path r.paths e = true → in_bounds (r.position + dir_at e) = true

/-- The coordinate `c` lies in the rectangle spanned by the origin and `s`. -/
def in_rect (s c : ivec2) : Bool :=
  (decide (0 ≤ c.x ∧ c.x ≤ s.x) || decide (s.x ≤ c.x ∧ c.x ≤ 0))
    && (decide (0 ≤ c.y ∧ c.y ≤ s.y) || decide (s.y ≤ c.y ∧ c.y ≤ 0))

/-- The way home is known and open: every coordinate of the rectangle spanned by the
origin and `s` holds a visited room without the avoid annotation, whose passage is open
in every direction that leads closer to the origin. -/
def open_rect (rooms : Nat → Option room_data) (s : ivec2) : Prop :=
  ∀ c, in_rect s c = true →
    ∃ r, rooms (point_id c) = some r ∧ r.visited = true ∧ r.flags &&& room_flag_avoid = 0
      ∧ ∀ i, i < 4 → manhattan (c + dir_at i) < manhattan c → has_path r.paths i = true

/-- State of a search that descends towards the origin from `s`: either the origin has
a node whose path length is the Manhattan distance of `s`, or the bound `max_length`
still admits that length and, for a threshold `m`, the queue has an entry below `m`,
every queued entry below `m` belongs to a node of the rectangle whose path length is
the number of steps it lies closer to the origin than `s` and carries the plain squared
distance, and every node whose squared distance is below `m` is queued below `m`. -/
def descent_inv (s : ivec2) (st : search_state) : Prop :=
  (∃ dest, st.point_data (point_id zero) = some dest ∧ dest.path_length = manhattan s)
  ∨ (manhattan s ≤ st.max_length
    ∧ ∃ m, (∃ q ∈ st.points, q.heuristic < m)
      ∧ (∀ q ∈ st.points, q.heuristic < m →
          ∃ a, st.point_data q.point = some a ∧ in_rect s a.position = true
            ∧ a.path_length + manhattan a.position = manhattan s
            ∧ q.heuristic = calc_heuristic a.position)
      ∧ ∀ k a, st.point_data k = some a → calc_heuristic a.position < m →
          ∃ q ∈ st.points, q.point = k ∧ q.heuristic < m)

/-- A table in which the rectangle between the origin and `(2,1)` is visited and open. -/
def open_rect_rooms : Nat → Option room_data :=
  table_of [⟨⟨0, 0⟩, 2, room_flag_portal, true⟩, ⟨⟨1, 0⟩, 15, 0, true⟩, ⟨⟨2, 0⟩, 15, 0, true⟩,
    ⟨⟨0, 1⟩, 15, 0, true⟩, ⟨⟨1, 1⟩, 15, 0, true⟩, ⟨⟨2, 1⟩, 15, 0, true⟩]

/-- The player at `(2,1)` of the open rectangle. -/
def open_rect_state : map_state := state_of open_rect_rooms ⟨2, 1⟩

/-- A table of twelve visited rooms without annotation on `[0,3] x [0,2]`, with
symmetric passages and none leading out of the block; the row `y = 0` is a corridor
from `(3,0)` west to the portal, and the player's room `(3,1)` opens north into it and
west into the winding way `(2,1)`, `(2,2)`, `(1,2)`, `(1,1)`, `(1,0)`. -/
def winding_rooms : Nat → Option room_data :=
  table_of [⟨⟨0, 0⟩, 3, room_flag_portal, true⟩, ⟨⟨1, 0⟩, 11, 0, true⟩, ⟨⟨2, 0⟩, 10, 0, true⟩,
    ⟨⟨3, 0⟩, 9, 0, true⟩, ⟨⟨0, 1⟩, 5, 0, true⟩, ⟨⟨1, 1⟩, 5, 0, true⟩, ⟨⟨2, 1⟩, 3, 0, true⟩,
    ⟨⟨3, 1⟩, 12, 0, true⟩, ⟨⟨0, 2⟩, 4, 0, true⟩, ⟨⟨1, 2⟩, 6, 0, true⟩, ⟨⟨2, 2⟩, 12, 0, true⟩,
    ⟨⟨3, 2⟩, 0, 0, true⟩]

/-- The player at `(3,1)` of the winding example. -/
def winding_state : map_state := state_of winding_rooms ⟨3, 1⟩

/-! ## Grid addressing: proofs -/

theorem in_bounds_iff (p : ivec2) :
    in_bounds p = true ↔ (-200 ≤ p.x ∧ p.x ≤ 200) ∧ (-200 ≤ p.y ∧ p.y ≤ 200) := by
  simp only [in_bounds, radius, Bool.not_eq_true', Bool.or_eq_false_iff, decide_eq_false_iff_not]
  omega

theorem point_id_of_in_bounds (p : ivec2) (h : in_bounds p = true) :
    (point_id p : Int) = (p.x + 200) + (p.y + 200) * 401 := by
  rw [in_bounds_iff] at h
  simp only [point_id, to_unsigned]
  omega

/-- C1: `point_id`, computed in 32-bit unsigned arithmetic, is injective on the
coordinates with `|x| ≤ 200` and `|y| ≤ 200`. -/
theorem point_id_injective (a b : ivec2)
    (ha : a.x.natAbs ≤ 200 ∧ a.y.natAbs ≤ 200) (hb : b.x.natAbs ≤ 200 ∧ b.y.natAbs ≤ 200)
    (hab : a ≠ b) : point_id a ≠ point_id b := by
  have ha1 : in_bounds a = true := by rw [in_bounds_iff]; omega
  have hb1 : in_bounds b = true := by rw [in_bounds_iff]; omega
  intro h
  have h1 := point_id_of_in_bounds a ha1
  have h2 := point_id_of_in_bounds b hb1
  rw [h] at h1
  apply hab
  cases a with
  | mk ax ay =>
    cases b with
    | mk bx b_y =>
      simp only [ivec2.mk.injEq]
      simp only at h1 h2 ha hb
      omega

theorem point_id_injective_witness :
    (((⟨200, -200⟩ : ivec2).x.natAbs ≤ 200 ∧ (⟨200, -200⟩ : ivec2).y.natAbs ≤ 200)
      ∧ ((⟨-200, -199⟩ : ivec2).x.natAbs ≤ 200 ∧ (⟨-200, -199⟩ : ivec2).y.natAbs ≤ 200))
      ∧ point_id ⟨200, -200⟩ ≠ point_id ⟨-200, -199⟩ :=
  ⟨⟨by decide, by decide⟩, point_id_injective ⟨200, -200⟩ ⟨-200, -199⟩ (by decide) (by decide) (by decide)⟩

/-! ## Room table and path history: proofs -/

theorem push_all_snoc (g : map_state) (xs : List (ivec2 × Nat)) (e : ivec2 × Nat) :
    push_all g (xs ++ [e]) = push_path (push_all g xs) e.1 e.2 := by
  simp [push_all, List.foldl_append]

theorem push_all_invariant (g : map_state) (h0 : g.path_head = 0) (hs : g.path_size = 0)
    (entries : List (ivec2 × Nat)) :
    (push_all g entries).path_size = min entries.length 10
      ∧ (push_all g entries).path_head = (if entries.length ≤ 10 then 0 else entries.length % 10)
      ∧ ∀ m, m < entries.length → entries.length ≤ m + 10 →
          entries[m]? = some ((push_all g entries).path (m % 10)) := by
  induction entries using List.reverseRecOn with
  | nil => simp [push_all, h0, hs]
  | append_singleton xs e ih =>
    obtain ⟨ih1, ih2, ih3⟩ := ih
    rw [push_all_snoc]
    simp only [List.length_append, List.length_singleton]
    by_cases hlt : xs.length < 10
    · have hsz : (push_all g xs).path_size = xs.length := by rw [ih1]; omega
      have hne : ¬ (push_all g xs).path_size = 10 := by omega
      rw [push_path, if_neg hne]
      simp only [hsz]
      refine ⟨by omega, ?_, ?_⟩
      · rw [ih2]; simp [show xs.length ≤ 10 by omega, show xs.length + 1 ≤ 10 by omega]
      · intro m hm _
        by_cases hmx : m = xs.length
        · subst hmx
          simp [slot_set, Nat.mod_eq_of_lt hlt]
        · have hm1 : m < xs.length := by omega
          have hmm : m % 10 = m := Nat.mod_eq_of_lt (by omega)
          rw [List.getElem?_append_left hm1, ih3 m hm1 (by omega)]
          simp [slot_set, hmm, hmx]
    · have hsz : (push_all g xs).path_size = 10 := by rw [ih1]; omega
      have hhd : (push_all g xs).path_head = xs.length % 10 := by
        rw [ih2]; split <;> omega
      rw [push_path, if_pos hsz]
      simp only [hsz, hhd]
      refine ⟨by omega, ?_, ?_⟩
      · have : ¬ xs.length + 1 ≤ 10 := by omega
        simp only [this, if_false]
        split <;> omega
      · intro m hm hm10
        by_cases hmx : m = xs.length
        · subst hmx
          simp [slot_set]
        · have hm1 : m < xs.length := by omega
          have hmm : m % 10 ≠ xs.length % 10 := by omega
          rw [List.getElem?_append_left hm1, ih3 m hm1 (by omega)]
          simp [slot_set, hmm]

/-- C9: after any run of `push_path` calls from a reset history the held count is
`min k 10` and `render_last_path` reads exactly the last `min k 10` pushed entries
in push order; after 11 pushes these are entries 2 to 11. -/
theorem push_path_keeps_last_ten (g : map_state) (entries : List (ivec2 × Nat)) :
    (push_all (reset_map g) entries).path_size = min entries.length 10
      ∧ read_path (push_all (reset_map g) entries) = entries.drop (entries.length - 10)
      ∧ (entries.length = 11 → read_path (push_all (reset_map g) entries) = entries.tail) := by
  obtain ⟨h1, h2, h3⟩ := push_all_invariant (reset_map g) rfl rfl entries
  have key : read_path (push_all (reset_map g) entries) = entries.drop (entries.length - 10) := by
    apply List.ext_getElem?
    intro i
    simp only [read_path, h1, List.getElem?_map, List.getElem?_drop]
    by_cases hi : i < min entries.length 10
    · rw [List.getElem?_range hi]
      simp only [Option.map_some']
      have hidx : path_index (push_all (reset_map g) entries) i = (entries.length - 10 + i) % 10 := by
        simp only [path_index, h2]
        split <;> split <;> omega
      rw [hidx, h3 (entries.length - 10 + i) (by omega) (by omega)]
    · have : (List.range (min entries.length 10))[i]? = none := by
        rw [List.getElem?_eq_none]; simp; omega
      rw [this]
      simp only [Option.map_none']
      symm
      rw [List.getElem?_eq_none]; omega
  refine ⟨h1, key, ?_⟩
  intro h11
  rw [key, h11]
  cases entries with
  | nil => rfl
  | cons a as => rfl

theorem find_path_origin_eq (tie : Nat → Nat) (g : map_state) (h : g.position = zero) :
    find_path tie g = some { g with portal_path := [] } := by
  simp [find_path, h]

/-- C8: with the player at `(0,0)`, `find_path` returns with the empty route for
every room table, whatever route was stored before. -/
theorem find_path_at_origin (tie : Nat → Nat) (g : map_state) (h : g.position = zero) :
    find_path tie g = some { g with portal_path := [] } :=
  find_path_origin_eq tie g h

/-- C10: `add_room` on a coordinate whose key is present leaves the state, hence
the whole room table, unchanged; and a second `add_room` on the same coordinate,
with any arguments, changes nothing after the first. -/
theorem add_room_no_overwrite (g : map_state) (pos : ivec2) (paths flags : Nat) (visited : Bool)
    (paths1 flags1 : Nat) (visited1 : Bool) :
    (g.rooms (point_id pos) ≠ none → add_room g pos paths flags visited = g)
      ∧ add_room (add_room g pos paths flags visited) pos paths1 flags1 visited1
          = add_room g pos paths flags visited := by
  constructor
  · intro h
    unfold add_room
    split
    · rfl
    · rename_i hn; exact absurd hn h
  · unfold add_room
    cases h0 : g.rooms (point_id pos) with
    | some r => simp [h0]
    | none => simp [map_insert]

theorem add_room_no_overwrite_witness :
    stale_origin_state.rooms (point_id zero) ≠ none
      ∧ add_room stale_origin_state zero 15 0 false = stale_origin_state :=
  ⟨by decide, (add_room_no_overwrite stale_origin_state zero 15 0 false 0 0 false).1 (by decide)⟩

theorem find_path_at_origin_witness :
    stale_origin_state.position = zero
      ∧ find_path first_tie stale_origin_state = some { stale_origin_state with portal_path := [] } :=
  ⟨rfl, find_path_at_origin first_tie stale_origin_state rfl⟩

/-! ## Vectors, keys and the priority queue -/

@[simp] theorem add_x (a b : ivec2) : (a + b).x = a.x + b.x := rfl
@[simp] theorem add_y (a b : ivec2) : (a + b).y = a.y + b.y := rfl
@[simp] theorem neg_x (a : ivec2) : (-a).x = -a.x := rfl
@[simp] theorem neg_y (a : ivec2) : (-a).y = -a.y := rfl

theorem ivec2_eq (a b : ivec2) (hx : a.x = b.x) (hy : a.y = b.y) : a = b := by
  cases a; cases b; simp only [ivec2.mk.injEq]; exact ⟨hx, hy⟩

theorem add_neg_self (p d : ivec2) : p + d + -d = p := by
  apply ivec2_eq <;> simp

theorem neg_neg_vec (d : ivec2) : - -d = d := by
  apply ivec2_eq <;> simp

theorem point_id_inj (a b : ivec2) (ha : in_bounds a = true) (hb : in_bounds b = true)
    (h : point_id a = point_id b) : a = b := by
  have h1 := point_id_of_in_bounds a ha
  have h2 := point_id_of_in_bounds b hb
  rw [in_bounds_iff] at ha hb
  rw [h] at h1
  apply ivec2_eq <;> omega

theorem point_id_lt (a : ivec2) (ha : in_bounds a = true) : point_id a < 160801 := by
  have h1 := point_id_of_in_bounds a ha
  rw [in_bounds_iff] at ha
  omega

theorem map_insert_same {α : Type} (m : Nat → Option α) (k : Nat) (v : α) :
    map_insert m k v k = some v := by simp [map_insert]

theorem map_insert_other {α : Type} (m : Nat → Option α) (k j : Nat) (v : α) (h : j ≠ k) :
    map_insert m k v j = m j := by simp [map_insert, h]

theorem dir_at_cases (i : Nat) (hi : i < 4) :
    dir_at i = south ∨ dir_at i = east ∨ dir_at i = north ∨ dir_at i = west := by
  interval_cases i <;> simp [dir_at, directions]

theorem least_heuristic_le (q : List queued_point) (a : Nat) :
    least_heuristic a q ≤ a ∧ ∀ e ∈ q, least_heuristic a q ≤ e.heuristic := by
  induction q generalizing a with
  | nil => simp [least_heuristic]
  | cons b bs ih =>
    simp only [least_heuristic, List.foldl_cons] at ih ⊢
    obtain ⟨h1, h2⟩ := ih (min a b.heuristic)
    refine ⟨le_trans h1 (Nat.min_le_left _ _), ?_⟩
    intro e he
    rcases List.mem_cons.mp he with rfl | he
    · exact le_trans h1 (Nat.min_le_right _ _)
    · exact h2 e he

theorem least_heuristic_mem (q : List queued_point) (a : Nat) :
    least_heuristic a q = a ∨ ∃ e ∈ q, least_heuristic a q = e.heuristic := by
  induction q generalizing a with
  | nil => simp [least_heuristic]
  | cons b bs ih =>
    simp only [least_heuristic, List.foldl_cons] at ih ⊢
    rcases ih (min a b.heuristic) with h | ⟨e, he, h⟩
    · rcases Nat.le_total a b.heuristic with hab | hab
      · left; rw [h, Nat.min_eq_left hab]
      · right; exact ⟨b, List.mem_cons_self _ _, by rw [h, Nat.min_eq_right hab]⟩
    · right; exact ⟨e, List.mem_cons_of_mem _ he, h⟩

theorem pq_pop_nil (t : Nat) : pq_pop t [] = none := rfl

theorem pq_pop_spec (t : Nat) (q : List queued_point) (top : queued_point)
    (rest : List queued_point) (h : pq_pop t q = some (top, rest)) :
    top ∈ q ∧ rest = q.erase top ∧ ∀ e ∈ q, top.heuristic ≤ e.heuristic := by
  cases q with
  | nil => simp [pq_pop] at h
  | cons a as =>
    simp only [pq_pop, Option.some.injEq, Prod.mk.injEq] at h
    obtain ⟨h1, h2⟩ := h
    have hle := least_heuristic_le as a.heuristic
    have hall : ∀ e ∈ a :: as, least_heuristic a.heuristic as ≤ e.heuristic := by
      intro e he
      rcases List.mem_cons.mp he with rfl | he
      · exact hle.1
      · exact hle.2 e he
    have hcand : ∀ c ∈ (a :: as).filter (fun e => e.heuristic = least_heuristic a.heuristic as),
        c ∈ a :: as ∧ c.heuristic = least_heuristic a.heuristic as := by
      intro c hc
      have := List.mem_filter.mp hc
      exact ⟨this.1, by simpa using this.2⟩
    have hne : (a :: as).filter (fun e => e.heuristic = least_heuristic a.heuristic as) ≠ [] := by
      rcases least_heuristic_mem as a.heuristic with hm | ⟨e, he, hm⟩
      · intro hnil
        have : a ∈ (a :: as).filter (fun e => e.heuristic = least_heuristic a.heuristic as) :=
          List.mem_filter.mpr ⟨List.mem_cons_self _ _, by simp [hm]⟩
        rw [hnil] at this
        exact absurd this (List.not_mem_nil _)
      · intro hnil
        have : e ∈ (a :: as).filter (fun e => e.heuristic = least_heuristic a.heuristic as) :=
          List.mem_filter.mpr ⟨List.mem_cons_of_mem _ he, by simp [hm]⟩
        rw [hnil] at this
        exact absurd this (List.not_mem_nil _)
    have htop : top ∈ (a :: as).filter (fun e => e.heuristic = least_heuristic a.heuristic as) := by
      rw [← h1]
      generalize (a :: as).filter (fun e => e.heuristic = least_heuristic a.heuristic as) = cands at hne
      match cands, hne with
      | [c], _ => simp
      | c :: d :: cs, _ =>
        simp only []
        rw [List.getD_eq_getElem?_getD]
        have hlt : t % (c :: d :: cs).length < (c :: d :: cs).length :=
          Nat.mod_lt _ (by simp)
        rw [List.getElem?_eq_getElem hlt]
        simp only [Option.getD_some]
        exact List.getElem_mem _
    obtain ⟨hm, hh⟩ := hcand top htop
    refine ⟨hm, by rw [← h2, h1], ?_⟩
    intro e he
    rw [hh]
    exact hall e he

theorem pq_pop_some_of_ne_nil (t : Nat) (q : List queued_point) (h : q ≠ []) :
    ∃ top rest, pq_pop t q = some (top, rest) := by
  cases q with
  | nil => exact absurd rfl h
  | cons a as => exact ⟨_, _, rfl⟩

theorem pq_pop_singleton (t : Nat) (a : queued_point) : pq_pop t [a] = some (a, []) := by
  simp [pq_pop, least_heuristic]

/-! ## The search loop: invariant and termination -/

theorem pd_le_refl (pd : Nat → Option astar_point) : pd_le pd pd :=
  fun _ a h => ⟨a, h, rfl, rfl⟩

theorem pd_le_trans (pd1 pd2 pd3 : Nat → Option astar_point) (h12 : pd_le pd1 pd2)
    (h23 : pd_le pd2 pd3) : pd_le pd1 pd3 := by
  intro k a h
  obtain ⟨a2, h2, hp2, hl2⟩ := h12 k a h
  obtain ⟨a3, h3, hp3, hl3⟩ := h23 k a2 h2
  exact ⟨a3, h3, hp3.trans hp2, hl3.trans hl2⟩

theorem pd_le_insert (pd : Nat → Option astar_point) (ni : Nat) (a1 : astar_point)
    (h : ∀ a, pd ni = some a → a1.position = a.position ∧ a1.path_length = a.path_length) :
    pd_le pd (map_insert pd ni a1) := by
  intro k a hk
  by_cases hkn : k = ni
  · subst hkn
    exact ⟨a1, map_insert_same _ _ _, (h a hk).1, (h a hk).2⟩
  · exact ⟨a, by rw [map_insert_other _ _ _ _ hkn]; exact hk, rfl, rfl⟩

theorem unrecorded_insert_old (pd : Nat → Option astar_point) (ni : Nat) (a a1 : astar_point)
    (h : pd ni = some a) : unrecorded (map_insert pd ni a1) = unrecorded pd := by
  unfold unrecorded
  have heq : (Finset.range 160801).filter (fun k => map_insert pd ni a1 k = none)
      = (Finset.range 160801).filter (fun k => pd k = none) := by
    apply Finset.filter_congr
    intro k _
    by_cases hkn : k = ni
    · subst hkn; simp [map_insert_same, h]
    · rw [map_insert_other _ _ _ _ hkn]
  rw [heq]

theorem unrecorded_insert_new (pd : Nat → Option astar_point) (ni : Nat) (a1 : astar_point)
    (h : pd ni = none) (hlt : ni < 160801) :
    unrecorded (map_insert pd ni a1) + 1 = unrecorded pd := by
  unfold unrecorded
  have hmem : ni ∈ (Finset.range 160801).filter (fun k => pd k = none) :=
    Finset.mem_filter.mpr ⟨Finset.mem_range.mpr hlt, h⟩
  have heq : (Finset.range 160801).filter (fun k => map_insert pd ni a1 k = none)
      = ((Finset.range 160801).filter (fun k => pd k = none)).erase ni := by
    ext k
    simp only [Finset.mem_filter, Finset.mem_range, Finset.mem_erase]
    by_cases hkn : k = ni
    · subst hkn; simp [map_insert_same]
    · rw [map_insert_other _ _ _ _ hkn]; simp [hkn]
  rw [heq, Finset.card_erase_of_mem hmem]
  have : 0 < ((Finset.range 160801).filter (fun k => pd k = none)).card :=
    Finset.card_pos.mpr ⟨ni, hmem⟩
  omega

theorem visit_closed (rooms : Nat → Option room_data) (p : astar_point) (paths : Nat)
    (st : search_state) (i : Nat) (h : has_path paths i = false) :
    visit rooms p paths st i = st := by
  simp [visit, h]

theorem visit_out (rooms : Nat → Option room_data) (p : astar_point) (paths : Nat)
    (st : search_state) (i : Nat)
    (h : in_bounds (p.position + dir_at i) = false) :
    visit rooms p paths st i = st := by
  unfold visit
  split
  · rfl
  · simp [h]

theorem visit_found (rooms : Nat → Option room_data) (p : astar_point) (paths : Nat)
    (st : search_state) (i : Nat) (fd : astar_point) (hp : has_path paths i = true)
    (hb : in_bounds (p.position + dir_at i) = true)
    (hf : st.point_data (point_id (p.position + dir_at i)) = some fd) :
    visit rooms p paths st i =
      if p.path_length < fd.path_length then
        ⟨map_insert st.point_data (point_id (p.position + dir_at i))
          ⟨fd.position, fd.parent_dir ++ [-(dir_at i)], fd.path_length, fd.heuristic⟩,
          st.points, st.found_portal, st.max_length⟩
      else st := by
  simp [visit, hp, hb, hf]

theorem visit_new (rooms : Nat → Option room_data) (p : astar_point) (paths : Nat)
    (st : search_state) (i : Nat) (hp : has_path paths i = true)
    (hb : in_bounds (p.position + dir_at i) = true)
    (hf : st.point_data (point_id (p.position + dir_at i)) = none) :
    visit rooms p paths st i =
      { point_data :=
          map_insert st.point_data (point_id (p.position + dir_at i))
            ⟨p.position + dir_at i, [-(dir_at i)],
              (p.path_length + 1) % 4294967296,
              point_heuristic rooms (p.position + dir_at i)⟩
        points := st.points ++ [⟨point_heuristic rooms (p.position + dir_at i),
          point_id (p.position + dir_at i)⟩]
        found_portal := decide (point_id (p.position + dir_at i) = point_id zero)
        max_length :=
          if point_id (p.position + dir_at i) = point_id zero
          then (p.path_length + 1) % 4294967296 else st.max_length } := by
  simp [visit, hp, hb, hf]

theorem search_inv_update (rooms : Nat → Option room_data) (start : ivec2) (st : search_state)
    (hinv : search_inv rooms start st) (ni : Nat) (a1 : astar_point)
    (points1 : List queued_point) (fp : Bool) (max1 : Nat)
    (hle : ∀ a, st.point_data ni = some a →
      a1.position = a.position ∧ a1.path_length = a.path_length)
    (hpos : in_bounds a1.position = true ∧ point_id a1.position = ni)
    (hlen : ni ≠ point_id start → 1 ≤ a1.path_length ∧ a1.parent_dir ≠ [])
    (hlen64 : a1.path_length ≤ 64)
    (hpar : ∀ d ∈ a1.parent_dir, ∃ i, i < 4 ∧ d = -(dir_at i)
      ∧ in_bounds (a1.position + d) = true
      ∧ ∃ b, st.point_data (point_id (a1.position + d)) = some b
        ∧ b.path_length < a1.path_length
        ∧ has_path (paths_of rooms (point_id (a1.position + d))) i = true)
    (hq : ∀ q ∈ points1, q ∈ st.points ∨ q.point = ni)
    (hmax : max1 ≤ 64) :
    search_inv rooms start ⟨map_insert st.point_data ni a1, points1, fp, max1⟩ := by
  have hmono := pd_le_insert st.point_data ni a1 hle
  constructor
  · intro k a hk
    dsimp only at hk
    by_cases hkn : k = ni
    · subst hkn
      rw [map_insert_same] at hk
      cases hk
      exact hpos
    · rw [map_insert_other _ _ _ _ hkn] at hk
      exact hinv.key_pos k a hk
  · obtain ⟨a, ha, hl⟩ := hinv.start_rec
    obtain ⟨a2, ha2, _, hl2⟩ := hmono _ a ha
    exact ⟨a2, ha2, hl2.trans hl⟩
  · intro k a hk hks
    dsimp only at hk
    by_cases hkn : k = ni
    · subst hkn
      rw [map_insert_same] at hk
      cases hk
      exact (hlen hks).1
    · rw [map_insert_other _ _ _ _ hkn] at hk
      exact hinv.len_pos k a hk hks
  · intro k a hk
    dsimp only at hk
    by_cases hkn : k = ni
    · subst hkn
      rw [map_insert_same] at hk
      cases hk
      exact hlen64
    · rw [map_insert_other _ _ _ _ hkn] at hk
      exact hinv.len_le k a hk
  · intro k a hk d hd
    dsimp only at hk
    have key : ∃ i, i < 4 ∧ d = -(dir_at i) ∧ in_bounds (a.position + d) = true
        ∧ ∃ b, st.point_data (point_id (a.position + d)) = some b
          ∧ b.path_length < a.path_length
          ∧ has_path (paths_of rooms (point_id (a.position + d))) i = true := by
      by_cases hkn : k = ni
      · subst hkn
        rw [map_insert_same] at hk
        cases hk
        exact hpar d hd
      · rw [map_insert_other _ _ _ _ hkn] at hk
        exact hinv.parents k a hk d hd
    obtain ⟨i, hi, hdi, hin, b, hb, hbl, hbp⟩ := key
    obtain ⟨b2, hb2, _, hbl2⟩ := hmono _ b hb
    exact ⟨i, hi, hdi, hin, b2, hb2, by rw [hbl2]; exact hbl, hbp⟩
  · intro k a hk hks
    dsimp only at hk
    by_cases hkn : k = ni
    · subst hkn
      rw [map_insert_same] at hk
      cases hk
      exact (hlen hks).2
    · rw [map_insert_other _ _ _ _ hkn] at hk
      exact hinv.parents_ne k a hk hks
  · intro q hq1
    rcases hq q hq1 with hold | hnew
    · obtain ⟨a, ha⟩ := hinv.queued q hold
      obtain ⟨a2, ha2, _, _⟩ := hmono _ a ha
      exact ⟨a2, ha2⟩
    · exact ⟨a1, by show map_insert st.point_data ni a1 q.point = some a1; rw [hnew, map_insert_same]⟩
  · exact hmax

/-- What one pass of the inner loop keeps: the invariant, the nodes recorded so far
and the termination measure. -/
theorem visit_inv (rooms : Nat → Option room_data) (start : ivec2) (st : search_state)
    (p : astar_point) (i : Nat) (hinv : search_inv rooms start st) (hi : i < 4)
    (hpb : in_bounds p.position = true)
    (hprec : ∃ b, st.point_data (point_id p.position) = some b ∧ b.path_length = p.path_length)
    (hlen : p.path_length + 1 ≤ 64) :
    search_inv rooms start (visit rooms p (paths_of rooms (point_id p.position)) st i)
      ∧ pd_le st.point_data (visit rooms p (paths_of rooms (point_id p.position)) st i).point_data
      ∧ search_measure (visit rooms p (paths_of rooms (point_id p.position)) st i)
          = search_measure st
      ∧ (visit rooms p (paths_of rooms (point_id p.position)) st i).max_length ≤ st.max_length
          ⊔ (p.path_length + 1) := by
  have hmod : (p.path_length + 1) % 4294967296 = p.path_length + 1 :=
    Nat.mod_eq_of_lt (by omega)
  cases hp : has_path (paths_of rooms (point_id p.position)) i with
  | false =>
    rw [visit_closed _ _ _ _ _ hp]
    exact ⟨hinv, pd_le_refl _, rfl, le_sup_left⟩
  | true =>
    cases hb : in_bounds (p.position + dir_at i) with
    | false =>
      rw [visit_out _ _ _ _ _ hb]
      exact ⟨hinv, pd_le_refl _, rfl, le_sup_left⟩
    | true =>
      obtain ⟨b, hbrec, hbl⟩ := hprec
      have hparent : ∀ (len : Nat), p.path_length < len →
          ∀ d ∈ [-(dir_at i)], ∃ j, j < 4 ∧ d = -(dir_at j)
          ∧ in_bounds (p.position + dir_at i + d) = true
          ∧ ∃ c, st.point_data (point_id (p.position + dir_at i + d)) = some c
            ∧ c.path_length < len
            ∧ has_path (paths_of rooms (point_id (p.position + dir_at i + d))) j = true := by
        intro len hlt d hd
        rw [List.mem_singleton] at hd
        subst hd
        rw [add_neg_self]
        exact ⟨i, hi, rfl, hpb, b, hbrec, by rw [hbl]; exact hlt, hp⟩
      cases hf : st.point_data (point_id (p.position + dir_at i)) with
      | some fd =>
        rw [visit_found _ _ _ _ _ fd hp hb hf]
        split
        · rename_i hlt
          have hfd := hinv.key_pos _ fd hf
          have hfdpos : fd.position = p.position + dir_at i :=
            point_id_inj _ _ hfd.1 hb hfd.2
          refine ⟨?_, ?_, ?_, le_sup_left⟩
          · apply search_inv_update rooms start st hinv
            · intro a ha
              rw [hf] at ha
              cases ha
              exact ⟨rfl, rfl⟩
            · exact hfd
            · intro hns
              refine ⟨hinv.len_pos _ fd hf hns, ?_⟩
              simp
            · exact hinv.len_le _ fd hf
            · intro d hd
              rcases List.mem_append.mp hd with hd | hd
              · exact hinv.parents _ fd hf d hd
              · simp only [hfdpos]
                exact hparent fd.path_length hlt d hd
            · intro q hq
              exact Or.inl hq
            · exact hinv.max_le
          · apply pd_le_insert
            intro a ha
            rw [hf] at ha
            cases ha
            exact ⟨rfl, rfl⟩
          · simp only [search_measure]
            rw [unrecorded_insert_old _ _ fd _ hf]
        · exact ⟨hinv, pd_le_refl _, rfl, le_sup_left⟩
      | none =>
        rw [visit_new _ _ _ _ _ hp hb hf, hmod]
        refine ⟨?_, ?_, ?_, ?_⟩
        · apply search_inv_update rooms start st hinv
          · intro a ha
            rw [hf] at ha
            cases ha
          · exact ⟨hb, rfl⟩
          · intro _
            exact ⟨by simp, by simp⟩
          · exact hlen
          · exact hparent (p.path_length + 1) (Nat.lt_succ_self _)
          · intro q hq
            rcases List.mem_append.mp hq with hq | hq
            · exact Or.inl hq
            · rw [List.mem_singleton] at hq
              subst hq
              exact Or.inr rfl
          · split
            · exact hlen
            · exact hinv.max_le
        · apply pd_le_insert
          intro a ha
          rw [hf] at ha
          cases ha
        · simp only [search_measure, List.length_append, List.length_singleton]
          have := unrecorded_insert_new st.point_data _
            ⟨p.position + dir_at i, [-(dir_at i)], p.path_length + 1,
              point_heuristic rooms (p.position + dir_at i)⟩ hf (point_id_lt _ hb)
          omega
        · simp only []
          split
          · exact le_sup_right
          · exact le_sup_left

theorem visit_fold_inv (rooms : Nat → Option room_data) (start : ivec2) (p : astar_point)
    (hpb : in_bounds p.position = true)
    (hlen : p.path_length + 1 ≤ 64) (l : List Nat) (hl : ∀ i ∈ l, i < 4) :
    ∀ st : search_state, search_inv rooms start st →
      (∃ b, st.point_data (point_id p.position) = some b ∧ b.path_length = p.path_length) →
      search_inv rooms start (l.foldl (visit rooms p (paths_of rooms (point_id p.position))) st)
        ∧ pd_le st.point_data
            (l.foldl (visit rooms p (paths_of rooms (point_id p.position))) st).point_data
        ∧ search_measure (l.foldl (visit rooms p (paths_of rooms (point_id p.position))) st)
            = search_measure st
        ∧ (l.foldl (visit rooms p (paths_of rooms (point_id p.position))) st).max_length
            ≤ st.max_length ⊔ (p.path_length + 1) := by
  induction l with
  | nil =>
    intro st hinv _
    exact ⟨hinv, pd_le_refl _, rfl, le_sup_left⟩
  | cons i is ih =>
    intro st hinv hprec
    rw [List.foldl_cons]
    obtain ⟨h1, h2, h3, h4⟩ :=
      visit_inv rooms start st p i hinv (hl i (List.mem_cons_self _ _)) hpb hprec hlen
    have hprec1 : ∃ b, (visit rooms p (paths_of rooms (point_id p.position)) st i).point_data
        (point_id p.position) = some b ∧ b.path_length = p.path_length := by
      obtain ⟨b, hb, hbl⟩ := hprec
      obtain ⟨b1, hb1, _, hbl1⟩ := h2 _ b hb
      exact ⟨b1, hb1, hbl1.trans hbl⟩
    obtain ⟨k1, k2, k3, k4⟩ :=
      ih (fun j hj => hl j (List.mem_cons_of_mem _ hj)) _ h1 hprec1
    refine ⟨k1, pd_le_trans _ _ _ h2 k2, k3.trans h3, le_trans k4 ?_⟩
    exact sup_le h4 le_sup_right

theorem fetch_point_some (pd : Nat → Option astar_point) (k : Nat) (a : astar_point)
    (h : pd k = some a) : fetch_point pd k = (a, pd) := by
  simp [fetch_point, h]

theorem search_step_none_iff (t : Nat) (rooms : Nat → Option room_data) (st : search_state) :
    search_step t rooms st = none ↔ st.points = [] := by
  unfold search_step
  cases hq : st.points with
  | nil => simp [pq_pop]
  | cons a as =>
    simp only [pq_pop]
    constructor
    · intro h
      split at h <;> simp at h
    · intro h
      simp at h

/-- One pass of the `while` loop on a state satisfying the invariant: the popped key is
recorded, and the pass is the inner loop run from its node unless the length bound
cuts it off. -/
theorem search_step_eq (t : Nat) (rooms : Nat → Option room_data) (start : ivec2)
    (st st1 : search_state) (hinv : search_inv rooms start st)
    (h : search_step t rooms st = some st1) :
    ∃ top p, top ∈ st.points ∧ (∀ e ∈ st.points, top.heuristic ≤ e.heuristic)
      ∧ st.point_data top.point = some p
      ∧ st1 = (if p.path_length + 1 > st.max_length
          then { st with points := st.points.erase top }
          else [0, 1, 2, 3].foldl (visit rooms p (paths_of rooms (point_id p.position)))
            { st with points := st.points.erase top }) := by
  unfold search_step at h
  cases hpop : pq_pop t st.points with
  | none => simp [hpop] at h
  | some pr =>
    obtain ⟨top, rest⟩ := pr
    obtain ⟨hmem, hrest, hmin⟩ := pq_pop_spec t st.points top rest hpop
    obtain ⟨p, hp⟩ := hinv.queued top hmem
    have hkey := (hinv.key_pos _ p hp).2
    have hl := hinv.len_le _ p hp
    have hmod : (p.path_length + 1) % 4294967296 = p.path_length + 1 :=
      Nat.mod_eq_of_lt (by omega)
    simp only [hpop, fetch_point_some _ _ _ hp, hmod] at h
    refine ⟨top, p, hmem, hmin, hp, ?_⟩
    rw [hkey, ← hrest]
    split at h
    · rename_i hgt
      rw [if_pos hgt]
      exact (Option.some.inj h).symm
    · rename_i hgt
      rw [if_neg hgt]
      exact (Option.some.inj h).symm

theorem search_step_inv (t : Nat) (rooms : Nat → Option room_data) (start : ivec2)
    (st st1 : search_state) (hinv : search_inv rooms start st)
    (h : search_step t rooms st = some st1) :
    search_inv rooms start st1 ∧ pd_le st.point_data st1.point_data
      ∧ search_measure st1 + 1 = search_measure st ∧ st1.max_length ≤ st.max_length := by
  obtain ⟨top, p, hmem, _, hp, heq⟩ := search_step_eq t rooms start st st1 hinv h
  have hinv0 : search_inv rooms start { st with points := st.points.erase top } :=
    { key_pos := hinv.key_pos
      start_rec := hinv.start_rec
      len_pos := hinv.len_pos
      len_le := hinv.len_le
      parents := hinv.parents
      parents_ne := hinv.parents_ne
      queued := fun q hq => hinv.queued q (List.mem_of_mem_erase hq)
      max_le := hinv.max_le }
  have hm0 : search_measure { st with points := st.points.erase top } + 1 = search_measure st := by
    simp only [search_measure, List.length_erase_of_mem hmem]
    have : 0 < st.points.length := List.length_pos_of_mem hmem
    omega
  by_cases hgt : p.path_length + 1 > st.max_length
  · rw [if_pos hgt] at heq
    subst heq
    exact ⟨hinv0, pd_le_refl _, hm0, le_refl _⟩
  · rw [if_neg hgt] at heq
    have hmax := hinv.max_le
    have hkey := (hinv.key_pos _ p hp).2
    obtain ⟨k1, k2, k3, k4⟩ := visit_fold_inv rooms start p (hinv.key_pos _ p hp).1 (by omega) [0, 1, 2, 3]
      (by intro i hi; simp at hi; omega) _ hinv0 ⟨p, by rw [hkey]; exact hp, rfl⟩
    subst heq
    refine ⟨k1, k2, by rw [k3]; exact hm0, le_trans k4 ?_⟩
    exact sup_le (le_refl _) (by show p.path_length + 1 ≤ st.max_length; omega)

/-- The `while` loop terminates within its fuel, keeps the invariant and any further
property that every pass keeps, and leaves the queue empty. -/
theorem search_total_with (tie : Nat → Nat) (rooms : Nat → Option room_data) (start : ivec2)
    (P : search_state → Prop)
    (hP : ∀ t st st1, search_inv rooms start st → P st →
      search_step t rooms st = some st1 → P st1) :
    ∀ (fuel : Nat) (st : search_state), search_inv rooms start st → P st →
      search_measure st < fuel →
      ∃ r, search tie rooms fuel st = some r ∧ search_inv rooms start r ∧ P r
        ∧ r.points = [] ∧ pd_le st.point_data r.point_data := by
  intro fuel
  induction fuel with
  | zero => intro st _ _ h; exact absurd h (Nat.not_lt_zero _)
  | succ n ih =>
    intro st hinv hp hm
    simp only [search]
    cases hs : search_step (tie n) rooms st with
    | none =>
      exact ⟨st, rfl, hinv, hp, (search_step_none_iff _ _ _).mp hs, pd_le_refl _⟩
    | some st1 =>
      obtain ⟨h1, h2, h3, _⟩ := search_step_inv _ rooms start st st1 hinv hs
      obtain ⟨r, hr, hri, hrp, hre, hrl⟩ := ih st1 h1 (hP _ st st1 hinv hp hs) (by omega)
      exact ⟨r, hr, hri, hrp, hre, pd_le_trans _ _ _ h2 hrl⟩

theorem search_init_inv (rooms : Nat → Option room_data) (start : ivec2)
    (hb : in_bounds start = true) : search_inv rooms start (search_init start) := by
  constructor
  · intro k a hk
    simp only [search_init, map_insert] at hk
    split at hk
    · rename_i hk1
      cases hk
      exact ⟨hb, hk1.symm⟩
    · cases hk
  · exact ⟨⟨start, [], 0, calc_heuristic start⟩, by simp [search_init, map_insert], rfl⟩
  · intro k a hk hks
    simp only [search_init, map_insert, if_neg hks] at hk
    cases hk
  · intro k a hk
    simp only [search_init, map_insert] at hk
    split at hk
    · cases hk; simp
    · cases hk
  · intro k a hk d hd
    simp only [search_init, map_insert] at hk
    split at hk
    · cases hk; simp at hd
    · cases hk
  · intro k a hk hks
    simp only [search_init, map_insert, if_neg hks] at hk
    cases hk
  · intro q hq
    simp only [search_init, List.mem_singleton] at hq
    subst hq
    exact ⟨⟨start, [], 0, calc_heuristic start⟩, by simp [search_init, map_insert]⟩
  · simp [search_init]

theorem search_init_measure (start : ivec2) (hb : in_bounds start = true) :
    search_measure (search_init start) < search_fuel := by
  have h := unrecorded_insert_new (fun _ => none) (point_id start)
    ⟨start, [], 0, calc_heuristic start⟩ rfl (point_id_lt _ hb)
  have hle : unrecorded (fun _ => none) ≤ 160801 := by
    unfold unrecorded
    calc ((Finset.range 160801).filter (fun _ => (none : Option astar_point) = none)).card
        ≤ (Finset.range 160801).card := Finset.card_filter_le _ _
      _ = 160801 := Finset.card_range _
  simp only [search_measure, search_init, search_fuel, List.length_singleton]
  omega

/-! ## The reconstruction loop and the route -/

theorem select_next_mem (pd : Nat → Option astar_point) (pos : ivec2) (cands : List ivec2)
    (hc : ∀ d ∈ cands, ∃ b, pd (point_id (pos + d)) = some b) :
    ∀ (items : List ivec2) (next : ivec2), next ∈ cands → (∀ d ∈ items, d ∈ cands) →
      ∃ r, select_next pd pos next items = some r ∧ r ∈ cands := by
  intro items
  induction items with
  | nil =>
    intro next hn _
    exact ⟨next, rfl, hn⟩
  | cons item rest ih =>
    intro next hn hi
    obtain ⟨b1, hb1⟩ := hc item (hi item (List.mem_cons_self _ _))
    obtain ⟨b2, hb2⟩ := hc next hn
    simp only [select_next, hb1, hb2]
    apply ih
    · split
      · exact hi item (List.mem_cons_self _ _)
      · exact hn
    · intro d hd
      exact hi d (List.mem_cons_of_mem _ hd)

/-- The reconstruction loop returns within `dest.path_length` passes, with a route
that leads from `pos` to the start of the search. -/
theorem reconstruct_spec (rooms : Nat → Option room_data) (start : ivec2) (st : search_state)
    (hinv : search_inv rooms start st) (hs : in_bounds start = true) :
    ∀ (fuel : Nat) (pos : ivec2) (dest : astar_point) (acc : List ivec2),
      in_bounds pos = true → st.point_data (point_id pos) = some dest →
      dest.path_length ≤ fuel →
      ∃ route, reconstruct st.point_data fuel pos dest acc = some (acc ++ route)
        ∧ route_chain rooms pos route start ∧ route.length ≤ dest.path_length := by
  intro fuel
  induction fuel with
  | zero =>
    intro pos dest acc hpos hrec hlen
    have h0 : dest.path_length = 0 := by omega
    refine ⟨[], ?_, ?_, by simp⟩
    · unfold reconstruct
      simp [h0]
    · by_cases hk : point_id pos = point_id start
      · exact point_id_inj _ _ hpos hs hk
      · have := hinv.len_pos _ dest hrec hk
        omega
  | succ n ih =>
    intro pos dest acc hpos hrec hlen
    by_cases h0 : dest.path_length = 0
    · refine ⟨[], ?_, ?_, by simp⟩
      · unfold reconstruct
        simp [h0]
      · by_cases hk : point_id pos = point_id start
        · exact point_id_inj _ _ hpos hs hk
        · have := hinv.len_pos _ dest hrec hk
          omega
    · have hk : point_id pos ≠ point_id start := by
        intro hk
        obtain ⟨a, ha, hal⟩ := hinv.start_rec
        rw [← hk, hrec] at ha
        cases ha
        exact h0 hal
      have hdpos : dest.position = pos :=
        point_id_inj _ _ (hinv.key_pos _ dest hrec).1 hpos (hinv.key_pos _ dest hrec).2
      have hne := hinv.parents_ne _ dest hrec hk
      have hcands : ∀ d ∈ dest.parent_dir, ∃ b, st.point_data (point_id (pos + d)) = some b := by
        intro d hd
        obtain ⟨_, _, _, _, b, hb, _, _⟩ := hinv.parents _ dest hrec d hd
        rw [hdpos] at hb
        exact ⟨b, hb⟩
      cases hpd : dest.parent_dir with
      | nil => exact absurd hpd hne
      | cons first tl =>
        have hfirst : first ∈ dest.parent_dir := by rw [hpd]; exact List.mem_cons_self _ _
        obtain ⟨next, hsel, hnext⟩ := select_next_mem st.point_data pos dest.parent_dir hcands
          dest.parent_dir first hfirst (fun d hd => hd)
        obtain ⟨i, hi, hdi, hin, b, hb, hbl, hbp⟩ := hinv.parents _ dest hrec next hnext
        rw [hdpos] at hin hb hbp
        obtain ⟨route, hroute, hchain, hrl⟩ := ih (pos + next) b (acc ++ [next]) hin hb (by omega)
        refine ⟨next :: route, ?_, ?_, ?_⟩
        · unfold reconstruct
          rw [hpd] at hsel
          simp only [h0, if_false, hpd, hsel, hb, hroute]
          simp
        · exact ⟨⟨i, hi, hdi, hbp⟩, hin, hchain⟩
        · simp only [List.length_cons]
          omega

/-- What `find_path` does away from the origin: the search loop ends with the
invariant and an empty queue, and the stored route is empty when the origin has no
node and otherwise leads from the origin to the player in at most as many steps as
the path length recorded for the origin. -/
theorem find_path_spec (tie : Nat → Nat) (g : map_state) (hb : in_bounds g.position = true)
    (hne : g.position ≠ zero) :
    ∃ st route, search tie g.rooms search_fuel (search_init g.position) = some st
      ∧ search_inv g.rooms g.position st ∧ st.points = []
      ∧ find_path tie g = some { g with portal_path := route }
      ∧ ((st.point_data (point_id zero) = none ∧ route = [])
        ∨ ∃ dest, st.point_data (point_id zero) = some dest
            ∧ route_chain g.rooms zero route g.position
            ∧ route.length ≤ dest.path_length) := by
  obtain ⟨st, hst, hinv, _, hempty, _⟩ :=
    search_total_with tie g.rooms g.position (fun _ => True) (fun _ _ _ _ _ _ => trivial)
      search_fuel (search_init g.position) (search_init_inv _ _ hb) trivial
      (search_init_measure _ hb)
  cases hd : st.point_data (point_id zero) with
  | none =>
    refine ⟨st, [], hst, hinv, hempty, ?_, Or.inl ⟨hd, rfl⟩⟩
    simp [find_path, hne, hst, hd]
  | some dest =>
    have h64 : dest.path_length ≤ search_fuel := by
      have := hinv.len_le _ dest hd
      simp only [search_fuel]
      omega
    obtain ⟨route, hr, hchain, hlen⟩ :=
      reconstruct_spec g.rooms g.position st hinv hb search_fuel zero dest [] (by decide) hd h64
    refine ⟨st, route, hst, hinv, hempty, ?_, Or.inr ⟨dest, hd, hchain, hlen⟩⟩
    simp only [List.nil_append] at hr
    simp [find_path, hne, hst, hd, hr]

theorem neg_dir_at (i : Nat) (hi : i < 4) :
    -(dir_at i) = (⟨0, 1⟩ : ivec2) ∨ -(dir_at i) = (⟨1, 0⟩ : ivec2)
      ∨ -(dir_at i) = (⟨0, -1⟩ : ivec2) ∨ -(dir_at i) = (⟨-1, 0⟩ : ivec2) := by
  interval_cases i <;> decide

theorem dir_at_manhattan (c : ivec2) (i : Nat) (hi : i < 4) :
    manhattan c ≤ manhattan (c + dir_at i) + 1 := by
  simp only [manhattan]
  interval_cases i <;> simp [dir_at, directions, south, east, north, west] <;> omega

theorem permitted_walk_lt (rooms : Nat → Option room_data) (walk : List Nat) :
    ∀ c : ivec2, permitted_walk rooms c walk = true → ∀ i ∈ walk, i < 4 := by
  induction walk with
  | nil => intro c _ i hi; simp at hi
  | cons j rest ih =>
    intro c hw i hi
    simp only [permitted_walk, Bool.and_eq_true, decide_eq_true_eq] at hw
    rcases List.mem_cons.mp hi with rfl | hi
    · exact hw.1.1.1
    · exact ih _ hw.2 i hi

theorem walk_end_manhattan (walk : List Nat) :
    ∀ c : ivec2, (∀ i ∈ walk, i < 4) → walk_end c walk = zero → manhattan c ≤ walk.length := by
  induction walk with
  | nil =>
    intro c _ h
    simp only [walk_end] at h
    subst h
    decide
  | cons i rest ih =>
    intro c hw h
    simp only [walk_end] at h
    have h1 := ih (c + dir_at i) (fun j hj => hw j (List.mem_cons_of_mem _ hj)) h
    have h2 := dir_at_manhattan c i (hw i (List.mem_cons_self _ _))
    simp only [List.length_cons]
    omega

theorem unique_least_pop (t : Nat) (q : List queued_point) (h : unique_least q = true) :
    pq_pop t q = pq_pop 0 q := by
  cases q with
  | nil => rfl
  | cons a as =>
    simp only [unique_least, decide_eq_true_eq] at h
    simp only [pq_pop]
    generalize (a :: as).filter (fun e => e.heuristic = least_heuristic a.heuristic as) = cands at h
    match cands, h with
    | [], _ => rfl
    | [c], _ => rfl
    | c :: d :: cs, h => simp at h

theorem search_tie_free_eq (tie : Nat → Nat) (rooms : Nat → Option room_data) :
    ∀ (fuel : Nat) (st : search_state), search_tie_free rooms fuel st = true →
      search tie rooms fuel st = search first_tie rooms fuel st := by
  intro fuel
  induction fuel with
  | zero => intro st _; rfl
  | succ n ih =>
    intro st h
    simp only [search_tie_free, Bool.and_eq_true] at h
    have hstep : ∀ t, search_step t rooms st = search_step 0 rooms st := by
      intro t
      simp only [search_step, unique_least_pop t _ h.1]
    simp only [search, hstep (tie n), hstep (first_tie n)]
    cases hs : search_step 0 rooms st with
    | none => rfl
    | some st1 =>
      simp only [hs] at h
      exact ih st1 h.2

theorem find_path_tie_free (tie : Nat → Nat) (g : map_state)
    (h : search_tie_free g.rooms search_fuel (search_init g.position) = true) :
    find_path tie g = find_path first_tie g := by
  simp only [find_path, search_tie_free_eq tie g.rooms search_fuel _ h]

theorem route_chain_length (rooms : Nat → Option room_data) (route : List ivec2) :
    ∀ c target : ivec2, route_chain rooms c route target →
      manhattan target ≤ manhattan c + route.length := by
  induction route with
  | nil =>
    intro c target h
    simp only [route_chain] at h
    subst h
    simp
  | cons v rest ih =>
    intro c target h
    obtain ⟨⟨i, hi, hv, _⟩, _, hrest⟩ := h
    have h1 := ih _ _ hrest
    have h2 : manhattan (c + v) ≤ manhattan c + 1 := by
      subst hv
      simp only [manhattan]
      interval_cases i <;> simp [dir_at, directions, south, east, north, west] <;> omega
    simp only [List.length_cons]
    omega

theorem route_chain_sums (rooms : Nat → Option room_data) (route : List ivec2) :
    ∀ c target : ivec2, route_chain rooms c route target → in_bounds c = true →
      (∀ n, n ≤ route.length →
        in_bounds ((route.take n).foldl (fun a v => a + v) c) = true)
      ∧ route.foldl (fun a v => a + v) c = target
      ∧ (∀ v ∈ route, v = (⟨0, 1⟩ : ivec2) ∨ v = (⟨1, 0⟩ : ivec2)
          ∨ v = (⟨0, -1⟩ : ivec2) ∨ v = (⟨-1, 0⟩ : ivec2))
      ∧ ∀ n v, route[n]? = some v → ∃ i, i < 4 ∧ dir_at i = -v
          ∧ has_path (paths_of rooms
              (point_id ((route.take n).foldl (fun a v => a + v) c + v))) i = true := by
  induction route with
  | nil =>
    intro c target h hc
    simp only [route_chain] at h
    subst h
    refine ⟨?_, rfl, ?_, ?_⟩
    · intro n _
      simpa using hc
    · intro v hv
      simp at hv
    · intro n v hv
      simp at hv
  | cons w rest ih =>
    intro c target h hc
    obtain ⟨⟨i, hi, hw, hp⟩, hin, hrest⟩ := h
    obtain ⟨h1, h2, h3, h4⟩ := ih (c + w) target hrest hin
    refine ⟨?_, ?_, ?_, ?_⟩
    · intro n hn
      cases n with
      | zero => simpa using hc
      | succ m =>
        simp only [List.take_succ_cons, List.foldl_cons]
        exact h1 m (by simpa using hn)
    · simpa using h2
    · intro v hv
      rcases List.mem_cons.mp hv with rfl | hv
      · rw [hw]
        exact neg_dir_at i hi
      · exact h3 v hv
    · intro n v hv
      cases n with
      | zero =>
        simp only [List.getElem?_cons_zero, Option.some.injEq] at hv
        subst hv
        refine ⟨i, hi, ?_, ?_⟩
        · rw [hw, neg_neg_vec]
        · simpa using hp
      | succ m =>
        simp only [List.getElem?_cons_succ] at hv
        simp only [List.take_succ_cons, List.foldl_cons]
        exact h4 m v hv

/-- C4: for an in-bounds player position `find_path` returns, every element of the
route is one of `(0,1)`, `(1,0)`, `(0,-1)`, `(-1,0)`, every partial sum of the route
lies within the grid, and a non-empty route sums to the player's coordinate. -/
theorem find_path_route_shape (tie : Nat → Nat) (g : map_state)
    (hb : in_bounds g.position = true) :
    ∃ g1, find_path tie g = some g1
      ∧ (∀ v ∈ g1.portal_path, v = (⟨0, 1⟩ : ivec2) ∨ v = (⟨1, 0⟩ : ivec2)
          ∨ v = (⟨0, -1⟩ : ivec2) ∨ v = (⟨-1, 0⟩ : ivec2))
      ∧ (∀ n, n ≤ g1.portal_path.length →
          in_bounds (route_sum (g1.portal_path.take n)) = true)
      ∧ (g1.portal_path ≠ [] → route_sum g1.portal_path = g.position) := by
  by_cases hz : g.position = zero
  · refine ⟨_, find_path_origin_eq tie g hz, ?_, ?_, ?_⟩
    · intro v hv
      simp at hv
    · intro n _
      simp only [List.take_nil]
      decide
    · intro h
      exact absurd rfl h
  · obtain ⟨st, route, _, _, _, hfp, hroute⟩ := find_path_spec tie g hb hz
    refine ⟨_, hfp, ?_⟩
    rcases hroute with ⟨_, hr⟩ | ⟨dest, _, hchain, _⟩
    · subst hr
      refine ⟨?_, ?_, ?_⟩
      · intro v hv
        simp at hv
      · intro n _
        simp only [List.take_nil]
        decide
      · intro h
        exact absurd rfl h
    · obtain ⟨h1, h2, h3, _⟩ := route_chain_sums g.rooms route zero g.position hchain (by decide)
      exact ⟨h3, h1, fun _ => h2⟩

theorem find_path_route_shape_witness :
    in_bounds detour_state.position = true
      ∧ ∃ g1, find_path first_tie detour_state = some g1
        ∧ (∀ v ∈ g1.portal_path, v = (⟨0, 1⟩ : ivec2) ∨ v = (⟨1, 0⟩ : ivec2)
            ∨ v = (⟨0, -1⟩ : ivec2) ∨ v = (⟨-1, 0⟩ : ivec2))
        ∧ (∀ n, n ≤ g1.portal_path.length →
            in_bounds (route_sum (g1.portal_path.take n)) = true)
        ∧ (g1.portal_path ≠ [] → route_sum g1.portal_path = detour_state.position) :=
  ⟨by decide, find_path_route_shape first_tie detour_state (by decide)⟩

/-- C3: for an in-bounds player position `find_path` returns, and for each route
element `v`, taken from the sum `c` of the elements before it, the room at `c + v`
is absent from the table or has its passage bit set for the direction `-v`. -/
theorem find_path_uses_permitted_passages (tie : Nat → Nat) (g : map_state)
    (hb : in_bounds g.position = true) :
    ∃ g1, find_path tie g = some g1
      ∧ ∀ n v, g1.portal_path[n]? = some v →
          g.rooms (point_id (route_sum (g1.portal_path.take n) + v)) = none
          ∨ ∃ r i, g.rooms (point_id (route_sum (g1.portal_path.take n) + v)) = some r
              ∧ i < 4 ∧ dir_at i = -v ∧ has_path r.paths i = true := by
  by_cases hz : g.position = zero
  · refine ⟨_, find_path_origin_eq tie g hz, ?_⟩
    intro n v hv
    simp at hv
  · obtain ⟨st, route, _, _, _, hfp, hroute⟩ := find_path_spec tie g hb hz
    refine ⟨_, hfp, ?_⟩
    rcases hroute with ⟨_, hr⟩ | ⟨dest, _, hchain, _⟩
    · subst hr
      intro n v hv
      simp at hv
    · obtain ⟨_, _, _, h4⟩ := route_chain_sums g.rooms route zero g.position hchain (by decide)
      intro n v hv
      obtain ⟨i, hi, hd, hp⟩ := h4 n v hv
      simp only [route_sum]
      cases hr : g.rooms (point_id ((route.take n).foldl (fun a v => a + v) zero + v)) with
      | none => exact Or.inl rfl
      | some r =>
        refine Or.inr ⟨r, i, rfl, hi, hd, ?_⟩
        simpa [paths_of, hr] using hp

theorem find_path_uses_permitted_passages_witness :
    in_bounds detour_state.position = true
      ∧ ∃ g1, find_path first_tie detour_state = some g1
        ∧ ∀ n v, g1.portal_path[n]? = some v →
            detour_state.rooms (point_id (route_sum (g1.portal_path.take n) + v)) = none
            ∨ ∃ r i, detour_state.rooms (point_id (route_sum (g1.portal_path.take n) + v)) = some r
                ∧ i < 4 ∧ dir_at i = -v ∧ has_path r.paths i = true :=
  ⟨by decide, find_path_uses_permitted_passages first_tie detour_state (by decide)⟩

/-- C2 fails on the detour example: whatever the tie-breaks, `find_path` stores the
five-step route along the southern corridor, while the three steps west from the
player form a permitted in-bounds walk to the origin. -/
theorem find_path_detour_not_shortest :
    in_bounds detour_state.position = true
      ∧ (∀ tie, (find_path tie detour_state).map (fun g => g.portal_path)
          = some [⟨0, 1⟩, ⟨1, 0⟩, ⟨1, 0⟩, ⟨1, 0⟩, ⟨0, -1⟩])
      ∧ permitted_walk detour_state.rooms detour_state.position [3, 3, 3] = true
      ∧ walk_end detour_state.position [3, 3, 3] = zero
      ∧ [3, 3, 3].length < [(⟨0, 1⟩ : ivec2), ⟨1, 0⟩, ⟨1, 0⟩, ⟨1, 0⟩, ⟨0, -1⟩].length := by
  refine ⟨by decide, ?_, by decide, by decide, by decide⟩
  intro tie
  rw [find_path_tie_free tie detour_state (by decide!)]
  decide!

/-! ## Runs with a single queued entry -/

theorem search_succ (tie : Nat → Nat) (rooms : Nat → Option room_data) (fuel : Nat)
    (st : search_state) :
    search tie rooms (fuel + 1) st =
      match search_step (tie fuel) rooms st with
      | none => some st
      | some st1 => search tie rooms fuel st1 := rfl

theorem search_step_empty (t : Nat) (rooms : Nat → Option room_data) (st : search_state)
    (h : st.points = []) : search_step t rooms st = none :=
  (search_step_none_iff t rooms st).mpr h

/-- A pass of the `while` loop whose queue holds one entry. -/
theorem search_step_single (t : Nat) (rooms : Nat → Option room_data) (st : search_state)
    (q : queued_point) (p : astar_point) (hq : st.points = [q])
    (hp : st.point_data q.point = some p) :
    search_step t rooms st =
      some (if (p.path_length + 1) % 4294967296 > st.max_length
        then { st with points := [] }
        else [0, 1, 2, 3].foldl (visit rooms p (paths_of rooms q.point))
          { st with points := [] }) := by
  simp only [search_step, hq, pq_pop_singleton, fetch_point_some _ _ _ hp]
  split <;> rfl

/-- C7: when the player's room is in the table with all four passage bits clear,
`find_path` returns with the empty route, whatever else the table holds. -/
theorem find_path_closed_start (tie : Nat → Nat) (g : map_state) (r : room_data)
    (hr : g.rooms (point_id g.position) = some r)
    (hclosed : ∀ i, i < 4 → has_path r.paths i = false) :
    find_path tie g = some { g with portal_path := [] } := by
  by_cases hz : g.position = zero
  · exact find_path_origin_eq tie g hz
  · have hpaths : paths_of g.rooms (point_id g.position) = r.paths := by
      simp [paths_of, hr]
    have hstep1 : search_step (tie 160801) g.rooms (search_init g.position)
        = some { search_init g.position with points := [] } := by
      rw [search_step_single _ _ _ ⟨calc_heuristic g.position, point_id g.position⟩
        ⟨g.position, [], 0, calc_heuristic g.position⟩ rfl (by simp [search_init, map_insert])]
      have hguard : ¬ ((0 + 1) % 4294967296 > (search_init g.position).max_length) := by
        simp [search_init]
      simp only [if_neg hguard, List.foldl_cons, List.foldl_nil, hpaths]
      rw [visit_closed _ _ _ _ 0 (hclosed 0 (by decide)),
        visit_closed _ _ _ _ 1 (hclosed 1 (by decide)),
        visit_closed _ _ _ _ 2 (hclosed 2 (by decide)),
        visit_closed _ _ _ _ 3 (hclosed 3 (by decide))]
    have hsearch : search tie g.rooms search_fuel (search_init g.position)
        = some { search_init g.position with points := [] } := by
      show search tie g.rooms (160800 + 1 + 1) (search_init g.position) = _
      rw [search_succ, hstep1]
      simp only []
      rw [search_succ, search_step_empty _ _ _ rfl]
    simp only [find_path, hz, if_false, hsearch]
    by_cases hk : point_id zero = point_id g.position
    · have hd : (search_init g.position).point_data (point_id zero)
          = some ⟨g.position, [], 0, calc_heuristic g.position⟩ := by
        simp [search_init, map_insert, hk]
      simp only [hd]
      unfold reconstruct
      simp
    · have hd : (search_init g.position).point_data (point_id zero) = none := by
        simp [search_init, map_insert, hk]
      simp only [hd]

theorem find_path_closed_start_witness :
    sealed_state.rooms (point_id sealed_state.position) = some ⟨⟨2, -3⟩, 0, 0, true⟩
      ∧ (∀ i, i < 4 → has_path (⟨⟨2, -3⟩, 0, 0, true⟩ : room_data).paths i = false)
      ∧ find_path first_tie sealed_state = some { sealed_state with portal_path := [] } :=
  ⟨by decide, by decide, find_path_closed_start first_tie sealed_state ⟨⟨2, -3⟩, 0, 0, true⟩
    (by decide) (by decide)⟩

theorem fold_open_one (rooms : Nat → Option room_data) (p : astar_point) (paths : Nat)
    (st : search_state) (i : Nat) (hi : i < 4)
    (hp : ∀ k, k < 4 → has_path paths k = decide (k = i)) :
    [0, 1, 2, 3].foldl (visit rooms p paths) st = visit rooms p paths st i := by
  have h0 := hp 0 (by decide)
  have h1 := hp 1 (by decide)
  have h2 := hp 2 (by decide)
  have h3 := hp 3 (by decide)
  simp only [List.foldl_cons, List.foldl_nil]
  interval_cases i
  · rw [visit_closed _ _ _ _ 3 (by rw [h3]; decide), visit_closed _ _ _ _ 2 (by rw [h2]; decide),
      visit_closed _ _ _ _ 1 (by rw [h1]; decide)]
  · rw [visit_closed _ _ _ _ 3 (by rw [h3]; decide), visit_closed _ _ _ _ 2 (by rw [h2]; decide),
      visit_closed _ _ _ st 0 (by rw [h0]; decide)]
  · rw [visit_closed _ _ _ _ 3 (by rw [h3]; decide), visit_closed _ _ _ st 0 (by rw [h0]; decide),
      visit_closed _ _ _ st 1 (by rw [h1]; decide)]
  · rw [visit_closed _ _ _ st 0 (by rw [h0]; decide), visit_closed _ _ _ st 1 (by rw [h1]; decide),
      visit_closed _ _ _ st 2 (by rw [h2]; decide)]

theorem fold_open_two (rooms : Nat → Option room_data) (p : astar_point) (paths : Nat)
    (st : search_state) (a b : Nat) (ha : a < 4) (hb : b < 4) (hab : a ≠ b)
    (hp : ∀ k, k < 4 → has_path paths k = (decide (k = a) || decide (k = b)))
    (hn1 : visit rooms p paths st a = st)
    (hn2 : visit rooms p paths (visit rooms p paths st b) a = visit rooms p paths st b) :
    [0, 1, 2, 3].foldl (visit rooms p paths) st = visit rooms p paths st b := by
  have h0 := hp 0 (by decide)
  have h1 := hp 1 (by decide)
  have h2 := hp 2 (by decide)
  have h3 := hp 3 (by decide)
  simp only [List.foldl_cons, List.foldl_nil]
  interval_cases a <;> interval_cases b <;> first
    | exact absurd rfl hab
    | (simp at h0 h1 h2 h3
       simp only [visit_closed, h0, h1, h2, h3, hn1, hn2])

theorem corridor_step1 (t : Nat) (rooms : Nat → Option room_data) (S c : ivec2) (i : Nat)
    (hi : i < 4) (hSc : S + dir_at i = c) (hbc : in_bounds c = true)
    (hkSc : point_id c ≠ point_id S) (hkcz : point_id c ≠ point_id zero)
    (hpS : ∀ k, k < 4 → has_path (paths_of rooms (point_id S)) k = decide (k = i)) :
    search_step t rooms (search_init S) = some (corridor_st1 rooms S c i) := by
  rw [search_step_single t rooms _ ⟨calc_heuristic S, point_id S⟩ ⟨S, [], 0, calc_heuristic S⟩
    rfl (by simp [search_init, map_insert])]
  have hguard : ¬ ((0 + 1) % 4294967296 > (search_init S).max_length) := by
    simp [search_init]
  rw [if_neg hguard, fold_open_one _ _ _ _ i hi hpS]
  rw [visit_new _ _ _ _ _ (by rw [hpS i hi]; simp) (by simp only [hSc]; exact hbc)
    (by simp only [hSc]; simp [search_init, map_insert, hkSc])]
  simp only [hSc, hkcz, if_false, decide_False]
  rfl

theorem corridor_step2 (t : Nat) (rooms : Nat → Option room_data) (S c : ivec2) (i j : Nat)
    (hj : j < 4) (hij : opposite i ≠ j)
    (hcS : c + dir_at (opposite i) = S) (hcz : c + dir_at j = zero)
    (hbS : in_bounds S = true)
    (hkSc : point_id c ≠ point_id S) (hkcz : point_id c ≠ point_id zero)
    (hkSz : point_id S ≠ point_id zero)
    (hpc : ∀ k, k < 4 → has_path (paths_of rooms (point_id c)) k
      = (decide (k = opposite i) || decide (k = j))) :
    search_step t rooms (corridor_st1 rooms S c i) = some (corridor_st2 rooms S c i j) := by
  have hopp : opposite i < 4 := Nat.mod_lt _ (by decide)
  rw [search_step_single t rooms _ ⟨point_heuristic rooms c, point_id c⟩
    ⟨c, [-(dir_at i)], 1, point_heuristic rooms c⟩ rfl (by simp [corridor_st1, map_insert])]
  have hguard : ¬ ((1 + 1) % 4294967296 > (corridor_st1 rooms S c i).max_length) := by
    simp [corridor_st1]
  rw [if_neg hguard]
  have hback : ∀ st : search_state,
      st.point_data (point_id S) = some ⟨S, [], 0, calc_heuristic S⟩ →
      visit rooms ⟨c, [-(dir_at i)], 1, point_heuristic rooms c⟩ (paths_of rooms (point_id c)) st
        (opposite i) = st := by
    intro st hst
    rw [visit_found _ _ _ _ _ ⟨S, [], 0, calc_heuristic S⟩ (by rw [hpc _ hopp]; simp)
      (by simp only [hcS]; exact hbS) (by simp only [hcS]; exact hst)]
    simp
  have hvisit : visit rooms ⟨c, [-(dir_at i)], 1, point_heuristic rooms c⟩
      (paths_of rooms (point_id c))
      { corridor_st1 rooms S c i with points := [] } j = corridor_st2 rooms S c i j := by
    rw [visit_new _ _ _ _ _ (by rw [hpc j hj]; simp) (by simp only [hcz]; decide)
      (by simp only [hcz]; simp [corridor_st1, search_init, map_insert, hkcz.symm, hkSz.symm])]
    simp only [hcz, if_true, decide_True]
    rfl
  rw [fold_open_two _ _ _ _ (opposite i) j hopp hj hij hpc
    (hback _ (by simp [corridor_st1, search_init, map_insert, hkSc.symm]))
    (by rw [hvisit]; exact hback _ (by
      simp [corridor_st2, corridor_st1, search_init, map_insert, hkSc.symm, hkSz]))]
  rw [hvisit]

theorem corridor_step3 (t : Nat) (rooms : Nat → Option room_data) (S c : ivec2) (i j : Nat) :
    search_step t rooms (corridor_st2 rooms S c i j)
      = some { corridor_st2 rooms S c i j with points := [] } := by
  rw [search_step_single t rooms _ ⟨point_heuristic rooms zero, point_id zero⟩
    ⟨zero, [-(dir_at j)], 2, point_heuristic rooms zero⟩ rfl
    (by simp [corridor_st2, map_insert])]
  have hguard : (2 + 1) % 4294967296 > (corridor_st2 rooms S c i j).max_length := by
    simp [corridor_st2]
  rw [if_pos hguard]

theorem reconstruct_done (pd : Nat → Option astar_point) (fuel : Nat) (pos : ivec2)
    (dest : astar_point) (acc : List ivec2) (h : dest.path_length = 0) :
    reconstruct pd fuel pos dest acc = some acc := by
  unfold reconstruct
  simp [h]

theorem reconstruct_step (pd : Nat → Option astar_point) (fuel : Nat) (pos : ivec2)
    (dest : astar_point) (acc : List ivec2) (first : ivec2) (tl : List ivec2) (next : ivec2)
    (dest1 : astar_point) (h0 : dest.path_length ≠ 0) (hpd : dest.parent_dir = first :: tl)
    (hsel : select_next pd pos first (first :: tl) = some next)
    (hd : pd (point_id (pos + next)) = some dest1) :
    reconstruct pd (fuel + 1) pos dest acc
      = reconstruct pd fuel (pos + next) dest1 (acc ++ [next]) := by
  conv_lhs => unfold reconstruct
  simp only [h0, if_false, hpd, hsel, hd]

theorem select_next_single (pd : Nat → Option astar_point) (pos d : ivec2) (a : astar_point)
    (h : pd (point_id (pos + d)) = some a) : select_next pd pos d [d] = some d := by
  simp [select_next, h]

/-- The route along an L-shaped corridor: the player's room opens only towards the
corner room, the corner room only towards the player and the origin. -/
theorem corridor_find_path (tie : Nat → Nat) (g : map_state) (c : ivec2) (i j : Nat)
    (hi : i < 4) (hj : j < 4) (hij : opposite i ≠ j) (hSz : g.position ≠ zero)
    (hSc : g.position + dir_at i = c) (hcS : c + dir_at (opposite i) = g.position)
    (hcz : c + dir_at j = zero)
    (hbS : in_bounds g.position = true) (hbc : in_bounds c = true)
    (hpS : ∀ k, k < 4 → has_path (paths_of g.rooms (point_id g.position)) k = decide (k = i))
    (hpc : ∀ k, k < 4 → has_path (paths_of g.rooms (point_id c)) k
      = (decide (k = opposite i) || decide (k = j))) :
    find_path tie g = some { g with portal_path := [-(dir_at j), -(dir_at i)] } := by
  have hcne : c ≠ g.position := by
    intro h
    rw [h] at hSc
    have h1 := congrArg ivec2.x hSc
    have h2 := congrArg ivec2.y hSc
    simp only [add_x, add_y] at h1 h2
    rcases dir_at_cases i hi with h | h | h | h <;> rw [h] at h1 h2 <;>
      simp [south, east, north, west] at h1 h2
  have hcnz : c ≠ zero := by
    intro h
    rw [h] at hcz
    have h1 := congrArg ivec2.x hcz
    have h2 := congrArg ivec2.y hcz
    simp only [add_x, add_y] at h1 h2
    rcases dir_at_cases j hj with h | h | h | h <;> rw [h] at h1 h2 <;>
      simp [south, east, north, west, zero] at h1 h2
  have hkSc : point_id c ≠ point_id g.position := fun h => hcne (point_id_inj _ _ hbc hbS h)
  have hkcz : point_id c ≠ point_id zero := fun h => hcnz (point_id_inj _ _ hbc (by decide) h)
  have hkSz : point_id g.position ≠ point_id zero :=
    fun h => hSz (point_id_inj _ _ hbS (by decide) h)
  have hzc : zero + -(dir_at j) = c := by
    rw [← hcz, add_neg_self]
  have hcs : c + -(dir_at i) = g.position := by
    rw [← hSc, add_neg_self]
  have hsearch : search tie g.rooms search_fuel (search_init g.position)
      = some { corridor_st2 g.rooms g.position c i j with points := [] } := by
    show search tie g.rooms (160798 + 1 + 1 + 1 + 1) (search_init g.position) = _
    rw [search_succ, corridor_step1 _ _ _ c i hi hSc hbc hkSc hkcz hpS]
    simp only []
    rw [search_succ, corridor_step2 _ _ _ c i j hj hij hcS hcz hbS hkSc hkcz hkSz hpc]
    simp only []
    rw [search_succ, corridor_step3]
    simp only []
    rw [search_succ, search_step_empty _ _ _ rfl]
  have hz : (corridor_st2 g.rooms g.position c i j).point_data (point_id zero)
      = some ⟨zero, [-(dir_at j)], 2, point_heuristic g.rooms zero⟩ := by
    simp [corridor_st2, map_insert]
  have hc : (corridor_st2 g.rooms g.position c i j).point_data (point_id c)
      = some ⟨c, [-(dir_at i)], 1, point_heuristic g.rooms c⟩ := by
    simp [corridor_st2, corridor_st1, map_insert, hkcz]
  have hs : (corridor_st2 g.rooms g.position c i j).point_data (point_id g.position)
      = some ⟨g.position, [], 0, calc_heuristic g.position⟩ := by
    simp [corridor_st2, corridor_st1, search_init, map_insert, hkSz, hkSc.symm]
  simp only [find_path, hSz, if_false, hsearch, hz]
  have hrec : reconstruct (corridor_st2 g.rooms g.position c i j).point_data search_fuel zero
      ⟨zero, [-(dir_at j)], 2, point_heuristic g.rooms zero⟩ []
      = some [-(dir_at j), -(dir_at i)] := by
    show reconstruct _ (160800 + 1 + 1) _ _ _ = _
    rw [reconstruct_step _ _ _ _ _ (-(dir_at j)) [] (-(dir_at j))
      ⟨c, [-(dir_at i)], 1, point_heuristic g.rooms c⟩ (by simp) rfl
      (select_next_single _ _ _ _ (by rw [hzc]; exact hc)) (by rw [hzc]; exact hc)]
    rw [hzc, reconstruct_step _ _ _ _ _ (-(dir_at i)) [] (-(dir_at i))
      ⟨g.position, [], 0, calc_heuristic g.position⟩ (by simp) rfl
      (select_next_single _ _ _ _ (by rw [hcs]; exact hs)) (by rw [hcs]; exact hs)]
    rw [reconstruct_done _ _ _ _ _ rfl]
    rfl
  simp only [hrec]

theorem dir_at_opposite (i : Nat) (hi : i < 4) : dir_at (opposite i) = -(dir_at i) := by
  interval_cases i <;> decide

theorem corridor_open_player (i j k : Nat) (hi : i < 4) (hj : j < 4) (hk : k < 4)
    (hperp : i % 2 ≠ j % 2) :
    corridor_open i j (-(dir_at i) + -(dir_at j)) k = decide (k = i) := by
  interval_cases i <;> interval_cases j <;> interval_cases k <;>
    first | exact absurd rfl hperp | decide

theorem corridor_open_corner (i j k : Nat) (hi : i < 4) (hj : j < 4) (hk : k < 4)
    (hperp : i % 2 ≠ j % 2) :
    corridor_open i j (-(dir_at j)) k = (decide (k = opposite i) || decide (k = j)) := by
  interval_cases i <;> interval_cases j <;> interval_cases k <;>
    first | exact absurd rfl hperp | decide

theorem corridor_coordinates (i j : Nat) (hi : i < 4) (hj : j < 4) (hperp : i % 2 ≠ j % 2) :
    ((-1 ≤ (-(dir_at i) + -(dir_at j)).x ∧ (-(dir_at i) + -(dir_at j)).x ≤ 1)
      ∧ (-1 ≤ (-(dir_at i) + -(dir_at j)).y ∧ (-(dir_at i) + -(dir_at j)).y ≤ 1))
    ∧ ((-1 ≤ (-(dir_at j)).x ∧ (-(dir_at j)).x ≤ 1)
      ∧ (-1 ≤ (-(dir_at j)).y ∧ (-(dir_at j)).y ≤ 1))
    ∧ -(dir_at i) + -(dir_at j) ≠ zero := by
  interval_cases i <;> interval_cases j <;>
    first | exact absurd rfl hperp | decide

/-- C5: with the player diagonally adjacent to the origin at `-dir_at i - dir_at j`,
the nine rooms of the 3x3 block in the table and only the passages of the corridor
player, corner room `-dir_at j`, origin open, `find_path` returns the two steps
origin to corner room, corner room to player. -/
theorem find_path_l_corridor (tie : Nat → Nat) (g : map_state) (i j : Nat)
    (hi : i < 4) (hj : j < 4) (hperp : i % 2 ≠ j % 2)
    (hpos : g.position = -(dir_at i) + -(dir_at j)) (hrooms : l_corridor g.rooms i j) :
    find_path tie g = some { g with portal_path := [-(dir_at j), -(dir_at i)] } := by
  obtain ⟨⟨⟨hx1, hx2⟩, hy1, hy2⟩, ⟨⟨cx1, cx2⟩, cy1, cy2⟩, hne⟩ :=
    corridor_coordinates i j hi hj hperp
  obtain ⟨rS, hrS, hpS⟩ := hrooms _ hx1 hx2 hy1 hy2
  obtain ⟨rc, hrc, hpc⟩ := hrooms _ cx1 cx2 cy1 cy2
  apply corridor_find_path tie g (-(dir_at j)) i j hi hj
  · simp only [opposite]
    omega
  · rw [hpos]; exact hne
  · rw [hpos]
    apply ivec2_eq <;> simp
  · rw [hpos, dir_at_opposite i hi]
    apply ivec2_eq <;> simp <;> omega
  · apply ivec2_eq <;> simp [zero]
  · rw [hpos, in_bounds_iff]
    omega
  · rw [in_bounds_iff]
    omega
  · intro k hk
    rw [hpos]
    simp only [paths_of, hrS]
    rw [hpS k hk, corridor_open_player i j k hi hj hk hperp]
  · intro k hk
    simp only [paths_of, hrc]
    rw [hpc k hk, corridor_open_corner i j k hi hj hk hperp]

theorem corridor_rooms_l_corridor : l_corridor corridor_state.rooms 0 1 := by
  intro p h1 h2 h3 h4
  obtain ⟨x, y⟩ := p
  simp only at h1 h2 h3 h4
  interval_cases x <;> interval_cases y <;> exact ⟨_, rfl, by decide⟩

theorem find_path_l_corridor_witness :
    ((0 : Nat) < 4 ∧ (1 : Nat) < 4 ∧ 0 % 2 ≠ 1 % 2
        ∧ corridor_state.position = -(dir_at 0) + -(dir_at 1)
        ∧ l_corridor corridor_state.rooms 0 1)
      ∧ find_path first_tie corridor_state
          = some { corridor_state with portal_path := [-(dir_at 1), -(dir_at 0)] } :=
  ⟨⟨by decide, by decide, by decide, by decide, corridor_rooms_l_corridor⟩,
    find_path_l_corridor first_tie corridor_state 0 1 (by decide) (by decide) (by decide)
      (by decide) corridor_rooms_l_corridor⟩

/-! ## Effect of one pass of the loop on the nodes -/

theorem visit_effect_refl (rooms : Nat → Option room_data) (p : astar_point) (paths : Nat)
    (st : search_state) : visit_effect rooms p paths st st := by
  constructor
  · intro k a h
    exact ⟨[], by simpa using h, fun h => absurd rfl h, fun d hd => by simp at hd⟩
  · intro k a1 h h1
    rw [h] at h1
    cases h1
  · intro q hq
    exact Or.inl hq
  · intro q hq
    exact hq
  · exact Or.inl rfl

theorem visit_effect_trans (rooms : Nat → Option room_data) (p : astar_point) (paths : Nat)
    (st st1 st2 : search_state) (h1 : visit_effect rooms p paths st st1)
    (h2 : visit_effect rooms p paths st1 st2) : visit_effect rooms p paths st st2 := by
  constructor
  · intro k a h
    obtain ⟨e1, he1, hl1, hd1⟩ := h1.old_node k a h
    obtain ⟨e2, he2, hl2, hd2⟩ := h2.old_node k _ he1
    refine ⟨e1 ++ e2, by simpa [List.append_assoc] using he2, ?_, ?_⟩
    · intro hne
      by_cases h1e : e1 = []
      · subst h1e
        exact hl2 (by simpa using hne)
      · exact hl1 h1e
    · intro d hd
      rcases List.mem_append.mp hd with hd | hd
      · exact hd1 d hd
      · exact hd2 d hd
  · intro k a2 h hk2
    cases hk1 : st1.point_data k with
    | none =>
      obtain ⟨i, extra, hi, hp, hb, hid, ha, hex, hq⟩ := h2.new_node k a2 hk1 hk2
      exact ⟨i, extra, hi, hp, hb, hid, ha, hex, hq⟩
    | some a1 =>
      obtain ⟨i, extra, hi, hp, hb, hid, ha, hex, hq⟩ := h1.new_node k a1 h hk1
      obtain ⟨e2, he2, _, hd2⟩ := h2.old_node k a1 hk1
      rw [hk2] at he2
      refine ⟨i, extra ++ e2, hi, hp, hb, hid, ?_, ?_, h2.old_queued _ hq⟩
      · rw [Option.some.inj he2, ha]
        simp
      · intro d hd
        rcases List.mem_append.mp hd with hd | hd
        · exact hex d hd
        · exact hd2 d hd
  · intro q hq
    rcases h2.new_queued q hq with hq1 | ⟨hn, i, hi, hb, hqe⟩
    · exact h1.new_queued q hq1
    · right
      refine ⟨?_, i, hi, hb, hqe⟩
      cases h0 : st.point_data q.point with
      | none => rfl
      | some a =>
        obtain ⟨e1, he1, _, _⟩ := h1.old_node _ a h0
        rw [hn] at he1
        cases he1
  · intro q hq
    exact h2.old_queued q (h1.old_queued q hq)
  · rcases h2.max_change with hm2 | ⟨hn2, hs2, hm2⟩
    · rcases h1.max_change with hm1 | ⟨hn1, hs1, hm1⟩
      · exact Or.inl (hm2.trans hm1)
      · right
        refine ⟨hn1, ?_, hm2.trans hm1⟩
        cases h0 : st1.point_data (point_id zero) with
        | none => exact absurd h0 hs1
        | some a =>
          obtain ⟨e2, he2, _, _⟩ := h2.old_node _ a h0
          rw [he2]
          simp
    · right
      refine ⟨?_, hs2, hm2⟩
      cases h0 : st.point_data (point_id zero) with
      | none => rfl
      | some a =>
        obtain ⟨e1, he1, _, _⟩ := h1.old_node _ a h0
        rw [hn2] at he1
        cases he1

theorem visit_effect_one (rooms : Nat → Option room_data) (p : astar_point) (paths : Nat)
    (st : search_state) (i : Nat) (hi : i < 4) :
    visit_effect rooms p paths st (visit rooms p paths st i) := by
  cases hp : has_path paths i with
  | false =>
    rw [visit_closed _ _ _ _ _ hp]
    exact visit_effect_refl _ _ _ _
  | true =>
    cases hb : in_bounds (p.position + dir_at i) with
    | false =>
      rw [visit_out _ _ _ _ _ hb]
      exact visit_effect_refl _ _ _ _
    | true =>
      have hstored : stored_from p paths (point_id (p.position + dir_at i)) (-(dir_at i)) :=
        ⟨i, hi, rfl, hb, rfl, hp⟩
      cases hf : st.point_data (point_id (p.position + dir_at i)) with
      | some fd =>
        rw [visit_found _ _ _ _ _ fd hp hb hf]
        split
        · rename_i hlt
          constructor
          · intro k a h
            by_cases hk : k = point_id (p.position + dir_at i)
            · subst hk
              rw [hf] at h
              cases h
              refine ⟨[-(dir_at i)], map_insert_same _ _ _, fun _ => hlt, ?_⟩
              intro d hd
              rw [List.mem_singleton] at hd
              subst hd
              exact hstored
            · refine ⟨[], ?_, fun h => absurd rfl h, fun d hd => by simp at hd⟩
              simp only [map_insert_other _ _ _ _ hk, List.append_nil]
              exact h
          · intro k a1 h h1
            by_cases hk : k = point_id (p.position + dir_at i)
            · subst hk
              rw [hf] at h
              cases h
            · simp only [map_insert_other _ _ _ _ hk] at h1
              rw [h] at h1
              cases h1
          · intro q hq
            exact Or.inl hq
          · intro q hq
            exact hq
          · exact Or.inl rfl
        · exact visit_effect_refl _ _ _ _
      | none =>
        rw [visit_new _ _ _ _ _ hp hb hf]
        constructor
        · intro k a h
          have hk : k ≠ point_id (p.position + dir_at i) := by
            intro hk
            subst hk
            rw [hf] at h
            cases h
          refine ⟨[], ?_, fun h => absurd rfl h, fun d hd => by simp at hd⟩
          simp only [map_insert_other _ _ _ _ hk, List.append_nil]
          exact h
        · intro k a1 h h1
          by_cases hk : k = point_id (p.position + dir_at i)
          · subst hk
            simp only [map_insert_same, Option.some.injEq] at h1
            refine ⟨i, [], hi, hp, hb, rfl, h1.symm, fun d hd => by simp at hd, ?_⟩
            simp
          · simp only [map_insert_other _ _ _ _ hk] at h1
            rw [h] at h1
            cases h1
        · intro q hq
          simp only [List.mem_append, List.mem_singleton] at hq
          rcases hq with hq | hq
          · exact Or.inl hq
          · right
            subst hq
            exact ⟨hf, i, hi, hb, rfl⟩
        · intro q hq
          simp only [List.mem_append]
          exact Or.inl hq
        · by_cases hk : point_id (p.position + dir_at i) = point_id zero
          · right
            simp only [hk, if_true]
            refine ⟨by rw [← hk]; exact hf, ?_, trivial⟩
            rw [map_insert_same]
            simp
          · left
            simp only [hk, if_false]

theorem visit_effect_fold (rooms : Nat → Option room_data) (p : astar_point) (paths : Nat)
    (l : List Nat) (hl : ∀ i ∈ l, i < 4) :
    ∀ st : search_state, visit_effect rooms p paths st (l.foldl (visit rooms p paths) st) := by
  induction l with
  | nil => intro st; exact visit_effect_refl _ _ _ _
  | cons i is ih =>
    intro st
    rw [List.foldl_cons]
    exact visit_effect_trans _ _ _ _ _ _
      (visit_effect_one rooms p paths st i (hl i (List.mem_cons_self _ _)))
      (ih (fun j hj => hl j (List.mem_cons_of_mem _ hj)) _)

/-- After the inner loop, every open in-bounds direction it went through leads to a
recorded node. -/
theorem visit_fold_records (rooms : Nat → Option room_data) (p : astar_point) (paths : Nat)
    (l : List Nat) (hl : ∀ i ∈ l, i < 4) (i : Nat) (hi : i ∈ l) (hp : has_path paths i = true)
    (hb : in_bounds (p.position + dir_at i) = true) :
    ∀ st : search_state,
      (l.foldl (visit rooms p paths) st).point_data (point_id (p.position + dir_at i)) ≠ none := by
  induction l with
  | nil => simp at hi
  | cons j js ih =>
    intro st
    rw [List.foldl_cons]
    rcases List.mem_cons.mp hi with hij | hi1
    · subst hij
      have h1 : (visit rooms p paths st i).point_data (point_id (p.position + dir_at i)) ≠ none := by
        cases hf : st.point_data (point_id (p.position + dir_at i)) with
        | some fd =>
          rw [visit_found _ _ _ _ _ fd hp hb hf]
          split
          · simp [map_insert_same]
          · rw [hf]; simp
        | none =>
          rw [visit_new _ _ _ _ _ hp hb hf]
          simp [map_insert_same]
      have heff := visit_effect_fold rooms p paths js
        (fun m hm => hl m (List.mem_cons_of_mem _ hm)) (visit rooms p paths st i)
      cases h0 : (visit rooms p paths st i).point_data (point_id (p.position + dir_at i)) with
      | none => exact absurd h0 h1
      | some a =>
        obtain ⟨e, he, _, _⟩ := heff.old_node _ a h0
        rw [he]
        simp
    · exact ih (fun m hm => hl m (List.mem_cons_of_mem _ hm)) hi1 _

/-! ## A start diagonal to the origin -/

theorem dir_at_inj (a b : Nat) (ha : a < 4) (hb : b < 4) (h : dir_at a = dir_at b) : a = b := by
  interval_cases a <;> interval_cases b <;> first | rfl | exact absurd h (by decide)

theorem add_left_cancel_vec (p a b : ivec2) (h : p + a = p + b) : a = b := by
  have h1 := congrArg ivec2.x h
  have h2 := congrArg ivec2.y h
  simp only [add_x, add_y] at h1 h2
  apply ivec2_eq <;> omega

theorem diagonal_facts (i j : Nat) (hi : i < 4) (hj : j < 4) (hperp : i % 2 ≠ j % 2) :
    -(dir_at i) + -(dir_at j) + dir_at i = -(dir_at j)
      ∧ -(dir_at j) + dir_at j = zero
      ∧ -(dir_at j) + -(dir_at i) = -(dir_at i) + -(dir_at j)
      ∧ zero + -(dir_at j) = -(dir_at j)
      ∧ in_bounds (-(dir_at i) + -(dir_at j)) = true
      ∧ in_bounds (-(dir_at j)) = true
      ∧ -(dir_at i) + -(dir_at j) ≠ zero
      ∧ -(dir_at j) ≠ zero
      ∧ -(dir_at j) ≠ -(dir_at i) + -(dir_at j)
      ∧ (∀ k, k < 4 → -(dir_at i) + -(dir_at j) + dir_at k ≠ zero)
      ∧ (∀ k, k < 4 → zero + -(dir_at k) ≠ -(dir_at i) + -(dir_at j))
      ∧ calc_heuristic (-(dir_at j)) = 1
      ∧ calc_heuristic (-(dir_at i)) = 1
      ∧ -(dir_at i) + -(dir_at j) + dir_at j = -(dir_at i)
      ∧ (∀ k, k < 4 → k ≠ i → k ≠ j →
          calc_heuristic (-(dir_at i) + -(dir_at j) + dir_at k) = 5) := by
  interval_cases i <;> interval_cases j <;> first | exact absurd rfl hperp | decide

theorem scale_num_ge (rooms : Nat → Option room_data) (k : Nat) : 2 ≤ scale_num rooms k := by
  unfold scale_num
  split
  · split
    · decide
    · split <;> decide
  · decide

theorem point_heuristic_plain (rooms : Nat → Option room_data) (n : ivec2) (r : room_data)
    (hr : rooms (point_id n) = some r) (hf : r.flags &&& room_flag_avoid = 0)
    (hc : calc_heuristic n = 1) : point_heuristic rooms n = 1 := by
  simp only [point_heuristic, scale_num, hr, hf, hc]
  cases r.visited <;> decide

theorem point_heuristic_avoid (rooms : Nat → Option room_data) (n : ivec2) (r : room_data)
    (hr : rooms (point_id n) = some r) (hf : r.flags &&& room_flag_avoid ≠ 0)
    (hc : calc_heuristic n = 1) : point_heuristic rooms n = 5 := by
  simp [point_heuristic, scale_num, hr, hf, hc]

theorem point_heuristic_far (rooms : Nat → Option room_data) (n : ivec2)
    (hc : calc_heuristic n = 5) : 5 ≤ point_heuristic rooms n := by
  have := scale_num_ge rooms (point_id n)
  simp only [point_heuristic, hc]
  omega

theorem select_next_keep (pd : Nat → Option astar_point) (pos next : ivec2) (n : astar_point)
    (hn : pd (point_id (pos + next)) = some n) :
    ∀ items : List ivec2,
      (∀ d ∈ items, ∃ t, pd (point_id (pos + d)) = some t ∧ n.path_length ≤ t.path_length) →
      select_next pd pos next items = some next := by
  intro items
  induction items with
  | nil => intro _; rfl
  | cons item rest ih =>
    intro h
    obtain ⟨t, ht, hle⟩ := h item (List.mem_cons_self _ _)
    simp only [select_next, ht, hn]
    rw [if_neg (by omega)]
    exact ih (fun d hd => h d (List.mem_cons_of_mem _ hd))

/-- Every pass of the `while` loop keeps `route_fixed`. -/
theorem route_fixed_step (t : Nat) (rooms : Nat → Option room_data) (start b : ivec2) (i : Nat)
    (hi : i < 4) (hsb : start + dir_at i = b) (hbs : in_bounds start = true)
    (hbb : in_bounds b = true) (st st1 : search_state) (hinv : search_inv rooms start st)
    (hfix : route_fixed st.point_data b (-(dir_at i)))
    (h : search_step t rooms st = some st1) :
    route_fixed st1.point_data b (-(dir_at i)) := by
  obtain ⟨top, p, _, _, hp, heq⟩ := search_step_eq t rooms start st st1 hinv h
  by_cases hgt : p.path_length + 1 > st.max_length
  · rw [if_pos hgt] at heq
    subst heq
    exact hfix
  · rw [if_neg hgt] at heq
    have heff := visit_effect_fold rooms p (paths_of rooms (point_id p.position)) [0, 1, 2, 3]
      (by intro k hk; simp at hk; omega) { st with points := st.points.erase top }
    rw [← heq] at heff
    obtain ⟨⟨nb, hnb, hlen, hall⟩, o, rest, ho, hop⟩ := hfix
    constructor
    · obtain ⟨extra, he, hlt, hst⟩ := heff.old_node _ nb hnb
      refine ⟨_, he, hlen, ?_⟩
      intro d hd
      rcases List.mem_append.mp hd with hd | hd
      · exact hall d hd
      · have hp0 : p.path_length = 0 := by
          have := hlt (List.ne_nil_of_mem hd)
          omega
        have htop : top.point = point_id start := by
          by_contra hne
          have := hinv.len_pos _ p hp hne
          omega
        have hpos : p.position = start :=
          point_id_inj _ _ (hinv.key_pos _ p hp).1 hbs ((hinv.key_pos _ p hp).2.trans htop)
        obtain ⟨k, hk, hdk, hbk, hidk, _⟩ := hst d hd
        rw [hpos] at hbk hidk
        have hcoord := point_id_inj _ _ hbk hbb hidk
        rw [← hsb] at hcoord
        rw [hdk, dir_at_inj k i hk hi (add_left_cancel_vec _ _ _ hcoord)]
    · obtain ⟨extra, he, _, _⟩ := heff.old_node _ o ho
      exact ⟨_, rest ++ extra, he, by simp [hop]⟩

/-- The reconstruction on a final state with `route_fixed`, for a start diagonal to the
origin: two steps, origin to `b`, `b` to the start. -/
theorem route_fixed_reconstruct (rooms : Nat → Option room_data) (start b : ivec2) (i : Nat)
    (st : search_state) (hinv : search_inv rooms start st)
    (hsb : start + dir_at i = b) (hbs : in_bounds start = true) (hbb : in_bounds b = true)
    (hsz : start ≠ zero) (hbne : b ≠ start)
    (hdiag : ∀ k, k < 4 → zero + -(dir_at k) ≠ start)
    (hzb : zero + b = b)
    (hfix : route_fixed st.point_data b (-(dir_at i))) (fuel : Nat) :
    ∃ o, st.point_data (point_id zero) = some o
      ∧ reconstruct st.point_data (fuel + 1 + 1) zero o [] = some [b, -(dir_at i)] := by
  obtain ⟨⟨nb, hnb, hlen, hall⟩, o, rest, ho, hop⟩ := hfix
  refine ⟨o, ho, ?_⟩
  have hkz : point_id zero ≠ point_id start :=
    fun h => hsz (point_id_inj _ _ hbs (by decide) h.symm)
  have hkb : point_id b ≠ point_id start := fun h => hbne (point_id_inj _ _ hbb hbs h)
  have hopos : o.position = zero :=
    point_id_inj _ _ (hinv.key_pos _ o ho).1 (by decide) (hinv.key_pos _ o ho).2
  have hnbz : st.point_data (point_id (zero + b)) = some nb := by rw [hzb]; exact hnb
  have hsel : select_next st.point_data zero b (b :: rest) = some b := by
    apply select_next_keep _ _ _ nb hnbz
    intro d hd
    rw [← hop] at hd
    obtain ⟨k, hk, hdk, hin, t, ht, _, _⟩ := hinv.parents _ o ho d hd
    rw [hopos] at hin ht
    refine ⟨t, ht, ?_⟩
    have hne : point_id (zero + d) ≠ point_id start := by
      intro h
      have := point_id_inj _ _ hin hbs h
      rw [hdk] at this
      exact hdiag k hk this
    have := hinv.len_pos _ t ht hne
    omega
  have holen : o.path_length ≠ 0 := by
    have := hinv.len_pos _ o ho hkz
    omega
  rw [reconstruct_step _ _ _ _ _ b rest b nb holen hop hsel hnbz, hzb]
  have hbs2 : b + -(dir_at i) = start := by rw [← hsb, add_neg_self]
  obtain ⟨a, ha, hal⟩ := hinv.start_rec
  have hne := hinv.parents_ne _ nb hnb hkb
  cases hpd : nb.parent_dir with
  | nil => exact absurd hpd hne
  | cons first tl =>
    have hcands : ∀ d ∈ nb.parent_dir, ∃ t, st.point_data (point_id (b + d)) = some t := by
      intro d hd
      rw [hall d hd, hbs2]
      exact ⟨a, ha⟩
    obtain ⟨next, hnext, hmem⟩ := select_next_mem st.point_data b nb.parent_dir hcands
      nb.parent_dir first (by rw [hpd]; exact List.mem_cons_self _ _) (fun d hd => hd)
    have hnd : next = -(dir_at i) := hall next hmem
    subst hnd
    rw [hpd] at hnext
    rw [reconstruct_step _ _ _ _ _ first tl (-(dir_at i)) a (by omega) hpd hnext
      (by rw [hbs2]; exact ha)]
    rw [reconstruct_done _ _ _ _ _ hal]
    rfl

set_option maxHeartbeats 1600000 in
/-- The first pass of the search from a start diagonal to the origin, whose room opens
towards the neighbour `b`: `b` is recorded with path length `1` and the start as its
only candidate, its entry is queued with heuristic `1`, every other queued entry has
heuristic at least `5`, and the origin is not reached. -/
theorem diagonal_pass1 (t : Nat) (rooms : Nat → Option room_data) (start b : ivec2) (i : Nat)
    (hi : i < 4) (hsb : start + dir_at i = b) (hbs : in_bounds start = true)
    (hbb : in_bounds b = true) (hsz : start ≠ zero) (hbne : b ≠ start)
    (hdiag : ∀ k, k < 4 → start + dir_at k ≠ zero)
    (hsi : has_path (paths_of rooms (point_id start)) i = true)
    (hhb : point_heuristic rooms b = 1)
    (hho : ∀ k, k < 4 → k ≠ i → 5 ≤ point_heuristic rooms (start + dir_at k))
    (st1 : search_state) (h : search_step t rooms (search_init start) = some st1) :
    st1.max_length = 64 ∧ st1.point_data (point_id zero) = none
      ∧ (∃ nb, st1.point_data (point_id b) = some nb ∧ nb.path_length = 1
          ∧ ∀ d ∈ nb.parent_dir, d = -(dir_at i))
      ∧ (⟨1, point_id b⟩ : queued_point) ∈ st1.points
      ∧ ∀ q ∈ st1.points, q = ⟨1, point_id b⟩ ∨ 5 ≤ q.heuristic := by
  have hinv := search_init_inv rooms start hbs
  obtain ⟨top, p, hmem, _, hp, heq⟩ := search_step_eq t rooms start _ st1 hinv h
  have hkz : point_id zero ≠ point_id start :=
    fun hk => hsz (point_id_inj _ _ hbs (by decide) hk.symm)
  have hkb : point_id b ≠ point_id start := fun hk => hbne (point_id_inj _ _ hbb hbs hk)
  have htop : top = ⟨calc_heuristic start, point_id start⟩ := by
    simpa [search_init] using hmem
  subst htop
  have hpeq : p = ⟨start, [], 0, calc_heuristic start⟩ := by
    have : (search_init start).point_data (point_id start)
        = some ⟨start, [], 0, calc_heuristic start⟩ := by simp [search_init, map_insert]
    rw [this] at hp
    exact (Option.some.inj hp).symm
  subst hpeq
  have hguard : ¬ ((0 : Nat) + 1 > (search_init start).max_length) := by simp [search_init]
  rw [if_neg hguard] at heq
  have heff := visit_effect_fold rooms ⟨start, [], 0, calc_heuristic start⟩
    (paths_of rooms (point_id start)) [0, 1, 2, 3] (by intro k hk; simp at hk; omega)
    { search_init start with points :=
        (search_init start).points.erase ⟨calc_heuristic start, point_id start⟩ }
  have hrec := visit_fold_records rooms ⟨start, [], 0, calc_heuristic start⟩
    (paths_of rooms (point_id start)) [0, 1, 2, 3] (by intro k hk; simp at hk; omega) i
    (by simp; omega) hsi (by simp only [hsb]; exact hbb)
    { search_init start with points :=
        (search_init start).points.erase ⟨calc_heuristic start, point_id start⟩ }
  rw [← heq] at heff hrec
  simp only [hsb] at hrec
  have hnone : ∀ k, k ≠ point_id start → (search_init start).point_data k = none := by
    intro k hk
    simp [search_init, map_insert, hk]
  have same_dir : ∀ k, k < 4 → in_bounds (start + dir_at k) = true →
      point_id (start + dir_at k) = point_id b → k = i := by
    intro k hk hbk hidk
    have hcoord := point_id_inj _ _ hbk hbb hidk
    rw [← hsb] at hcoord
    exact dir_at_inj k i hk hi (add_left_cancel_vec _ _ _ hcoord)
  have hzero : st1.point_data (point_id zero) = none := by
    cases hz : st1.point_data (point_id zero) with
    | none => rfl
    | some a1 =>
      obtain ⟨k, _, hk, _, hbk, hidk, _⟩ := heff.new_node _ a1 (hnone _ hkz) hz
      exact absurd (point_id_inj _ _ hbk (by decide) hidk) (hdiag k hk)
  refine ⟨?_, hzero, ?_, ?_, ?_⟩
  · rcases heff.max_change with hm | ⟨_, hs, _⟩
    · rw [hm]; rfl
    · exact absurd hzero hs
  · cases hb1 : st1.point_data (point_id b) with
    | none => exact absurd hb1 hrec
    | some nb =>
      obtain ⟨k, extra, hk, _, hbk, hidk, hnb, hex, _⟩ := heff.new_node _ nb (hnone _ hkb) hb1
      have hki := same_dir k hk hbk hidk
      subst hki
      refine ⟨nb, rfl, by rw [hnb]; rfl, ?_⟩
      intro d hd
      rw [hnb] at hd
      rcases List.mem_cons.mp hd with hd | hd
      · exact hd
      · obtain ⟨m, hm, hdm, hbm, hidm, _⟩ := hex d hd
        rw [hdm, same_dir m hm hbm hidm]
  · cases hb1 : st1.point_data (point_id b) with
    | none => exact absurd hb1 hrec
    | some nb =>
      obtain ⟨k, extra, hk, _, hbk, hidk, _, _, hq⟩ := heff.new_node _ nb (hnone _ hkb) hb1
      have hki := same_dir k hk hbk hidk
      subst hki
      rw [hsb, hhb] at hq
      exact hq
  · intro q hq
    rcases heff.new_queued q hq with hold | ⟨_, k, hk, _, hqe⟩
    · simp [search_init] at hold
    · by_cases hki : k = i
      · subst hki
        left
        rw [hqe, hsb, hhb]
      · right
        rw [hqe]
        exact hho k hk hki

/-- The second pass of that search pops the node of `b`, whose room opens towards the
origin, and leaves the nodes that fix the route. -/
theorem diagonal_pass2 (t : Nat) (rooms : Nat → Option room_data) (start b : ivec2) (i j : Nat)
    (hj : j < 4) (hbz : b + dir_at j = zero) (hbb : in_bounds b = true)
    (hbj : has_path (paths_of rooms (point_id b)) j = true)
    (st1 st2 : search_state) (hinv : search_inv rooms start st1)
    (hmax : st1.max_length = 64) (hzero : st1.point_data (point_id zero) = none)
    (hnb : ∃ nb, st1.point_data (point_id b) = some nb ∧ nb.path_length = 1
      ∧ ∀ d ∈ nb.parent_dir, d = -(dir_at i))
    (hqb : (⟨1, point_id b⟩ : queued_point) ∈ st1.points)
    (hqs : ∀ q ∈ st1.points, q = ⟨1, point_id b⟩ ∨ 5 ≤ q.heuristic)
    (h : search_step t rooms st1 = some st2) :
    route_fixed st2.point_data (-(dir_at j)) (-(dir_at i)) ∨ b ≠ -(dir_at j) := by
  by_cases hbeq : b = -(dir_at j)
  swap
  · exact Or.inr hbeq
  left
  obtain ⟨top, p, hmem, hmin, hp, heq⟩ := search_step_eq t rooms start st1 st2 hinv h
  obtain ⟨nb, hnb1, hlen, hall⟩ := hnb
  have htop : top = ⟨1, point_id b⟩ := by
    rcases hqs top hmem with ht | ht
    · exact ht
    · have := hmin _ hqb
      simp only [] at this
      omega
  subst htop
  simp only [] at hp
  rw [hnb1] at hp
  have hpeq := Option.some.inj hp
  subst hpeq
  have hpos : nb.position = b :=
    point_id_inj _ _ (hinv.key_pos _ nb hnb1).1 hbb (hinv.key_pos _ nb hnb1).2
  have hguard : ¬ (nb.path_length + 1 > st1.max_length) := by omega
  rw [if_neg hguard, hpos] at heq
  have heff := visit_effect_fold rooms nb (paths_of rooms (point_id b)) [0, 1, 2, 3]
    (by intro k hk; simp at hk; omega)
    { st1 with points := st1.points.erase ⟨1, point_id b⟩ }
  have hrec := visit_fold_records rooms nb (paths_of rooms (point_id b)) [0, 1, 2, 3]
    (by intro k hk; simp at hk; omega) j (by simp; omega) hbj
    (by rw [hpos, hbz]; decide) { st1 with points := st1.points.erase ⟨1, point_id b⟩ }
  rw [← heq] at heff hrec
  rw [hpos, hbz] at hrec
  constructor
  · obtain ⟨extra, he, hlt, _⟩ := heff.old_node _ nb hnb1
    have hex : extra = [] := by
      by_contra hne
      have := hlt hne
      omega
    subst hex
    rw [← hbeq]
    exact ⟨_, he, hlen, by simpa using hall⟩
  · cases ho : st2.point_data (point_id zero) with
    | none => exact absurd ho hrec
    | some o =>
      obtain ⟨k, extra, hk, _, hbk, hidk, hoe, _, _⟩ := heff.new_node _ o hzero ho
      rw [hpos] at hbk hidk hoe
      have hcoord := point_id_inj _ _ hbk (by decide) hidk
      rw [← hbz] at hcoord
      have hkj := dir_at_inj k j hk hj (add_left_cancel_vec _ _ _ hcoord)
      subst hkj
      exact ⟨o, extra, rfl, by rw [hoe]⟩

/-- The route from a start diagonal to the origin when the neighbour `-dir_at j` has
heuristic `1` and every other neighbour of the start at least `5`. -/
theorem diagonal_route (tie : Nat → Nat) (g : map_state) (i j : Nat) (hi : i < 4) (hj : j < 4)
    (hsb : g.position + dir_at i = -(dir_at j)) (hbz : -(dir_at j) + dir_at j = zero)
    (hbs : in_bounds g.position = true) (hbb : in_bounds (-(dir_at j)) = true)
    (hsz : g.position ≠ zero) (hbne : -(dir_at j) ≠ g.position)
    (hdiag : ∀ k, k < 4 → g.position + dir_at k ≠ zero)
    (hdiag2 : ∀ k, k < 4 → zero + -(dir_at k) ≠ g.position)
    (hzb : zero + -(dir_at j) = -(dir_at j))
    (hsi : has_path (paths_of g.rooms (point_id g.position)) i = true)
    (hbj : has_path (paths_of g.rooms (point_id (-(dir_at j)))) j = true)
    (hhb : point_heuristic g.rooms (-(dir_at j)) = 1)
    (hho : ∀ k, k < 4 → k ≠ i → 5 ≤ point_heuristic g.rooms (g.position + dir_at k)) :
    find_path tie g = some { g with portal_path := [-(dir_at j), -(dir_at i)] } := by
  have hinv0 := search_init_inv g.rooms g.position hbs
  have hm0 := search_init_measure g.position hbs
  simp only [search_fuel] at hm0
  cases hs1 : search_step (tie 160801) g.rooms (search_init g.position) with
  | none =>
    have := (search_step_none_iff _ _ _).mp hs1
    simp [search_init] at this
  | some st1 =>
    obtain ⟨hmax, hzero, hnb, hqb, hqs⟩ := diagonal_pass1 _ g.rooms g.position (-(dir_at j)) i
      hi hsb hbs hbb hsz hbne hdiag hsi hhb hho st1 hs1
    obtain ⟨hinv1, _, hm1, _⟩ := search_step_inv _ g.rooms g.position _ st1 hinv0 hs1
    cases hs2 : search_step (tie 160800) g.rooms st1 with
    | none =>
      have := (search_step_none_iff _ _ _).mp hs2
      rw [this] at hqb
      simp at hqb
    | some st2 =>
      have hfix2 := (diagonal_pass2 _ g.rooms g.position (-(dir_at j)) i j hj hbz hbb hbj
        st1 st2 hinv1 hmax hzero hnb hqb hqs hs2).resolve_right (fun h => h rfl)
      obtain ⟨hinv2, _, hm2, _⟩ := search_step_inv _ g.rooms g.position _ st2 hinv1 hs2
      obtain ⟨r, hr, hinvr, hfixr, _, _⟩ := search_total_with tie g.rooms g.position
        (fun st => route_fixed st.point_data (-(dir_at j)) (-(dir_at i)))
        (fun t st st' hinv hfix h =>
          route_fixed_step t g.rooms g.position (-(dir_at j)) i hi hsb hbs hbb st st' hinv hfix h)
        160800 st2 hinv2 hfix2 (by omega)
      have hsearch : search tie g.rooms search_fuel (search_init g.position) = some r := by
        show search tie g.rooms (160800 + 1 + 1) (search_init g.position) = _
        rw [search_succ, hs1]
        simp only []
        rw [search_succ, hs2]
        exact hr
      obtain ⟨o, ho, hrec⟩ := route_fixed_reconstruct g.rooms g.position (-(dir_at j)) i r
        hinvr hsb hbs hbb hsz hbne hdiag2 hzb hfixr 160800
      have hrec2 : reconstruct r.point_data search_fuel zero o []
          = some [-(dir_at j), -(dir_at i)] := hrec
      simp only [find_path, hsz, if_false, hsearch, ho, hrec2]

/-- C6: with the player diagonally adjacent to the origin at `-dir_at i - dir_at j`,
its room open towards both intermediate rooms, both intermediate rooms in the table
with an open passage to the origin, the one at `-dir_at i` carrying the avoid
annotation and the one at `-dir_at j` not, `find_path` returns the two-step route
through the room at `-dir_at j`. -/
theorem find_path_avoid_preference (tie : Nat → Nat) (g : map_state) (i j : Nat)
    (hi : i < 4) (hj : j < 4) (hperp : i % 2 ≠ j % 2)
    (hpos : g.position = -(dir_at i) + -(dir_at j)) (ra rb : room_data)
    (hra : g.rooms (point_id (-(dir_at i))) = some ra)
    (hrb : g.rooms (point_id (-(dir_at j))) = some rb)
    (hsi : has_path (paths_of g.rooms (point_id g.position)) i = true)
    (_hsj : has_path (paths_of g.rooms (point_id g.position)) j = true)
    (_hao : has_path ra.paths i = true) (hbo : has_path rb.paths j = true)
    (havoid : ra.flags &&& room_flag_avoid ≠ 0) (hplain : rb.flags &&& room_flag_avoid = 0) :
    find_path tie g = some { g with portal_path := [-(dir_at j), -(dir_at i)] } := by
  obtain ⟨h1, h2, _, h4, h5, h6, h7, _, h9, h10, h11, h12, h13, h14, h15⟩ :=
    diagonal_facts i j hi hj hperp
  apply diagonal_route tie g i j hi hj
  · rw [hpos]; exact h1
  · exact h2
  · rw [hpos]; exact h5
  · exact h6
  · rw [hpos]; exact h7
  · rw [hpos]; exact h9
  · rw [hpos]; exact h10
  · rw [hpos]; exact h11
  · exact h4
  · exact hsi
  · simpa [paths_of, hrb] using hbo
  · exact point_heuristic_plain g.rooms _ rb hrb hplain h12
  · intro k hk hki
    rw [hpos]
    by_cases hkj : k = j
    · subst hkj
      rw [h14, point_heuristic_avoid g.rooms _ ra hra havoid h13]
    · exact point_heuristic_far g.rooms _ (h15 k hk hki hkj)

theorem find_path_avoid_preference_witness :
    ((2 : Nat) < 4 ∧ (3 : Nat) < 4 ∧ 2 % 2 ≠ 3 % 2
        ∧ avoid_state.position = -(dir_at 2) + -(dir_at 3)
        ∧ avoid_state.rooms (point_id (-(dir_at 2))) = some ⟨⟨0, 1⟩, 15, room_flag_avoid, true⟩
        ∧ avoid_state.rooms (point_id (-(dir_at 3))) = some ⟨⟨1, 0⟩, 15, 0, false⟩
        ∧ has_path (paths_of avoid_state.rooms (point_id avoid_state.position)) 2 = true
        ∧ has_path (paths_of avoid_state.rooms (point_id avoid_state.position)) 3 = true
        ∧ has_path (15 : Nat) 2 = true ∧ has_path (15 : Nat) 3 = true
        ∧ room_flag_avoid &&& room_flag_avoid ≠ 0 ∧ 0 &&& room_flag_avoid = 0)
      ∧ find_path first_tie avoid_state
          = some { avoid_state with portal_path := [⟨1, 0⟩, ⟨0, 1⟩] } :=
  ⟨⟨by decide, by decide, by decide, by decide, by decide, by decide, by decide, by decide,
      by decide, by decide, by decide, by decide⟩,
    find_path_avoid_preference first_tie avoid_state 2 3 (by decide) (by decide) (by decide)
      (by decide) ⟨⟨0, 1⟩, 15, room_flag_avoid, true⟩ ⟨⟨1, 0⟩, 15, 0, false⟩ (by decide)
      (by decide) (by decide) (by decide) (by decide) (by decide) (by decide) (by decide)⟩

/-! ## Discovery only narrows -/

theorem narrows_refl (rooms : Nat → Option room_data) : narrows rooms rooms :=
  fun _ r h => ⟨r, h, rfl, rfl, rfl, fun _ hb => hb⟩

theorem narrows_trans (a b c : Nat → Option room_data) (h1 : narrows a b) (h2 : narrows b c) :
    narrows a c := by
  intro k r hr
  obtain ⟨r1, hr1, p1, f1, v1, b1⟩ := h1 k r hr
  obtain ⟨r2, hr2, p2, f2, v2, b2⟩ := h2 k r1 hr1
  exact ⟨r2, hr2, p2.trans p1, f2.trans f1, v2.trans v1, fun b hb => b1 b (b2 b hb)⟩

theorem narrows_touch (rooms : Nat → Option room_data) (k : Nat) :
    narrows rooms (touch_room rooms k) := by
  unfold touch_room
  cases h : rooms k with
  | some r => exact narrows_refl _
  | none =>
    intro j r hj
    have hjk : j ≠ k := by
      intro e
      rw [e, h] at hj
      cases hj
    exact ⟨r, by simp only [map_insert_other _ _ _ _ hjk]; exact hj, rfl, rfl, rfl, fun _ hb => hb⟩

theorem surround_step_other (pos : ivec2) (p : Nat) (rooms : Nat → Option room_data)
    (i k : Nat) (h : k ≠ point_id (pos + offset_at i)) :
    surround_step pos p rooms i k = rooms k := by
  unfold surround_step
  split
  · rfl
  · cases hf : rooms (point_id (pos + offset_at i)) with
    | none => exact map_insert_other _ _ _ _ h
    | some found =>
      dsimp only
      split
      · rfl
      · exact map_insert_other _ _ _ _ h

theorem surround_step_out (pos : ivec2) (p : Nat) (rooms : Nat → Option room_data) (i : Nat)
    (h : in_bounds (pos + offset_at i) = false) : surround_step pos p rooms i = rooms := by
  simp [surround_step, h]

/-- The record one pass of the loop leaves under the key of its own neighbour. -/
theorem surround_step_self (pos : ivec2) (p : Nat) (rooms : Nat → Option room_data) (i : Nat)
    (h : in_bounds (pos + offset_at i) = true) :
    surround_step pos p rooms i (point_id (pos + offset_at i)) =
      match rooms (point_id (pos + offset_at i)) with
      | some found =>
        if (offset_at i).x != 0 && (offset_at i).y != 0 then some found
        else some ⟨found.position,
          found.paths &&& surround_open p (offset_at i) (pos + offset_at i),
          found.flags, found.visited⟩
      | none => some ⟨pos + offset_at i, surround_open p (offset_at i) (pos + offset_at i),
          0, false⟩ := by
  unfold surround_step
  simp only [h, Bool.not_true, Bool.false_eq_true, if_false]
  cases hf : rooms (point_id (pos + offset_at i)) with
  | none => simp [map_insert_same]
  | some found =>
    simp only []
    split
    · exact hf
    · exact map_insert_same _ _ _

theorem narrows_step (pos : ivec2) (p : Nat) (rooms : Nat → Option room_data) (i : Nat) :
    narrows rooms (surround_step pos p rooms i) := by
  intro k r hr
  by_cases hk : k = point_id (pos + offset_at i)
  · subst hk
    cases hb : in_bounds (pos + offset_at i) with
    | false =>
      rw [surround_step_out _ _ _ _ hb]
      exact ⟨r, hr, rfl, rfl, rfl, fun _ h => h⟩
    | true =>
      rw [surround_step_self _ _ _ _ hb, hr]
      simp only []
      split
      · exact ⟨r, rfl, rfl, rfl, rfl, fun _ h => h⟩
      · refine ⟨_, rfl, rfl, rfl, rfl, ?_⟩
        intro b hbit
        simp only [Nat.testBit_land, Bool.and_eq_true] at hbit
        exact hbit.1
  · rw [surround_step_other _ _ _ _ _ hk]
    exact ⟨r, hr, rfl, rfl, rfl, fun _ h => h⟩

theorem narrows_fold (pos : ivec2) (p : Nat) (l : List Nat) :
    ∀ rooms : Nat → Option room_data, narrows rooms (l.foldl (surround_step pos p) rooms) := by
  induction l with
  | nil => intro rooms; exact narrows_refl _
  | cons i is ih =>
    intro rooms
    rw [List.foldl_cons]
    exact narrows_trans _ _ _ (narrows_step pos p rooms i) (ih _)

theorem narrows_add_surrounding (g : map_state) (pos : ivec2) :
    narrows g.rooms (add_surrounding_rooms g pos).rooms :=
  narrows_trans _ _ _ (narrows_touch g.rooms (point_id pos)) (narrows_fold pos _ _ _)

/-- C11: after any sequence of `add_surrounding_rooms` calls, every room that was in the
table before is still there, with the same position, annotation and visited flag, and
every passage bit it has afterwards it had before. -/
theorem add_surrounding_rooms_narrows (g : map_state) (calls : List ivec2) :
    ∀ k r, g.rooms k = some r →
      ∃ r1, (calls.foldl add_surrounding_rooms g).rooms k = some r1
        ∧ r1.position = r.position ∧ r1.flags = r.flags ∧ r1.visited = r.visited
        ∧ ∀ b, r1.paths.testBit b = true → r.paths.testBit b = true := by
  have key : ∀ (l : List ivec2) (s : map_state),
      narrows s.rooms (l.foldl add_surrounding_rooms s).rooms := by
    intro l
    induction l with
    | nil => intro s; exact narrows_refl _
    | cons c cs ih =>
      intro s
      rw [List.foldl_cons]
      exact narrows_trans _ _ _ (narrows_add_surrounding s c) (ih _)
  exact key calls g

/-! ## Discovery around a coordinate -/

theorem offset_at_ne_zero (i : Nat) (hi : i < 8) : offset_at i ≠ zero := by
  interval_cases i <;> decide

theorem offset_at_inj (i j : Nat) (hi : i < 8) (hj : j < 8) (h : offset_at i = offset_at j) :
    i = j := by
  interval_cases i <;> interval_cases j <;> first | rfl | (exact absurd h (by decide))

theorem dir_at_offset (i : Nat) (hi : i < 4) : ∃ j, j < 8 ∧ offset_at j = dir_at i := by
  interval_cases i
  · exact ⟨6, by decide, by decide⟩
  · exact ⟨4, by decide, by decide⟩
  · exact ⟨1, by decide, by decide⟩
  · exact ⟨3, by decide, by decide⟩

theorem add_zero_vec (p : ivec2) : p + zero = p := by
  apply ivec2_eq <;> simp [zero]

theorem add_offset_ne (pos : ivec2) (i : Nat) (hi : i < 8) : pos + offset_at i ≠ pos := by
  intro h
  have h2 : pos + offset_at i = pos + zero := by rw [h, add_zero_vec]
  exact offset_at_ne_zero i hi (add_left_cancel_vec _ _ _ h2)

theorem surround_step_keep (pos : ivec2) (p : Nat) (rooms : Nat → Option room_data)
    (i k : Nat)
    (h : ¬(in_bounds (pos + offset_at i) = true ∧ k = point_id (pos + offset_at i))) :
    surround_step pos p rooms i k = rooms k := by
  cases hb : in_bounds (pos + offset_at i) with
  | false => rw [surround_step_out _ _ _ _ hb]
  | true => exact surround_step_other _ _ _ _ _ (fun e => h ⟨hb, e⟩)

theorem surround_fold_other (pos : ivec2) (p : Nat) (k : Nat) (l : List Nat)
    (h : ∀ i ∈ l, ¬(in_bounds (pos + offset_at i) = true ∧ k = point_id (pos + offset_at i))) :
    ∀ rooms : Nat → Option room_data, (l.foldl (surround_step pos p) rooms) k = rooms k := by
  induction l with
  | nil => intro rooms; rfl
  | cons j js ih =>
    intro rooms
    rw [List.foldl_cons, ih (fun i hi => h i (List.mem_cons_of_mem _ hi))]
    exact surround_step_keep _ _ _ _ _ (h j (List.mem_cons_self _ _))

theorem surround_key_ne (pos : ivec2) (i j : Nat) (hi : i < 8) (hj : j < 8) (hij : j ≠ i)
    (hb : in_bounds (pos + offset_at i) = true) :
    ¬(in_bounds (pos + offset_at j) = true
      ∧ point_id (pos + offset_at i) = point_id (pos + offset_at j)) := by
  rintro ⟨hbj, e⟩
  have h1 := point_id_inj _ _ hb hbj e
  exact hij (offset_at_inj j i hj hi (add_left_cancel_vec _ _ _ h1).symm)

theorem surround_step_congr (pos : ivec2) (p : Nat) (rooms rooms1 : Nat → Option room_data)
    (i : Nat) (hb : in_bounds (pos + offset_at i) = true)
    (h : rooms1 (point_id (pos + offset_at i)) = rooms (point_id (pos + offset_at i))) :
    surround_step pos p rooms1 i (point_id (pos + offset_at i))
      = surround_step pos p rooms i (point_id (pos + offset_at i)) := by
  rw [surround_step_self _ _ _ _ hb, surround_step_self _ _ _ _ hb, h]

theorem surround_fold_at (pos : ivec2) (p : Nat) (i : Nat) (hi : i < 8)
    (hb : in_bounds (pos + offset_at i) = true) (l : List Nat) (hl : ∀ j ∈ l, j < 8)
    (hnd : l.Nodup) (him : i ∈ l) :
    ∀ rooms : Nat → Option room_data,
      (l.foldl (surround_step pos p) rooms) (point_id (pos + offset_at i))
        = surround_step pos p rooms i (point_id (pos + offset_at i)) := by
  induction l with
  | nil => exact absurd him (List.not_mem_nil _)
  | cons j js ih =>
    intro rooms
    rw [List.foldl_cons]
    have hnd2 := List.nodup_cons.mp hnd
    by_cases hji : j = i
    · subst hji
      apply surround_fold_other
      intro a ha
      have hne : a ≠ j := fun e => hnd2.1 (e ▸ ha)
      exact surround_key_ne pos j a hi (hl a (List.mem_cons_of_mem _ ha)) hne hb
    · have him2 : i ∈ js := by
        rcases List.mem_cons.mp him with e | e
        · exact absurd e.symm hji
        · exact e
      rw [ih (fun a ha => hl a (List.mem_cons_of_mem _ ha)) hnd2.2 him2]
      apply surround_step_congr _ _ _ _ _ hb
      exact surround_step_keep _ _ _ _ _
        (surround_key_ne pos i j hi (hl j (List.mem_cons_self _ _)) hji hb)

theorem touch_room_other (rooms : Nat → Option room_data) (k j : Nat) (h : j ≠ k) :
    touch_room rooms k j = rooms j := by
  unfold touch_room
  cases rooms k with
  | none => exact map_insert_other _ _ _ _ h
  | some r => rfl

theorem touch_room_some (rooms : Nat → Option room_data) (k : Nat) (r : room_data)
    (h : rooms k = some r) : touch_room rooms k = rooms := by
  simp [touch_room, h]

theorem touch_room_none (rooms : Nat → Option room_data) (k : Nat) (h : rooms k = none) :
    touch_room rooms k k = some default_room := by
  simp [touch_room, h, map_insert_same]

/-- What the loop leaves under the key of neighbour number `i`. -/
theorem add_surrounding_at (g : map_state) (pos : ivec2) (hp : in_bounds pos = true) (i : Nat)
    (hi : i < 8) (hb : in_bounds (pos + offset_at i) = true) :
    (add_surrounding_rooms g pos).rooms (point_id (pos + offset_at i)) =
      match g.rooms (point_id (pos + offset_at i)) with
      | some found =>
        if (offset_at i).x != 0 && (offset_at i).y != 0 then some found
        else some ⟨found.position,
          found.paths &&& surround_open (paths_of g.rooms (point_id pos)) (offset_at i)
            (pos + offset_at i),
          found.flags, found.visited⟩
      | none => some ⟨pos + offset_at i,
          surround_open (paths_of g.rooms (point_id pos)) (offset_at i) (pos + offset_at i),
          0, false⟩ := by
  have hne : point_id (pos + offset_at i) ≠ point_id pos := fun e =>
    add_offset_ne pos i hi (point_id_inj _ _ hb hp e)
  simp only [add_surrounding_rooms]
  rw [surround_fold_at pos _ i hi hb _ (by decide) (by decide) (by
    interval_cases i <;> decide), surround_step_self _ _ _ _ hb, touch_room_other _ _ _ hne]

/-- The loop leaves the record of the centre as the first statement left it. -/
theorem add_surrounding_self (g : map_state) (pos : ivec2) (hp : in_bounds pos = true) :
    (add_surrounding_rooms g pos).rooms (point_id pos)
      = touch_room g.rooms (point_id pos) (point_id pos) := by
  simp only [add_surrounding_rooms]
  apply surround_fold_other
  rintro i hi ⟨hb, e⟩
  have hi8 : i < 8 := by
    simp only [List.mem_cons, List.mem_singleton, List.not_mem_nil, or_false] at hi
    omega
  exact add_offset_ne pos i hi8 (point_id_inj _ _ hb hp e.symm)

/-- Keys that belong neither to the centre nor to an in-bounds neighbour are untouched. -/
theorem add_surrounding_other (g : map_state) (pos : ivec2) (k : Nat) (hk : k ≠ point_id pos)
    (h : ∀ i, i < 8 → in_bounds (pos + offset_at i) = true → k ≠ point_id (pos + offset_at i)) :
    (add_surrounding_rooms g pos).rooms k = g.rooms k := by
  simp only [add_surrounding_rooms]
  rw [surround_fold_other, touch_room_other _ _ _ hk]
  rintro i hi ⟨hb, e⟩
  have hi8 : i < 8 := by
    simp only [List.mem_cons, List.mem_singleton, List.not_mem_nil, or_false] at hi
    omega
  exact h i hi8 hb e

theorem narrows_keeps (rooms rooms1 : Nat → Option room_data) (h : narrows rooms rooms1) :
    keeps_keys rooms rooms1 := by
  intro k r hr
  obtain ⟨r1, h1, _⟩ := h k r hr
  exact ⟨r1, h1⟩

theorem keeps_keys_refl (rooms : Nat → Option room_data) : keeps_keys rooms rooms :=
  fun _ r h => ⟨r, h⟩

theorem keeps_keys_trans (a b c : Nat → Option room_data) (h1 : keeps_keys a b)
    (h2 : keeps_keys b c) : keeps_keys a c := by
  intro k r hr
  obtain ⟨r1, hr1⟩ := h1 k r hr
  exact h2 k r1 hr1

theorem keeps_keys_insert (rooms : Nat → Option room_data) (k : Nat) (v : room_data) :
    keeps_keys rooms (map_insert rooms k v) := by
  intro j r hr
  by_cases hj : j = k
  · exact ⟨v, by rw [hj, map_insert_same]⟩
  · exact ⟨r, by rw [map_insert_other _ _ _ _ hj]; exact hr⟩

theorem keeps_keys_touch (rooms : Nat → Option room_data) (k : Nat) :
    keeps_keys rooms (touch_room rooms k) :=
  narrows_keeps _ _ (narrows_touch rooms k)

/-! ## The key handler: invariant of the reachable states -/

theorem find_path_frame (tie : Nat → Nat) (g m : map_state) (h : find_path tie g = some m) :
    m = { g with portal_path := m.portal_path } := by
  unfold find_path at h
  split at h
  · cases h; rfl
  · split at h
    · cases h
    · split at h
      · cases h; rfl
      · split at h
        · cases h
        · cases h; rfl

theorem find_path_total (tie : Nat → Nat) (g : map_state) (hb : in_bounds g.position = true) :
    ∃ route, find_path tie g = some { g with portal_path := route } := by
  by_cases hz : g.position = zero
  · exact ⟨[], by simp [find_path, hz]⟩
  · obtain ⟨_, route, _, _, _, h, _⟩ := find_path_spec tie g hb hz
    exact ⟨route, h⟩

theorem arrow_blocked_eq (p : ivec2) (i : Nat) (hp : in_bounds p = true) (hi : i < 4) :
    arrow_blocked p i = !in_bounds (p + dir_at i) := by
  have hp2 := (in_bounds_iff p).mp hp
  rw [Bool.eq_iff_iff]
  simp only [Bool.not_eq_true', ← Bool.not_eq_true, in_bounds_iff]
  interval_cases i <;>
    simp only [arrow_blocked, dir_at, directions, List.getD, List.get?, Option.getD, south,
      east, north, west, add_x, add_y, decide_eq_true_eq] <;> omega

theorem push_path_size_le (g : map_state) (p : ivec2) (d : Nat) (h : g.path_size ≤ 10) :
    (push_path g p d).path_size ≤ 10 := by
  unfold push_path
  split
  · exact h
  · show (g.path_size + 1) % 4294967296 ≤ 10
    omega

theorem push_path_head_lt (g : map_state) (p : ivec2) (d : Nat) (h : g.path_head < 10) :
    (push_path g p d).path_head < 10 := by
  unfold push_path
  split
  · show (if g.path_head = 9 then 0 else (g.path_head + 1) % 4294967296) < 10
    split <;> omega
  · exact h

theorem push_path_head_zero (g : map_state) (p : ivec2) (d : Nat) (hs : g.path_size ≤ 10)
    (h : g.path_size < 10 → g.path_head = 0) :
    (push_path g p d).path_size < 10 → (push_path g p d).path_head = 0 := by
  unfold push_path
  split
  · rename_i h10
    intro h2
    change g.path_size < 10 at h2
    omega
  · intro h2
    change (g.path_size + 1) % 4294967296 < 10 at h2
    apply h
    omega

theorem push_path_frame (g : map_state) (p : ivec2) (d : Nat) :
    (push_path g p d).rooms = g.rooms ∧ (push_path g p d).position = g.position
      ∧ (push_path g p d).pick_direction = g.pick_direction
      ∧ (push_path g p d).portal_path = g.portal_path := by
  unfold push_path
  split <;> exact ⟨rfl, rfl, rfl, rfl⟩

/-- The entry `render_last_path` reads last after a `push_path` is the pushed one. -/
theorem push_path_newest (g : map_state) (p : ivec2) (d : Nat) (hs : g.path_size ≤ 10)
    (hh : g.path_head < 10) (hz : g.path_size < 10 → g.path_head = 0) :
    (read_path (push_path g p d)).getLast? = some (p, d) := by
  unfold push_path
  split
  · rename_i h10
    simp only [read_path, h10]
    rw [show List.range 10 = List.range 9 ++ [9] from rfl, List.map_append, List.map_singleton,
      List.getLast?_concat]
    simp only [path_index, slot_set]
    split <;> split <;> simp_all <;> omega
  · rename_i h10
    have hlt : g.path_size < 10 := by omega
    have h0 := hz hlt
    simp only [read_path]
    rw [show (g.path_size + 1) % 4294967296 = g.path_size + 1 by omega, List.range_succ,
      List.map_append, List.map_singleton, List.getLast?_concat]
    simp only [path_index, slot_set, h0]
    have e : (g.path_size + 0) % 4294967296 = g.path_size := by omega
    simp only [e]
    split
    · omega
    · simp

theorem map_inv_of_eq (m m1 : map_state) (h : map_inv m) (hr : m1.rooms = m.rooms)
    (hp : m1.position = m.position) (hd : m1.pick_direction = m.pick_direction)
    (hh : m1.path_head = m.path_head) (hs : m1.path_size = m.path_size) :
    map_inv m1 := by
  refine ⟨?_, ?_, ?_, ?_, ?_, ?_, ?_⟩
  · rw [hs]; exact h.size_le
  · rw [hh]; exact h.head_lt
  · rw [hs, hh]; exact h.head_zero
  · rw [hd, hp]; exact h.pick_pos
  · rw [hp]; exact h.bounds
  · rw [hd, hp, hr]; exact h.room
  · rw [hd, hp, hr]; exact h.around

theorem map_inv_rooms (m : map_state) (rooms1 : Nat → Option room_data)
    (hk : keeps_keys m.rooms rooms1) (h : map_inv m) : map_inv { m with rooms := rooms1 } := by
  refine ⟨h.size_le, h.head_lt, h.head_zero, h.pick_pos, h.bounds, ?_, ?_⟩
  · intro hd
    obtain ⟨r, hr⟩ := h.room hd
    exact hk _ r hr
  · intro hd i hi hb
    obtain ⟨r, hr⟩ := h.around hd i hi hb
    exact hk _ r hr

theorem map_inv_reset (m : map_state) : map_inv (reset_map m) := by
  refine ⟨?_, ?_, ?_, ?_, ?_, ?_, ?_⟩
  · show (0 : Nat) ≤ 10
    omega
  · show (0 : Nat) < 10
    omega
  · intro _; rfl
  · intro _; rfl
  · show in_bounds ⟨0, 0⟩ = true
    decide
  · intro hd; cases hd
  · intro hd; cases hd

theorem touch_room_self (rooms : Nat → Option room_data) (k : Nat) :
    ∃ r, touch_room rooms k k = some r := by
  cases h : rooms k with
  | none => exact ⟨_, touch_room_none _ _ h⟩
  | some r => exact ⟨r, by rw [touch_room_some _ _ _ h]; exact h⟩

theorem add_surrounding_centre (g : map_state) (pos : ivec2) (hp : in_bounds pos = true) :
    ∃ r, (add_surrounding_rooms g pos).rooms (point_id pos) = some r := by
  rw [add_surrounding_self g pos hp]
  exact touch_room_self _ _

theorem add_surrounding_around (g : map_state) (pos : ivec2) (hp : in_bounds pos = true)
    (i : Nat) (hi : i < 8) (hb : in_bounds (pos + offset_at i) = true) :
    ∃ r, (add_surrounding_rooms g pos).rooms (point_id (pos + offset_at i)) = some r := by
  rw [add_surrounding_at g pos hp i hi hb]
  cases g.rooms (point_id (pos + offset_at i)) with
  | none => exact ⟨_, rfl⟩
  | some found =>
    dsimp only
    split
    · exact ⟨_, rfl⟩
    · exact ⟨_, rfl⟩

/-- After `add_surrounding_rooms` at the player's coordinate the table holds the
player's room and its in-bounds neighbours. -/
theorem map_inv_surround (m : map_state) (hs : m.path_size ≤ 10) (hh : m.path_head < 10)
    (hz : m.path_size < 10 → m.path_head = 0) (hpz : m.pick_direction = true → m.position = zero)
    (hb : in_bounds m.position = true) :
    map_inv (add_surrounding_rooms m m.position) :=
  ⟨hs, hh, hz, hpz, hb, fun _ => add_surrounding_centre m m.position hb,
    fun _ i hi hbi => add_surrounding_around m m.position hb i hi hbi⟩

theorem map_inv_init (m : map_state) (paths : Nat) (h : map_inv m)
    (hp : m.pick_direction = true) : map_inv (init_map m paths) := by
  have hz : m.position = zero := h.pick_pos hp
  have hframe : ∀ s : map_state, add_room s ⟨0, 0⟩ paths room_flag_portal true
      = { s with rooms := (add_room s ⟨0, 0⟩ paths room_flag_portal true).rooms } := by
    intro s
    unfold add_room
    split <;> rfl
  have hinv := map_inv_surround (add_room m ⟨0, 0⟩ paths room_flag_portal true)
    (by rw [hframe]; exact h.size_le) (by rw [hframe]; exact h.head_lt)
    (by rw [hframe]; exact h.head_zero) (by rw [hframe]; intro _; exact hz)
    (by rw [hframe]; exact h.bounds)
  have hpos : (add_room m ⟨0, 0⟩ paths room_flag_portal true).position = ⟨0, 0⟩ := by
    rw [hframe]; exact hz
  rw [hpos] at hinv
  refine ⟨hinv.size_le, hinv.head_lt, hinv.head_zero, ?_, hinv.bounds, ?_, ?_⟩
  · intro hd; cases hd
  · intro _
    have e : (init_map m paths).position = ⟨0, 0⟩ := hpos
    rw [e]
    exact add_surrounding_centre (add_room m ⟨0, 0⟩ paths room_flag_portal true) ⟨0, 0⟩
      (by decide)
  · intro _ i hi hbi
    have e : (init_map m paths).position = ⟨0, 0⟩ := hpos
    rw [e] at hbi ⊢
    exact add_surrounding_around (add_room m ⟨0, 0⟩ paths room_flag_portal true) ⟨0, 0⟩
      (by decide) i hi hbi

theorem find_path_core (tie : Nat → Nat) (g m : map_state) (h : find_path tie g = some m) :
    m.rooms = g.rooms ∧ m.position = g.position ∧ m.pick_direction = g.pick_direction
      ∧ m.path = g.path ∧ m.path_head = g.path_head ∧ m.path_size = g.path_size := by
  have hf := find_path_frame tie g m h
  refine ⟨?_, ?_, ?_, ?_, ?_, ?_⟩ <;> rw [hf]

theorem DISCARD_map (g g1 : global_type) (h : DISCARD g = some g1) : g1.map = g.map := by
  simp only [DISCARD, Option.some.injEq] at h
  rw [← h]

theorem toggle_flag_inv (g g1 : global_type) (room : room_data) (pid kind : Nat) (action : Int)
    (h : toggle_flag g room pid kind action = some g1) (hinv : map_inv g.map) :
    map_inv g1.map := by
  unfold toggle_flag at h
  split at h
  · rw [DISCARD_map _ _ h]; exact hinv
  · split at h
    · cases h; exact hinv
    · cases h
      exact map_inv_rooms _ _ (keeps_keys_insert _ _ _) hinv

theorem toggle_link_inv (tie : Nat → Nat) (g g1 : global_type) (room : room_data)
    (pid i : Nat) (action : Int) (h : toggle_link tie g room pid i action = some g1)
    (hinv : map_inv g.map) : map_inv g1.map := by
  unfold toggle_link at h
  split at h
  · rw [DISCARD_map _ _ h]; exact hinv
  · dsimp only at h
    split at h
    · cases h
    · split at h
      · rw [DISCARD_map _ _ h]
        exact map_inv_rooms _ _ (keeps_keys_touch _ _) hinv
      · split at h
        · cases h
          exact map_inv_rooms _ _ (keeps_keys_touch _ _) hinv
        · split at h
          · cases h
          · split at h
            · cases h
            · split at h
              · cases h
              · rename_i m hm
                cases h
                obtain ⟨e1, e2, e3, _, e4, e5⟩ := find_path_core _ _ _ hm
                exact map_inv_of_eq _ _
                  (map_inv_rooms _ _
                    (keeps_keys_trans _ _ _ (keeps_keys_touch _ _)
                      (keeps_keys_trans _ _ _ (keeps_keys_insert _ _ _)
                        (keeps_keys_insert _ _ _))) hinv) e1 e2 e3 e4 e5

theorem finish_move_eq (g g1 : global_type) (m2 : map_state) (pos : ivec2) (i : Nat)
    (h : finish_move g m2 pos i = some g1) :
    ∃ dest, m2.rooms (point_id pos) = some dest
      ∧ g1.map.rooms = (add_surrounding_rooms
          { m2 with rooms := map_insert m2.rooms (point_id pos) (visited_room dest) } pos).rooms
      ∧ g1.map.position = m2.position ∧ g1.map.pick_direction = m2.pick_direction
      ∧ g1.map.path = m2.path ∧ g1.map.path_head = m2.path_head
      ∧ g1.map.path_size = m2.path_size ∧ g1.map.portal_path = m2.portal_path := by
  unfold finish_move at h
  split at h
  · cases h
  · rename_i dest hdest
    cases h
    exact ⟨dest, hdest, rfl, rfl, rfl, rfl, rfl, rfl, rfl⟩

theorem finish_move_inv (g g1 : global_type) (m2 : map_state) (i : Nat)
    (h : finish_move g m2 m2.position i = some g1) (hs : m2.path_size ≤ 10)
    (hh : m2.path_head < 10) (hz : m2.path_size < 10 → m2.path_head = 0)
    (hd : m2.pick_direction = false) (hb : in_bounds m2.position = true) :
    map_inv g1.map := by
  obtain ⟨dest, _, e1, e2, e3, _, e4, e5, _⟩ := finish_move_eq g g1 m2 m2.position i h
  refine ⟨?_, ?_, ?_, ?_, ?_, ?_, ?_⟩
  · rw [e5]; exact hs
  · rw [e4]; exact hh
  · rw [e4, e5]; exact hz
  · rw [e3, hd]; intro e; cases e
  · rw [e2]; exact hb
  · intro _
    rw [e1, e2]
    exact add_surrounding_centre _ _ hb
  · intro _ j hj hbj
    rw [e2] at hbj
    rw [e1, e2]
    exact add_surrounding_around _ _ hb j hj hbj

theorem move_player_inv (tie : Nat → Nat) (g g1 : global_type) (room : room_data)
    (i : Nat) (hi : i < 4) (action : Int) (h : move_player tie g room i action = some g1)
    (hinv : map_inv g.map) (hd : g.map.pick_direction = false)
    (hb : arrow_blocked g.map.position i = false) : map_inv g1.map := by
  unfold move_player at h
  split at h
  · rw [DISCARD_map _ _ h]; exact hinv
  · split at h
    · cases h; exact hinv
    · dsimp only at h
      split at h
      · cases h
      · rename_i m2 hm
        obtain ⟨_, e2, e3, _, e4, e5⟩ := find_path_core _ _ _ hm
        obtain ⟨_, hpos, hpick, _⟩ := push_path_frame { g.map with position := g.map.position + dir_at i }
          (g.map.position + dir_at i) (1 <<< opposite i)
        have hb2 : in_bounds (g.map.position + dir_at i) = true := by
          rw [arrow_blocked_eq _ _ hinv.bounds hi] at hb
          simpa using hb
        have hpos2 : m2.position = g.map.position + dir_at i := e2.trans hpos
        rw [← hpos2] at h
        apply finish_move_inv g g1 m2 i h
        · rw [e5]; exact push_path_size_le _ _ _ hinv.size_le
        · rw [e4]; exact push_path_head_lt _ _ _ hinv.head_lt
        · rw [e4, e5]; exact push_path_head_zero _ _ _ hinv.size_le hinv.head_zero
        · rw [e3]; exact hpick.trans hd
        · rw [hpos2]; exact hb2

theorem arrow_key_inv (tie : Nat → Nat) (g g1 : global_type) (room : room_data)
    (pid i : Nat) (hi : i < 4) (action : Int) (mods : Nat)
    (h : arrow_key tie g room pid i action mods = some g1) (hinv : map_inv g.map) :
    map_inv g1.map := by
  unfold arrow_key at h
  split at h
  · rw [DISCARD_map _ _ h]; exact hinv
  · split at h
    · rename_i hpick
      split at h
      · rw [DISCARD_map _ _ h]; exact hinv
      · split at h
        · cases h; exact hinv
        · cases h
          exact map_inv_init _ _ hinv hpick
    · rename_i hpick
      split at h
      · rw [DISCARD_map _ _ h]; exact hinv
      · split at h
        · rw [DISCARD_map _ _ h]; exact hinv
        · rename_i hblk
          split at h
          · exact toggle_link_inv tie g g1 room pid i action h hinv
          · exact move_player_inv tie g g1 room i hi action h hinv (by simpa using hpick)
              (by simpa using hblk)

theorem page_down_key_inv (g g1 : global_type) (room : room_data) (pid : Nat) (action : Int)
    (mods : Nat) (h : page_down_key g room pid action mods = some g1) (hinv : map_inv g.map) :
    map_inv g1.map := by
  unfold page_down_key at h
  repeat' split at h
  all_goals first
    | (rw [DISCARD_map _ _ h]; exact hinv)
    | exact toggle_flag_inv _ g1 room _ _ action h hinv
    | (cases h; exact hinv)
    | (cases h; exact map_inv_of_eq _ _ hinv rfl rfl rfl rfl rfl)

theorem page_up_key_inv (g g1 : global_type) (room : room_data) (pid : Nat) (action : Int)
    (mods : Nat) (h : page_up_key g room pid action mods = some g1) (hinv : map_inv g.map) :
    map_inv g1.map := by
  unfold page_up_key at h
  repeat' split at h
  all_goals first
    | (rw [DISCARD_map _ _ h]; exact hinv)
    | exact toggle_flag_inv _ g1 room _ _ action h hinv
    | (cases h; exact hinv)
    | (cases h; exact map_inv_of_eq _ _ hinv rfl rfl rfl rfl rfl)

theorem home_key_inv (g g1 : global_type) (action : Int) (mods : Nat)
    (h : home_key g action mods = some g1) (hinv : map_inv g.map) : map_inv g1.map := by
  unfold home_key at h
  repeat' split at h
  all_goals first
    | (rw [DISCARD_map _ _ h]; exact hinv)
    | (cases h; exact hinv)
    | (cases h; exact map_inv_of_eq _ _ hinv rfl rfl rfl rfl rfl)

theorem end_key_inv (g g1 : global_type) (room : room_data) (pid : Nat) (action : Int)
    (mods : Nat) (h : end_key g room pid action mods = some g1) (hinv : map_inv g.map) :
    map_inv g1.map := by
  unfold end_key at h
  repeat' split at h
  all_goals first
    | (rw [DISCARD_map _ _ h]; exact hinv)
    | exact toggle_flag_inv _ g1 room _ _ action h hinv
    | (cases h; exact map_inv_reset _)

theorem f1_key_inv (g g1 : global_type) (action : Int)
    (h : f1_key g action = some g1) (hinv : map_inv g.map) : map_inv g1.map := by
  unfold f1_key at h
  repeat' split at h
  all_goals first
    | (rw [DISCARD_map _ _ h]; exact hinv)
    | (cases h; exact hinv)

theorem key_switch_inv (tie : Nat → Nat) (g g1 : global_type) (room : room_data) (pid : Nat)
    (key action : Int) (mods : Nat) (h : key_switch tie g room pid key action mods = some g1)
    (hinv : map_inv g.map) : map_inv g1.map := by
  unfold key_switch at h
  split at h
  · exact arrow_key_inv tie _ g1 room _ 2 (by decide) action mods h hinv
  split at h
  · exact arrow_key_inv tie _ g1 room _ 0 (by decide) action mods h hinv
  split at h
  · exact arrow_key_inv tie _ g1 room _ 3 (by decide) action mods h hinv
  split at h
  · exact arrow_key_inv tie _ g1 room _ 1 (by decide) action mods h hinv
  split at h
  · exact page_down_key_inv _ _ _ _ _ _ h hinv
  split at h
  · exact page_up_key_inv _ _ _ _ _ _ h hinv
  split at h
  · exact home_key_inv _ _ _ _ h hinv
  split at h
  · exact end_key_inv _ _ _ _ _ _ h hinv
  split at h
  · exact f1_key_inv _ _ _ h hinv
  split at h
  · cases h; exact hinv
  · rw [DISCARD_map _ _ h]; exact hinv

theorem keyboard_callback_inv (tie : Nat → Nat) (g g1 : global_type) (key action : Int)
    (mods : Nat) (h : keyboard_callback tie g key action mods = some g1)
    (hinv : map_inv g.map) : map_inv g1.map := by
  unfold keyboard_callback at h
  dsimp only at h
  split at h
  · cases h
  · exact key_switch_inv tie _ g1 _ _ key action mods h hinv

theorem initial_state_inv : map_inv initial_state.map :=
  ⟨by decide, by decide, fun _ => rfl, fun _ => rfl, by decide, fun h => (by cases h),
    fun h => (by cases h)⟩

/-- Every reachable state satisfies the map invariant. -/
theorem reachable_inv (g : global_type) (h : reachable g) : map_inv g.map := by
  induction h with
  | start => exact initial_state_inv
  | key_event tie g g1 key action mods _ hk ih => exact keyboard_callback_inv tie g g1 key action mods hk ih
  | outside g g1 _ hc ih =>
    obtain ⟨hr, hp, hd, _, hh, hs, _⟩ := hc
    exact map_inv_of_eq _ _ ih hr hp hd hh hs

/-! ## The key handler: commands -/

theorem keyboard_arrow (tie : Nat → Nat) (g : global_type) (i : Nat) (action : Int) (mods : Nat)
    (room : room_data) (hi : i < 4) (hd : g.map.pick_direction = false)
    (hroom : g.map.rooms (point_id g.map.position) = some room) :
    keyboard_callback tie g (arrow_code i) action mods
      = arrow_key tie { g with discard := false } room (point_id g.map.position) i action mods := by
  unfold keyboard_callback
  simp only [hd, Bool.false_eq_true, if_false, hroom]
  interval_cases i <;> rfl

theorem has_path_false (paths i : Nat) (h : has_path paths i = false) :
    paths &&& (1 <<< i) = 0 := by
  simpa [has_path] using h

theorem has_path_true (paths i : Nat) (h : has_path paths i = true) :
    ¬ paths &&& (1 <<< i) = 0 := by
  simpa [has_path] using h

theorem blocked_move_eq (tie : Nat → Nat) (g : global_type) (i : Nat) (action : Int)
    (mods : Nat) (hinv : map_inv g.map) (hd : g.map.pick_direction = false) (hi : i < 4)
    (hm : mods &&& GLFW_MOD_ALT = 0)
    (hblk : in_bounds (g.map.position + dir_at i) = false
      ∨ ∃ room, g.map.rooms (point_id g.map.position) = some room
          ∧ has_path room.paths i = false) :
    keyboard_callback tie g (arrow_code i) action mods = some { g with discard := true } := by
  obtain ⟨room, hroom⟩ := hinv.room hd
  rw [keyboard_arrow tie g i action mods room hi hd hroom]
  unfold arrow_key
  split
  · rfl
  · simp only [hd, Bool.false_eq_true, if_false]
    split
    · rfl
    · split
      · rfl
      · rename_i hnb
        simp only [hm, bne_self_eq_false, Bool.false_eq_true, if_false]
        rcases hblk with hout | ⟨room2, hroom2, hp⟩
        · have := arrow_blocked_eq g.map.position i hinv.bounds hi
          rw [hout] at this
          exact absurd this hnb
        · rw [hroom] at hroom2
          cases hroom2
          unfold move_player
          rw [if_pos (has_path_false _ _ hp)]
          rfl

/-- C12: in a reachable state past the direction-selection phase, an arrow key without
`ALT` whose target coordinate is outside the grid, or whose passage bit is clear on the
player's room, returns the state unchanged but for the discard flag, which is set. -/
theorem blocked_move_mutates_nothing (tie : Nat → Nat) (g : global_type) (i : Nat)
    (action : Int) (mods : Nat) (hr : reachable g) (hd : g.map.pick_direction = false)
    (hi : i < 4) (hm : mods &&& GLFW_MOD_ALT = 0)
    (hblk : in_bounds (g.map.position + dir_at i) = false
      ∨ ∃ room, g.map.rooms (point_id g.map.position) = some room
          ∧ has_path room.paths i = false) :
    keyboard_callback tie g (arrow_code i) action mods = some { g with discard := true } :=
  blocked_move_eq tie g i action mods (reachable_inv g hr) hd hi hm hblk

theorem seeded_state_reachable : reachable seeded_state :=
  reachable.key_event first_tie initial_state seeded_state GLFW_KEY_DOWN GLFW_PRESS 0
    reachable.start rfl

theorem add_surrounding_rooms_narrows_witness :
    seeded_state.map.rooms (point_id ⟨0, 1⟩) = some ⟨⟨0, 1⟩, 15, 0, false⟩
      ∧ ∃ r1, ([(⟨1, 1⟩ : ivec2), ⟨0, 2⟩].foldl add_surrounding_rooms seeded_state.map).rooms
            (point_id ⟨0, 1⟩) = some r1
        ∧ r1.position = (⟨0, 1⟩ : ivec2) ∧ r1.flags = 0 ∧ r1.visited = false
        ∧ ∀ b, r1.paths.testBit b = true → (15 : Nat).testBit b = true :=
  ⟨by decide,
    add_surrounding_rooms_narrows seeded_state.map [⟨1, 1⟩, ⟨0, 2⟩] (point_id ⟨0, 1⟩)
      ⟨⟨0, 1⟩, 15, 0, false⟩ (by decide)⟩

theorem blocked_move_mutates_nothing_witness :
    reachable seeded_state
      ∧ seeded_state.map.rooms (point_id seeded_state.map.position) = some ⟨⟨0, 0⟩, 1, 1, true⟩
      ∧ has_path 1 1 = false
      ∧ keyboard_callback first_tie seeded_state (arrow_code 1) GLFW_PRESS 0
        = some { seeded_state with discard := true } :=
  ⟨seeded_state_reachable, by decide, by decide,
    blocked_move_mutates_nothing first_tie seeded_state 1 GLFW_PRESS 0 seeded_state_reachable
      rfl (by decide) rfl (Or.inr ⟨⟨⟨0, 0⟩, 1, 1, true⟩, by decide, by decide⟩)⟩


theorem keyboard_move (tie : Nat → Nat) (g : global_type) (i : Nat) (action : Int) (mods : Nat)
    (room : room_data) (hinv : map_inv g.map) (hd : g.map.pick_direction = false)
    (hh : g.show_help = false) (hv : g.map.view_portal_room = false) (hi : i < 4)
    (hm : mods &&& GLFW_MOD_ALT = 0) (ha : action ≠ GLFW_RELEASE)
    (hb : in_bounds (g.map.position + dir_at i) = true)
    (hroom : g.map.rooms (point_id g.map.position) = some room)
    (hp : has_path room.paths i = true) :
    keyboard_callback tie g (arrow_code i) action mods =
      match find_path tie (push_path { g.map with position := g.map.position + dir_at i }
          (g.map.position + dir_at i) (1 <<< opposite i)) with
      | none => none
      | some m2 => finish_move { g with discard := false } m2 (g.map.position + dir_at i) i := by
  rw [keyboard_arrow tie g i action mods room hi hd hroom]
  have hblk : arrow_blocked g.map.position i = false := by
    rw [arrow_blocked_eq _ _ hinv.bounds hi, hb]
    rfl
  unfold arrow_key
  simp only [hh, hd, hv, hm, hblk, bne_self_eq_false, Bool.false_eq_true, if_false]
  unfold move_player
  rw [if_neg (has_path_true _ _ hp), if_neg ha]
  dsimp only
  simp only [hh, hd, hv]

theorem finish_move_total (g : global_type) (m2 : map_state) (pos : ivec2) (i : Nat)
    (dest : room_data) (h : m2.rooms (point_id pos) = some dest) :
    ∃ g1, finish_move g m2 pos i = some g1 := by
  simp [finish_move, h]

theorem read_path_congr (m m1 : map_state) (hp : m1.path = m.path)
    (hh : m1.path_head = m.path_head) (hs : m1.path_size = m.path_size) :
    read_path m1 = read_path m := by
  simp only [read_path, path_index, hp, hh, hs]

theorem move_spec (tie : Nat → Nat) (g : global_type) (i : Nat) (action : Int) (mods : Nat)
    (room : room_data) (hinv : map_inv g.map) (hd : g.map.pick_direction = false)
    (hh : g.show_help = false) (hv : g.map.view_portal_room = false) (hi : i < 4)
    (hm : mods &&& GLFW_MOD_ALT = 0) (ha : action ≠ GLFW_RELEASE)
    (hb : in_bounds (g.map.position + dir_at i) = true)
    (hroom : g.map.rooms (point_id g.map.position) = some room)
    (hp : has_path room.paths i = true) :
    ∃ g1, keyboard_callback tie g (arrow_code i) action mods = some g1
      ∧ g1.map.position = g.map.position + dir_at i
      ∧ (read_path g1.map).getLast? = some (g.map.position + dir_at i, 1 <<< opposite i)
      ∧ (∃ r, g1.map.rooms (point_id (g.map.position + dir_at i)) = some r ∧ r.visited = true)
      ∧ ∀ j, j < 8 → in_bounds (g.map.position + dir_at i + offset_at j) = true →
          ∃ r, g1.map.rooms (point_id (g.map.position + dir_at i + offset_at j)) = some r := by
  rw [keyboard_move tie g i action mods room hinv hd hh hv hi hm ha hb hroom hp]
  obtain ⟨hr1, hp1, _, _⟩ := push_path_frame { g.map with position := g.map.position + dir_at i }
    (g.map.position + dir_at i) (1 <<< opposite i)
  obtain ⟨route, hroute⟩ := find_path_total tie
    (push_path { g.map with position := g.map.position + dir_at i }
      (g.map.position + dir_at i) (1 <<< opposite i)) (by rw [hp1]; exact hb)
  obtain ⟨e1, e2, _, e4, e5, e6⟩ := find_path_core _ _ _ hroute
  rw [hroute]
  dsimp only
  obtain ⟨j, hj, hoff⟩ := dir_at_offset i hi
  obtain ⟨dest, hdest⟩ := hinv.around hd j hj (by rw [hoff]; exact hb)
  rw [hoff] at hdest
  have hdest2 : ({ push_path { g.map with position := g.map.position + dir_at i }
      (g.map.position + dir_at i) (1 <<< opposite i) with portal_path := route } : map_state).rooms
        (point_id (g.map.position + dir_at i)) = some dest := by
    rw [e1, hr1]; exact hdest
  obtain ⟨g1, hg1⟩ := finish_move_total { g with discard := false } _ _ i dest hdest2
  obtain ⟨dest1, hd1, f1, f2, _, f4, f5, f6, _⟩ := finish_move_eq _ _ _ _ _ hg1
  refine ⟨g1, hg1, ?_, ?_, ?_, ?_⟩
  · rw [f2, e2, hp1]
  · rw [read_path_congr _ _ f4 f5 f6, read_path_congr _ _ e4 e5 e6]
    exact push_path_newest _ _ _ hinv.size_le hinv.head_lt hinv.head_zero
  · rw [f1, add_surrounding_self _ _ hb]
    refine ⟨visited_room dest1, ?_, rfl⟩
    rw [touch_room_some _ _ (visited_room dest1) (map_insert_same _ _ _)]
    exact map_insert_same _ _ _
  · intro k hk hbk
    rw [f1]
    exact add_surrounding_around _ _ hb k hk hbk

/-- C13: in a reachable state past the direction-selection phase, with the help overlay
and the portal view off, a press or repeat of an arrow key without `ALT` whose target
is within the grid and whose passage bit is set on the player's room returns a state
in which the player stands at the old coordinate plus the direction, the entry
`render_last_path` reads last is the new coordinate with the opposite direction flag,
the destination room is marked visited, and every in-bounds one of the eight
coordinates around the destination has a room. -/
theorem move_has_stated_effects (tie : Nat → Nat) (g : global_type) (i : Nat) (action : Int)
    (mods : Nat) (room : room_data) (hr : reachable g) (hd : g.map.pick_direction = false)
    (hh : g.show_help = false) (hv : g.map.view_portal_room = false) (hi : i < 4)
    (hm : mods &&& GLFW_MOD_ALT = 0) (ha : action ≠ GLFW_RELEASE)
    (hb : in_bounds (g.map.position + dir_at i) = true)
    (hroom : g.map.rooms (point_id g.map.position) = some room)
    (hp : has_path room.paths i = true) :
    ∃ g1, keyboard_callback tie g (arrow_code i) action mods = some g1
      ∧ g1.map.position = g.map.position + dir_at i
      ∧ (read_path g1.map).getLast? = some (g.map.position + dir_at i, 1 <<< opposite i)
      ∧ (∃ r, g1.map.rooms (point_id (g.map.position + dir_at i)) = some r ∧ r.visited = true)
      ∧ ∀ j, j < 8 → in_bounds (g.map.position + dir_at i + offset_at j) = true →
          ∃ r, g1.map.rooms (point_id (g.map.position + dir_at i + offset_at j)) = some r :=
  move_spec tie g i action mods room (reachable_inv g hr) hd hh hv hi hm ha hb hroom hp

theorem move_has_stated_effects_witness :
    reachable seeded_state
      ∧ seeded_state.map.rooms (point_id seeded_state.map.position) = some ⟨⟨0, 0⟩, 1, 1, true⟩
      ∧ has_path 1 0 = true
      ∧ ∃ g1, keyboard_callback first_tie seeded_state (arrow_code 0) GLFW_PRESS 0 = some g1
        ∧ g1.map.position = seeded_state.map.position + dir_at 0
        ∧ (read_path g1.map).getLast? = some (seeded_state.map.position + dir_at 0, 1 <<< opposite 0)
        ∧ (∃ r, g1.map.rooms (point_id (seeded_state.map.position + dir_at 0)) = some r
            ∧ r.visited = true)
        ∧ ∀ j, j < 8 → in_bounds (seeded_state.map.position + dir_at 0 + offset_at j) = true →
            ∃ r, g1.map.rooms (point_id (seeded_state.map.position + dir_at 0 + offset_at j))
              = some r :=
  ⟨seeded_state_reachable, by decide, by decide,
    move_has_stated_effects first_tie seeded_state 0 GLFW_PRESS 0 ⟨⟨0, 0⟩, 1, 1, true⟩
      seeded_state_reachable rfl rfl rfl (by decide) rfl (by decide) (by decide) (by decide)
      (by decide)⟩

theorem alt_set (mods : Nat) (h : mods &&& GLFW_MOD_ALT ≠ 0) :
    (mods &&& GLFW_MOD_ALT != 0) = true := by
  simpa using h

theorem toggle_link_portal_eq (tie : Nat → Nat) (g : global_type) (i : Nat) (action : Int)
    (mods : Nat) (hinv : map_inv g.map) (hd : g.map.pick_direction = false) (hi : i < 4)
    (hm : mods &&& GLFW_MOD_ALT ≠ 0)
    (hportal : (∃ room, g.map.rooms (point_id g.map.position) = some room
        ∧ room.flags = room_flag_portal)
      ∨ ∃ facing, g.map.rooms (point_id (g.map.position + dir_at i)) = some facing
        ∧ facing.flags = room_flag_portal) :
    keyboard_callback tie g (arrow_code i) action mods = some { g with discard := true } := by
  obtain ⟨room, hroom⟩ := hinv.room hd
  rw [keyboard_arrow tie g i action mods room hi hd hroom]
  unfold arrow_key
  split
  · rfl
  · simp only [hd, Bool.false_eq_true, if_false]
    split
    · rfl
    · split
      · rfl
      · rw [if_pos (alt_set mods hm)]
        unfold toggle_link
        split
        · rfl
        · rename_i hnp
          rcases hportal with ⟨room2, hroom2, hp⟩ | ⟨facing, hfacing, hp⟩
          · rw [hroom] at hroom2
            cases hroom2
            exact absurd hp hnp
          · have ht : touch_room g.map.rooms (point_id (g.map.position + dir_at i))
                = g.map.rooms := touch_room_some _ _ facing hfacing
            dsimp only
            simp only [ht, hfacing, hp, if_true]
            rfl

/-- C16: in a reachable state past the direction-selection phase, an arrow key with `ALT`
returns the state unchanged but for the discard flag, which is set, when the player's
room or the room it faces in that direction has the portal annotation. -/
theorem toggle_link_rejected_on_portal (tie : Nat → Nat) (g : global_type) (i : Nat)
    (action : Int) (mods : Nat) (hr : reachable g) (hd : g.map.pick_direction = false)
    (hi : i < 4) (hm : mods &&& GLFW_MOD_ALT ≠ 0)
    (hportal : (∃ room, g.map.rooms (point_id g.map.position) = some room
        ∧ room.flags = room_flag_portal)
      ∨ ∃ facing, g.map.rooms (point_id (g.map.position + dir_at i)) = some facing
        ∧ facing.flags = room_flag_portal) :
    keyboard_callback tie g (arrow_code i) action mods = some { g with discard := true } :=
  toggle_link_portal_eq tie g i action mods (reachable_inv g hr) hd hi hm hportal

theorem getD_of_isSome {α : Type} (o : Option α) (d : α) (h : o.isSome = true) :
    o = some (o.getD d) := by
  cases o with
  | none => cases h
  | some a => rfl

theorem moved_state_eq :
    keyboard_callback first_tie seeded_state GLFW_KEY_DOWN GLFW_PRESS 0 = some moved_state :=
  getD_of_isSome _ _ (by decide!)

theorem moved_state_reachable : reachable moved_state :=
  reachable.key_event first_tie seeded_state moved_state GLFW_KEY_DOWN GLFW_PRESS 0
    seeded_state_reachable moved_state_eq

theorem toggle_link_rejected_on_portal_witness :
    reachable moved_state
      ∧ moved_state.map.rooms (point_id (moved_state.map.position + dir_at 2))
          = some ⟨⟨0, 0⟩, 1, 1, true⟩
      ∧ keyboard_callback first_tie moved_state (arrow_code 2) GLFW_PRESS GLFW_MOD_ALT
          = some { moved_state with discard := true } :=
  ⟨moved_state_reachable, by decide!,
    toggle_link_rejected_on_portal first_tie moved_state 2 GLFW_PRESS GLFW_MOD_ALT
      moved_state_reachable (by decide!) (by decide) (by decide)
      (Or.inr ⟨⟨⟨0, 0⟩, 1, 1, true⟩, by decide!, rfl⟩)⟩

theorem toggle_link_spec (tie : Nat → Nat) (g : global_type) (i : Nat) (action : Int)
    (mods : Nat) (room facing : room_data) (hinv : map_inv g.map)
    (hd : g.map.pick_direction = false) (hh : g.show_help = false)
    (hv : g.map.view_portal_room = false) (hi : i < 4) (hm : mods &&& GLFW_MOD_ALT ≠ 0)
    (ha : action ≠ GLFW_RELEASE) (hb : in_bounds (g.map.position + dir_at i) = true)
    (hroom : g.map.rooms (point_id g.map.position) = some room)
    (hfacing : g.map.rooms (point_id (g.map.position + dir_at i)) = some facing)
    (hnp : room.flags ≠ room_flag_portal) (hnf : facing.flags ≠ room_flag_portal) :
    ∃ g1, keyboard_callback tie g (arrow_code i) action mods = some g1
      ∧ g1.map.rooms (point_id g.map.position)
          = some ⟨room.position, room.paths ^^^ (1 <<< i), room.flags, room.visited⟩
      ∧ g1.map.rooms (point_id (g.map.position + dir_at i))
          = some ⟨facing.position, facing.paths ^^^ (1 <<< opposite i), facing.flags,
              facing.visited⟩
      ∧ (∀ k, k ≠ point_id g.map.position → k ≠ point_id (g.map.position + dir_at i) →
          g1.map.rooms k = g.map.rooms k)
      ∧ g1.map.position = g.map.position ∧ g1.map.path = g.map.path
      ∧ g1.map.path_head = g.map.path_head ∧ g1.map.path_size = g.map.path_size := by
  rw [keyboard_arrow tie g i action mods room hi hd hroom]
  have hblk : arrow_blocked g.map.position i = false := by
    rw [arrow_blocked_eq _ _ hinv.bounds hi, hb]
    rfl
  have hne : point_id (g.map.position + dir_at i) ≠ point_id g.map.position := by
    obtain ⟨j, hj, hoff⟩ := dir_at_offset i hi
    rw [← hoff] at hb ⊢
    exact fun e => add_offset_ne _ j hj (point_id_inj _ _ hb hinv.bounds e)
  have ht : touch_room g.map.rooms (point_id (g.map.position + dir_at i))
      = g.map.rooms := touch_room_some _ _ facing hfacing
  have htot : ∀ rooms3 : Nat → Option room_data, ∃ route,
      find_path tie { g.map with rooms := rooms3 }
        = some { g.map with rooms := rooms3, portal_path := route } :=
    fun rooms3 => find_path_total tie { g.map with rooms := rooms3 } hinv.bounds
  obtain ⟨route, hroute⟩ := htot (map_insert
    (map_insert g.map.rooms (point_id g.map.position) (flip_path room (1 <<< i)))
    (point_id (g.map.position + dir_at i)) (flip_path facing (1 <<< opposite i)))
  unfold arrow_key
  simp only [hh, hd, hv, hblk, alt_set mods hm, Bool.false_eq_true, if_false, if_true]
  unfold toggle_link
  rw [if_neg hnp]
  dsimp only
  simp only [ht, hfacing, if_neg hnf, if_neg ha, hroom, map_insert_other _ _ _ _ hne, hroute]
  refine ⟨_, rfl, ?_, ?_, ?_, rfl, rfl, rfl, rfl⟩
  · dsimp only
    rw [map_insert_other _ _ _ _ hne.symm, map_insert_same]
    rfl
  · dsimp only
    rw [map_insert_same]
    rfl
  · intro k hk1 hk2
    dsimp only
    rw [map_insert_other _ _ _ _ hk2, map_insert_other _ _ _ _ hk1]

/-- C17: in a reachable state past the direction-selection phase, with the help overlay
and the portal view off, a press or repeat of an arrow key with `ALT` whose facing
coordinate is within the grid, where neither the player's room nor the facing room is
the portal, inverts the bit of that direction in the passage flags of the player's
room and the bit of the opposite direction in those of the facing room; both rooms
keep position, annotation and visited flag, every other room is unchanged, and so
are the player coordinate and the path history. -/
theorem toggle_link_flips_two_bits (tie : Nat → Nat) (g : global_type) (i : Nat)
    (action : Int) (mods : Nat) (room facing : room_data) (hr : reachable g)
    (hd : g.map.pick_direction = false) (hh : g.show_help = false)
    (hv : g.map.view_portal_room = false) (hi : i < 4) (hm : mods &&& GLFW_MOD_ALT ≠ 0)
    (ha : action ≠ GLFW_RELEASE) (hb : in_bounds (g.map.position + dir_at i) = true)
    (hroom : g.map.rooms (point_id g.map.position) = some room)
    (hfacing : g.map.rooms (point_id (g.map.position + dir_at i)) = some facing)
    (hnp : room.flags ≠ room_flag_portal) (hnf : facing.flags ≠ room_flag_portal) :
    ∃ g1, keyboard_callback tie g (arrow_code i) action mods = some g1
      ∧ g1.map.rooms (point_id g.map.position)
          = some ⟨room.position, room.paths ^^^ (1 <<< i), room.flags, room.visited⟩
      ∧ g1.map.rooms (point_id (g.map.position + dir_at i))
          = some ⟨facing.position, facing.paths ^^^ (1 <<< opposite i), facing.flags,
              facing.visited⟩
      ∧ (∀ k, k ≠ point_id g.map.position → k ≠ point_id (g.map.position + dir_at i) →
          g1.map.rooms k = g.map.rooms k)
      ∧ g1.map.position = g.map.position ∧ g1.map.path = g.map.path
      ∧ g1.map.path_head = g.map.path_head ∧ g1.map.path_size = g.map.path_size :=
  toggle_link_spec tie g i action mods room facing (reachable_inv g hr) hd hh hv hi hm ha hb
    hroom hfacing hnp hnf

theorem toggle_link_flips_two_bits_witness :
    reachable moved_state
      ∧ moved_state.map.rooms (point_id moved_state.map.position) = some ⟨⟨0, 1⟩, 15, 0, true⟩
      ∧ moved_state.map.rooms (point_id (moved_state.map.position + dir_at 0))
          = some ⟨⟨0, 2⟩, 15, 0, false⟩
      ∧ ∃ g1, keyboard_callback first_tie moved_state (arrow_code 0) GLFW_PRESS GLFW_MOD_ALT
          = some g1
        ∧ g1.map.rooms (point_id moved_state.map.position) = some ⟨⟨0, 1⟩, 15 ^^^ (1 <<< 0), 0, true⟩
        ∧ g1.map.rooms (point_id (moved_state.map.position + dir_at 0))
            = some ⟨⟨0, 2⟩, 15 ^^^ (1 <<< opposite 0), 0, false⟩
        ∧ (∀ k, k ≠ point_id moved_state.map.position →
            k ≠ point_id (moved_state.map.position + dir_at 0) →
              g1.map.rooms k = moved_state.map.rooms k)
        ∧ g1.map.position = moved_state.map.position ∧ g1.map.path = moved_state.map.path
        ∧ g1.map.path_head = moved_state.map.path_head
        ∧ g1.map.path_size = moved_state.map.path_size :=
  ⟨moved_state_reachable, by decide!, by decide!,
    toggle_link_flips_two_bits first_tie moved_state 0 GLFW_PRESS GLFW_MOD_ALT
      ⟨⟨0, 1⟩, 15, 0, true⟩ ⟨⟨0, 2⟩, 15, 0, false⟩ moved_state_reachable (by decide!)
      (by decide!) (by decide!) (by decide) (by decide) (by decide) (by decide!) (by decide!)
      (by decide!) (by decide) (by decide)⟩

theorem keyboard_toggle_flag (tie : Nat → Nat) (g : global_type) (kind : Nat) (action : Int)
    (mods : Nat) (room : room_data) (hd : g.map.pick_direction = false)
    (hh : g.show_help = false) (hv : g.map.view_portal_room = false)
    (hm : mods &&& GLFW_MOD_ALT = 0)
    (hk : kind = room_flag_avoid ∨ kind = room_flag_important_1 ∨ kind = room_flag_important_2)
    (hroom : g.map.rooms (point_id g.map.position) = some room) :
    keyboard_callback tie g (kind_code kind) action mods
      = toggle_flag { g with discard := false } room (point_id g.map.position) kind action := by
  unfold keyboard_callback
  simp only [hd, Bool.false_eq_true, if_false, hroom]
  rcases hk with hk | hk | hk <;> subst hk
  · show end_key _ _ _ _ _ = _
    unfold end_key
    simp only [hh, hv, hd, hm, bne_self_eq_false, Bool.false_eq_true, if_false]
  · show page_down_key _ _ _ _ _ = _
    unfold page_down_key
    simp only [hh, hv, hd, hm, bne_self_eq_false, Bool.false_eq_true, if_false]
  · show page_up_key _ _ _ _ _ = _
    unfold page_up_key
    simp only [hh, hv, hd, hm, bne_self_eq_false, Bool.false_eq_true, if_false]

theorem toggle_flag_spec (tie : Nat → Nat) (g : global_type) (kind : Nat) (action : Int)
    (mods : Nat) (hinv : map_inv g.map) (hd : g.map.pick_direction = false)
    (hh : g.show_help = false) (hv : g.map.view_portal_room = false)
    (hm : mods &&& GLFW_MOD_ALT = 0) (ha : action ≠ GLFW_RELEASE)
    (hk : kind = room_flag_avoid ∨ kind = room_flag_important_1 ∨ kind = room_flag_important_2) :
    ∃ room g1, g.map.rooms (point_id g.map.position) = some room
      ∧ keyboard_callback tie g (kind_code kind) action mods = some g1
      ∧ g1.map.rooms (point_id g.map.position)
          = some (if room.flags = room_flag_portal then room
              else ⟨room.position, room.paths, if room.flags = kind then 0 else kind,
                room.visited⟩)
      ∧ ∀ k, k ≠ point_id g.map.position → g1.map.rooms k = g.map.rooms k := by
  obtain ⟨room, hroom⟩ := hinv.room hd
  refine ⟨room, ?_⟩
  rw [keyboard_toggle_flag tie g kind action mods room hd hh hv hm hk hroom]
  unfold toggle_flag
  by_cases hp : room.flags = room_flag_portal
  · rw [if_pos hp, if_pos hp]
    exact ⟨_, hroom, rfl, hroom, fun _ _ => rfl⟩
  · rw [if_neg hp, if_neg hp, if_neg ha]
    refine ⟨_, hroom, rfl, ?_, ?_⟩
    · dsimp only
      rw [map_insert_same]
    · intro k hk1
      dsimp only
      rw [map_insert_other _ _ _ _ hk1]

/-- C20: in a reachable state past the direction-selection phase, with the help overlay
and the portal view off, a press or repeat without `ALT` of the key of an annotation
(`END` for avoid, `PAGE_DOWN` for important-1, `PAGE_UP` for important-2) returns a
state in which the player's room, when it is not the portal, has the annotation none
if it had that annotation and that annotation otherwise, with position, passage flags
and visited flag as before; the record of a portal room is unchanged; every other room
is unchanged. -/
theorem toggle_flag_effect (tie : Nat → Nat) (g : global_type) (kind : Nat) (action : Int)
    (mods : Nat) (hr : reachable g) (hd : g.map.pick_direction = false)
    (hh : g.show_help = false) (hv : g.map.view_portal_room = false)
    (hm : mods &&& GLFW_MOD_ALT = 0) (ha : action ≠ GLFW_RELEASE)
    (hk : kind = room_flag_avoid ∨ kind = room_flag_important_1 ∨ kind = room_flag_important_2) :
    ∃ room g1, g.map.rooms (point_id g.map.position) = some room
      ∧ keyboard_callback tie g (kind_code kind) action mods = some g1
      ∧ g1.map.rooms (point_id g.map.position)
          = some (if room.flags = room_flag_portal then room
              else ⟨room.position, room.paths, if room.flags = kind then 0 else kind,
                room.visited⟩)
      ∧ ∀ k, k ≠ point_id g.map.position → g1.map.rooms k = g.map.rooms k :=
  toggle_flag_spec tie g kind action mods (reachable_inv g hr) hd hh hv hm ha hk

theorem toggle_flag_effect_witness :
    reachable moved_state
      ∧ ∃ room g1, moved_state.map.rooms (point_id moved_state.map.position) = some room
        ∧ keyboard_callback first_tie moved_state (kind_code room_flag_avoid) GLFW_PRESS 0
            = some g1
        ∧ g1.map.rooms (point_id moved_state.map.position)
            = some (if room.flags = room_flag_portal then room
                else ⟨room.position, room.paths,
                  if room.flags = room_flag_avoid then 0 else room_flag_avoid, room.visited⟩)
        ∧ ∀ k, k ≠ point_id moved_state.map.position →
            g1.map.rooms k = moved_state.map.rooms k :=
  ⟨moved_state_reachable,
    toggle_flag_effect first_tie moved_state room_flag_avoid GLFW_PRESS 0 moved_state_reachable
      (by decide!) (by decide!) (by decide!) (by decide) (by decide) (Or.inl rfl)⟩

/-- C19: after `reset_map`, from any state, the room table is empty, the path history
has size `0` and head `0` and `render_last_path` reads no entry, the stored route is
empty, the player, view and target-view coordinates are `(0,0)`, and the
direction-selection flag is set. -/
theorem reset_map_initial (g : map_state) :
    (∀ k, (reset_map g).rooms k = none)
      ∧ (reset_map g).path_size = 0 ∧ (reset_map g).path_head = 0
      ∧ read_path (reset_map g) = []
      ∧ (reset_map g).portal_path = []
      ∧ (reset_map g).position = ⟨0, 0⟩ ∧ (reset_map g).view_position = ⟨0, 0⟩
      ∧ (reset_map g).target_view_position = ⟨0, 0⟩
      ∧ (reset_map g).pick_direction = true :=
  ⟨fun _ => rfl, rfl, rfl, rfl, rfl, rfl, rfl, rfl, rfl⟩

/-! ## Seeding the map -/

theorem zero_add_vec (p : ivec2) : zero + p = p := by
  apply ivec2_eq <;> simp [zero]

theorem init_map_reset_rooms (g : map_state) (p : Nat) :
    (init_map (reset_map g) p).rooms
      = (add_surrounding_rooms
          { reset_map g with rooms := (map_insert (fun _ => none) (point_id zero)
              ⟨zero, p, room_flag_portal, true⟩) } zero).rooms := rfl

theorem init_map_reset_centre (g : map_state) (p : Nat) :
    (init_map (reset_map g) p).rooms (point_id zero)
      = some ⟨zero, p, room_flag_portal, true⟩ := by
  rw [init_map_reset_rooms, add_surrounding_self _ _ (by decide)]
  rw [touch_room_some _ _ _ (map_insert_same _ _ _)]
  exact map_insert_same _ _ _

theorem init_map_reset_around (g : map_state) (p : Nat) (j : Nat) (hj : j < 8) :
    (init_map (reset_map g) p).rooms (point_id (offset_at j))
      = some ⟨offset_at j, surround_open p (offset_at j) (offset_at j), 0, false⟩ := by
  have hb : in_bounds (zero + offset_at j) = true := by
    interval_cases j <;> decide
  have hne : point_id (zero + offset_at j) ≠ point_id zero := fun e =>
    add_offset_ne zero j hj (point_id_inj _ _ hb (by decide) e)
  have h := add_surrounding_at
    { reset_map g with rooms := (map_insert (fun _ => none) (point_id zero)
        ⟨zero, p, room_flag_portal, true⟩) } zero (by decide) j hj hb
  rw [← init_map_reset_rooms] at h
  dsimp only at h
  rw [map_insert_other _ _ _ _ hne] at h
  simp only [paths_of, map_insert_same] at h
  rw [zero_add_vec] at h
  exact h

theorem init_map_reset_other (g : map_state) (p : Nat) (k : Nat)
    (h : (init_map (reset_map g) p).rooms k ≠ none) :
    k = point_id zero ∨ ∃ j, j < 8 ∧ k = point_id (offset_at j) := by
  by_contra hcon
  simp only [not_or, not_exists, not_and] at hcon
  apply h
  rw [init_map_reset_rooms, add_surrounding_other _ _ _ hcon.1
    (fun i hi _ => by rw [zero_add_vec]; exact hcon.2 i hi)]
  dsimp only
  rw [map_insert_other _ _ _ _ hcon.1]

/-- C18: `init_map` with the flag of a single direction `d`, on the state `reset_map`
leaves, clears the direction-selection flag and yields a table of exactly nine rooms
under nine distinct keys: the room at `(0,0)` with passage flags exactly the bit of
`d`, the portal annotation and visited; and its eight neighbours, each at its own
coordinate, unvisited, without annotation, where the four diagonal neighbours and the
neighbour in direction `d` have all four passages and each of the three other
cardinal neighbours has every passage but the one pointing back at the origin. -/
theorem init_map_seeds (g : map_state) (d : Nat) (hd : d < 4) :
    (init_map (reset_map g) (1 <<< d)).pick_direction = false
      ∧ (init_map (reset_map g) (1 <<< d)).rooms (point_id zero)
          = some ⟨zero, 1 <<< d, room_flag_portal, true⟩
      ∧ (∀ j, j < 8 → (offset_at j).x ≠ 0 → (offset_at j).y ≠ 0 →
          (init_map (reset_map g) (1 <<< d)).rooms (point_id (offset_at j))
            = some ⟨offset_at j, path_flag_all, 0, false⟩)
      ∧ (init_map (reset_map g) (1 <<< d)).rooms (point_id (dir_at d))
          = some ⟨dir_at d, path_flag_all, 0, false⟩
      ∧ (∀ e, e < 4 → e ≠ d →
          (init_map (reset_map g) (1 <<< d)).rooms (point_id (dir_at e))
            = some ⟨dir_at e, path_flag_all ^^^ (1 <<< opposite e), 0, false⟩)
      ∧ (∀ k, (init_map (reset_map g) (1 <<< d)).rooms k ≠ none →
          k = point_id zero ∨ ∃ j, j < 8 ∧ k = point_id (offset_at j))
      ∧ (point_id zero :: (List.range 8).map (fun j => point_id (offset_at j))).Nodup := by
  refine ⟨rfl, init_map_reset_centre g _, ?_, ?_, ?_, init_map_reset_other g _, by decide⟩
  · intro j hj hx hy
    rw [init_map_reset_around g _ j hj]
    interval_cases d <;> interval_cases j <;>
      first | rfl | exact absurd rfl hx | exact absurd rfl hy
  · obtain ⟨j, hj, hoff⟩ := dir_at_offset d hd
    rw [← hoff, init_map_reset_around g _ j hj, hoff]
    interval_cases d <;> rfl
  · intro e he hne
    obtain ⟨j, hj, hoff⟩ := dir_at_offset e he
    rw [← hoff, init_map_reset_around g _ j hj, hoff]
    interval_cases d <;> interval_cases e <;> first | rfl | exact absurd rfl hne


theorem init_map_seeds_witness :
    0 < 4
      ∧ (init_map (reset_map initial_state.map) (1 <<< 0)).pick_direction = false
      ∧ (init_map (reset_map initial_state.map) (1 <<< 0)).rooms (point_id zero)
          = some ⟨zero, 1 <<< 0, room_flag_portal, true⟩
      ∧ (∀ j, j < 8 → (offset_at j).x ≠ 0 → (offset_at j).y ≠ 0 →
          (init_map (reset_map initial_state.map) (1 <<< 0)).rooms (point_id (offset_at j))
            = some ⟨offset_at j, path_flag_all, 0, false⟩)
      ∧ (init_map (reset_map initial_state.map) (1 <<< 0)).rooms (point_id (dir_at 0))
          = some ⟨dir_at 0, path_flag_all, 0, false⟩
      ∧ (∀ e, e < 4 → e ≠ 0 →
          (init_map (reset_map initial_state.map) (1 <<< 0)).rooms (point_id (dir_at e))
            = some ⟨dir_at e, path_flag_all ^^^ (1 <<< opposite e), 0, false⟩)
      ∧ (∀ k, (init_map (reset_map initial_state.map) (1 <<< 0)).rooms k ≠ none →
          k = point_id zero ∨ ∃ j, j < 8 ∧ k = point_id (offset_at j))
      ∧ (point_id zero :: (List.range 8).map (fun j => point_id (offset_at j))).Nodup :=
  ⟨by decide, init_map_seeds initial_state.map 0 (by decide)⟩

/-! ## The stored route as a function of table and position -/

theorem find_path_route (tie : Nat → Nat) (g : map_state) :
    find_path tie g
      = (route_of tie g.rooms g.position).map (fun r => { g with portal_path := r }) := by
  unfold route_of find_path
  simp only [state_of]
  split
  · rfl
  · cases search tie g.rooms search_fuel (search_init g.position) with
    | none => rfl
    | some st =>
      dsimp only
      cases st.point_data (point_id zero) with
      | none => rfl
      | some dest =>
        dsimp only
        cases reconstruct st.point_data search_fuel zero dest [] <;> rfl

theorem pq_pop_choice (t : Nat) (q : List queued_point) (top : queued_point)
    (rest : List queued_point) (h : pq_pop t q = some (top, rest)) :
    top ∈ pop_choices q ∧ rest = q.erase top := by
  cases q with
  | nil => cases h
  | cons a as =>
    simp only [pq_pop, Option.some.injEq, Prod.mk.injEq] at h
    obtain ⟨h1, h2⟩ := h
    refine ⟨?_, by rw [← h2, h1]⟩
    rw [← h1]
    simp only [pop_choices]
    generalize (a :: as).filter (fun e => e.heuristic = least_heuristic a.heuristic as) = cands
    match cands with
    | [] => exact List.mem_singleton.mpr rfl
    | [c] => exact List.mem_singleton.mpr rfl
    | c :: d :: cs =>
      dsimp only
      rw [List.getD_eq_getElem?_getD]
      have hlt : t % (c :: d :: cs).length < (c :: d :: cs).length :=
        Nat.mod_lt _ (by simp)
      rw [List.getElem?_eq_getElem hlt]
      exact List.getElem_mem _

theorem search_step_pass (t : Nat) (rooms : Nat → Option room_data) (st st1 : search_state)
    (h : search_step t rooms st = some st1) :
    ∃ top, top ∈ pop_choices st.points ∧ st1 = search_pass rooms st top := by
  unfold search_step at h
  cases hp : pq_pop t st.points with
  | none => rw [hp] at h; cases h
  | some x =>
    obtain ⟨top, rest⟩ := x
    rw [hp] at h
    obtain ⟨hm, hr⟩ := pq_pop_choice t _ top rest hp
    refine ⟨top, hm, ?_⟩
    subst hr
    dsimp only at h
    unfold search_pass
    dsimp only
    split at h <;> rename_i hc
    · rw [if_pos hc]
      exact (Option.some.inj h).symm
    · rw [if_neg hc]
      exact (Option.some.inj h).symm

/-! ## Every way of breaking ties -/

theorem mem_pop_choices (q : List queued_point) (x : queued_point) :
    x ∈ pop_choices q ↔ x ∈ q ∧ ∀ y ∈ q, x.heuristic ≤ y.heuristic := by
  cases q with
  | nil => simp [pop_choices]
  | cons a as =>
    have hle := least_heuristic_le as a.heuristic
    have hall : ∀ e ∈ a :: as, least_heuristic a.heuristic as ≤ e.heuristic := by
      intro e he
      rcases List.mem_cons.mp he with rfl | he
      · exact hle.1
      · exact hle.2 e he
    have hatt : ∃ e ∈ a :: as, e.heuristic = least_heuristic a.heuristic as := by
      rcases least_heuristic_mem as a.heuristic with hm | ⟨e, he, hm⟩
      · exact ⟨a, List.mem_cons_self _ _, hm.symm⟩
      · exact ⟨e, List.mem_cons_of_mem _ he, hm.symm⟩
    have hfilter : ∀ c, c ∈ (a :: as).filter (fun e => e.heuristic = least_heuristic a.heuristic as)
        ↔ c ∈ a :: as ∧ c.heuristic = least_heuristic a.heuristic as := by
      intro c
      rw [List.mem_filter]
      simp
    have hpc : pop_choices (a :: as)
        = (a :: as).filter (fun e => e.heuristic = least_heuristic a.heuristic as) := by
      obtain ⟨e, he, hm⟩ := hatt
      have hmem := (hfilter e).mpr ⟨he, hm⟩
      simp only [pop_choices]
      generalize (a :: as).filter (fun e => e.heuristic = least_heuristic a.heuristic as) = cands
        at hmem
      match cands, hmem with
      | c :: cs, _ => rfl
    rw [hpc, hfilter]
    constructor
    · rintro ⟨h1, h2⟩
      exact ⟨h1, fun y hy => h2 ▸ hall y hy⟩
    · rintro ⟨h1, h2⟩
      obtain ⟨e, he, hm⟩ := hatt
      exact ⟨h1, le_antisymm (hm ▸ h2 e he) (hall x h1)⟩

theorem search_runs_of_search (tie : Nat → Nat) (rooms : Nat → Option room_data) :
    ∀ (fuel : Nat) (st fin : search_state), search tie rooms fuel st = some fin →
      search_runs rooms st fin := by
  intro fuel
  induction fuel with
  | zero => intro st fin h; cases h
  | succ n ih =>
    intro st fin h
    unfold search at h
    cases hs : search_step (tie n) rooms st with
    | none =>
      rw [hs] at h
      cases h
      exact search_runs.done st ((search_step_none_iff _ _ _).mp hs)
    | some st1 =>
      rw [hs] at h
      obtain ⟨top, hm, he⟩ := search_step_pass _ _ _ _ hs
      subst he
      exact search_runs.pass st fin top hm (ih _ _ h)

theorem idle_entry_iff (st : search_state) (c : queued_point) :
    idle_entry st c = true ↔
      ∃ a, st.point_data c.point = some a ∧ (a.path_length + 1) % 4294967296 > st.max_length := by
  unfold idle_entry
  cases st.point_data c.point with
  | none => simp
  | some a => simp

theorem search_pass_idle (rooms : Nat → Option room_data) (st : search_state)
    (c : queued_point) (h : idle_entry st c = true) :
    search_pass rooms st c = { st with points := st.points.erase c } := by
  obtain ⟨a, ha, hlen⟩ := (idle_entry_iff st c).mp h
  unfold search_pass
  simp only [fetch_point_some _ _ _ ha]
  rw [if_pos hlen]

theorem drops_eq (c : queued_point) (st st1 : search_state) (h : drops c st st1) :
    st1 = { st with points := st.points.erase c } := by
  obtain ⟨h1, h2, h3, h4, _, _⟩ := h
  cases st1
  cases st
  simp only at h1 h2 h3 h4
  subst h1 h2 h3 h4
  rfl

theorem visit_drops (rooms : Nat → Option room_data) (p : astar_point) (paths : Nat)
    (c : queued_point) (st st1 : search_state) (i : Nat) (h : drops c st st1)
    (hlen : (p.path_length + 1) % 4294967296 ≤ st.max_length) :
    drops c (visit rooms p paths st i) (visit rooms p paths st1 i)
      ∧ (p.path_length + 1) % 4294967296 ≤ (visit rooms p paths st i).max_length := by
  have he := drops_eq c st st1 h
  subst he
  obtain ⟨a, ha, hgt⟩ := (idle_entry_iff st c).mp h.idle
  cases hp : has_path paths i with
  | false =>
    rw [visit_closed _ _ _ _ _ hp, visit_closed _ _ _ _ _ hp]
    exact ⟨h, hlen⟩
  | true =>
    cases hb : in_bounds (p.position + dir_at i) with
    | false =>
      rw [visit_out _ _ _ _ _ hb, visit_out _ _ _ _ _ hb]
      exact ⟨h, hlen⟩
    | true =>
      cases hf : st.point_data (point_id (p.position + dir_at i)) with
      | some fd =>
        rw [visit_found _ _ _ st _ fd hp hb hf,
          visit_found _ _ _ { st with points := st.points.erase c } _ fd hp hb hf]
        split
        · refine ⟨⟨rfl, rfl, rfl, rfl, h.mem, ?_⟩, hlen⟩
          rw [idle_entry_iff]
          by_cases hk : c.point = point_id (p.position + dir_at i)
          · rw [hk] at ha
            rw [hf] at ha
            cases ha
            exact ⟨⟨a.position, a.parent_dir ++ [-(dir_at i)], a.path_length, a.heuristic⟩,
              by dsimp only; rw [hk, map_insert_same], hgt⟩
          · exact ⟨a, by dsimp only; rw [map_insert_other _ _ _ _ hk]; exact ha, hgt⟩
        · exact ⟨h, hlen⟩
      | none =>
        rw [visit_new _ _ _ st _ hp hb hf,
          visit_new _ _ _ { st with points := st.points.erase c } _ hp hb hf]
        have hk : c.point ≠ point_id (p.position + dir_at i) := by
          intro e
          rw [e, hf] at ha
          cases ha
        refine ⟨⟨rfl, rfl, rfl, ?_, ?_, ?_⟩, ?_⟩
        · dsimp only
          exact (List.erase_append_left _ h.mem).symm
        · exact List.mem_append_left _ h.mem
        · rw [idle_entry_iff]
          refine ⟨a, by dsimp only; rw [map_insert_other _ _ _ _ hk]; exact ha, ?_⟩
          dsimp only
          split
          · exact lt_of_le_of_lt hlen hgt
          · exact hgt
        · dsimp only
          split
          · exact le_refl _
          · exact hlen

theorem visit_fold_drops (rooms : Nat → Option room_data) (p : astar_point) (paths : Nat)
    (c : queued_point) (l : List Nat) :
    ∀ st st1 : search_state, drops c st st1 →
      (p.path_length + 1) % 4294967296 ≤ st.max_length →
      drops c (l.foldl (visit rooms p paths) st) (l.foldl (visit rooms p paths) st1) := by
  induction l with
  | nil => intro st st1 h _; exact h
  | cons i is ih =>
    intro st st1 h hlen
    obtain ⟨h1, h2⟩ := visit_drops rooms p paths c st st1 i h hlen
    exact ih _ _ h1 h2

theorem search_pass_drops (rooms : Nat → Option room_data) (c top : queued_point)
    (st st1 : search_state) (h : drops c st st1) (hne : top ≠ c) :
    drops c (search_pass rooms st top) (search_pass rooms st1 top) := by
  have he := drops_eq c st st1 h
  subst he
  obtain ⟨a, ha, hgt⟩ := (idle_entry_iff st c).mp h.idle
  have hbase : drops c
      { st with point_data := (fetch_point st.point_data top.point).2,
                points := st.points.erase top }
      { st with point_data := (fetch_point st.point_data top.point).2,
                points := (st.points.erase c).erase top } := by
    refine ⟨rfl, rfl, rfl, List.erase_comm _ _ _, (List.mem_erase_of_ne hne.symm).mpr h.mem, ?_⟩
    rw [idle_entry_iff]
    refine ⟨a, ?_, hgt⟩
    dsimp only
    cases ht : st.point_data top.point with
    | some b => rw [fetch_point_some _ _ _ ht]; exact ha
    | none =>
      have hk : c.point ≠ top.point := by
        intro e
        rw [e, ht] at ha
        cases ha
      simp only [fetch_point, ht]
      rw [map_insert_other _ _ _ _ hk]
      exact ha
  unfold search_pass
  dsimp only
  split
  · exact hbase
  · rename_i hc
    exact visit_fold_drops rooms _ _ c _ _ _ hbase (Nat.le_of_not_lt hc)

theorem search_runs_drop (rooms : Nat → Option room_data) (c : queued_point)
    (st fin : search_state) (hr : search_runs rooms st fin) :
    ∀ st1, drops c st st1 → search_runs rooms st1 fin := by
  induction hr with
  | done st hq =>
    intro st1 h
    have := h.mem
    rw [hq] at this
    cases this
  | pass st fin top hm _ ih =>
    intro st1 h
    by_cases hc : top = c
    · subst hc
      rw [search_pass_idle rooms st top h.idle] at ih
      rename_i hrun
      rw [search_pass_idle rooms st top h.idle] at hrun
      rw [drops_eq top st st1 h]
      exact hrun
    · have hm1 : top ∈ pop_choices st1.points := by
        rw [mem_pop_choices] at hm ⊢
        rw [h.points]
        exact ⟨(List.mem_erase_of_ne hc).mpr hm.1, fun y hy => hm.2 y (List.mem_of_mem_erase hy)⟩
      exact search_runs.pass st1 fin top hm1 (ih _ (search_pass_drops rooms c top st st1 h hc))

theorem search_pruned_sound (rooms : Nat → Option room_data) (final : search_state → Bool) :
    ∀ (fuel : Nat) (st : search_state), search_pruned rooms final fuel st = true →
      ∀ fin, search_runs rooms st fin → final fin = true := by
  intro fuel
  induction fuel with
  | zero => intro st h; cases h
  | succ n ih =>
    intro st h fin hr
    unfold search_pruned at h
    cases hq : st.points with
    | nil =>
      rw [hq] at h
      cases hr with
      | done _ _ => exact h
      | pass _ _ top hm _ => rw [hq] at hm; cases hm
    | cons a as =>
      rw [hq] at h
      dsimp only at h
      rw [← hq] at h
      cases hf : (pop_choices st.points).find? (idle_entry st) with
      | some c =>
        rw [hf] at h
        dsimp only at h
        have hidle : idle_entry st c = true := List.find?_some hf
        have hmem : c ∈ st.points :=
          ((mem_pop_choices _ _).mp (List.mem_of_find?_eq_some hf)).1
        have hd : drops c st { st with points := st.points.erase c } :=
          ⟨rfl, rfl, rfl, rfl, hmem, hidle⟩
        have hr1 := search_runs_drop rooms c st fin hr _ hd
        rw [← search_pass_idle rooms st c hidle] at hr1
        exact ih _ h fin hr1
      | none =>
        rw [hf] at h
        dsimp only at h
        rw [List.all_eq_true] at h
        cases hr with
        | done _ hq0 => rw [hq0] at hq; cases hq
        | pass _ _ top hm hrun => exact ih _ (h top hm) fin hrun

theorem route_pruned_sound (tie : Nat → Nat) (rooms : Nat → Option room_data)
    (position : ivec2) (ok : List ivec2 → Bool) (h : route_pruned rooms position ok = true) :
    ∃ route, route_of tie rooms position = some route ∧ ok route = true := by
  unfold route_pruned at h
  rw [Bool.and_eq_true] at h
  obtain ⟨hb, h⟩ := h
  unfold route_of find_path
  simp only [state_of]
  split at h
  · rename_i hz
    rw [if_pos hz]
    exact ⟨[], rfl, h⟩
  · rename_i hz
    rw [if_neg hz]
    obtain ⟨st, hst, _⟩ :=
      search_total_with tie rooms position (fun _ => True) (fun _ _ _ _ _ _ => trivial)
        search_fuel (search_init position) (search_init_inv _ _ hb) trivial
        (search_init_measure _ hb)
    have hf := search_pruned_sound rooms _ _ _ h st (search_runs_of_search tie rooms _ _ _ hst)
    rw [hst]
    dsimp only
    unfold route_final at hf
    cases hd : st.point_data (point_id zero) with
    | none =>
      rw [hd] at hf
      exact ⟨[], rfl, hf⟩
    | some dest =>
      rw [hd] at hf
      dsimp only at hf ⊢
      cases hr : reconstruct st.point_data search_fuel zero dest [] with
      | none => rw [hr] at hf; cases hf
      | some route =>
        rw [hr] at hf
        exact ⟨route, rfl, hf⟩

/-! ## A first move -/

theorem add_surrounding_rooms_congr (g g2 : map_state) (pos : ivec2) (h : g.rooms = g2.rooms) :
    (add_surrounding_rooms g pos).rooms = (add_surrounding_rooms g2 pos).rooms := by
  simp only [add_surrounding_rooms, h]

theorem init_map_reset_rooms_eq (g : map_state) (p : Nat) :
    (init_map (reset_map g) p).rooms = (init_map initial_state.map p).rooms :=
  (init_map_reset_rooms g p).trans
    (add_surrounding_rooms_congr _ (add_room initial_state.map ⟨0, 0⟩ p room_flag_portal true)
      _ rfl)

theorem read_path_first (g : map_state) (p : ivec2) (d : Nat) (hs : g.path_size = 0)
    (hh : g.path_head = 0) : read_path (push_path g p d) = [(p, d)] := by
  unfold push_path
  rw [if_neg (by omega)]
  simp only [read_path, hs, hh, path_index, slot_set]
  rw [show (0 + 1) % 4294967296 = 1 from rfl, show List.range 1 = [0] from rfl]
  simp

theorem finish_move_view (g g1 : global_type) (m2 : map_state) (pos : ivec2) (i : Nat)
    (h : finish_move g m2 pos i = some g1) :
    g1.show_help = g.show_help ∧ g1.map.view_portal_room = m2.view_portal_room := by
  unfold finish_move at h
  split at h
  · cases h
  · cases h
    exact ⟨rfl, rfl⟩

/-- The state a successful move returns, given the route the search finds from the
destination on the table as it is before the move. -/
theorem move_result (tie : Nat → Nat) (g : global_type) (i : Nat) (action : Int) (mods : Nat)
    (room dest : room_data) (route : List ivec2) (hinv : map_inv g.map)
    (hd : g.map.pick_direction = false) (hh : g.show_help = false)
    (hv : g.map.view_portal_room = false) (hi : i < 4) (hm : mods &&& GLFW_MOD_ALT = 0)
    (ha : action ≠ GLFW_RELEASE) (hb : in_bounds (g.map.position + dir_at i) = true)
    (hroom : g.map.rooms (point_id g.map.position) = some room)
    (hp : has_path room.paths i = true)
    (hdest : g.map.rooms (point_id (g.map.position + dir_at i)) = some dest)
    (hroute : route_of tie g.map.rooms (g.map.position + dir_at i) = some route) :
    ∃ g1, keyboard_callback tie g (arrow_code i) action mods = some g1
      ∧ g1.map.rooms = (add_surrounding_rooms
          (state_of (map_insert g.map.rooms (point_id (g.map.position + dir_at i))
            (visited_room dest)) (g.map.position + dir_at i)) (g.map.position + dir_at i)).rooms
      ∧ g1.map.position = g.map.position + dir_at i
      ∧ read_path g1.map
          = read_path (push_path g.map (g.map.position + dir_at i) (1 <<< opposite i))
      ∧ g1.map.portal_path = route
      ∧ g1.show_help = false ∧ g1.map.view_portal_room = false
      ∧ g1.map.pick_direction = false := by
  obtain ⟨e1, e2, e3, _⟩ := push_path_frame { g.map with position := g.map.position + dir_at i }
    (g.map.position + dir_at i) (1 <<< opposite i)
  have hro : route_of tie
      (push_path { g.map with position := g.map.position + dir_at i }
        (g.map.position + dir_at i) (1 <<< opposite i)).rooms
      (push_path { g.map with position := g.map.position + dir_at i }
        (g.map.position + dir_at i) (1 <<< opposite i)).position = some route := by
    rw [e1, e2]
    exact hroute
  have hfind := (find_path_route tie
    (push_path { g.map with position := g.map.position + dir_at i }
      (g.map.position + dir_at i) (1 <<< opposite i))).trans (by rw [hro])
  rw [keyboard_move tie g i action mods room hinv hd hh hv hi hm ha hb hroom hp, hfind]
  have hdest2 : ({ push_path { g.map with position := g.map.position + dir_at i }
      (g.map.position + dir_at i) (1 <<< opposite i) with portal_path := route } : map_state).rooms
        (point_id (g.map.position + dir_at i)) = some dest := by
    dsimp only
    rw [e1]
    exact hdest
  obtain ⟨g1, hg1⟩ := finish_move_total { g with discard := false } _ _ i dest hdest2
  obtain ⟨dest1, hd1, f1, f2, f3, f4, f5, f6, f7⟩ := finish_move_eq _ _ _ _ _ hg1
  have hd2 : dest1 = dest := Option.some.inj (hd1.symm.trans hdest2)
  subst hd2
  obtain ⟨v1, v2⟩ := finish_move_view _ _ _ _ _ hg1
  refine ⟨g1, hg1, ?_, ?_, ?_, f7, ?_, ?_, ?_⟩
  · rw [f1]
    apply add_surrounding_rooms_congr
    dsimp only [state_of]
    rw [e1]
  · rw [f2]; exact e2
  · rw [read_path_congr _ _ f4 f5 f6]
    unfold push_path
    dsimp only
    split <;> rfl
  · rw [v1]; exact hh
  · rw [v2]
    dsimp only
    unfold push_path
    split <;> exact hv
  · rw [f3]
    exact e3.trans hd

/-- C15: from the state `reset_map` leaves, with the help overlay off, `init_map` with
the south flag followed by a press of the down arrow returns, whatever the tie-breaks
of the search, a state whose room at `(0,0)` is the portal, visited, with exactly the
south passage, with the player at `(0,1)`, a path history of the single entry
`(0,1)` with the north flag, and the stored route `[(0,1)]`. -/
theorem first_move_scenario (tie : Nat → Nat) (g0 : global_type) (hh : g0.show_help = false) :
    ∃ g, keyboard_callback tie { g0 with map := init_map (reset_map g0.map) 1 }
        GLFW_KEY_DOWN GLFW_PRESS 0 = some g
      ∧ g.map.rooms (point_id ⟨0, 0⟩) = some ⟨⟨0, 0⟩, 1, room_flag_portal, true⟩
      ∧ g.map.position = ⟨0, 1⟩
      ∧ read_path g.map = [(⟨0, 1⟩, 4)]
      ∧ g.map.portal_path = [⟨0, 1⟩] := by
  have hinv : map_inv (init_map (reset_map g0.map) 1) :=
    map_inv_init _ _ (map_inv_reset _) rfl
  have hroom := init_map_reset_centre g0.map 1
  obtain ⟨route, hr1, hr2⟩ := route_pruned_sound tie seeded_state.map.rooms ⟨0, 1⟩
    (fun r => decide (r = [⟨0, 1⟩])) (by decide!)
  have hr3 : route = [⟨0, 1⟩] := by simpa using hr2
  subst hr3
  have hrooms : (init_map (reset_map g0.map) 1).rooms = seeded_state.map.rooms :=
    init_map_reset_rooms_eq _ _
  have hdest : (init_map (reset_map g0.map) 1).rooms (point_id ⟨0, 1⟩)
      = some ⟨⟨0, 1⟩, 15, 0, false⟩ := by
    rw [hrooms]
    decide
  have hroute : route_of tie (init_map (reset_map g0.map) 1).rooms ⟨0, 1⟩ = some [⟨0, 1⟩] := by
    rw [hrooms]
    exact hr1
  obtain ⟨g, hg, f1, f2, f3, f4, _⟩ :=
    move_result tie { g0 with map := init_map (reset_map g0.map) 1 } 0 GLFW_PRESS 0
      ⟨zero, 1, room_flag_portal, true⟩ ⟨⟨0, 1⟩, 15, 0, false⟩ [⟨0, 1⟩] hinv rfl hh rfl
      (by decide) rfl (by decide) (by show in_bounds (⟨0, 0⟩ + dir_at 0) = true; decide) hroom
      (by decide) hdest hroute
  refine ⟨g, hg, ?_, f2, ?_, f4⟩
  · rw [f1]
    show (add_surrounding_rooms (state_of (map_insert (init_map (reset_map g0.map) 1).rooms
      (point_id ⟨0, 1⟩) (visited_room ⟨⟨0, 1⟩, 15, 0, false⟩)) ⟨0, 1⟩) ⟨0, 1⟩).rooms
        (point_id ⟨0, 0⟩) = _
    rw [hrooms]
    decide
  · rw [f3]
    exact read_path_first _ _ _ rfl rfl


theorem first_move_scenario_witness :
    initial_state.show_help = false
      ∧ ∃ g, keyboard_callback first_tie
          { initial_state with map := init_map (reset_map initial_state.map) 1 }
          GLFW_KEY_DOWN GLFW_PRESS 0 = some g
        ∧ g.map.rooms (point_id ⟨0, 0⟩) = some ⟨⟨0, 0⟩, 1, room_flag_portal, true⟩
        ∧ g.map.position = ⟨0, 1⟩
        ∧ read_path g.map = [(⟨0, 1⟩, 4)]
        ∧ g.map.portal_path = [⟨0, 1⟩] :=
  ⟨rfl, first_move_scenario first_tie initial_state rfl⟩

/-! ## Runs of moves and link toggles -/

theorem route_of_total (tie : Nat → Nat) (rooms : Nat → Option room_data) (position : ivec2)
    (hb : in_bounds position = true) : ∃ route, route_of tie rooms position = some route := by
  obtain ⟨route, h⟩ := find_path_total tie (state_of rooms position) hb
  exact ⟨route, by unfold route_of; rw [h]; rfl⟩

theorem toggle_link_result (tie : Nat → Nat) (g : global_type) (i : Nat) (action : Int)
    (mods : Nat) (room facing : room_data) (hinv : map_inv g.map)
    (hd : g.map.pick_direction = false) (hh : g.show_help = false)
    (hv : g.map.view_portal_room = false) (hi : i < 4) (hm : mods &&& GLFW_MOD_ALT ≠ 0)
    (ha : action ≠ GLFW_RELEASE) (hb : in_bounds (g.map.position + dir_at i) = true)
    (hroom : g.map.rooms (point_id g.map.position) = some room)
    (hfacing : g.map.rooms (point_id (g.map.position + dir_at i)) = some facing)
    (hnp : room.flags ≠ room_flag_portal) (hnf : facing.flags ≠ room_flag_portal) :
    ∃ g1, keyboard_callback tie g (arrow_code i) action mods = some g1
      ∧ g1.map.rooms = toggled_rooms g.map.rooms g.map.position i room facing
      ∧ g1.map.position = g.map.position ∧ g1.map.path = g.map.path
      ∧ g1.map.path_head = g.map.path_head ∧ g1.map.path_size = g.map.path_size
      ∧ playing g1 := by
  rw [keyboard_arrow tie g i action mods room hi hd hroom]
  have hblk : arrow_blocked g.map.position i = false := by
    rw [arrow_blocked_eq _ _ hinv.bounds hi, hb]
    rfl
  have hne : point_id (g.map.position + dir_at i) ≠ point_id g.map.position := by
    obtain ⟨j, hj, hoff⟩ := dir_at_offset i hi
    rw [← hoff] at hb ⊢
    exact fun e => add_offset_ne _ j hj (point_id_inj _ _ hb hinv.bounds e)
  have ht : touch_room g.map.rooms (point_id (g.map.position + dir_at i))
      = g.map.rooms := touch_room_some _ _ facing hfacing
  have htot : ∀ rooms3 : Nat → Option room_data, ∃ route,
      find_path tie { g.map with rooms := rooms3 }
        = some { g.map with rooms := rooms3, portal_path := route } :=
    fun rooms3 => find_path_total tie { g.map with rooms := rooms3 } hinv.bounds
  obtain ⟨route, hroute⟩ := htot (map_insert
    (map_insert g.map.rooms (point_id g.map.position) (flip_path room (1 <<< i)))
    (point_id (g.map.position + dir_at i)) (flip_path facing (1 <<< opposite i)))
  unfold arrow_key
  simp only [hh, hd, hv, hblk, alt_set mods hm, Bool.false_eq_true, if_false, if_true]
  unfold toggle_link
  rw [if_neg hnp]
  dsimp only
  simp only [ht, hfacing, if_neg hnf, if_neg ha, hroom, map_insert_other _ _ _ _ hne, hroute]
  exact ⟨_, rfl, rfl, rfl, rfl, rfl, rfl, hd, rfl, hv⟩

theorem walk_step_reachable (g : global_type) (c : Nat × Bool)
    (s1 : (Nat → Option room_data) × ivec2) (hr : reachable g) (hp : playing g)
    (h : walk_step (g.map.rooms, g.map.position) c = some s1) :
    ∃ g1, reachable g1 ∧ playing g1 ∧ g1.map.rooms = s1.1 ∧ g1.map.position = s1.2 := by
  have hinv := reachable_inv g hr
  obtain ⟨hd, hh, hv⟩ := hp
  unfold walk_step at h
  split at h
  · rename_i hc
    obtain ⟨hi, _, hb⟩ := hc
    dsimp only at hi hb h
    split at h
    · rename_i room facing hroom hfacing
      split at h
      · rename_i htog
        split at h
        · cases h
        · rename_i hnp
          rw [not_or] at hnp
          cases h
          obtain ⟨g1, hk, e1, e2, _, _, _, hp1⟩ :=
            toggle_link_result first_tie g c.1 GLFW_PRESS GLFW_MOD_ALT room facing hinv hd hh hv
              hi (by decide) (by decide) hb hroom hfacing hnp.1 hnp.2
          exact ⟨g1, reachable.key_event first_tie g g1 _ _ _ hr hk, hp1, e1, e2⟩
      · split at h
        · rename_i hpath
          cases h
          obtain ⟨route, hroute⟩ := route_of_total first_tie g.map.rooms
            (g.map.position + dir_at c.1) hb
          obtain ⟨g1, hk, e1, e2, _, _, p1, p2, p3⟩ :=
            move_result first_tie g c.1 GLFW_PRESS 0 room facing route hinv hd hh hv hi
              (by decide) (by decide) hb hroom hpath hfacing hroute
          exact ⟨g1, reachable.key_event first_tie g g1 _ _ _ hr hk, ⟨p3, p1, p2⟩, e1, e2⟩
        · cases h
    · cases h
  · cases h

theorem walk_reachable (cmds : List (Nat × Bool)) :
    ∀ (g : global_type) (s1 : (Nat → Option room_data) × ivec2), reachable g → playing g →
      walk (g.map.rooms, g.map.position) cmds = some s1 →
      ∃ g1, reachable g1 ∧ playing g1 ∧ g1.map.rooms = s1.1 ∧ g1.map.position = s1.2 := by
  induction cmds with
  | nil =>
    intro g s1 hr hp h
    cases h
    exact ⟨g, hr, hp, rfl, rfl⟩
  | cons c rest ih =>
    intro g s1 hr hp h
    unfold walk at h
    cases hs : walk_step (g.map.rooms, g.map.position) c with
    | none => rw [hs] at h; cases h
    | some s =>
      rw [hs] at h
      obtain ⟨g1, hr1, hp1, e1, e2⟩ := walk_step_reachable g c s hr hp hs
      have h2 : walk (g1.map.rooms, g1.map.position) rest = some s1 := by
        rw [e1, e2]
        exact h
      exact ih g1 s1 hr1 hp1 h2

/-! ## The route stored by a move -/

theorem seeded_west_reachable : reachable seeded_west :=
  reachable.key_event first_tie initial_state seeded_west GLFW_KEY_LEFT GLFW_PRESS 0
    reachable.start rfl

theorem stale_table_facts :
    (walk (seeded_west.map.rooms, seeded_west.map.position) stale_walk).isSome = true
      ∧ stale_table.2 = ⟨-4, -2⟩
      ∧ stale_table.1 (point_id ⟨-4, -2⟩) = some ⟨⟨-4, -2⟩, 15, 0, true⟩
      ∧ stale_table.1 (point_id ⟨-3, -2⟩) = some ⟨⟨-3, -2⟩, 15, 0, false⟩
      ∧ route_pruned stale_table.1 ⟨-3, -2⟩ (fun r => decide (r = stale_route)) = true
      ∧ route_pruned (moved_rooms stale_table.1 ⟨-3, -2⟩ ⟨⟨-3, -2⟩, 15, 0, false⟩) ⟨-3, -2⟩
          (fun r => decide (r = fresh_route)) = true := by
  decide!

theorem stale_state :
    ∃ g, reachable g ∧ playing g ∧ g.map.rooms = stale_table.1 ∧ g.map.position = ⟨-4, -2⟩ := by
  obtain ⟨h1, h2, _⟩ := stale_table_facts
  obtain ⟨g, hr, hp, e1, e2⟩ := walk_reachable stale_walk seeded_west _ seeded_west_reachable
    ⟨rfl, rfl, rfl⟩ (getD_of_isSome _ (seeded_west.map.rooms, seeded_west.map.position) h1)
  exact ⟨g, hr, hp, e1, e2.trans h2⟩

/-- C14 fails on the code: `find_path` runs before the destination is marked visited and
before `add_surrounding_rooms`. In a reachable state with the player at `(-4,-2)`, a
press of the right arrow stores, whatever the tie-breaks of the search, the route
`stale_route`, while on the table and position the command leaves `find_path`
computes, whatever the tie-breaks, the different route `fresh_route`. -/
theorem move_stores_stale_route :
    stale_route ≠ fresh_route
      ∧ ∃ g, reachable g ∧ playing g ∧ g.map.position = ⟨-4, -2⟩
        ∧ g.map.rooms (point_id ⟨-4, -2⟩) = some ⟨⟨-4, -2⟩, 15, 0, true⟩
        ∧ ∀ tie, ∃ g1, keyboard_callback tie g GLFW_KEY_RIGHT GLFW_PRESS 0 = some g1
          ∧ g1.map.position = ⟨-3, -2⟩
          ∧ g1.map.portal_path = stale_route
          ∧ ∀ tie2, (find_path tie2 g1.map).map (fun m => m.portal_path)
              = some fresh_route := by
  refine ⟨by decide, ?_⟩
  obtain ⟨_, _, hroom, hdest, hstale, hfresh⟩ := stale_table_facts
  obtain ⟨g, hr, hp, e1, e2⟩ := stale_state
  have hpos : g.map.position + dir_at 1 = ⟨-3, -2⟩ := by
    rw [e2]
    decide
  refine ⟨g, hr, hp, e2, by rw [e1]; exact hroom, ?_⟩
  intro tie
  obtain ⟨route, hr1, hr2⟩ := route_pruned_sound tie _ _ _ hstale
  have hr3 : route = stale_route := by simpa using hr2
  subst hr3
  obtain ⟨g1, hk, f1, f2, _, f4, _⟩ :=
    move_result tie g 1 GLFW_PRESS 0 ⟨⟨-4, -2⟩, 15, 0, true⟩ ⟨⟨-3, -2⟩, 15, 0, false⟩
      stale_route (reachable_inv g hr) hp.1 hp.2.1 hp.2.2 (by decide) (by decide) (by decide)
      (by rw [hpos]; decide) (by rw [e1, e2]; exact hroom) (by decide)
      (by rw [e1, hpos]; exact hdest) (by rw [e1, hpos]; exact hr1)
  rw [hpos] at f1 f2
  refine ⟨g1, hk, f2, f4, ?_⟩
  intro tie2
  obtain ⟨route2, hs1, hs2⟩ := route_pruned_sound tie2 _ _ _ hfresh
  have hs3 : route2 = fresh_route := by simpa using hs2
  subst hs3
  have hrooms : g1.map.rooms = moved_rooms stale_table.1 ⟨-3, -2⟩ ⟨⟨-3, -2⟩, 15, 0, false⟩ := by
    rw [f1, e1]
    rfl
  rw [find_path_route, hrooms, f2, hs1]
  rfl

/-! ## Bounds and termination of the search -/

theorem search_upto_inv (tie : Nat → Nat) (rooms : Nat → Option room_data) (start : ivec2)
    (P : search_state → Prop)
    (hP : ∀ t st st1, search_inv rooms start st → P st →
      search_step t rooms st = some st1 → P st1) :
    ∀ (n : Nat) (st : search_state), search_inv rooms start st → P st →
      search_inv rooms start (search_upto tie rooms n st) ∧ P (search_upto tie rooms n st) := by
  intro n
  induction n with
  | zero => intro st hinv hp; exact ⟨hinv, hp⟩
  | succ n ih =>
    intro st hinv hp
    unfold search_upto
    cases hs : search_step (tie n) rooms st with
    | none => exact ⟨hinv, hp⟩
    | some st1 =>
      exact ih st1 (search_step_inv _ rooms start st st1 hinv hs).1 (hP _ st st1 hinv hp hs)

theorem find_path_bounded_spec (tie : Nat → Nat) (g : map_state)
    (hb : in_bounds g.position = true) :
    ∃ route, find_path tie g = some { g with portal_path := route }
      ∧ route.length ≤ 64
      ∧ (64 < manhattan g.position → route = []) := by
  by_cases hz : g.position = zero
  · exact ⟨[], by simp [find_path, hz], by simp, fun _ => rfl⟩
  · obtain ⟨st, route, _, hinv, _, hfp, hroute⟩ := find_path_spec tie g hb hz
    refine ⟨route, hfp, ?_, ?_⟩
    · rcases hroute with ⟨_, hr⟩ | ⟨dest, hd, _, hlen⟩
      · rw [hr]; simp
      · exact le_trans hlen (hinv.len_le _ dest hd)
    · intro hfar
      rcases hroute with ⟨_, hr⟩ | ⟨dest, hd, hchain, hlen⟩
      · exact hr
      · have h1 := route_chain_length g.rooms route zero g.position hchain
        have h2 := hinv.len_le _ dest hd
        have h3 : manhattan zero = 0 := by decide
        omega

/-- C24: for every room table and in-bounds player position, after any number of passes
of the search loop every recorded node has path length at most `64`; `find_path`
returns a route of at most `64` steps, and the route is empty when the player's
Manhattan distance from the origin exceeds `64`. -/
theorem find_path_bounded (tie : Nat → Nat) (g : map_state)
    (hb : in_bounds g.position = true) :
    (∀ n k a, (search_upto tie g.rooms n (search_init g.position)).point_data k = some a →
        a.path_length ≤ 64)
      ∧ ∃ route, find_path tie g = some { g with portal_path := route }
        ∧ route.length ≤ 64
        ∧ (64 < manhattan g.position → route = []) := by
  refine ⟨?_, find_path_bounded_spec tie g hb⟩
  intro n k a hk
  have h := (search_upto_inv tie g.rooms g.position (fun _ => True)
    (fun _ _ _ _ _ _ => trivial) n _ (search_init_inv _ _ hb) trivial).1
  exact h.len_le k a hk

theorem find_path_bounded_witness :
    in_bounds detour_state.position = true
      ∧ (∀ n k a, (search_upto first_tie detour_state.rooms n
            (search_init detour_state.position)).point_data k = some a → a.path_length ≤ 64)
      ∧ ∃ route, find_path first_tie detour_state = some { detour_state with portal_path := route }
        ∧ route.length ≤ 64
        ∧ (64 < manhattan detour_state.position → route = []) :=
  ⟨by decide, find_path_bounded first_tie detour_state (by decide)⟩

/-- After as many passes as the termination measure allows the queue is empty. -/
theorem search_upto_empty (tie : Nat → Nat) (rooms : Nat → Option room_data) (start : ivec2) :
    ∀ (n : Nat) (st : search_state), search_inv rooms start st → search_measure st ≤ n →
      (search_upto tie rooms n st).points = [] := by
  intro n
  induction n with
  | zero =>
    intro st _ hm
    have h0 : st.points.length = 0 := by
      unfold search_measure at hm
      omega
    exact List.length_eq_zero.mp h0
  | succ n ih =>
    intro st hinv hm
    unfold search_upto
    cases hs : search_step (tie n) rooms st with
    | none => exact (search_step_none_iff _ _ _).mp hs
    | some st1 =>
      obtain ⟨hinv1, _, hmeasure, _⟩ := search_step_inv (tie n) rooms start st st1 hinv hs
      exact ih st1 hinv1 (by omega)

/-- C29: for every room table and in-bounds player position, the queue is empty after
at most `401 * 401` passes of the search loop (a pass pops one entry, and an entry is
pushed only together with the node of a coordinate that had none); the loop ends within
any fuel of at least `401 * 401 + 1` passes, in a state with an empty queue in which
every key is that of a grid cell and every candidate direction stored on a node leads
to a recorded node of strictly smaller path length; from the origin's node, when there
is one, the reconstruction loop returns a route without a failed lookup; and
`find_path` returns. -/
theorem find_path_terminates (tie : Nat → Nat) (g : map_state)
    (hb : in_bounds g.position = true) :
    (search_upto tie g.rooms (401 * 401) (search_init g.position)).points = []
    ∧ (∀ fuel, search_fuel ≤ fuel →
      ∃ st, search tie g.rooms fuel (search_init g.position) = some st ∧ st.points = []
        ∧ (∀ k a, st.point_data k = some a → k < 401 * 401
            ∧ ∀ d ∈ a.parent_dir, ∃ b, st.point_data (point_id (a.position + d)) = some b
                ∧ b.path_length < a.path_length)
        ∧ ∀ dest, st.point_data (point_id zero) = some dest →
            ∃ route, reconstruct st.point_data fuel zero dest [] = some route
              ∧ route.length ≤ dest.path_length)
      ∧ ∃ route, find_path tie g = some { g with portal_path := route } := by
  refine ⟨search_upto_empty tie g.rooms g.position _ _ (search_init_inv _ _ hb) ?_, ?_,
    find_path_total tie g hb⟩
  · have := search_init_measure g.position hb
    simp only [search_fuel] at this
    omega
  intro fuel hfuel
  obtain ⟨st, hst, hinv, _, hempty, _⟩ :=
    search_total_with tie g.rooms g.position (fun _ => True) (fun _ _ _ _ _ _ => trivial)
      fuel (search_init g.position) (search_init_inv _ _ hb) trivial
      (lt_of_lt_of_le (search_init_measure _ hb) hfuel)
  refine ⟨st, hst, hempty, ?_, ?_⟩
  · intro k a hk
    obtain ⟨hab, hkey⟩ := hinv.key_pos k a hk
    refine ⟨by rw [← hkey]; exact point_id_lt _ hab, ?_⟩
    intro d hd
    obtain ⟨_, _, _, _, b, hb1, hb2, _⟩ := hinv.parents k a hk d hd
    exact ⟨b, hb1, hb2⟩
  · intro dest hd
    have h64 : dest.path_length ≤ fuel := by
      have := hinv.len_le _ dest hd
      simp only [search_fuel] at hfuel
      omega
    obtain ⟨route, hr, _, hlen⟩ :=
      reconstruct_spec g.rooms g.position st hinv hb fuel zero dest [] (by decide) hd h64
    exact ⟨route, by simpa using hr, hlen⟩

theorem find_path_terminates_witness :
    in_bounds detour_state.position = true
      ∧ (search_upto first_tie detour_state.rooms (401 * 401)
          (search_init detour_state.position)).points = []
      ∧ (∀ fuel, search_fuel ≤ fuel →
        ∃ st, search first_tie detour_state.rooms fuel (search_init detour_state.position)
            = some st ∧ st.points = []
          ∧ (∀ k a, st.point_data k = some a → k < 401 * 401
              ∧ ∀ d ∈ a.parent_dir, ∃ b, st.point_data (point_id (a.position + d)) = some b
                  ∧ b.path_length < a.path_length)
          ∧ ∀ dest, st.point_data (point_id zero) = some dest →
              ∃ route, reconstruct st.point_data fuel zero dest [] = some route
                ∧ route.length ≤ dest.path_length)
        ∧ ∃ route, find_path first_tie detour_state
            = some { detour_state with portal_path := route } :=
  ⟨by decide, find_path_terminates first_tie detour_state (by decide)⟩

/-! ## The rooms the search reads -/

theorem visit_keeps_key (rooms : Nat → Option room_data) (p : astar_point) (paths : Nat)
    (st : search_state) (i k0 : Nat) (h : st.point_data k0 ≠ none) :
    (visit rooms p paths st i).point_data k0 ≠ none := by
  cases hp : has_path paths i with
  | false => rw [visit_closed _ _ _ _ _ hp]; exact h
  | true =>
    cases hb : in_bounds (p.position + dir_at i) with
    | false => rw [visit_out _ _ _ _ _ hb]; exact h
    | true =>
      cases hf : st.point_data (point_id (p.position + dir_at i)) with
      | some fd =>
        rw [visit_found _ _ _ _ _ fd hp hb hf]
        split
        · dsimp only
          by_cases hk : k0 = point_id (p.position + dir_at i)
          · rw [hk, map_insert_same]; exact Option.some_ne_none _
          · rw [map_insert_other _ _ _ _ hk]; exact h
        · exact h
      | none =>
        rw [visit_new _ _ _ _ _ hp hb hf]
        dsimp only
        by_cases hk : k0 = point_id (p.position + dir_at i)
        · rw [hk, map_insert_same]; exact Option.some_ne_none _
        · rw [map_insert_other _ _ _ _ hk]; exact h

theorem visit_same_rooms (rooms rooms2 : Nat → Option room_data) (p : astar_point)
    (paths : Nat) (st : search_state) (i k0 : Nat)
    (hother : ∀ k, k ≠ k0 → rooms2 k = rooms k) (h : st.point_data k0 ≠ none) :
    visit rooms2 p paths st i = visit rooms p paths st i := by
  cases hp : has_path paths i with
  | false => rw [visit_closed _ _ _ _ _ hp, visit_closed _ _ _ _ _ hp]
  | true =>
    cases hb : in_bounds (p.position + dir_at i) with
    | false => rw [visit_out _ _ _ _ _ hb, visit_out _ _ _ _ _ hb]
    | true =>
      cases hf : st.point_data (point_id (p.position + dir_at i)) with
      | some fd => rw [visit_found rooms2 _ _ _ _ fd hp hb hf, visit_found rooms _ _ _ _ fd hp hb hf]
      | none =>
        have hk : point_id (p.position + dir_at i) ≠ k0 := by
          intro e
          rw [e] at hf
          exact h hf
        have hh : point_heuristic rooms2 (p.position + dir_at i)
            = point_heuristic rooms (p.position + dir_at i) := by
          simp only [point_heuristic, scale_num, hother _ hk]
        rw [visit_new rooms2 _ _ _ _ hp hb hf, visit_new rooms _ _ _ _ hp hb hf, hh]

theorem visit_fold_same_rooms (rooms rooms2 : Nat → Option room_data) (p : astar_point)
    (paths : Nat) (k0 : Nat) (hother : ∀ k, k ≠ k0 → rooms2 k = rooms k) (l : List Nat) :
    ∀ st : search_state, st.point_data k0 ≠ none →
      l.foldl (visit rooms2 p paths) st = l.foldl (visit rooms p paths) st
        ∧ (l.foldl (visit rooms p paths) st).point_data k0 ≠ none := by
  induction l with
  | nil => intro st h; exact ⟨rfl, h⟩
  | cons i is ih =>
    intro st h
    rw [List.foldl_cons, List.foldl_cons, visit_same_rooms rooms rooms2 p paths st i k0 hother h]
    exact ih _ (visit_keeps_key rooms p paths st i k0 h)

theorem fetch_point_keeps (pd : Nat → Option astar_point) (k k0 : Nat) (h : pd k0 ≠ none) :
    (fetch_point pd k).2 k0 ≠ none := by
  unfold fetch_point
  cases hk : pd k with
  | some a => exact h
  | none =>
    dsimp only
    by_cases e : k0 = k
    · rw [e, map_insert_same]; exact Option.some_ne_none _
    · rw [map_insert_other _ _ _ _ e]; exact h

theorem search_step_same_rooms (t : Nat) (rooms rooms2 : Nat → Option room_data) (k0 : Nat)
    (hother : ∀ k, k ≠ k0 → rooms2 k = rooms k)
    (hpaths : paths_of rooms2 k0 = paths_of rooms k0) (st : search_state)
    (h : st.point_data k0 ≠ none) :
    search_step t rooms2 st = search_step t rooms st
      ∧ ∀ st1, search_step t rooms st = some st1 → st1.point_data k0 ≠ none := by
  have hall : ∀ k, paths_of rooms2 k = paths_of rooms k := by
    intro k
    by_cases e : k = k0
    · rw [e]; exact hpaths
    · simp only [paths_of, hother k e]
  unfold search_step
  cases pq_pop t st.points with
  | none => exact ⟨rfl, fun _ hh => by cases hh⟩
  | some x =>
    obtain ⟨top, rest⟩ := x
    dsimp only
    rw [hall]
    have h1 : (fetch_point st.point_data top.point).2 k0 ≠ none := fetch_point_keeps _ _ _ h
    split
    · exact ⟨rfl, fun st1 hh => by cases hh; exact h1⟩
    · obtain ⟨e1, e2⟩ := visit_fold_same_rooms rooms rooms2
        (fetch_point st.point_data top.point).1 (paths_of rooms top.point) k0 hother
        [0, 1, 2, 3]
        { st with point_data := (fetch_point st.point_data top.point).2, points := rest } h1
      exact ⟨by rw [e1], fun st1 hh => by cases hh; exact e2⟩

theorem search_same_rooms (tie : Nat → Nat) (rooms rooms2 : Nat → Option room_data) (k0 : Nat)
    (hother : ∀ k, k ≠ k0 → rooms2 k = rooms k)
    (hpaths : paths_of rooms2 k0 = paths_of rooms k0) :
    ∀ (fuel : Nat) (st : search_state), st.point_data k0 ≠ none →
      search tie rooms2 fuel st = search tie rooms fuel st := by
  intro fuel
  induction fuel with
  | zero => intro st _; rfl
  | succ n ih =>
    intro st h
    obtain ⟨e1, e2⟩ := search_step_same_rooms (tie n) rooms rooms2 k0 hother hpaths st h
    unfold search
    rw [e1]
    cases hs : search_step (tie n) rooms st with
    | none => rfl
    | some st1 => exact ih st1 (e2 st1 hs)

theorem find_path_same_rooms (tie : Nat → Nat) (g g2 : map_state)
    (hpos : g2.position = g.position)
    (hother : ∀ k, k ≠ point_id g.position → g2.rooms k = g.rooms k)
    (hpaths : paths_of g2.rooms (point_id g.position) = paths_of g.rooms (point_id g.position)) :
    (find_path tie g2).map (fun m => m.portal_path)
      = (find_path tie g).map (fun m => m.portal_path) := by
  have hs := search_same_rooms tie g.rooms g2.rooms (point_id g.position) hother hpaths
    search_fuel (search_init g.position)
    (by simp [search_init, map_insert_same])
  unfold find_path
  rw [hpos, hs]
  split
  · rfl
  · cases search tie g.rooms search_fuel (search_init g.position) with
    | none => rfl
    | some st =>
      dsimp only
      cases st.point_data (point_id zero) with
      | none => rfl
      | some dest =>
        dsimp only
        cases reconstruct st.point_data search_fuel zero dest [] <;> rfl

/-- C30: when two states have the player at the same coordinate and room tables that
agree on every key but the player's, where both hold a room with the same passage
flags, `find_path` stores the same route in both, for the same tie-breaks. -/
theorem find_path_ignores_own_room (tie : Nat → Nat) (g g2 : map_state) (r r2 : room_data)
    (hpos : g2.position = g.position)
    (hother : ∀ k, k ≠ point_id g.position → g2.rooms k = g.rooms k)
    (hr : g.rooms (point_id g.position) = some r)
    (hr2 : g2.rooms (point_id g.position) = some r2) (hp : r2.paths = r.paths) :
    (find_path tie g2).map (fun m => m.portal_path)
      = (find_path tie g).map (fun m => m.portal_path) :=
  find_path_same_rooms tie g g2 hpos hother (by simp only [paths_of, hr, hr2, hp])

theorem find_path_ignores_own_room_witness :
    ((state_of (table_of [⟨⟨1, 0⟩, 15, room_flag_avoid, false⟩]) ⟨1, 0⟩).position
        = (state_of (table_of [⟨⟨1, 0⟩, 15, 0, true⟩]) ⟨1, 0⟩).position
      ∧ (∀ k, k ≠ point_id (state_of (table_of [⟨⟨1, 0⟩, 15, 0, true⟩]) ⟨1, 0⟩).position →
          (state_of (table_of [⟨⟨1, 0⟩, 15, room_flag_avoid, false⟩]) ⟨1, 0⟩).rooms k
            = (state_of (table_of [⟨⟨1, 0⟩, 15, 0, true⟩]) ⟨1, 0⟩).rooms k)
      ∧ (state_of (table_of [⟨⟨1, 0⟩, 15, 0, true⟩]) ⟨1, 0⟩).rooms
          (point_id (state_of (table_of [⟨⟨1, 0⟩, 15, 0, true⟩]) ⟨1, 0⟩).position)
            = some ⟨⟨1, 0⟩, 15, 0, true⟩
      ∧ (state_of (table_of [⟨⟨1, 0⟩, 15, room_flag_avoid, false⟩]) ⟨1, 0⟩).rooms
          (point_id (state_of (table_of [⟨⟨1, 0⟩, 15, 0, true⟩]) ⟨1, 0⟩).position)
            = some ⟨⟨1, 0⟩, 15, room_flag_avoid, false⟩
      ∧ (⟨⟨1, 0⟩, 15, room_flag_avoid, false⟩ : room_data).paths
          = (⟨⟨1, 0⟩, 15, 0, true⟩ : room_data).paths)
    ∧ (find_path (fun _ => 0)
          (state_of (table_of [⟨⟨1, 0⟩, 15, room_flag_avoid, false⟩]) ⟨1, 0⟩)).map
        (fun m => m.portal_path)
      = (find_path (fun _ => 0) (state_of (table_of [⟨⟨1, 0⟩, 15, 0, true⟩]) ⟨1, 0⟩)).map
        (fun m => m.portal_path) :=
  have hother : ∀ k, k ≠ point_id (state_of (table_of [⟨⟨1, 0⟩, 15, 0, true⟩]) ⟨1, 0⟩).position →
      (state_of (table_of [⟨⟨1, 0⟩, 15, room_flag_avoid, false⟩]) ⟨1, 0⟩).rooms k
        = (state_of (table_of [⟨⟨1, 0⟩, 15, 0, true⟩]) ⟨1, 0⟩).rooms k := by
    intro k hk
    have hk1 : k ≠ point_id ⟨1, 0⟩ := hk
    simp [state_of, table_of, map_insert, hk1]
  ⟨⟨rfl, hother, by decide, by decide, rfl⟩,
    find_path_ignores_own_room (fun _ => 0)
      (state_of (table_of [⟨⟨1, 0⟩, 15, 0, true⟩]) ⟨1, 0⟩)
      (state_of (table_of [⟨⟨1, 0⟩, 15, room_flag_avoid, false⟩]) ⟨1, 0⟩)
      ⟨⟨1, 0⟩, 15, 0, true⟩ ⟨⟨1, 0⟩, 15, room_flag_avoid, false⟩
      rfl hother (by decide) (by decide) rfl⟩

/-! ## The heuristic of a node -/

theorem calc_heuristic_int (n : ivec2) (hb : in_bounds n = true) :
    (calc_heuristic n : ℤ) = n.x * n.x + n.y * n.y := by
  have h := (in_bounds_iff n).mp hb
  have hx : n.x * n.x ≤ 40000 := by nlinarith
  have hy : n.y * n.y ≤ 40000 := by nlinarith
  have hx0 : 0 ≤ n.x * n.x := mul_self_nonneg _
  have hy0 : 0 ≤ n.y * n.y := mul_self_nonneg _
  unfold calc_heuristic to_unsigned
  rw [Int.toNat_of_nonneg (Int.emod_nonneg _ (by decide))]
  exact Int.emod_eq_of_lt (by omega) (by omega)

theorem point_heuristic_spec (rooms : Nat → Option room_data) (n : ivec2)
    (hb : in_bounds n = true) : (point_heuristic rooms n : ℤ) = spec_heuristic rooms n := by
  unfold point_heuristic spec_heuristic
  rw [← calc_heuristic_int n hb]
  have key : ∀ (h b : Nat) (s : ℚ), s = (b : ℚ) / 2 →
      (((h * b / 2 : Nat) : ℤ)) = ⌊((h : ℤ) : ℚ) * s⌋ := by
    intro h b s hs
    rw [hs, ← mul_div_assoc]
    have : (((h : ℤ) : ℚ) * (b : ℚ)) = (((h * b : Nat) : ℤ) : ℚ) := by push_cast; ring
    rw [this, show ((2 : ℚ)) = ((2 : ℕ) : ℚ) by norm_num, Rat.floor_intCast_div_natCast]
    norm_cast
  apply key
  unfold scale_num spec_scale
  cases rooms (point_id n) with
  | none => norm_num
  | some r =>
    by_cases ha : r.flags &&& room_flag_avoid != 0
    · simp [ha]; norm_num
    · cases hv : r.visited <;> simp [ha, hv]

theorem spec_heuristics_init (rooms : Nat → Option room_data) (start : ivec2)
    (hb : in_bounds start = true) : spec_heuristics rooms start (search_init start) := by
  constructor
  · intro k a hk
    simp only [search_init, map_insert] at hk
    split at hk
    · cases hk
      rw [if_pos rfl]
      exact calc_heuristic_int start hb
    · cases hk
  · intro q hq
    simp only [search_init, List.mem_singleton] at hq
    subst hq
    exact ⟨⟨start, [], 0, calc_heuristic start⟩, by simp [search_init, map_insert], rfl⟩

theorem spec_heuristics_step (t : Nat) (rooms : Nat → Option room_data) (start : ivec2)
    (st st1 : search_state) (hinv : search_inv rooms start st)
    (hs : spec_heuristics rooms start st) (h : search_step t rooms st = some st1) :
    spec_heuristics rooms start st1 := by
  have hinv1 := (search_step_inv t rooms start st st1 hinv h).1
  obtain ⟨top, p, hmem, _, hp, heq⟩ := search_step_eq t rooms start st st1 hinv h
  have hbase : spec_heuristics rooms start { st with points := st.points.erase top } :=
    ⟨hs.1, fun q hq => hs.2 q (List.mem_of_mem_erase hq)⟩
  split at heq
  · rw [heq]; exact hbase
  · have heff := visit_effect_fold rooms p (paths_of rooms (point_id p.position)) [0, 1, 2, 3]
      (by decide) { st with points := st.points.erase top }
    rw [← heq] at heff
    obtain ⟨a0, ha0, _⟩ := hinv.start_rec
    constructor
    · intro k a1 hk
      cases hold : st.point_data k with
      | some a =>
        obtain ⟨extra, he, _⟩ := heff.old_node k a hold
        rw [hk] at he
        cases he
        exact hs.1 k a hold
      | none =>
        obtain ⟨i, extra, _, _, hbi, hkey, ha1, _⟩ := heff.new_node k a1 hold hk
        subst ha1
        dsimp only
        have hne : p.position + dir_at i ≠ start := by
          intro e
          rw [e] at hkey
          rw [← hkey, ha0] at hold
          cases hold
        rw [if_neg hne]
        exact point_heuristic_spec rooms _ hbi
    · intro q hq
      rcases heff.new_queued q hq with hqold | ⟨hnone, i, _, hbi, hqe⟩
      · obtain ⟨a, ha, hh⟩ := hbase.2 q hqold
        obtain ⟨extra, he, _⟩ := heff.old_node _ a ha
        exact ⟨_, he, hh⟩
      · obtain ⟨a1, hnew⟩ := hinv1.queued q hq
        obtain ⟨j, extra, _, _, hbj, hkey, ha1, _⟩ := heff.new_node _ a1 hnone hnew
        refine ⟨a1, hnew, ?_⟩
        subst ha1 hqe
        dsimp only at hkey ⊢
        rw [point_id_inj _ _ hbj hbi hkey]

theorem spec_heuristics_upto (tie : Nat → Nat) (rooms : Nat → Option room_data)
    (start : ivec2) (hb : in_bounds start = true) (n : Nat) :
    spec_heuristics rooms start (search_upto tie rooms n (search_init start)) :=
  (search_upto_inv tie rooms start (spec_heuristics rooms start)
    (fun t st st1 hi hp hs => spec_heuristics_step t rooms start st st1 hi hp hs)
    n (search_init start) (search_init_inv rooms start hb) (spec_heuristics_init rooms start hb)).2

/-- C23: with the player within the grid, in every state the search loop goes through
(after any number of iterations, under every tie-breaking) each recorded node other than
the start node carries the heuristic `⌊(x*x + y*y) * s⌋` of its coordinate `(x, y)`,
where `s` is `5` for a room with the avoid annotation (visited or not), else `1.5` for an
unvisited room of the table, else `3` for a coordinate without a room, else `1`; the
start node carries `x*x + y*y` of the player's coordinate; and every queued entry carries
the heuristic recorded on its node. -/
theorem heuristic_is_scaled_distance (tie : Nat → Nat) (g : map_state)
    (hb : in_bounds g.position = true) (n : Nat) :
    (∀ k a, (search_upto tie g.rooms n (search_init g.position)).point_data k = some a →
      (a.heuristic : ℤ) = if a.position = g.position
        then g.position.x * g.position.x + g.position.y * g.position.y
        else ⌊((a.position.x * a.position.x + a.position.y * a.position.y : ℤ) : ℚ)
          * spec_scale (g.rooms (point_id a.position))⌋)
    ∧ ∀ q ∈ (search_upto tie g.rooms n (search_init g.position)).points,
        ∃ a, (search_upto tie g.rooms n (search_init g.position)).point_data q.point = some a
          ∧ q.heuristic = a.heuristic :=
  spec_heuristics_upto tie g.rooms g.position hb n

theorem heuristic_is_scaled_distance_witness :
    in_bounds avoid_state.position = true
    ∧ ((∀ k a, (search_upto (fun _ => 0) avoid_state.rooms 2
          (search_init avoid_state.position)).point_data k = some a →
        (a.heuristic : ℤ) = if a.position = avoid_state.position
          then avoid_state.position.x * avoid_state.position.x
            + avoid_state.position.y * avoid_state.position.y
          else ⌊((a.position.x * a.position.x + a.position.y * a.position.y : ℤ) : ℚ)
            * spec_scale (avoid_state.rooms (point_id a.position))⌋)
      ∧ ∀ q ∈ (search_upto (fun _ => 0) avoid_state.rooms 2
            (search_init avoid_state.position)).points,
          ∃ a, (search_upto (fun _ => 0) avoid_state.rooms 2
              (search_init avoid_state.position)).point_data q.point = some a
            ∧ q.heuristic = a.heuristic) :=
  ⟨by decide, heuristic_is_scaled_distance (fun _ => 0) avoid_state (by decide) 2⟩

/-! ## The mask that Discovery computes -/

theorem has_path_bits (a b c d : Bool) :
    has_path (bit_at a 0 ||| bit_at b 1 ||| bit_at c 2 ||| bit_at d 3) 0 = a
    ∧ has_path (bit_at a 0 ||| bit_at b 1 ||| bit_at c 2 ||| bit_at d 3) 1 = b
    ∧ has_path (bit_at a 0 ||| bit_at b 1 ||| bit_at c 2 ||| bit_at d 3) 2 = c
    ∧ has_path (bit_at a 0 ||| bit_at b 1 ||| bit_at c 2 ||| bit_at d 3) 3 = d
    ∧ bit_at a 0 ||| bit_at b 1 ||| bit_at c 2 ||| bit_at d 3 < 16 := by
  cases a <;> cases b <;> cases c <;> cases d <;> decide

theorem edge_down_eq (a : ivec2) (h : in_bounds a = true) :
    (a.y.natAbs == radius && decide (a.y > 0)) = !in_bounds (a + dir_at 0) := by
  have h1 := (in_bounds_iff a).mp h
  have e : (a + dir_at 0) = ⟨a.x, a.y + 1⟩ := by apply ivec2_eq <;> simp [dir_at, directions, south]
  rw [e]
  cases hb : in_bounds ⟨a.x, a.y + 1⟩ with
  | true =>
    have h2 := (in_bounds_iff _).mp hb
    dsimp only at h2
    simp only [Bool.not_true, Bool.and_eq_false_imp, beq_iff_eq, decide_eq_false_iff_not, radius]
    intro; omega
  | false =>
    have h2 : ¬ _ := fun h3 => (Bool.eq_false_iff.mp hb) ((in_bounds_iff _).mpr h3)
    simp only [Bool.not_false, Bool.and_eq_true, beq_iff_eq, decide_eq_true_eq, radius]
    dsimp only at h2
    omega

theorem edge_right_eq (a : ivec2) (h : in_bounds a = true) :
    (a.x.natAbs == radius && decide (a.x > 0)) = !in_bounds (a + dir_at 1) := by
  have h1 := (in_bounds_iff a).mp h
  have e : (a + dir_at 1) = ⟨a.x + 1, a.y⟩ := by apply ivec2_eq <;> simp [dir_at, directions, east]
  rw [e]
  cases hb : in_bounds ⟨a.x + 1, a.y⟩ with
  | true =>
    have h2 := (in_bounds_iff _).mp hb
    dsimp only at h2
    simp only [Bool.not_true, Bool.and_eq_false_imp, beq_iff_eq, decide_eq_false_iff_not, radius]
    intro; omega
  | false =>
    have h2 : ¬ _ := fun h3 => (Bool.eq_false_iff.mp hb) ((in_bounds_iff _).mpr h3)
    simp only [Bool.not_false, Bool.and_eq_true, beq_iff_eq, decide_eq_true_eq, radius]
    dsimp only at h2
    omega

theorem edge_up_eq (a : ivec2) (h : in_bounds a = true) :
    (a.y.natAbs == radius && decide (a.y < 0)) = !in_bounds (a + dir_at 2) := by
  have h1 := (in_bounds_iff a).mp h
  have e : (a + dir_at 2) = ⟨a.x, a.y + -1⟩ := by apply ivec2_eq <;> simp [dir_at, directions, north]
  rw [e]
  cases hb : in_bounds ⟨a.x, a.y + -1⟩ with
  | true =>
    have h2 := (in_bounds_iff _).mp hb
    dsimp only at h2
    simp only [Bool.not_true, Bool.and_eq_false_imp, beq_iff_eq, decide_eq_false_iff_not, radius]
    intro; omega
  | false =>
    have h2 : ¬ _ := fun h3 => (Bool.eq_false_iff.mp hb) ((in_bounds_iff _).mpr h3)
    simp only [Bool.not_false, Bool.and_eq_true, beq_iff_eq, decide_eq_true_eq, radius]
    dsimp only at h2
    omega

theorem edge_left_eq (a : ivec2) (h : in_bounds a = true) :
    (a.x.natAbs == radius && decide (a.x < 0)) = !in_bounds (a + dir_at 3) := by
  have h1 := (in_bounds_iff a).mp h
  have e : (a + dir_at 3) = ⟨a.x + -1, a.y⟩ := by apply ivec2_eq <;> simp [dir_at, directions, west]
  rw [e]
  cases hb : in_bounds ⟨a.x + -1, a.y⟩ with
  | true =>
    have h2 := (in_bounds_iff _).mp hb
    dsimp only at h2
    simp only [Bool.not_true, Bool.and_eq_false_imp, beq_iff_eq, decide_eq_false_iff_not, radius]
    intro; omega
  | false =>
    have h2 : ¬ _ := fun h3 => (Bool.eq_false_iff.mp hb) ((in_bounds_iff _).mpr h3)
    simp only [Bool.not_false, Bool.and_eq_true, beq_iff_eq, decide_eq_true_eq, radius]
    dsimp only at h2
    omega

/-- The mask of a corner neighbour is its grid-edge mask. -/
theorem surround_open_corner (p : Nat) (off a : ivec2)
    (hc : (off.x != 0 && off.y != 0) = true) : surround_open p off a = edge_mask a := by
  unfold surround_open edge_mask on_edge
  simp only [hc, if_true]

/-- The mask of a cardinal neighbour, bit by bit. -/
theorem surround_open_cardinal (p : Nat) (d : Nat) (hd : d < 4) (a : ivec2)
    (h : in_bounds a = true) (e : Nat) (he : e < 4) :
    has_path (surround_open p (dir_at d) a) e
      = (in_bounds (a + dir_at e) && (!decide (e = opposite d) || has_path p d))
    ∧ surround_open p (dir_at d) a < 16 := by
  unfold surround_open
  have hc : ((dir_at d).x != 0 && (dir_at d).y != 0) = false := by
    interval_cases d <;> decide
  simp only [hc, Bool.false_eq_true, if_false]
  rw [edge_down_eq a h, edge_right_eq a h, edge_up_eq a h, edge_left_eq a h]
  simp only [Bool.not_not]
  obtain ⟨h0, h1, h2, h3, hlt⟩ := has_path_bits
    (((p &&& 4 != 0) || !((dir_at d).y == -1)) && in_bounds (a + dir_at 0))
    (((p &&& 8 != 0) || !((dir_at d).x == -1)) && in_bounds (a + dir_at 1))
    (((p &&& 1 != 0) || !((dir_at d).y == 1)) && in_bounds (a + dir_at 2))
    (((p &&& 2 != 0) || !((dir_at d).x == 1)) && in_bounds (a + dir_at 3))
  refine ⟨?_, hlt⟩
  have p0 : has_path p 0 = (p &&& 1 != 0) := rfl
  have p1 : has_path p 1 = (p &&& 2 != 0) := rfl
  have p2 : has_path p 2 = (p &&& 4 != 0) := rfl
  have p3 : has_path p 3 = (p &&& 8 != 0) := rfl
  interval_cases e
  · rw [h0]
    interval_cases d <;> simp [dir_at, directions, south, east, north, west, opposite, p2, Bool.and_comm]
  · rw [h1]
    interval_cases d <;> simp [dir_at, directions, south, east, north, west, opposite, p3, Bool.and_comm]
  · rw [h2]
    interval_cases d <;> simp [dir_at, directions, south, east, north, west, opposite, p0, Bool.and_comm]
  · rw [h3]
    interval_cases d <;> simp [dir_at, directions, south, east, north, west, opposite, p1, Bool.and_comm]

theorem on_edge_eq (a : ivec2) (h : in_bounds a = true) (e : Nat) (he : e < 4) :
    on_edge a e = !in_bounds (a + dir_at e) := by
  interval_cases e
  · exact edge_down_eq a h
  · exact edge_right_eq a h
  · exact edge_up_eq a h
  · exact edge_left_eq a h

theorem touch_room_paths (rooms : Nat → Option room_data) (k : Nat) :
    ∃ c, touch_room rooms k k = some c ∧ c.paths = paths_of rooms k
      ∧ ∀ r0, rooms k = some r0 → c = r0 := by
  cases h : rooms k with
  | none =>
    exact ⟨default_room, touch_room_none _ _ h, by simp [paths_of, h, default_room],
      fun r0 h0 => by cases h0⟩
  | some r =>
    refine ⟨r, by rw [touch_room_some _ _ _ h]; exact h, by simp [paths_of, h], ?_⟩
    intro r0 h0
    cases h0
    rfl

/-- C21: for every room table, in-bounds `pos` and cardinal direction `d` with `pos + d`
in bounds and absent from the table, `add_surrounding_rooms(pos)` leaves a record for
`pos + d` with position `pos + d`, annotation none, visited false and passage flags
(below 16) in which the bit of the direction opposite to `d` is set exactly when the
room at `pos` (the table's own record when there is one) has its bit for `d` set, and
the bit of each other direction is set exactly when `pos + d` does not lie on the grid
edge in that direction. -/
theorem discovery_creates_cardinal (g : map_state) (pos : ivec2) (d : Nat)
    (hp : in_bounds pos = true) (hd : d < 4) (hb : in_bounds (pos + dir_at d) = true)
    (habs : g.rooms (point_id (pos + dir_at d)) = none) :
    ∃ c r, (add_surrounding_rooms g pos).rooms (point_id pos) = some c
      ∧ (∀ r0, g.rooms (point_id pos) = some r0 → c = r0)
      ∧ (add_surrounding_rooms g pos).rooms (point_id (pos + dir_at d)) = some r
      ∧ r.position = pos + dir_at d ∧ r.flags = 0 ∧ r.visited = false ∧ r.paths < 16
      ∧ has_path r.paths (opposite d) = has_path c.paths d
      ∧ ∀ e, e < 4 → e ≠ opposite d → has_path r.paths e = !on_edge (pos + dir_at d) e := by
  obtain ⟨c, hc, hcp, hc0⟩ := touch_room_paths g.rooms (point_id pos)
  obtain ⟨j, hj, hoff⟩ := dir_at_offset d hd
  have hat := add_surrounding_at g pos hp j hj (by rw [hoff]; exact hb)
  rw [hoff, habs] at hat
  refine ⟨c, _, (add_surrounding_self g pos hp).trans hc, hc0, hat, rfl, rfl, rfl, ?_, ?_, ?_⟩
  · exact (surround_open_cardinal _ d hd _ hb 0 (by decide)).2
  · have ho : opposite d < 4 := by unfold opposite; omega
    rw [(surround_open_cardinal _ d hd _ hb (opposite d) ho).1, dir_at_opposite d hd,
      add_neg_self, hp, hcp]
    simp
  · intro e he hne
    rw [(surround_open_cardinal _ d hd _ hb e he).1, on_edge_eq _ hb e he]
    simp [hne]

theorem discovery_creates_cardinal_witness :
    (in_bounds (⟨199, 0⟩ : ivec2) = true ∧ 1 < 4 ∧ in_bounds ((⟨199, 0⟩ : ivec2) + dir_at 1) = true
      ∧ edge_corner_state.rooms (point_id ((⟨199, 0⟩ : ivec2) + dir_at 1)) = none)
    ∧ ∃ c r, (add_surrounding_rooms edge_corner_state ⟨199, 0⟩).rooms (point_id ⟨199, 0⟩) = some c
      ∧ (∀ r0, edge_corner_state.rooms (point_id ⟨199, 0⟩) = some r0 → c = r0)
      ∧ (add_surrounding_rooms edge_corner_state ⟨199, 0⟩).rooms
          (point_id ((⟨199, 0⟩ : ivec2) + dir_at 1)) = some r
      ∧ r.position = (⟨199, 0⟩ : ivec2) + dir_at 1 ∧ r.flags = 0 ∧ r.visited = false
      ∧ r.paths < 16
      ∧ has_path r.paths (opposite 1) = has_path c.paths 1
      ∧ ∀ e, e < 4 → e ≠ opposite 1 →
          has_path r.paths e = !on_edge ((⟨199, 0⟩ : ivec2) + dir_at 1) e :=
  ⟨⟨by decide, by decide, by decide, by decide⟩,
    discovery_creates_cardinal edge_corner_state ⟨199, 0⟩ 1 (by decide) (by decide) (by decide)
      (by decide)⟩

theorem edge_mask_keeps (x : Nat) (a : ivec2) (hx : x < 16)
    (h : ∀ e, e < 4 → on_edge a e = true → has_path x e = false) : x &&& edge_mask a = x := by
  have h0 := h 0 (by decide)
  have h1 := h 1 (by decide)
  have h2 := h 2 (by decide)
  have h3 := h 3 (by decide)
  unfold edge_mask
  revert h0 h1 h2 h3
  generalize on_edge a 0 = b0
  generalize on_edge a 1 = b1
  generalize on_edge a 2 = b2
  generalize on_edge a 3 = b3
  clear h
  interval_cases x <;> cases b0 <;> cases b1 <;> cases b2 <;> cases b3 <;> decide

/-- C22 fails as stated: with the player at `(199,0)` and a table that already holds the
diagonal neighbour `(200,1)` with all four passage bits set, `add_surrounding_rooms`
leaves that room's flags at `15`, while the flags ANDed with the grid-edge mask of
`(200,1)`, which lies on the east edge, are `13`. -/
theorem discovery_diagonal_not_masked :
    in_bounds (⟨199, 0⟩ : ivec2) = true ∧ in_bounds (⟨200, 1⟩ : ivec2) = true
    ∧ (⟨200, 1⟩ : ivec2) = (⟨199, 0⟩ : ivec2) + offset_at 7
    ∧ edge_corner_state.rooms (point_id ⟨200, 1⟩) = some ⟨⟨200, 1⟩, 15, 0, false⟩
    ∧ (add_surrounding_rooms edge_corner_state ⟨199, 0⟩).rooms (point_id ⟨200, 1⟩)
        = some ⟨⟨200, 1⟩, 15, 0, false⟩
    ∧ on_edge ⟨200, 1⟩ 1 = true
    ∧ 15 &&& edge_mask ⟨200, 1⟩ = 13 := by
  decide

/-! ## One key event, seen from the room table -/

theorem DISCARD_step (g g1 : global_type) (h : DISCARD g = some g1) :
    table_step g.map g1.map := by
  rw [DISCARD_map _ _ h]
  exact table_step.same rfl rfl rfl

theorem facing_exists (m : map_state) (hinv : map_inv m) (hd : m.pick_direction = false)
    (i : Nat) (hi : i < 4) (hb : in_bounds (m.position + dir_at i) = true) :
    (∃ facing, m.rooms (point_id (m.position + dir_at i)) = some facing)
      ∧ point_id (m.position + dir_at i) ≠ point_id m.position := by
  obtain ⟨j, hj, hoff⟩ := dir_at_offset i hi
  rw [← hoff] at hb ⊢
  exact ⟨hinv.around hd j hj hb, fun e => add_offset_ne _ j hj (point_id_inj _ _ hb hinv.bounds e)⟩

theorem init_map_position (m : map_state) (paths : Nat) :
    (init_map m paths).position = m.position := by
  unfold init_map add_surrounding_rooms add_room
  dsimp only
  split <;> rfl

theorem toggle_flag_step (g g1 : global_type) (room : room_data) (kind : Nat) (action : Int)
    (h : toggle_flag g room (point_id g.map.position) kind action = some g1)
    (hd : g.map.pick_direction = false)
    (hroom : g.map.rooms (point_id g.map.position) = some room)
    (hk : kind = room_flag_avoid ∨ kind = room_flag_important_1 ∨ kind = room_flag_important_2) :
    table_step g.map g1.map := by
  unfold toggle_flag at h
  split at h
  · exact DISCARD_step _ _ h
  · rename_i hnp
    split at h
    · cases h; exact table_step.same rfl rfl rfl
    · cases h
      exact table_step.flag room kind hd hroom hnp hk rfl rfl hd

theorem toggle_link_step (tie : Nat → Nat) (g g1 : global_type) (room : room_data)
    (i : Nat) (hi : i < 4) (action : Int)
    (h : toggle_link tie g room (point_id g.map.position) i action = some g1)
    (hinv : map_inv g.map) (hd : g.map.pick_direction = false)
    (hroom : g.map.rooms (point_id g.map.position) = some room)
    (hb : in_bounds (g.map.position + dir_at i) = true) :
    table_step g.map g1.map := by
  obtain ⟨⟨facing, hfacing⟩, hne⟩ := facing_exists g.map hinv hd i hi hb
  have ht : touch_room g.map.rooms (point_id (g.map.position + dir_at i))
      = g.map.rooms := touch_room_some _ _ facing hfacing
  obtain ⟨route, hroute⟩ := find_path_total tie { g.map with rooms := (map_insert
    (map_insert g.map.rooms (point_id g.map.position) (flip_path room (1 <<< i)))
    (point_id (g.map.position + dir_at i)) (flip_path facing (1 <<< opposite i))) } hinv.bounds
  unfold toggle_link at h
  by_cases hnp : room.flags = room_flag_portal
  · rw [if_pos hnp] at h
    exact DISCARD_step _ _ h
  · rw [if_neg hnp] at h
    dsimp only at h
    simp only [ht, hfacing] at h
    by_cases hnf : facing.flags = room_flag_portal
    · rw [if_pos hnf] at h
      exact DISCARD_step _ _ h
    · rw [if_neg hnf] at h
      by_cases ha : action = GLFW_RELEASE
      · rw [if_pos ha] at h
        cases h
        exact table_step.same rfl rfl rfl
      · rw [if_neg ha] at h
        simp only [hroom, map_insert_other _ _ _ _ hne, hfacing, hroute] at h
        cases h
        exact table_step.link i room facing hi hd hb hroom hfacing hnp hnf rfl rfl hd

theorem move_player_step (tie : Nat → Nat) (g g1 : global_type) (room : room_data)
    (i : Nat) (hi : i < 4) (action : Int) (h : move_player tie g room i action = some g1)
    (hd : g.map.pick_direction = false)
    (hroom : g.map.rooms (point_id g.map.position) = some room)
    (hb : in_bounds (g.map.position + dir_at i) = true) :
    table_step g.map g1.map := by
  unfold move_player at h
  split at h
  · exact DISCARD_step _ _ h
  · rename_i hpath
    split at h
    · cases h; exact table_step.same rfl rfl rfl
    · dsimp only at h
      split at h
      · cases h
      · rename_i m2 hm
        obtain ⟨e1, e2, e3, _⟩ := find_path_core _ _ _ hm
        obtain ⟨hrooms, hpos, hpick, _⟩ := push_path_frame
          { g.map with position := g.map.position + dir_at i }
          (g.map.position + dir_at i) (1 <<< opposite i)
        obtain ⟨dest, hdest, f1, f2, f3, _⟩ := finish_move_eq _ _ _ _ _ h
        have hr2 : m2.rooms = g.map.rooms := e1.trans hrooms
        rw [hr2] at hdest
        refine table_step.move i room dest hi hd hb hroom ?_ hdest ?_ ?_ ?_
        · simpa [has_path] using hpath
        · rw [f1]
          unfold moved_rooms
          apply add_surrounding_rooms_congr
          dsimp only [state_of]
          rw [hr2]
        · rw [f2]; exact e2.trans hpos
        · rw [f3]; exact e3.trans (hpick.trans hd)

theorem arrow_key_step (tie : Nat → Nat) (g g1 : global_type) (room : room_data)
    (i : Nat) (hi : i < 4) (action : Int) (mods : Nat)
    (h : arrow_key tie g room (point_id g.map.position) i action mods = some g1)
    (hinv : map_inv g.map)
    (hroom : g.map.pick_direction = false → g.map.rooms (point_id g.map.position) = some room) :
    table_step g.map g1.map := by
  unfold arrow_key at h
  split at h
  · exact DISCARD_step _ _ h
  · split at h
    · rename_i hpick
      split at h
      · exact DISCARD_step _ _ h
      · split at h
        · cases h; exact table_step.same rfl rfl rfl
        · cases h
          exact table_step.init i hi hpick rfl (init_map_position _ _) rfl
    · rename_i hpick
      have hd : g.map.pick_direction = false := by simpa using hpick
      split at h
      · exact DISCARD_step _ _ h
      · split at h
        · exact DISCARD_step _ _ h
        · rename_i hblk
          have hb : in_bounds (g.map.position + dir_at i) = true := by
            have hblk2 : arrow_blocked g.map.position i = false := by simpa using hblk
            rw [arrow_blocked_eq _ _ hinv.bounds hi] at hblk2
            simpa using hblk2
          split at h
          · exact toggle_link_step tie g g1 room i hi action h hinv hd (hroom hd) hb
          · exact move_player_step tie g g1 room i hi action h hd (hroom hd) hb

theorem page_down_key_step (g g1 : global_type) (room : room_data) (action : Int)
    (mods : Nat) (h : page_down_key g room (point_id g.map.position) action mods = some g1)
    (hroom : g.map.pick_direction = false → g.map.rooms (point_id g.map.position) = some room) :
    table_step g.map g1.map := by
  unfold page_down_key at h
  repeat' split at h
  all_goals first
    | exact DISCARD_step _ _ h
    | (cases h; exact table_step.same rfl rfl rfl)
    | (rename_i hpick
       have hd : g.map.pick_direction = false := by simpa using hpick
       exact toggle_flag_step g g1 room _ action h hd (hroom hd) (Or.inr (Or.inl rfl)))

theorem page_up_key_step (g g1 : global_type) (room : room_data) (action : Int)
    (mods : Nat) (h : page_up_key g room (point_id g.map.position) action mods = some g1)
    (hroom : g.map.pick_direction = false → g.map.rooms (point_id g.map.position) = some room) :
    table_step g.map g1.map := by
  unfold page_up_key at h
  repeat' split at h
  all_goals first
    | exact DISCARD_step _ _ h
    | (cases h; exact table_step.same rfl rfl rfl)
    | (rename_i hpick
       have hd : g.map.pick_direction = false := by simpa using hpick
       exact toggle_flag_step g g1 room _ action h hd (hroom hd) (Or.inr (Or.inr rfl)))

theorem home_key_step (g g1 : global_type) (action : Int) (mods : Nat)
    (h : home_key g action mods = some g1) : table_step g.map g1.map := by
  unfold home_key at h
  repeat' split at h
  all_goals first
    | exact DISCARD_step _ _ h
    | (cases h; exact table_step.same rfl rfl rfl)

theorem end_key_step (g g1 : global_type) (room : room_data) (action : Int)
    (mods : Nat) (h : end_key g room (point_id g.map.position) action mods = some g1)
    (hroom : g.map.pick_direction = false → g.map.rooms (point_id g.map.position) = some room) :
    table_step g.map g1.map := by
  unfold end_key at h
  split at h
  · exact DISCARD_step _ _ h
  split at h
  · exact DISCARD_step _ _ h
  split at h
  · exact DISCARD_step _ _ h
  rename_i hpick
  have hd : g.map.pick_direction = false := by simpa using hpick
  split at h
  · split at h
    · exact DISCARD_step _ _ h
    · cases h
      exact table_step.reset rfl rfl rfl
  · exact toggle_flag_step g g1 room _ action h hd (hroom hd) (Or.inl rfl)

theorem f1_key_step (g g1 : global_type) (action : Int)
    (h : f1_key g action = some g1) : table_step g.map g1.map := by
  unfold f1_key at h
  repeat' split at h
  all_goals first
    | exact DISCARD_step _ _ h
    | (cases h; exact table_step.same rfl rfl rfl)

theorem key_switch_step (tie : Nat → Nat) (g g1 : global_type) (room : room_data)
    (key action : Int) (mods : Nat)
    (h : key_switch tie g room (point_id g.map.position) key action mods = some g1)
    (hinv : map_inv g.map)
    (hroom : g.map.pick_direction = false → g.map.rooms (point_id g.map.position) = some room) :
    table_step g.map g1.map := by
  unfold key_switch at h
  split at h
  · exact arrow_key_step tie _ g1 room 2 (by decide) action mods h hinv hroom
  split at h
  · exact arrow_key_step tie _ g1 room 0 (by decide) action mods h hinv hroom
  split at h
  · exact arrow_key_step tie _ g1 room 3 (by decide) action mods h hinv hroom
  split at h
  · exact arrow_key_step tie _ g1 room 1 (by decide) action mods h hinv hroom
  split at h
  · exact page_down_key_step _ _ _ _ _ h hroom
  split at h
  · exact page_up_key_step _ _ _ _ _ h hroom
  split at h
  · exact home_key_step _ _ _ _ h
  split at h
  · exact end_key_step _ _ _ _ _ h hroom
  split at h
  · exact f1_key_step _ _ _ h
  split at h
  · cases h; exact table_step.same rfl rfl rfl
  · exact DISCARD_step _ _ h

/-- Every key event is one of the steps of `table_step`. -/
theorem keyboard_callback_step (tie : Nat → Nat) (g g1 : global_type) (key action : Int)
    (mods : Nat) (h : keyboard_callback tie g key action mods = some g1)
    (hinv : map_inv g.map) : table_step g.map g1.map := by
  unfold keyboard_callback at h
  dsimp only at h
  split at h
  · cases h
  · rename_i room hroom
    refine key_switch_step tie { g with discard := false } g1 room key action mods h hinv ?_
    intro hd
    have hd2 : g.map.pick_direction = false := hd
    simpa [hd2] using hroom

/-! ## Discovery and the symmetry of passages -/

theorem has_path_testBit (x e : Nat) : has_path x e = x.testBit e := by
  unfold has_path
  rw [Bool.eq_iff_iff]
  simp only [bne_iff_ne, ne_eq, Nat.one_shiftLeft]
  constructor
  · intro h
    by_contra hb
    apply h
    apply Nat.eq_of_testBit_eq
    intro i
    simp only [Nat.testBit_and, Nat.testBit_two_pow, Nat.zero_testBit]
    by_cases hie : e = i
    · subst hie; simp [hb]
    · simp [hie]
  · intro h h0
    have := congrArg (fun y => Nat.testBit y e) h0
    simp [Nat.testBit_and, Nat.testBit_two_pow, h] at this

theorem has_path_and (a b e : Nat) : has_path (a &&& b) e = (has_path a e && has_path b e) := by
  simp only [has_path_testBit, Nat.testBit_and]

theorem paths_of_congr (rooms rooms1 : Nat → Option room_data) (k : Nat)
    (h : rooms1 k = rooms k) : paths_of rooms1 k = paths_of rooms k := by
  simp only [paths_of, h]

theorem has_path_all (e : Nat) (he : e < 4) : has_path path_flag_all e = true := by
  interval_cases e <;> decide

theorem opposite_lt (e : Nat) : opposite e < 4 := by
  unfold opposite
  omega

theorem opposite_opposite (e : Nat) (he : e < 4) : opposite (opposite e) = e := by
  unfold opposite
  omega

theorem dir_at_ne_zero (e : Nat) (he : e < 4) : dir_at e ≠ zero := by
  interval_cases e <;> decide

theorem add_dir_ne (c : ivec2) (e : Nat) (he : e < 4) : c + dir_at e ≠ c := by
  intro h
  have h2 : c + dir_at e = c + zero := by rw [h, add_zero_vec]
  exact dir_at_ne_zero e he (add_left_cancel_vec _ _ _ h2)

/-- A step in direction `e` from the neighbour at offset `i` leads back to the centre
only when that offset is the opposite direction. -/
theorem offset_back (pos : ivec2) (i e : Nat) (hi : i < 8) (he : e < 4)
    (h : pos + offset_at i + dir_at e = pos) : offset_at i = dir_at (opposite e) := by
  have h1 := congrArg ivec2.x h
  have h2 := congrArg ivec2.y h
  simp only [add_x, add_y] at h1 h2
  have h3 : (offset_at i).x + (dir_at e).x = 0 := by omega
  have h4 : (offset_at i).y + (dir_at e).y = 0 := by omega
  clear h h1 h2
  revert h3 h4
  interval_cases i <;> interval_cases e <;> decide

theorem offset_cardinal (i : Nat) (hi : i < 8)
    (h : ((offset_at i).x != 0 && (offset_at i).y != 0) = false) :
    ∃ d, d < 4 ∧ offset_at i = dir_at d := by
  revert h
  interval_cases i
  · decide
  · exact fun _ => ⟨2, by decide, by decide⟩
  · decide
  · exact fun _ => ⟨3, by decide, by decide⟩
  · exact fun _ => ⟨1, by decide, by decide⟩
  · decide
  · exact fun _ => ⟨0, by decide, by decide⟩
  · decide

theorem dir_back (pos : ivec2) (d e : Nat) (hd : d < 4) (he : e < 4) :
    pos + dir_at d + dir_at e = pos ↔ e = opposite d := by
  constructor
  · intro h
    obtain ⟨j, hj, hoff⟩ := dir_at_offset d hd
    rw [← hoff] at h
    have h2 := offset_back pos j e hj he h
    rw [hoff] at h2
    have h3 := dir_at_inj d (opposite e) hd (opposite_lt e) h2
    rw [h3, opposite_opposite e he]
  · intro h
    rw [h, dir_at_opposite d hd, add_neg_self]

/-- Every key is the centre, an in-bounds neighbour, or untouched by Discovery. -/
theorem discovery_cases (g : map_state) (pos : ivec2) (r : room_data)
    (hp : in_bounds pos = true) (hr : g.rooms (point_id pos) = some r) (k : Nat) :
    (add_surrounding_rooms g pos).rooms k = g.rooms k
      ∨ ∃ i, i < 8 ∧ in_bounds (pos + offset_at i) = true ∧ k = point_id (pos + offset_at i) := by
  by_cases hex : ∃ i, i < 8 ∧ in_bounds (pos + offset_at i) = true
      ∧ k = point_id (pos + offset_at i)
  · exact Or.inr hex
  · left
    by_cases hk : k = point_id pos
    · rw [hk, add_surrounding_self g pos hp, touch_room_some _ _ r hr]
    · exact add_surrounding_other g pos k hk (fun i hi hb e => hex ⟨i, hi, hb, e⟩)

/-- Discovery keeps the key invariant of the table. -/
theorem discovery_keys (g : map_state) (pos : ivec2) (r : room_data)
    (hp : in_bounds pos = true) (hr : g.rooms (point_id pos) = some r)
    (hk : ∀ k r, g.rooms k = some r → in_bounds r.position = true ∧ point_id r.position = k) :
    ∀ k r, (add_surrounding_rooms g pos).rooms k = some r →
      in_bounds r.position = true ∧ point_id r.position = k := by
  intro k r1 h1
  rcases discovery_cases g pos r hp hr k with hsame | ⟨i, hi, hb, rfl⟩
  · rw [hsame] at h1
    exact hk k r1 h1
  · rw [add_surrounding_at g pos hp i hi hb] at h1
    cases hold : g.rooms (point_id (pos + offset_at i)) with
    | none =>
      rw [hold] at h1
      cases h1
      exact ⟨hb, rfl⟩
    | some found =>
      rw [hold] at h1
      dsimp only at h1
      split at h1
      · rw [← Option.some.inj h1]
        exact hk _ found hold
      · rw [← Option.some.inj h1]
        exact hk _ found hold

/-- What Discovery does to the passage test of a grid coordinate `c` in direction `e`,
a coordinate without a room counting as open: it stays, except that the passage
towards the centre is also cut where the centre's room has no passage back. -/
theorem discovery_link (g : map_state) (pos : ivec2) (r : room_data)
    (hp : in_bounds pos = true) (hr : g.rooms (point_id pos) = some r) (c : ivec2) (e : Nat)
    (he : e < 4) (hc : in_bounds c = true) (hce : in_bounds (c + dir_at e) = true) :
    has_path (paths_of (add_surrounding_rooms g pos).rooms (point_id c)) e
      = (has_path (paths_of g.rooms (point_id c)) e
          && (!decide (c + dir_at e = pos) || has_path r.paths (opposite e))) := by
  have hpp : paths_of g.rooms (point_id pos) = r.paths := by simp [paths_of, hr]
  by_cases hex : ∃ i, i < 8 ∧ c = pos + offset_at i
  · obtain ⟨i, hi, rfl⟩ := hex
    have hat := add_surrounding_at g pos hp i hi hc
    cases hcorner : ((offset_at i).x != 0 && (offset_at i).y != 0) with
    | true =>
      have hne : pos + offset_at i + dir_at e ≠ pos := by
        intro h
        have h2 := offset_back pos i e hi he h
        rw [h2] at hcorner
        have : ((dir_at (opposite e)).x != 0 && (dir_at (opposite e)).y != 0) = false := by
          interval_cases e <;> decide
        rw [this] at hcorner
        cases hcorner
      simp only [hne, decide_False, Bool.not_false, Bool.true_or, Bool.and_true]
      cases hold : g.rooms (point_id (pos + offset_at i)) with
      | none =>
        rw [hold] at hat
        simp only [paths_of, hat, hold]
        rw [surround_open_corner _ _ _ hcorner, has_path_all e he]
        have := (has_path_bits (!on_edge (pos + offset_at i) 0) (!on_edge (pos + offset_at i) 1)
          (!on_edge (pos + offset_at i) 2) (!on_edge (pos + offset_at i) 3))
        have hedge := on_edge_eq _ hc e he
        rw [hce] at hedge
        unfold edge_mask
        interval_cases e
        · rw [this.1, hedge]; rfl
        · rw [this.2.1, hedge]; rfl
        · rw [this.2.2.1, hedge]; rfl
        · rw [this.2.2.2.1, hedge]; rfl
      | some found =>
        rw [hold] at hat
        simp only [hcorner, if_true] at hat
        simp only [paths_of, hat, hold]
    | false =>
      obtain ⟨d, hd, hoff⟩ := offset_cardinal i hi hcorner
      rw [hoff] at hat hc hce ⊢
      have hopen := (surround_open_cardinal (paths_of g.rooms (point_id pos)) d hd _ hc e he).1
      rw [hce, hpp, Bool.true_and] at hopen
      have hdec : decide (pos + dir_at d + dir_at e = pos) = decide (e = opposite d) := by
        rw [decide_eq_decide]
        exact dir_back pos d e hd he
      have hopp : (!decide (e = opposite d) || has_path r.paths d)
          = (!decide (e = opposite d) || has_path r.paths (opposite e)) := by
        by_cases hed : e = opposite d
        · rw [hed, opposite_opposite d hd]
        · simp [hed]
      rw [hdec, ← hopp, ← hopen]
      rw [hpp] at hat
      have hcf : ((dir_at d).x != 0 && (dir_at d).y != 0) = false := by rw [← hoff]; exact hcorner
      cases hold : g.rooms (point_id (pos + dir_at d)) with
      | none =>
        rw [hold] at hat
        simp only [paths_of, hat, hold]
        rw [has_path_all e he, Bool.true_and]
      | some found =>
        rw [hold] at hat
        simp only [hcf, Bool.false_eq_true, if_false] at hat
        simp only [paths_of, hat, hold]
        rw [has_path_and]
  · have hne : c + dir_at e ≠ pos := by
      intro h
      apply hex
      obtain ⟨j, hj, hoff⟩ := dir_at_offset (opposite e) (opposite_lt e)
      refine ⟨j, hj, ?_⟩
      rw [hoff, dir_at_opposite e he, ← h, add_neg_self]
    simp only [hne, decide_False, Bool.not_false, Bool.true_or, Bool.and_true]
    apply congrArg (fun x => has_path x e)
    apply paths_of_congr
    by_cases hcp : c = pos
    · rw [hcp, add_surrounding_self g pos hp, touch_room_some _ _ r hr]
    · rw [add_surrounding_other g pos (point_id c)
        (fun h => hcp (point_id_inj _ _ hc hp h))
        (fun i hi hb h => hex ⟨i, hi, point_id_inj _ _ hc hb h⟩)]

/-- Discovery keeps passages symmetric when they were symmetric away from the centre
and every passage of the centre ends at a neighbour that is open towards it. -/
theorem discovery_sym (g : map_state) (pos : ivec2) (r : room_data)
    (hp : in_bounds pos = true) (hr : g.rooms (point_id pos) = some r)
    (h1 : ∀ c e, e < 4 → in_bounds c = true → in_bounds (c + dir_at e) = true → c ≠ pos →
      c + dir_at e ≠ pos → has_path (paths_of g.rooms (point_id c)) e
        = has_path (paths_of g.rooms (point_id (c + dir_at e))) (opposite e))
    (h2 : ∀ e, e < 4 → in_bounds (pos + dir_at e) = true → has_path r.paths e = true →
      has_path (paths_of g.rooms (point_id (pos + dir_at e))) (opposite e) = true) :
    ∀ c e, e < 4 → in_bounds c = true → in_bounds (c + dir_at e) = true →
      has_path (paths_of (add_surrounding_rooms g pos).rooms (point_id c)) e
        = has_path (paths_of (add_surrounding_rooms g pos).rooms (point_id (c + dir_at e)))
            (opposite e) := by
  intro c e he hc hce
  have hpp : paths_of g.rooms (point_id pos) = r.paths := by simp [paths_of, hr]
  have hback : c + dir_at e + dir_at (opposite e) = c := by
    rw [dir_at_opposite e he, add_neg_self]
  rw [discovery_link g pos r hp hr c e he hc hce,
    discovery_link g pos r hp hr (c + dir_at e) (opposite e) (opposite_lt e) hce
      (by rw [hback]; exact hc), hback, opposite_opposite e he]
  by_cases hcp : c = pos
  · subst hcp
    have hne : c + dir_at e ≠ c := add_dir_ne c e he
    simp only [hne, decide_False, Bool.not_false, Bool.true_or, Bool.and_true, decide_True,
      Bool.not_true, Bool.false_or, hpp]
    cases hr1 : has_path r.paths e with
    | true => rw [h2 e he hce hr1]; rfl
    | false => simp
  · by_cases hcq : c + dir_at e = pos
    · have hc2 : c = pos + dir_at (opposite e) := by rw [← hcq, hback]
      simp only [hcq, hcp, decide_True, decide_False, Bool.not_true, Bool.false_or, Bool.not_false,
        Bool.true_or, Bool.and_true, hpp]
      cases hr1 : has_path r.paths (opposite e) with
      | true =>
        have := h2 (opposite e) (opposite_lt e) (by rw [← hc2]; exact hc) hr1
        rw [← hc2, opposite_opposite e he] at this
        rw [this]; rfl
      | false => simp
    · simp only [hcq, hcp, decide_False, Bool.not_false, Bool.true_or, Bool.and_true]
      exact h1 c e he hc hce hcp hcq

/-! ## The table invariant along key events -/

theorem has_path_flip (x i e : Nat) :
    has_path (x ^^^ (1 <<< i)) e = (has_path x e != decide (e = i)) := by
  simp only [has_path_testBit, Nat.testBit_xor, Nat.one_shiftLeft, Nat.testBit_two_pow]
  by_cases h : e = i
  · subst h; simp
  · have h2 : ¬ i = e := fun h3 => h h3.symm
    simp [h, h2]

theorem add_right_cancel_dir (a b d : ivec2) (h : a + d = b + d) : a = b := by
  have h1 := congrArg ivec2.x h
  have h2 := congrArg ivec2.y h
  simp only [add_x, add_y] at h1 h2
  apply ivec2_eq <;> omega

theorem opposite_inj (a b : Nat) (ha : a < 4) (hb : b < 4) (h : opposite a = opposite b) :
    a = b := by
  unfold opposite at h
  omega

theorem table_inv_of_eq (m m1 : map_state) (h : table_inv m) (hr : m1.rooms = m.rooms)
    (hp : m1.position = m.position) (hd : m1.pick_direction = m.pick_direction) :
    table_inv m1 := by
  refine ⟨?_, ?_, ?_, ?_⟩
  · rw [hr]; exact h.keys
  · rw [hr]; exact h.sym
  · rw [hd, hp, hr]; exact h.seen
  · rw [hd, hr]; exact h.empty

theorem paths_of_none (rooms : Nat → Option room_data) (k : Nat) (h : rooms k = none) :
    paths_of rooms k = path_flag_all := by
  simp [paths_of, h]

theorem paths_of_some (rooms : Nat → Option room_data) (k : Nat) (r : room_data)
    (h : rooms k = some r) : paths_of rooms k = r.paths := by
  simp [paths_of, h]

theorem paths_of_insert (rooms : Nat → Option room_data) (k : Nat) (r v : room_data)
    (h : rooms k = some r) (hv : v.paths = r.paths) (j : Nat) :
    paths_of (map_insert rooms k v) j = paths_of rooms j := by
  by_cases hj : j = k
  · rw [hj, paths_of_some _ _ v (map_insert_same _ _ _), paths_of_some _ _ r h, hv]
  · exact paths_of_congr _ _ _ (map_insert_other _ _ _ _ hj)

theorem table_inv_reset (m1 : map_state) (hr : m1.rooms = fun _ => none)
    (hd : m1.pick_direction = true) : table_inv m1 := by
  refine ⟨?_, ?_, ?_, ?_⟩
  · intro k r h
    rw [hr] at h
    cases h
  · intro c e he _ _
    rw [hr]
    show has_path path_flag_all e = has_path path_flag_all (opposite e)
    rw [has_path_all e he, has_path_all _ (opposite_lt e)]
  · intro h
    rw [hd] at h
    cases h
  · intro _ k
    rw [hr]

theorem table_inv_initial : table_inv initial_state.map :=
  table_inv_reset _ rfl rfl

/-- The table invariant after Discovery on a room of the table whose record is visited. -/
theorem table_inv_discovery (g m1 : map_state) (pos : ivec2) (r : room_data)
    (hp : in_bounds pos = true) (hr : g.rooms (point_id pos) = some r) (hv : r.visited = true)
    (hk : ∀ k r, g.rooms k = some r → in_bounds r.position = true ∧ point_id r.position = k)
    (h1 : ∀ c e, e < 4 → in_bounds c = true → in_bounds (c + dir_at e) = true → c ≠ pos →
      c + dir_at e ≠ pos → has_path (paths_of g.rooms (point_id c)) e
        = has_path (paths_of g.rooms (point_id (c + dir_at e))) (opposite e))
    (h2 : ∀ e, e < 4 → in_bounds (pos + dir_at e) = true → has_path r.paths e = true →
      has_path (paths_of g.rooms (point_id (pos + dir_at e))) (opposite e) = true)
    (hrooms : m1.rooms = (add_surrounding_rooms g pos).rooms) (hpos : m1.position = pos)
    (hd : m1.pick_direction = false) : table_inv m1 := by
  refine ⟨?_, ?_, ?_, ?_⟩
  · rw [hrooms]
    exact discovery_keys g pos r hp hr hk
  · rw [hrooms]
    exact discovery_sym g pos r hp hr h1 h2
  · intro _
    rw [hrooms, hpos, add_surrounding_self g pos hp, touch_room_some _ _ r hr]
    exact ⟨r, hr, hv⟩
  · intro h
    rw [hd] at h
    cases h

theorem init_map_rooms (m : map_state) (paths : Nat) (he : ∀ k, m.rooms k = none) :
    (init_map m paths).rooms
      = (add_surrounding_rooms (state_of (map_insert (fun _ => none) (point_id zero)
          ⟨zero, paths, room_flag_portal, true⟩) zero) zero).rooms := by
  have hfun : m.rooms = fun _ => none := funext he
  unfold init_map
  show (add_surrounding_rooms (add_room m ⟨0, 0⟩ paths room_flag_portal true) ⟨0, 0⟩).rooms = _
  apply add_surrounding_rooms_congr
  unfold add_room
  rw [he]
  dsimp only [state_of]
  rw [hfun]
  rfl

theorem table_inv_init (m m1 : map_state) (paths : Nat) (he : ∀ k, m.rooms k = none)
    (hz : m.position = zero)
    (hrooms : m1.rooms = (init_map m paths).rooms) (hpos : m1.position = m.position)
    (hd : m1.pick_direction = false) : table_inv m1 := by
  rw [init_map_rooms m paths he] at hrooms
  have hins : ∀ k, k ≠ point_id zero →
      (state_of (map_insert (fun _ => none) (point_id zero)
        ⟨zero, paths, room_flag_portal, true⟩) zero).rooms k = none :=
    fun k hk => by
      show map_insert (fun _ => none) (point_id zero) _ k = none
      rw [map_insert_other _ _ _ _ hk]
  have hself : (state_of (map_insert (fun _ => none) (point_id zero)
      ⟨zero, paths, room_flag_portal, true⟩) zero).rooms (point_id zero)
        = some ⟨zero, paths, room_flag_portal, true⟩ := by
    show map_insert (fun _ => none) (point_id zero) _ (point_id zero) = _
    rw [map_insert_same]
  refine table_inv_discovery _ m1 zero ⟨zero, paths, room_flag_portal, true⟩ (by decide)
    hself rfl ?_ ?_ ?_ hrooms (hpos.trans hz) hd
  · intro k r h
    by_cases hk : k = point_id zero
    · rw [hk] at h ⊢
      rw [hself] at h
      rw [← Option.some.inj h]
      exact ⟨(by decide : in_bounds zero = true), rfl⟩
    · rw [hins k hk] at h
      cases h
  · intro c e he hc hce hcp hcq
    rw [paths_of_none _ _ (hins _ (fun h => hcp (point_id_inj _ _ hc (by decide) h))),
      paths_of_none _ _ (hins _ (fun h => hcq (point_id_inj _ _ hce (by decide) h))),
      has_path_all e he, has_path_all _ (opposite_lt e)]
  · intro e he hce _
    rw [paths_of_none _ _ (hins _ (fun h => add_dir_ne zero e he
      (point_id_inj _ _ hce (by decide) h))), has_path_all _ (opposite_lt e)]

theorem table_inv_flag (m m1 : map_state) (room v : room_data) (ht : table_inv m)
    (hd : m.pick_direction = false) (hroom : m.rooms (point_id m.position) = some room)
    (hvp : v.position = room.position) (hvq : v.paths = room.paths)
    (hvv : v.visited = room.visited)
    (hrooms : m1.rooms = map_insert m.rooms (point_id m.position) v)
    (hpos : m1.position = m.position) (hd1 : m1.pick_direction = false) : table_inv m1 := by
  refine ⟨?_, ?_, ?_, ?_⟩
  · intro k r h
    rw [hrooms] at h
    by_cases hk : k = point_id m.position
    · rw [hk, map_insert_same] at h
      rw [← Option.some.inj h, hvp, hk]
      exact ht.keys _ room hroom
    · rw [map_insert_other _ _ _ _ hk] at h
      exact ht.keys k r h
  · intro c e he hc hce
    rw [hrooms, paths_of_insert _ _ room v hroom hvq, paths_of_insert _ _ room v hroom hvq]
    exact ht.sym c e he hc hce
  · intro _
    obtain ⟨r, hr, hv⟩ := ht.seen hd
    have hrr : r = room := Option.some.inj (hr.symm.trans hroom)
    rw [hrooms, hpos, map_insert_same]
    exact ⟨v, rfl, by rw [hvv, ← hrr]; exact hv⟩
  · intro h
    rw [hd1] at h
    cases h

theorem toggled_paths (rooms : Nat → Option room_data) (pos : ivec2) (i : Nat)
    (room facing : room_data) (hi : i < 4) (hp : in_bounds pos = true)
    (hb : in_bounds (pos + dir_at i) = true)
    (hroom : rooms (point_id pos) = some room)
    (hfacing : rooms (point_id (pos + dir_at i)) = some facing)
    (c : ivec2) (e : Nat) (hc : in_bounds c = true) :
    has_path (paths_of (toggled_rooms rooms pos i room facing) (point_id c)) e
      = (has_path (paths_of rooms (point_id c)) e
          != decide (c = pos ∧ e = i ∨ c = pos + dir_at i ∧ e = opposite i)) := by
  have hne : pos + dir_at i ≠ pos := add_dir_ne pos i hi
  unfold toggled_rooms
  by_cases hcf : c = pos + dir_at i
  · subst hcf
    rw [paths_of_some _ _ _ (map_insert_same _ _ _), paths_of_some _ _ _ hfacing]
    show has_path (facing.paths ^^^ (1 <<< opposite i)) e = _
    rw [has_path_flip]
    congr 1
    rw [decide_eq_decide]
    constructor
    · exact fun h => Or.inr ⟨rfl, h⟩
    · rintro (⟨h, _⟩ | ⟨_, h⟩)
      · exact absurd h hne
      · exact h
  · have hk : point_id c ≠ point_id (pos + dir_at i) := fun h => hcf (point_id_inj _ _ hc hb h)
    by_cases hcp : c = pos
    · subst hcp
      rw [paths_of_congr _ _ _ (map_insert_other _ _ _ _ hk),
        paths_of_some _ _ _ (map_insert_same _ _ _), paths_of_some _ _ _ hroom]
      show has_path (room.paths ^^^ (1 <<< i)) e = _
      rw [has_path_flip]
      congr 1
      rw [decide_eq_decide]
      constructor
      · exact fun h => Or.inl ⟨rfl, h⟩
      · rintro (⟨_, h⟩ | ⟨h, _⟩)
        · exact h
        · exact absurd h hcf
    · have hk2 : point_id c ≠ point_id pos := fun h => hcp (point_id_inj _ _ hc hp h)
      rw [paths_of_congr _ _ _ (map_insert_other _ _ _ _ hk),
        paths_of_congr _ _ _ (map_insert_other _ _ _ _ hk2)]
      have : ¬ (c = pos ∧ e = i ∨ c = pos + dir_at i ∧ e = opposite i) := by
        rintro (⟨h, _⟩ | ⟨h, _⟩)
        · exact hcp h
        · exact hcf h
      simp [this]

theorem table_inv_link (m m1 : map_state) (i : Nat) (room facing : room_data)
    (ht : table_inv m) (hp : in_bounds m.position = true) (hi : i < 4)
    (hd : m.pick_direction = false) (hb : in_bounds (m.position + dir_at i) = true)
    (hroom : m.rooms (point_id m.position) = some room)
    (hfacing : m.rooms (point_id (m.position + dir_at i)) = some facing)
    (hrooms : m1.rooms = toggled_rooms m.rooms m.position i room facing)
    (hpos : m1.position = m.position) (hd1 : m1.pick_direction = false) : table_inv m1 := by
  have hne : point_id (m.position + dir_at i) ≠ point_id m.position := fun h =>
    add_dir_ne m.position i hi (point_id_inj _ _ hb hp h)
  refine ⟨?_, ?_, ?_, ?_⟩
  · intro k r h
    rw [hrooms] at h
    unfold toggled_rooms at h
    by_cases hk : k = point_id (m.position + dir_at i)
    · rw [hk, map_insert_same] at h
      rw [← Option.some.inj h, hk]
      exact ht.keys _ facing hfacing
    · rw [map_insert_other _ _ _ _ hk] at h
      by_cases hk2 : k = point_id m.position
      · rw [hk2, map_insert_same] at h
        rw [← Option.some.inj h, hk2]
        exact ht.keys _ room hroom
      · rw [map_insert_other _ _ _ _ hk2] at h
        exact ht.keys k r h
  · intro c e he hc hce
    have hback : c + dir_at e + dir_at (opposite e) = c := by
      rw [dir_at_opposite e he, add_neg_self]
    rw [hrooms, toggled_paths _ _ _ _ _ hi hp hb hroom hfacing c e hc,
      toggled_paths _ _ _ _ _ hi hp hb hroom hfacing (c + dir_at e) (opposite e) hce,
      ht.sym c e he hc hce]
    congr 1
    rw [decide_eq_decide]
    constructor
    · rintro (⟨h1, h2⟩ | ⟨h1, h2⟩)
      · right
        rw [h1, h2]
        exact ⟨rfl, rfl⟩
      · left
        rw [h1, h2, dir_at_opposite i hi, add_neg_self, opposite_opposite i hi]
        exact ⟨rfl, rfl⟩
    · rintro (⟨h1, h2⟩ | ⟨h1, h2⟩)
      · right
        have he2 : e = opposite i := by rw [← h2, opposite_opposite e he]
        refine ⟨?_, he2⟩
        rw [← h1, ← h2, hback]
      · left
        have he2 : e = i := opposite_inj e i he hi h2
        rw [he2] at h1
        exact ⟨add_right_cancel_dir _ _ _ h1, he2⟩
  · intro _
    obtain ⟨r, hr, hv⟩ := ht.seen hd
    have hrr : r = room := Option.some.inj (hr.symm.trans hroom)
    rw [hrooms, hpos]
    unfold toggled_rooms
    rw [map_insert_other _ _ _ _ hne.symm, map_insert_same]
    exact ⟨_, rfl, by rw [← hrr]; exact hv⟩
  · intro h
    rw [hd1] at h
    cases h

theorem table_inv_move (m m1 : map_state) (i : Nat) (dest : room_data)
    (ht : table_inv m) (hb : in_bounds (m.position + dir_at i) = true)
    (hdest : m.rooms (point_id (m.position + dir_at i)) = some dest)
    (hrooms : m1.rooms = moved_rooms m.rooms (m.position + dir_at i) dest)
    (hpos : m1.position = m.position + dir_at i) (hd1 : m1.pick_direction = false) :
    table_inv m1 := by
  have hself : (state_of (map_insert m.rooms (point_id (m.position + dir_at i))
      (visited_room dest)) (m.position + dir_at i)).rooms (point_id (m.position + dir_at i))
        = some (visited_room dest) := by
    show map_insert m.rooms _ _ _ = _
    rw [map_insert_same]
  have hpaths : ∀ j, paths_of (state_of (map_insert m.rooms (point_id (m.position + dir_at i))
      (visited_room dest)) (m.position + dir_at i)).rooms j = paths_of m.rooms j :=
    fun j => paths_of_insert m.rooms _ dest (visited_room dest) hdest rfl j
  refine table_inv_discovery _ m1 (m.position + dir_at i) (visited_room dest) hb hself rfl
    ?_ ?_ ?_ hrooms hpos hd1
  · intro k r h
    have h2 : map_insert m.rooms (point_id (m.position + dir_at i)) (visited_room dest) k
        = some r := h
    by_cases hk : k = point_id (m.position + dir_at i)
    · rw [hk, map_insert_same] at h2
      rw [← Option.some.inj h2, hk]
      exact ht.keys _ dest hdest
    · rw [map_insert_other _ _ _ _ hk] at h2
      exact ht.keys k r h2
  · intro c e he hc hce _ _
    rw [hpaths, hpaths]
    exact ht.sym c e he hc hce
  · intro e he hce hr
    rw [hpaths, ← ht.sym _ e he hb hce, paths_of_some _ _ dest hdest]
    exact hr

/-- Every step of `table_step` keeps the table invariant. -/
theorem table_step_inv (m m1 : map_state) (hm : map_inv m) (ht : table_inv m)
    (hs : table_step m m1) : table_inv m1 := by
  cases hs with
  | same hr hp hd => exact table_inv_of_eq m m1 ht hr hp hd
  | init i hi hpick hr hp hd =>
    exact table_inv_init m m1 _ (ht.empty hpick) (hm.pick_pos hpick) hr hp hd
  | reset hr hp hd => exact table_inv_reset m1 hr hd
  | flag room kind hd hroom hnp hk hr hp hd1 =>
    exact table_inv_flag m m1 room
      ⟨room.position, room.paths, if room.flags = kind then 0 else kind, room.visited⟩
      ht hd hroom rfl rfl rfl hr hp hd1
  | link i room facing hi hd hb hroom hfacing hnp hnf hr hp hd1 =>
    exact table_inv_link m m1 i room facing ht hm.bounds hi hd hb hroom hfacing hr hp hd1
  | move i room dest hi hd hb hroom hpath hdest hr hp hd1 =>
    exact table_inv_move m m1 i dest ht hb hdest hr hp hd1

/-- Every reachable state satisfies the table invariant. -/
theorem reachable_table (g : global_type) (h : reachable g) : table_inv g.map := by
  induction h with
  | start => exact table_inv_initial
  | key_event tie g g1 key action mods hr hk ih =>
    exact table_step_inv g.map g1.map (reachable_inv g hr) ih
      (keyboard_callback_step tie g g1 key action mods hk (reachable_inv g hr))
  | outside g g1 _ hc ih =>
    obtain ⟨hr, hp, hd, _⟩ := hc
    exact table_inv_of_eq _ _ ih hr hp hd

/-! ## The key handler never fails -/

theorem toggle_flag_total (g : global_type) (room : room_data) (pid kind : Nat) (action : Int) :
    ∃ g1, toggle_flag g room pid kind action = some g1 := by
  unfold toggle_flag
  repeat' split
  all_goals exact ⟨_, rfl⟩

theorem toggle_link_total (tie : Nat → Nat) (g : global_type) (room : room_data)
    (i : Nat) (hi : i < 4) (action : Int)
    (hinv : map_inv g.map) (hd : g.map.pick_direction = false)
    (hroom : g.map.rooms (point_id g.map.position) = some room)
    (hb : in_bounds (g.map.position + dir_at i) = true) :
    ∃ g1, toggle_link tie g room (point_id g.map.position) i action = some g1 := by
  obtain ⟨⟨facing, hfacing⟩, hne⟩ := facing_exists g.map hinv hd i hi hb
  have ht : touch_room g.map.rooms (point_id (g.map.position + dir_at i))
      = g.map.rooms := touch_room_some _ _ facing hfacing
  obtain ⟨route, hroute⟩ := find_path_total tie { g.map with rooms := (map_insert
    (map_insert g.map.rooms (point_id g.map.position) (flip_path room (1 <<< i)))
    (point_id (g.map.position + dir_at i)) (flip_path facing (1 <<< opposite i))) } hinv.bounds
  unfold toggle_link
  by_cases hnp : room.flags = room_flag_portal
  · rw [if_pos hnp]
    exact ⟨_, rfl⟩
  · rw [if_neg hnp]
    dsimp only
    simp only [ht, hfacing]
    by_cases hnf : facing.flags = room_flag_portal
    · rw [if_pos hnf]
      exact ⟨_, rfl⟩
    · rw [if_neg hnf]
      by_cases ha : action = GLFW_RELEASE
      · rw [if_pos ha]
        exact ⟨_, rfl⟩
      · rw [if_neg ha]
        simp only [hroom, map_insert_other _ _ _ _ hne, hfacing, hroute]
        exact ⟨_, rfl⟩

theorem move_player_total (tie : Nat → Nat) (g : global_type) (room : room_data)
    (i : Nat) (hi : i < 4) (action : Int)
    (hinv : map_inv g.map) (hd : g.map.pick_direction = false)
    (hb : in_bounds (g.map.position + dir_at i) = true) :
    ∃ g1, move_player tie g room i action = some g1 := by
  obtain ⟨⟨facing, hfacing⟩, _⟩ := facing_exists g.map hinv hd i hi hb
  obtain ⟨e1, e2, _, _⟩ := push_path_frame { g.map with position := g.map.position + dir_at i }
    (g.map.position + dir_at i) (1 <<< opposite i)
  obtain ⟨route, hroute⟩ := find_path_total tie
    (push_path { g.map with position := g.map.position + dir_at i }
      (g.map.position + dir_at i) (1 <<< opposite i)) (by rw [e2]; exact hb)
  unfold move_player
  split
  · exact ⟨_, rfl⟩
  · split
    · exact ⟨_, rfl⟩
    · dsimp only
      rw [hroute]
      dsimp only
      apply finish_move_total _ _ _ _ facing
      dsimp only
      rw [e1]
      exact hfacing

theorem arrow_key_total (tie : Nat → Nat) (g : global_type) (room : room_data)
    (i : Nat) (hi : i < 4) (action : Int) (mods : Nat) (hinv : map_inv g.map)
    (hroom : g.map.pick_direction = false → g.map.rooms (point_id g.map.position) = some room) :
    ∃ g1, arrow_key tie g room (point_id g.map.position) i action mods = some g1 := by
  unfold arrow_key
  split
  · exact ⟨_, rfl⟩
  · split
    · split
      · exact ⟨_, rfl⟩
      · split
        · exact ⟨_, rfl⟩
        · exact ⟨_, rfl⟩
    · rename_i hpick
      have hd : g.map.pick_direction = false := by simpa using hpick
      split
      · exact ⟨_, rfl⟩
      · split
        · exact ⟨_, rfl⟩
        · rename_i hblk
          have hb : in_bounds (g.map.position + dir_at i) = true := by
            have hblk2 : arrow_blocked g.map.position i = false := by simpa using hblk
            rw [arrow_blocked_eq _ _ hinv.bounds hi] at hblk2
            simpa using hblk2
          split
          · exact toggle_link_total tie g room i hi action hinv hd (hroom hd) hb
          · exact move_player_total tie g room i hi action hinv hd hb

theorem DISCARD_total (g : global_type) : ∃ g1, DISCARD g = some g1 := ⟨_, rfl⟩

theorem page_down_key_total (g : global_type) (room : room_data) (pid : Nat) (action : Int)
    (mods : Nat) : ∃ g1, page_down_key g room pid action mods = some g1 := by
  unfold page_down_key
  split_ifs
  all_goals first
    | exact DISCARD_total _
    | exact toggle_flag_total _ _ _ _ _
    | exact ⟨_, rfl⟩

theorem page_up_key_total (g : global_type) (room : room_data) (pid : Nat) (action : Int)
    (mods : Nat) : ∃ g1, page_up_key g room pid action mods = some g1 := by
  unfold page_up_key
  split_ifs
  all_goals first
    | exact DISCARD_total _
    | exact toggle_flag_total _ _ _ _ _
    | exact ⟨_, rfl⟩

theorem home_key_total (g : global_type) (action : Int) (mods : Nat) :
    ∃ g1, home_key g action mods = some g1 := by
  unfold home_key
  split_ifs
  all_goals first
    | exact DISCARD_total _
    | exact ⟨_, rfl⟩

theorem end_key_total (g : global_type) (room : room_data) (pid : Nat) (action : Int)
    (mods : Nat) : ∃ g1, end_key g room pid action mods = some g1 := by
  unfold end_key
  split_ifs
  all_goals first
    | exact DISCARD_total _
    | exact toggle_flag_total _ _ _ _ _
    | exact ⟨_, rfl⟩

theorem f1_key_total (g : global_type) (action : Int) : ∃ g1, f1_key g action = some g1 := by
  unfold f1_key
  split_ifs
  all_goals first
    | exact DISCARD_total _
    | exact ⟨_, rfl⟩

theorem key_switch_total (tie : Nat → Nat) (g : global_type) (room : room_data)
    (key action : Int) (mods : Nat) (hinv : map_inv g.map)
    (hroom : g.map.pick_direction = false → g.map.rooms (point_id g.map.position) = some room) :
    ∃ g1, key_switch tie g room (point_id g.map.position) key action mods = some g1 := by
  unfold key_switch
  split
  · exact arrow_key_total tie g room 2 (by decide) action mods hinv hroom
  split
  · exact arrow_key_total tie g room 0 (by decide) action mods hinv hroom
  split
  · exact arrow_key_total tie g room 3 (by decide) action mods hinv hroom
  split
  · exact arrow_key_total tie g room 1 (by decide) action mods hinv hroom
  split
  · exact page_down_key_total _ _ _ _ _
  split
  · exact page_up_key_total _ _ _ _ _
  split
  · exact home_key_total _ _ _
  split
  · exact end_key_total _ _ _ _ _
  split
  · exact f1_key_total _ _
  split
  · exact ⟨_, rfl⟩
  · exact DISCARD_total _

/-- In a state that satisfies the map invariant the key handler returns for every key
event: no checked lookup fails. -/
theorem keyboard_callback_total (tie : Nat → Nat) (g : global_type) (key action : Int)
    (mods : Nat) (hinv : map_inv g.map) :
    ∃ g1, keyboard_callback tie g key action mods = some g1 := by
  unfold keyboard_callback
  dsimp only
  cases hd : g.map.pick_direction with
  | true =>
    simp only [if_true]
    exact key_switch_total tie { g with discard := false } _ key action mods hinv
      (fun h => by rw [show ({ g with discard := false } : global_type).map.pick_direction
        = g.map.pick_direction from rfl, hd] at h; cases h)
  | false =>
    obtain ⟨room, hroom⟩ := hinv.room hd
    simp only [Bool.false_eq_true, if_false, hroom]
    exact key_switch_total tie { g with discard := false } room key action mods hinv
      (fun _ => hroom)

/-! ## The portal record -/

theorem played_reachable (d : Nat) (g : global_type) (h : played d g) : reachable g := by
  induction h with
  | seed tie g g1 action mods _ hr _ hk _ => exact reachable.key_event tie g g1 _ _ _ hr hk
  | key_event tie g g1 key action mods _ hk _ ih => exact reachable.key_event tie g g1 _ _ _ ih hk
  | outside g g1 _ hc ih => exact reachable.outside g g1 ih hc

theorem played_pick (d : Nat) (g : global_type) (h : played d g) :
    g.map.pick_direction = false := by
  induction h with
  | seed tie g g1 action mods _ _ _ _ h1 => exact h1
  | key_event tie g g1 key action mods _ _ h1 _ => exact h1
  | outside g g1 _ hc ih => exact hc.2.2.1.trans ih

theorem played_lt (d : Nat) (g : global_type) (h : played d g) : d < 4 := by
  induction h with
  | seed tie g g1 action mods hd _ _ _ _ => exact hd
  | key_event tie g g1 key action mods _ _ _ ih => exact ih
  | outside g g1 _ _ ih => exact ih

theorem and_bit (x d : Nat) (h : has_path x d = true) : (1 <<< d) &&& x = 1 <<< d := by
  rw [has_path_testBit] at h
  apply Nat.eq_of_testBit_eq
  intro j
  simp only [Nat.testBit_and, Nat.one_shiftLeft, Nat.testBit_two_pow]
  by_cases hj : d = j
  · subst hj; simp [h]
  · simp [hj]

theorem has_path_bit (d : Nat) : has_path (1 <<< d) d = true := by
  rw [has_path_testBit, Nat.one_shiftLeft, Nat.testBit_two_pow]
  simp

/-- Discovery on a room of the table leaves the portal record as it is, when passages
are symmetric and the portal has the single passage `d`. -/
theorem discovery_keeps_portal (m : map_state) (pos : ivec2) (r : room_data) (d : Nat)
    (hd : d < 4) (hp : in_bounds pos = true) (hr : m.rooms (point_id pos) = some r)
    (hsym : ∀ c e, e < 4 → in_bounds c = true → in_bounds (c + dir_at e) = true →
      has_path (paths_of m.rooms (point_id c)) e
        = has_path (paths_of m.rooms (point_id (c + dir_at e))) (opposite e))
    (hportal : m.rooms (point_id zero) = some ⟨zero, 1 <<< d, room_flag_portal, true⟩) :
    (add_surrounding_rooms m pos).rooms (point_id zero)
      = some ⟨zero, 1 <<< d, room_flag_portal, true⟩ := by
  rcases discovery_cases m pos r hp hr (point_id zero) with hsame | ⟨i, hi, hb, hk⟩
  · rw [hsame]; exact hportal
  · have hz : zero = pos + offset_at i := point_id_inj _ _ (by decide) hb hk
    have hat := add_surrounding_at m pos hp i hi hb
    rw [← hz, hportal] at hat
    dsimp only at hat
    rw [hat]
    split
    · rfl
    · rename_i hcorner
      have hcf : ((offset_at i).x != 0 && (offset_at i).y != 0) = false := by
        simpa using hcorner
      obtain ⟨e, he, hoff⟩ := offset_cardinal i hi hcf
      rw [hoff] at hz ⊢
      have hzb : in_bounds (pos + dir_at e) = true := by rw [← hz]; decide
      have hopen := (surround_open_cardinal (paths_of m.rooms (point_id pos)) e he
        (pos + dir_at e) hzb d hd).1
      have hin : in_bounds (pos + dir_at e + dir_at d) = true := by
        rw [← hz]
        interval_cases d <;> decide
      have hs := hsym pos e he hp hzb
      rw [← hz, paths_of_some _ _ _ hportal] at hs
      have hbit : has_path (surround_open (paths_of m.rooms (point_id pos)) (dir_at e)
          (pos + dir_at e)) d = true := by
        rw [hopen, hin, Bool.true_and]
        by_cases hde : d = opposite e
        · rw [hs, ← hde]
          simp [has_path_bit]
        · simp [hde]
      rw [← hz] at hbit
      rw [and_bit _ d hbit]

theorem keyboard_arrow_pick (tie : Nat → Nat) (g : global_type) (i : Nat) (action : Int)
    (mods : Nat) (hi : i < 4) (hd : g.map.pick_direction = true) :
    keyboard_callback tie g (arrow_code i) action mods
      = arrow_key tie { g with discard := false } ⟨zero, 0, 0, false⟩
          (point_id g.map.position) i action mods := by
  unfold keyboard_callback
  simp only [hd, if_true]
  interval_cases i <;> rfl

theorem seed_portal (tie : Nat → Nat) (g g1 : global_type) (d : Nat) (action : Int)
    (mods : Nat) (hd : d < 4) (hr : reachable g) (hp : g.map.pick_direction = true)
    (hk : keyboard_callback tie g (arrow_code d) action mods = some g1)
    (hp1 : g1.map.pick_direction = false) :
    g1.map.rooms (point_id zero) = some ⟨zero, 1 <<< d, room_flag_portal, true⟩ := by
  have hrooms : g1.map.rooms = (init_map g.map (1 <<< d)).rooms := by
    rw [keyboard_arrow_pick tie g d action mods hd hp] at hk
    unfold arrow_key at hk
    split at hk
    · rw [DISCARD_map _ _ hk] at hp1
      rw [show ({ g with discard := false } : global_type).map.pick_direction
        = g.map.pick_direction from rfl, hp] at hp1
      cases hp1
    · simp only [show ({ g with discard := false } : global_type).map.pick_direction
        = g.map.pick_direction from rfl, hp, if_true] at hk
      split at hk
      · rw [DISCARD_map _ _ hk] at hp1
        rw [show ({ g with discard := false } : global_type).map.pick_direction
          = g.map.pick_direction from rfl, hp] at hp1
        cases hp1
      · split at hk
        · cases hk
          rw [show ({ g with discard := false } : global_type).map.pick_direction
            = g.map.pick_direction from rfl, hp] at hp1
          cases hp1
        · cases hk
          rfl
  rw [hrooms, init_map_rooms _ _ ((reachable_table g hr).empty hp),
    add_surrounding_self _ _ (by decide)]
  have hself : (state_of (map_insert (fun _ => none) (point_id zero)
      ⟨zero, 1 <<< d, room_flag_portal, true⟩) zero).rooms (point_id zero)
        = some ⟨zero, 1 <<< d, room_flag_portal, true⟩ := by
    show map_insert (fun _ => none) (point_id zero) _ (point_id zero) = _
    rw [map_insert_same]
  rw [touch_room_some _ _ _ hself]
  exact hself

theorem step_portal (m m1 : map_state) (d : Nat) (hd : d < 4)
    (ht : table_inv m) (hs : table_step m m1) (hp : m.pick_direction = false)
    (hp1 : m1.pick_direction = false)
    (hportal : m.rooms (point_id zero) = some ⟨zero, 1 <<< d, room_flag_portal, true⟩) :
    m1.rooms (point_id zero) = some ⟨zero, 1 <<< d, room_flag_portal, true⟩ := by
  cases hs with
  | same hr _ _ => rw [hr]; exact hportal
  | init i hi hpick _ _ _ => rw [hp] at hpick; cases hpick
  | reset _ _ hd1 => rw [hp1] at hd1; cases hd1
  | flag room kind _ hroom hnp hk hr _ _ =>
    rw [hr]
    by_cases hz : point_id zero = point_id m.position
    · rw [← hz, hportal] at hroom
      rw [← Option.some.inj hroom] at hnp
      exact absurd rfl hnp
    · rw [map_insert_other _ _ _ _ hz]
      exact hportal
  | link i room facing hi _ hb hroom hfacing hnp hnf hr _ _ =>
    rw [hr]
    unfold toggled_rooms
    by_cases hz : point_id zero = point_id (m.position + dir_at i)
    · rw [← hz, hportal] at hfacing
      rw [← Option.some.inj hfacing] at hnf
      exact absurd rfl hnf
    · rw [map_insert_other _ _ _ _ hz]
      by_cases hz2 : point_id zero = point_id m.position
      · rw [← hz2, hportal] at hroom
        rw [← Option.some.inj hroom] at hnp
        exact absurd rfl hnp
      · rw [map_insert_other _ _ _ _ hz2]
        exact hportal
  | move i room dest hi _ hb hroom hpath hdest hr _ _ =>
    rw [hr]
    unfold moved_rooms
    have hself : (state_of (map_insert m.rooms (point_id (m.position + dir_at i))
        (visited_room dest)) (m.position + dir_at i)).rooms (point_id (m.position + dir_at i))
          = some (visited_room dest) := by
      show map_insert m.rooms _ _ _ = _
      rw [map_insert_same]
    have hpaths : ∀ j, paths_of (state_of (map_insert m.rooms (point_id (m.position + dir_at i))
        (visited_room dest)) (m.position + dir_at i)).rooms j = paths_of m.rooms j :=
      fun j => paths_of_insert m.rooms _ dest (visited_room dest) hdest rfl j
    refine discovery_keeps_portal _ _ (visited_room dest) d hd hb hself ?_ ?_
    · intro c e he hc hce
      rw [hpaths, hpaths]
      exact ht.sym c e he hc hce
    · have hst : (state_of (map_insert m.rooms (point_id (m.position + dir_at i))
          (visited_room dest)) (m.position + dir_at i)).rooms
            = map_insert m.rooms (point_id (m.position + dir_at i)) (visited_room dest) := rfl
      rw [hst]
      by_cases hz : point_id zero = point_id (m.position + dir_at i)
      · rw [← hz, map_insert_same]
        rw [← hz, hportal] at hdest
        rw [← Option.some.inj hdest]
        rfl
      · rw [map_insert_other _ _ _ _ hz]
        exact hportal

theorem played_portal (d : Nat) (g : global_type) (h : played d g) :
    g.map.rooms (point_id zero) = some ⟨zero, 1 <<< d, room_flag_portal, true⟩ := by
  induction h with
  | seed tie g g1 action mods hd hr hp hk hp1 => exact seed_portal tie g g1 d action mods hd hr hp hk hp1
  | key_event tie g g1 key action mods hpl hk hp1 ih =>
    have hr := played_reachable d g hpl
    exact step_portal g.map g1.map d (played_lt d g hpl)
      (reachable_table g hr) (keyboard_callback_step tie g g1 key action mods hk
        (reachable_inv g hr)) (played_pick d g hpl) hp1 ih
  | outside g g1 _ hc ih => rw [hc.1]; exact ih

/-! ## Invariants of the reachable states -/

/-- C25: in every reachable state (from the initial state, which is the state
`reset_map` leaves, by any key events: `init_map` with a single direction, moves, link
toggles, annotation toggles, resets) every key `k` of the room table holds a record whose
position `p` has `|p.x| ≤ 200`, `|p.y| ≤ 200` and `point_id p = k`. -/
theorem room_table_keys (g : global_type) (h : reachable g) (k : Nat) (r : room_data)
    (hr : g.map.rooms k = some r) :
    (r.position.x.natAbs ≤ 200 ∧ r.position.y.natAbs ≤ 200) ∧ point_id r.position = k := by
  obtain ⟨hb, hk⟩ := (reachable_table g h).keys k r hr
  rw [in_bounds_iff] at hb
  exact ⟨by omega, hk⟩

theorem room_table_keys_witness :
    (reachable seeded_state
      ∧ seeded_state.map.rooms (point_id ⟨0, 1⟩) = some ⟨⟨0, 1⟩, 15, 0, false⟩)
    ∧ (((⟨⟨0, 1⟩, 15, 0, false⟩ : room_data).position.x.natAbs ≤ 200
        ∧ (⟨⟨0, 1⟩, 15, 0, false⟩ : room_data).position.y.natAbs ≤ 200)
      ∧ point_id (⟨⟨0, 1⟩, 15, 0, false⟩ : room_data).position = point_id ⟨0, 1⟩) :=
  ⟨⟨seeded_state_reachable, by decide⟩,
    room_table_keys seeded_state seeded_state_reachable (point_id ⟨0, 1⟩)
      ⟨⟨0, 1⟩, 15, 0, false⟩ (by decide)⟩

/-- C26: in every state of a session that began with `init_map` for the direction `d`
and went on by key events without a reset, the room at `(0,0)` is the record with the
portal annotation, visited, and the single passage flag of `d`; and
`add_surrounding_rooms` run on any room of the table leaves that record unchanged. -/
theorem portal_record_fixed (d : Nat) (g : global_type) (h : played d g) :
    g.map.rooms (point_id zero) = some ⟨zero, 1 <<< d, room_flag_portal, true⟩
      ∧ ∀ pos r, in_bounds pos = true → g.map.rooms (point_id pos) = some r →
          (add_surrounding_rooms g.map pos).rooms (point_id zero)
            = some ⟨zero, 1 <<< d, room_flag_portal, true⟩ :=
  ⟨played_portal d g h, fun pos r hp hr =>
    discovery_keeps_portal g.map pos r d (played_lt d g h) hp hr
      (reachable_table g (played_reachable d g h)).sym (played_portal d g h)⟩

theorem portal_record_fixed_witness :
    played 0 seeded_state
    ∧ (seeded_state.map.rooms (point_id zero) = some ⟨zero, 1 <<< 0, room_flag_portal, true⟩
      ∧ ∀ pos r, in_bounds pos = true → seeded_state.map.rooms (point_id pos) = some r →
          (add_surrounding_rooms seeded_state.map pos).rooms (point_id zero)
            = some ⟨zero, 1 <<< 0, room_flag_portal, true⟩) :=
  have hp : played 0 seeded_state :=
    played.seed first_tie initial_state seeded_state GLFW_PRESS 0 (by decide) reachable.start
      rfl rfl rfl
  ⟨hp, portal_record_fixed 0 seeded_state hp⟩

/-- C27: in every reachable state, two rooms of the table whose positions are `A` and
`A + d` for a cardinal direction `d` agree on the passage between them: the bit for `d`
of the first is set exactly when the bit for the opposite direction of the second is;
and an accepted move in direction `d` (help overlay and portal view off, no `ALT`, a
press or repeat, passage open, destination in bounds) ends in a room whose bit for the
opposite direction is set, one step in that direction from where the move began. -/
theorem passages_symmetric (g : global_type) (h : reachable g) :
    (∀ k1 k2 ra rb d, d < 4 → g.map.rooms k1 = some ra → g.map.rooms k2 = some rb →
      rb.position = ra.position + dir_at d →
        has_path ra.paths d = has_path rb.paths (opposite d))
    ∧ ∀ (tie : Nat → Nat) (d : Nat) (action : Int) (mods : Nat) (room : room_data), d < 4 →
        playing g → mods &&& GLFW_MOD_ALT = 0 → action ≠ GLFW_RELEASE →
        in_bounds (g.map.position + dir_at d) = true →
        g.map.rooms (point_id g.map.position) = some room → has_path room.paths d = true →
        ∃ g1 r1, keyboard_callback tie g (arrow_code d) action mods = some g1
          ∧ g1.map.position = g.map.position + dir_at d
          ∧ g1.map.rooms (point_id g1.map.position) = some r1
          ∧ has_path r1.paths (opposite d) = true
          ∧ g1.map.position + dir_at (opposite d) = g.map.position := by
  have ht := reachable_table g h
  have hinv := reachable_inv g h
  constructor
  · intro k1 k2 ra rb d hd h1 h2 hpos
    obtain ⟨hba, hka⟩ := ht.keys k1 ra h1
    obtain ⟨hbb, hkb⟩ := ht.keys k2 rb h2
    rw [hpos] at hbb hkb
    have hs := ht.sym ra.position d hd hba hbb
    rw [hka, hkb, paths_of_some _ _ ra h1, paths_of_some _ _ rb h2] at hs
    exact hs
  · intro tie d action mods room hd hplay hm ha hb hroom hpath
    obtain ⟨hpd, hh, hv⟩ := hplay
    obtain ⟨⟨dest, hdest⟩, _⟩ := facing_exists g.map hinv hpd d hd hb
    obtain ⟨route, hroute⟩ := route_of_total tie g.map.rooms (g.map.position + dir_at d) hb
    obtain ⟨g1, hk, hrooms, hpos, _⟩ := move_result tie g d action mods room dest route hinv
      hpd hh hv hd hm ha hb hroom hpath hdest hroute
    have hst : (state_of (map_insert g.map.rooms (point_id (g.map.position + dir_at d))
        (visited_room dest)) (g.map.position + dir_at d)).rooms
          = map_insert g.map.rooms (point_id (g.map.position + dir_at d)) (visited_room dest) :=
      rfl
    have hself : (state_of (map_insert g.map.rooms (point_id (g.map.position + dir_at d))
        (visited_room dest)) (g.map.position + dir_at d)).rooms
          (point_id (g.map.position + dir_at d)) = some (visited_room dest) := by
      rw [hst, map_insert_same]
    refine ⟨g1, visited_room dest, hk, hpos, ?_, ?_, ?_⟩
    · rw [hrooms, hpos, add_surrounding_self _ _ hb, touch_room_some _ _ _ hself]
      exact hself
    · have hs := ht.sym g.map.position d hd hinv.bounds hb
      rw [paths_of_some _ _ room hroom, paths_of_some _ _ dest hdest, hpath] at hs
      exact hs.symm
    · rw [hpos, dir_at_opposite d hd, add_neg_self]

theorem passages_symmetric_witness :
    reachable seeded_state
    ∧ ((∀ k1 k2 ra rb d, d < 4 → seeded_state.map.rooms k1 = some ra →
        seeded_state.map.rooms k2 = some rb → rb.position = ra.position + dir_at d →
          has_path ra.paths d = has_path rb.paths (opposite d))
      ∧ ∀ (tie : Nat → Nat) (d : Nat) (action : Int) (mods : Nat) (room : room_data), d < 4 →
          playing seeded_state → mods &&& GLFW_MOD_ALT = 0 → action ≠ GLFW_RELEASE →
          in_bounds (seeded_state.map.position + dir_at d) = true →
          seeded_state.map.rooms (point_id seeded_state.map.position) = some room →
          has_path room.paths d = true →
          ∃ g1 r1, keyboard_callback tie seeded_state (arrow_code d) action mods = some g1
            ∧ g1.map.position = seeded_state.map.position + dir_at d
            ∧ g1.map.rooms (point_id g1.map.position) = some r1
            ∧ has_path r1.paths (opposite d) = true
            ∧ g1.map.position + dir_at (opposite d) = seeded_state.map.position) :=
  ⟨seeded_state_reachable, passages_symmetric seeded_state seeded_state_reachable⟩

/-- C28: in every reachable state past the direction-selection phase the player
coordinate lies in `[-200,200]^2`, the room table holds a visited room at the player
coordinate and a room at every in-bounds one of the eight coordinates around it; the
key handler returns for every key event, whatever the tie-breaks of its route search
(no checked lookup `rooms.at` fails); and the `operator[]` lookup of the facing room,
in any direction that passes the bounds test, leaves the table as it is. -/
theorem player_room_exists (g : global_type) (h : reachable g)
    (hd : g.map.pick_direction = false) :
    (g.map.position.x.natAbs ≤ 200 ∧ g.map.position.y.natAbs ≤ 200)
    ∧ (∃ r, g.map.rooms (point_id g.map.position) = some r ∧ r.visited = true)
    ∧ (∀ i, i < 8 → in_bounds (g.map.position + offset_at i) = true →
        ∃ r, g.map.rooms (point_id (g.map.position + offset_at i)) = some r)
    ∧ (∀ (tie : Nat → Nat) (key action : Int) (mods : Nat),
        ∃ g1, keyboard_callback tie g key action mods = some g1)
    ∧ ∀ i, i < 4 → arrow_blocked g.map.position i = false →
        touch_room g.map.rooms (point_id (g.map.position + dir_at i)) = g.map.rooms := by
  have ht := reachable_table g h
  have hinv := reachable_inv g h
  have hb := (in_bounds_iff _).mp hinv.bounds
  refine ⟨by omega, ht.seen hd, hinv.around hd, ?_, ?_⟩
  · intro tie key action mods
    exact keyboard_callback_total tie g key action mods hinv
  · intro i hi hblk
    rw [arrow_blocked_eq _ _ hinv.bounds hi] at hblk
    have hbi : in_bounds (g.map.position + dir_at i) = true := by simpa using hblk
    obtain ⟨⟨facing, hfacing⟩, _⟩ := facing_exists g.map hinv hd i hi hbi
    exact touch_room_some _ _ facing hfacing

theorem player_room_exists_witness :
    (reachable seeded_state ∧ seeded_state.map.pick_direction = false)
    ∧ ((seeded_state.map.position.x.natAbs ≤ 200 ∧ seeded_state.map.position.y.natAbs ≤ 200)
      ∧ (∃ r, seeded_state.map.rooms (point_id seeded_state.map.position) = some r
          ∧ r.visited = true)
      ∧ (∀ i, i < 8 → in_bounds (seeded_state.map.position + offset_at i) = true →
          ∃ r, seeded_state.map.rooms (point_id (seeded_state.map.position + offset_at i))
            = some r)
      ∧ (∀ (tie : Nat → Nat) (key action : Int) (mods : Nat),
          ∃ g1, keyboard_callback tie seeded_state key action mods = some g1)
      ∧ ∀ i, i < 4 → arrow_blocked seeded_state.map.position i = false →
          touch_room seeded_state.map.rooms (point_id (seeded_state.map.position + dir_at i))
            = seeded_state.map.rooms) :=
  ⟨⟨seeded_state_reachable, rfl⟩, player_room_exists seeded_state seeded_state_reachable rfl⟩

/-! ## Passages stay within the grid -/

theorem edge_mask_bits (a : ivec2) (ha : in_bounds a = true) :
    edge_mask a < 16 ∧ ∀ e, e < 4 → has_path (edge_mask a) e = in_bounds (a + dir_at e) := by
  obtain ⟨h0, h1, h2, h3, hlt⟩ := has_path_bits (!on_edge a 0) (!on_edge a 1) (!on_edge a 2)
    (!on_edge a 3)
  refine ⟨hlt, ?_⟩
  intro e he
  unfold edge_mask
  interval_cases e
  · rw [h0, on_edge_eq a ha 0 (by decide), Bool.not_not]
  · rw [h1, on_edge_eq a ha 1 (by decide), Bool.not_not]
  · rw [h2, on_edge_eq a ha 2 (by decide), Bool.not_not]
  · rw [h3, on_edge_eq a ha 3 (by decide), Bool.not_not]

theorem discovery_edges (g : map_state) (pos : ivec2) (r : room_data)
    (hp : in_bounds pos = true) (hr : g.rooms (point_id pos) = some r)
    (he : edge_inv g.rooms) : edge_inv (add_surrounding_rooms g pos).rooms := by
  intro k r1 h1
  rcases discovery_cases g pos r hp hr k with hsame | ⟨i, hi, hb, rfl⟩
  · rw [hsame] at h1
    exact he k r1 h1
  · rw [add_surrounding_at g pos hp i hi hb] at h1
    cases hcorner : ((offset_at i).x != 0 && (offset_at i).y != 0) with
    | true =>
      cases hold : g.rooms (point_id (pos + offset_at i)) with
      | none =>
        rw [hold] at h1
        rw [← Option.some.inj h1, surround_open_corner _ _ _ hcorner]
        obtain ⟨hlt, hbits⟩ := edge_mask_bits _ hb
        exact ⟨hlt, fun e he2 hpath => by rw [← hbits e he2]; exact hpath⟩
      | some found =>
        rw [hold] at h1
        simp only [hcorner, if_true] at h1
        rw [← Option.some.inj h1]
        exact he _ found hold
    | false =>
      obtain ⟨d, hd, hoff⟩ := offset_cardinal i hi hcorner
      have hopen : ∀ e, e < 4 → has_path (surround_open (paths_of g.rooms (point_id pos))
          (offset_at i) (pos + offset_at i)) e = true →
            in_bounds (pos + offset_at i + dir_at e) = true := by
        intro e he2 hpath
        rw [hoff] at hpath hb ⊢
        rw [(surround_open_cardinal _ d hd _ hb e he2).1] at hpath
        simp only [Bool.and_eq_true] at hpath
        exact hpath.1
      have hlt : surround_open (paths_of g.rooms (point_id pos)) (offset_at i)
          (pos + offset_at i) < 16 := by
        rw [hoff] at hb ⊢
        exact (surround_open_cardinal _ d hd _ hb 0 (by decide)).2
      cases hold : g.rooms (point_id (pos + offset_at i)) with
      | none =>
        rw [hold] at h1
        rw [← Option.some.inj h1]
        exact ⟨hlt, hopen⟩
      | some found =>
        rw [hold] at h1
        simp only [hcorner, Bool.false_eq_true, if_false] at h1
        rw [← Option.some.inj h1]
        obtain ⟨hf1, hf2⟩ := he _ found hold
        refine ⟨lt_of_le_of_lt Nat.and_le_left hf1, ?_⟩
        intro e he2 hpath
        rw [has_path_and, Bool.and_eq_true] at hpath
        exact hf2 e he2 hpath.1

theorem edge_inv_insert (rooms : Nat → Option room_data) (k : Nat) (r v : room_data)
    (he : edge_inv rooms) (hr : rooms k = some r) (hp : v.position = r.position)
    (hq : v.paths = r.paths) : edge_inv (map_insert rooms k v) := by
  intro j r1 h1
  by_cases hj : j = k
  · rw [hj, map_insert_same] at h1
    rw [← Option.some.inj h1, hp, hq]
    exact he k r hr
  · rw [map_insert_other _ _ _ _ hj] at h1
    exact he j r1 h1

theorem flip_edges (r : room_data) (i : Nat) (hi : i < 4) (hlt : r.paths < 16)
    (hbits : ∀ e, e < 4 → has_path r.paths e = true → in_bounds (r.position + dir_at e) = true)
    (hb : in_bounds (r.position + dir_at i) = true) :
    (flip_path r (1 <<< i)).paths < 16
      ∧ ∀ e, e < 4 → has_path (flip_path r (1 <<< i)).paths e = true →
          in_bounds ((flip_path r (1 <<< i)).position + dir_at e) = true := by
  constructor
  · show r.paths ^^^ (1 <<< i) < 2 ^ 4
    apply Nat.xor_lt_two_pow hlt
    interval_cases i <;> decide
  · intro e he hpath
    have h2 : has_path (r.paths ^^^ (1 <<< i)) e = true := hpath
    rw [has_path_flip] at h2
    show in_bounds (r.position + dir_at e) = true
    by_cases hei : e = i
    · rw [hei]; exact hb
    · simp only [hei, decide_False] at h2
      exact hbits e he (by simpa using h2)

/-- Every step of `table_step` keeps passages within the grid. -/
theorem table_step_edges (m m1 : map_state) (hm : map_inv m) (ht : table_inv m)
    (he : edge_inv m.rooms) (hs : table_step m m1) : edge_inv m1.rooms := by
  cases hs with
  | same hr _ _ => rw [hr]; exact he
  | init i hi hpick hr _ _ =>
    rw [hr, init_map_rooms m _ (ht.empty hpick)]
    have hself : (state_of (map_insert (fun _ => none) (point_id zero)
        ⟨zero, 1 <<< i, room_flag_portal, true⟩) zero).rooms (point_id zero)
          = some ⟨zero, 1 <<< i, room_flag_portal, true⟩ := by
      show map_insert (fun _ => none) (point_id zero) _ (point_id zero) = _
      rw [map_insert_same]
    refine discovery_edges _ zero _ (by decide) hself ?_
    intro k r h1
    have h2 : map_insert (fun _ => none) (point_id zero)
        (⟨zero, 1 <<< i, room_flag_portal, true⟩ : room_data) k = some r := h1
    by_cases hk : k = point_id zero
    · rw [hk, map_insert_same] at h2
      rw [← Option.some.inj h2]
      constructor
      · show 1 <<< i < 16
        interval_cases i <;> decide
      · intro e he2 hpath
        have h3 : has_path (1 <<< i) e = true := hpath
        rw [has_path_testBit, Nat.one_shiftLeft, Nat.testBit_two_pow] at h3
        have hie : i = e := by simpa using h3
        show in_bounds (zero + dir_at e) = true
        interval_cases e <;> decide
    · rw [map_insert_other _ _ _ _ hk] at h2
      cases h2
  | reset hr _ _ =>
    rw [hr]
    intro k r h
    cases h
  | flag room kind _ hroom _ _ hr _ _ =>
    rw [hr]
    exact edge_inv_insert _ _ room _ he hroom rfl rfl
  | link i room facing hi _ hb hroom hfacing _ _ hr _ _ =>
    rw [hr]
    unfold toggled_rooms
    obtain ⟨hrb, hrk⟩ := ht.keys _ room hroom
    obtain ⟨hfb, hfk⟩ := ht.keys _ facing hfacing
    have hrp : room.position = m.position := point_id_inj _ _ hrb hm.bounds hrk
    have hfp : facing.position = m.position + dir_at i := point_id_inj _ _ hfb hb hfk
    obtain ⟨hr1, hr2⟩ := he _ room hroom
    obtain ⟨hf1, hf2⟩ := he _ facing hfacing
    intro k r1 h1
    by_cases hk : k = point_id (m.position + dir_at i)
    · rw [hk, map_insert_same] at h1
      rw [← Option.some.inj h1]
      exact flip_edges facing (opposite i) (opposite_lt i) hf1 hf2
        (by rw [hfp, dir_at_opposite i hi, add_neg_self]; exact hm.bounds)
    · rw [map_insert_other _ _ _ _ hk] at h1
      by_cases hk2 : k = point_id m.position
      · rw [hk2, map_insert_same] at h1
        rw [← Option.some.inj h1]
        exact flip_edges room i hi hr1 hr2 (by rw [hrp]; exact hb)
      · rw [map_insert_other _ _ _ _ hk2] at h1
        exact he k r1 h1
  | move i room dest hi _ hb hroom hpath hdest hr _ _ =>
    rw [hr]
    unfold moved_rooms
    have hst : (state_of (map_insert m.rooms (point_id (m.position + dir_at i))
        (visited_room dest)) (m.position + dir_at i)).rooms
          = map_insert m.rooms (point_id (m.position + dir_at i)) (visited_room dest) := rfl
    refine discovery_edges _ _ (visited_room dest) hb (by rw [hst, map_insert_same]) ?_
    rw [hst]
    exact edge_inv_insert _ _ dest _ he hdest rfl rfl

/-- In every reachable state passages stay within the grid. -/
theorem reachable_edges (g : global_type) (h : reachable g) : edge_inv g.map.rooms := by
  induction h with
  | start =>
    intro k r h
    cases h
  | key_event tie g g1 key action mods hr hk ih =>
    exact table_step_edges g.map g1.map (reachable_inv g hr) (reachable_table g hr) ih
      (keyboard_callback_step tie g g1 key action mods hk (reachable_inv g hr))
  | outside g g1 _ hc ih => rw [hc.1]; exact ih

/-- C22, as the code has it: for every room table and in-bounds `pos`, an in-bounds
diagonal neighbour of `pos` that is already in the table keeps its record unchanged by
`add_surrounding_rooms(pos)`. Its passage flags then equal the previous flags ANDed with
its grid-edge mask whenever the previous flags are below 16 and have no bit set towards
a grid edge the neighbour lies on, which is so for the table of every reachable state. -/
theorem discovery_keeps_diagonal (g : map_state) (pos : ivec2) (i : Nat) (found : room_data)
    (hp : in_bounds pos = true) (hi : i < 8)
    (hc : ((offset_at i).x != 0 && (offset_at i).y != 0) = true)
    (hb : in_bounds (pos + offset_at i) = true)
    (hf : g.rooms (point_id (pos + offset_at i)) = some found) :
    (add_surrounding_rooms g pos).rooms (point_id (pos + offset_at i)) = some found
      ∧ (found.paths < 16
          → (∀ e, e < 4 → on_edge (pos + offset_at i) e = true → has_path found.paths e = false)
          → found.paths &&& edge_mask (pos + offset_at i) = found.paths)
      ∧ ∀ G : global_type, reachable G → G.map.rooms = g.rooms →
          found.paths &&& edge_mask (pos + offset_at i) = found.paths := by
  refine ⟨?_, edge_mask_keeps _ _, ?_⟩
  · rw [add_surrounding_at g pos hp i hi hb, hf]
    simp only [hc, if_true]
  · intro G hG hrooms
    rw [← hrooms] at hf
    obtain ⟨hlt, hbits⟩ := reachable_edges G hG _ found hf
    obtain ⟨hkb, hkk⟩ := (reachable_table G hG).keys _ found hf
    have hpos : found.position = pos + offset_at i := point_id_inj _ _ hkb hb hkk
    apply edge_mask_keeps _ _ hlt
    intro e he hedge
    rw [on_edge_eq _ hb e he] at hedge
    cases hpath : has_path found.paths e with
    | false => rfl
    | true =>
      have := hbits e he hpath
      rw [hpos] at this
      rw [this] at hedge
      cases hedge

theorem discovery_keeps_diagonal_witness :
    (in_bounds edge_corner_state.position = true ∧ 7 < 8
      ∧ ((offset_at 7).x != 0 && (offset_at 7).y != 0) = true
      ∧ in_bounds (edge_corner_state.position + offset_at 7) = true
      ∧ edge_corner_state.rooms (point_id (edge_corner_state.position + offset_at 7))
          = some ⟨⟨200, 1⟩, 15, 0, false⟩)
    ∧ (add_surrounding_rooms edge_corner_state edge_corner_state.position).rooms
          (point_id (edge_corner_state.position + offset_at 7)) = some ⟨⟨200, 1⟩, 15, 0, false⟩
    ∧ ((⟨⟨200, 1⟩, 15, 0, false⟩ : room_data).paths < 16
        → (∀ e, e < 4 → on_edge (edge_corner_state.position + offset_at 7) e = true
            → has_path (⟨⟨200, 1⟩, 15, 0, false⟩ : room_data).paths e = false)
        → (⟨⟨200, 1⟩, 15, 0, false⟩ : room_data).paths
            &&& edge_mask (edge_corner_state.position + offset_at 7)
          = (⟨⟨200, 1⟩, 15, 0, false⟩ : room_data).paths)
    ∧ ∀ G : global_type, reachable G → G.map.rooms = edge_corner_state.rooms →
        (⟨⟨200, 1⟩, 15, 0, false⟩ : room_data).paths
            &&& edge_mask (edge_corner_state.position + offset_at 7)
          = (⟨⟨200, 1⟩, 15, 0, false⟩ : room_data).paths :=
  ⟨⟨by decide, by decide, by decide, by decide, by decide⟩,
    discovery_keeps_diagonal edge_corner_state edge_corner_state.position 7
      ⟨⟨200, 1⟩, 15, 0, false⟩ (by decide) (by decide) (by decide) (by decide) (by decide)⟩

/-! ## Descent towards the origin through an open rectangle -/

theorem in_rect_iff (s c : ivec2) :
    in_rect s c = true ↔ ((0 ≤ c.x ∧ c.x ≤ s.x) ∨ (s.x ≤ c.x ∧ c.x ≤ 0))
      ∧ ((0 ≤ c.y ∧ c.y ≤ s.y) ∨ (s.y ≤ c.y ∧ c.y ≤ 0)) := by
  simp only [in_rect, Bool.and_eq_true, Bool.or_eq_true, decide_eq_true_eq]

theorem in_rect_self (s : ivec2) : in_rect s s = true := by
  rw [in_rect_iff]
  omega

theorem in_rect_bounds (s c : ivec2) (hs : in_bounds s = true) (hc : in_rect s c = true) :
    in_bounds c = true := by
  rw [in_bounds_iff] at hs ⊢
  rw [in_rect_iff] at hc
  omega

theorem toward_exists (c : ivec2) (hz : c ≠ zero) :
    ∃ i, i < 4 ∧ manhattan (c + dir_at i) < manhattan c := by
  have hne : c.x ≠ 0 ∨ c.y ≠ 0 := by
    by_contra h
    push_neg at h
    exact hz (ivec2_eq _ _ h.1 h.2)
  simp only [manhattan]
  rcases hne with h | h
  · rcases lt_or_gt_of_ne h with h1 | h1
    · exact ⟨1, by decide, by simp [dir_at, directions, east]; omega⟩
    · exact ⟨3, by decide, by simp [dir_at, directions, west]; omega⟩
  · rcases lt_or_gt_of_ne h with h1 | h1
    · exact ⟨0, by decide, by simp [dir_at, directions, south]; omega⟩
    · exact ⟨2, by decide, by simp [dir_at, directions, north]; omega⟩

theorem toward_rect (s c : ivec2) (i : Nat) (hi : i < 4) (hc : in_rect s c = true)
    (ht : manhattan (c + dir_at i) < manhattan c) :
    in_rect s (c + dir_at i) = true ∧ manhattan (c + dir_at i) + 1 = manhattan c := by
  rw [in_rect_iff] at hc ⊢
  simp only [manhattan] at ht ⊢
  interval_cases i <;>
    simp only [dir_at, directions, List.getD, List.get?, Option.getD, south, east, north, west,
      add_x, add_y] at ht ⊢ <;> omega

theorem sq_step (t y : ℤ) :
    ((t + (y + 1) * (y + 1) < t + y * y) ↔ (y + 1).natAbs < y.natAbs)
      ∧ ((t + (y + -1) * (y + -1) < t + y * y) ↔ (y + -1).natAbs < y.natAbs) := by
  have e1 : (y + 1) * (y + 1) = y * y + 2 * y + 1 := by ring
  have e2 : (y + -1) * (y + -1) = y * y - 2 * y + 1 := by ring
  rw [e1, e2]
  constructor <;> constructor <;> intro h <;> omega

theorem calc_lt_iff (c : ivec2) (i : Nat) (hi : i < 4) (hc : in_bounds c = true)
    (hn : in_bounds (c + dir_at i) = true) :
    calc_heuristic (c + dir_at i) < calc_heuristic c
      ↔ manhattan (c + dir_at i) < manhattan c := by
  have h1 := calc_heuristic_int c hc
  have h2 := calc_heuristic_int (c + dir_at i) hn
  have h3 : calc_heuristic (c + dir_at i) < calc_heuristic c
      ↔ ((calc_heuristic (c + dir_at i) : ℤ) < (calc_heuristic c : ℤ)) := by
    exact Int.ofNat_lt.symm
  rw [h3, h1, h2]
  simp only [manhattan]
  have hx := sq_step (c.y * c.y) c.x
  have hy := sq_step (c.x * c.x) c.y
  interval_cases i
  · simp only [dir_at, directions, List.getD, List.get?, Option.getD, south, add_x, add_y,
      add_zero]
    rw [hy.1]
    omega
  · simp only [dir_at, directions, List.getD, List.get?, Option.getD, east, add_x, add_y,
      add_zero]
    rw [add_comm ((c.x + 1) * (c.x + 1)), add_comm (c.x * c.x), hx.1]
    omega
  · simp only [dir_at, directions, List.getD, List.get?, Option.getD, north, add_x, add_y,
      add_zero]
    rw [hy.2]
    omega
  · simp only [dir_at, directions, List.getD, List.get?, Option.getD, west, add_x, add_y,
      add_zero]
    rw [add_comm ((c.x + -1) * (c.x + -1)), add_comm (c.x * c.x), hx.2]
    omega

theorem point_heuristic_visited (rooms : Nat → Option room_data) (n : ivec2) (r : room_data)
    (hr : rooms (point_id n) = some r) (hv : r.visited = true)
    (hf : r.flags &&& room_flag_avoid = 0) : point_heuristic rooms n = calc_heuristic n := by
  simp [point_heuristic, scale_num, hr, hf, hv]

theorem point_heuristic_ge (rooms : Nat → Option room_data) (n : ivec2) :
    calc_heuristic n ≤ point_heuristic rooms n := by
  have := scale_num_ge rooms (point_id n)
  unfold point_heuristic
  rw [Nat.le_div_iff_mul_le (by decide)]
  exact Nat.mul_le_mul_left _ this

theorem descent_init (s : ivec2) (h64 : manhattan s ≤ 64) :
    descent_inv s (search_init s) := by
  right
  refine ⟨h64, calc_heuristic s + 1, ?_, ?_, ?_⟩
  · exact ⟨⟨calc_heuristic s, point_id s⟩, by simp [search_init], Nat.lt_succ_self _⟩
  · intro q hq _
    simp only [search_init, List.mem_singleton] at hq
    subst hq
    exact ⟨⟨s, [], 0, calc_heuristic s⟩, by simp [search_init, map_insert], in_rect_self s,
      by simp, rfl⟩
  · intro k a hk _
    simp only [search_init, map_insert] at hk
    split at hk
    · rename_i hks
      exact ⟨⟨calc_heuristic s, point_id s⟩, by simp [search_init], hks.symm, Nat.lt_succ_self _⟩
    · cases hk

/-- One pass of the search loop keeps the descent. -/
theorem descent_step (rooms : Nat → Option room_data) (s : ivec2) (hb : in_bounds s = true)
    (hopen : open_rect rooms s) (t : Nat) (st st1 : search_state)
    (hinv : search_inv rooms s st) (h : descent_inv s st)
    (hs : search_step t rooms st = some st1) : descent_inv s st1 := by
  obtain ⟨hinv1, hle, _, _⟩ := search_step_inv t rooms s st st1 hinv hs
  have hdone : ∀ dest, st.point_data (point_id zero) = some dest →
      dest.path_length = manhattan s → descent_inv s st1 := by
    intro dest hd hl
    obtain ⟨a1, h1, _, h1l⟩ := hle _ dest hd
    exact Or.inl ⟨a1, h1, h1l.trans hl⟩
  rcases h with ⟨dest, hd, hl⟩ | ⟨hmax, m, ⟨q0, hq0, hq0m⟩, h2, h3⟩
  · exact hdone dest hd hl
  obtain ⟨top, p, hmem, hmin, hp, heq⟩ := search_step_eq t rooms s st st1 hinv hs
  have htop : top.heuristic < m := lt_of_le_of_lt (hmin q0 hq0) hq0m
  obtain ⟨a, ha, hrect, hlen, hh⟩ := h2 top hmem htop
  have hpa : a = p := Option.some.inj (ha.symm.trans hp)
  subst hpa
  obtain ⟨hpb, hpk⟩ := hinv.key_pos _ a ha
  by_cases hz : a.position = zero
  · rw [hz] at hpk hlen
    rw [← hpk] at ha
    exact hdone a ha (by simpa [manhattan, zero] using hlen)
  have hman1 : 1 ≤ manhattan a.position := by
    obtain ⟨i, hi, hti⟩ := toward_exists a.position hz
    omega
  have hl64 := hinv.len_le _ a ha
  rw [if_neg (by omega)] at heq
  have heff := visit_effect_fold rooms a (paths_of rooms (point_id a.position)) [0, 1, 2, 3]
    (by decide) { st with points := st.points.erase top }
  rw [← heq] at heff
  have hmod : (a.path_length + 1) % 4294967296 = a.path_length + 1 :=
    Nat.mod_eq_of_lt (by omega)
  obtain ⟨r, hr, _, _, hrp⟩ := hopen a.position hrect
  have hnoold : ∀ k b, st.point_data k = some b →
      ¬ calc_heuristic b.position < calc_heuristic a.position := by
    intro k b hk hlt
    obtain ⟨q, hq, hqk, hqm⟩ := h3 k b hk (by omega)
    obtain ⟨b1, hb1, _, _, hqh⟩ := h2 q hq hqm
    rw [hqk, hk] at hb1
    rw [← Option.some.inj hb1] at hqh
    have := hmin q hq
    omega
  have hchild : ∀ j, j < 4 → in_bounds (a.position + dir_at j) = true →
      calc_heuristic (a.position + dir_at j) < calc_heuristic a.position →
      in_rect s (a.position + dir_at j) = true
        ∧ manhattan (a.position + dir_at j) + 1 = manhattan a.position
        ∧ point_heuristic rooms (a.position + dir_at j)
            = calc_heuristic (a.position + dir_at j) := by
    intro j hj hbj hlt
    have hman := (calc_lt_iff a.position j hj hpb hbj).mp hlt
    obtain ⟨hrj, hmj⟩ := toward_rect s a.position j hj hrect hman
    obtain ⟨rj, hrj1, hrjv, hrjf, _⟩ := hopen _ hrj
    exact ⟨hrj, hmj, point_heuristic_visited rooms _ rj hrj1 hrjv hrjf⟩
  have hnew : ∀ k a1, st.point_data k = none → st1.point_data k = some a1 →
      ∃ j, j < 4 ∧ in_bounds (a.position + dir_at j) = true
        ∧ point_id (a.position + dir_at j) = k ∧ a1.position = a.position + dir_at j
        ∧ a1.path_length = a.path_length + 1
        ∧ (⟨point_heuristic rooms (a.position + dir_at j), k⟩ : queued_point) ∈ st1.points := by
    intro k a1 hnone h1
    obtain ⟨j, extra, hj, _, hbj, hkey, ha1, _, hqin⟩ := heff.new_node k a1 hnone h1
    refine ⟨j, hj, hbj, hkey, by rw [ha1], by rw [ha1]; exact hmod, hqin⟩
  right
  refine ⟨?_, calc_heuristic a.position, ?_, ?_, ?_⟩
  · rcases heff.max_change with hsame | ⟨hnone, hsome, hmx⟩
    · rw [hsame]; exact hmax
    · cases h1 : st1.point_data (point_id zero) with
      | none => exact absurd h1 hsome
      | some a1 =>
        obtain ⟨j, hj, hbj, hkey, _, _, _⟩ := hnew _ a1 hnone h1
        have hzj : a.position + dir_at j = zero := point_id_inj _ _ hbj (by decide) hkey
        have := dir_at_manhattan a.position j hj
        rw [hzj] at this
        have hz0 : manhattan zero = 0 := by decide
        rw [hmx, hmod]
        omega
  · obtain ⟨i, hi, hti⟩ := toward_exists a.position hz
    have hbi : in_bounds (a.position + dir_at i) = true :=
      in_rect_bounds s _ hb (toward_rect s a.position i hi hrect hti).1
    have hlt := (calc_lt_iff a.position i hi hpb hbi).mpr hti
    have hpi : has_path (paths_of rooms (point_id a.position)) i = true := by
      rw [paths_of_some _ _ r hr]
      exact hrp i hi hti
    have hnone : st.point_data (point_id (a.position + dir_at i)) = none := by
      cases hc : st.point_data (point_id (a.position + dir_at i)) with
      | none => rfl
      | some b =>
        obtain ⟨hbb, hbk⟩ := hinv.key_pos _ b hc
        have hbp : b.position = a.position + dir_at i := point_id_inj _ _ hbb hbi hbk
        exact absurd (by rw [hbp]; exact hlt) (hnoold _ b hc)
    have hrec := visit_fold_records rooms a (paths_of rooms (point_id a.position)) [0, 1, 2, 3]
      (by decide) i (by interval_cases i <;> simp) hpi hbi
      { st with points := st.points.erase top }
    rw [← heq] at hrec
    cases h1 : st1.point_data (point_id (a.position + dir_at i)) with
    | none => exact absurd h1 hrec
    | some a1 =>
      obtain ⟨j, hj, hbj, hkey, _, _, hqin⟩ := hnew _ a1 hnone h1
      have hji : a.position + dir_at j = a.position + dir_at i := point_id_inj _ _ hbj hbi hkey
      rw [hji] at hqin
      refine ⟨_, hqin, ?_⟩
      rw [(hchild i hi hbi hlt).2.2]
      exact hlt
  · intro q hq hqlt
    rcases heff.new_queued q hq with hqold | ⟨hnone, j, hj, hbj, hqe⟩
    · have := hmin q (List.mem_of_mem_erase hqold)
      omega
    · obtain ⟨a1, h1⟩ := hinv1.queued q hq
      obtain ⟨j1, hj1, hbj1, hkey1, hpos1, hlen1, _⟩ := hnew _ a1 hnone h1
      have hqp : q.point = point_id (a.position + dir_at j) := by rw [hqe]
      have hqh : q.heuristic = point_heuristic rooms (a.position + dir_at j) := by rw [hqe]
      have hjj : a.position + dir_at j1 = a.position + dir_at j :=
        point_id_inj _ _ hbj1 hbj (hkey1.trans hqp)
      have hlt : calc_heuristic (a.position + dir_at j) < calc_heuristic a.position := by
        have := point_heuristic_ge rooms (a.position + dir_at j)
        omega
      obtain ⟨hrj, hmj, hph⟩ := hchild j hj hbj hlt
      refine ⟨a1, h1, ?_, ?_, ?_⟩
      · rw [hpos1, hjj]; exact hrj
      · rw [hpos1, hjj, hlen1]; omega
      · rw [hpos1, hjj, hqh, hph]
  · intro k a1 h1 hlt
    cases hold : st.point_data k with
    | some b =>
      obtain ⟨extra, he, _⟩ := heff.old_node k b hold
      rw [h1] at he
      have hbp : a1.position = b.position := by rw [Option.some.inj he]
      exact absurd (by rw [← hbp]; exact hlt) (hnoold k b hold)
    | none =>
      obtain ⟨j, hj, hbj, hkey, hpos1, _, hqin⟩ := hnew k a1 hold h1
      rw [hpos1] at hlt
      refine ⟨_, hqin, rfl, ?_⟩
      rw [(hchild j hj hbj hlt).2.2]
      exact hlt

theorem open_rect_state_open : open_rect open_rect_state.rooms open_rect_state.position := by
  intro c hc
  have hc2 : ((0 ≤ c.x ∧ c.x ≤ 2) ∨ (2 ≤ c.x ∧ c.x ≤ 0))
      ∧ ((0 ≤ c.y ∧ c.y ≤ 1) ∨ (1 ≤ c.y ∧ c.y ≤ 0)) := (in_rect_iff _ c).mp hc
  obtain ⟨x, y⟩ := c
  dsimp only at hc2
  have hx : x = 0 ∨ x = 1 ∨ x = 2 := by omega
  have hy : y = 0 ∨ y = 1 := by omega
  have hall : ∀ i, i < 4 → has_path 15 i = true := by
    intro i hi
    interval_cases i <;> decide
  rcases hx with rfl | rfl | rfl <;> rcases hy with rfl | rfl
  · refine ⟨⟨⟨0, 0⟩, 2, room_flag_portal, true⟩, by decide, rfl, by decide, ?_⟩
    intro i hi h
    interval_cases i <;> exact absurd h (by decide)
  · exact ⟨⟨⟨0, 1⟩, 15, 0, true⟩, by decide, rfl, by decide, fun i hi _ => hall i hi⟩
  · exact ⟨⟨⟨1, 0⟩, 15, 0, true⟩, by decide, rfl, by decide, fun i hi _ => hall i hi⟩
  · exact ⟨⟨⟨1, 1⟩, 15, 0, true⟩, by decide, rfl, by decide, fun i hi _ => hall i hi⟩
  · exact ⟨⟨⟨2, 0⟩, 15, 0, true⟩, by decide, rfl, by decide, fun i hi _ => hall i hi⟩
  · exact ⟨⟨⟨2, 1⟩, 15, 0, true⟩, by decide, rfl, by decide, fun i hi _ => hall i hi⟩

/-- C2, as amended: when the player is within the grid, at most `64` steps of Manhattan
distance from the origin, and every coordinate of the rectangle spanned by the player and
the origin holds a visited room without the avoid annotation whose passages towards the
origin are open, then `find_path` returns, whatever the tie-breaks, a route of exactly
`|x| + |y|` steps, and no walk from the player to the origin that stays in bounds and
uses only permitted passages has fewer steps than the route. -/
theorem find_path_shortest_in_open_rect (tie : Nat → Nat) (g : map_state)
    (hb : in_bounds g.position = true) (h64 : manhattan g.position ≤ 64)
    (hopen : open_rect g.rooms g.position) :
    ∃ route, find_path tie g = some { g with portal_path := route }
      ∧ route.length = manhattan g.position
      ∧ ∀ walk, permitted_walk g.rooms g.position walk = true →
          walk_end g.position walk = zero → route.length ≤ walk.length := by
  by_cases hz : g.position = zero
  · refine ⟨[], by simp [find_path, hz], ?_, fun _ _ _ => Nat.zero_le _⟩
    rw [hz]
    rfl
  · obtain ⟨st, route, hst, _, hempty, hfp, hroute⟩ := find_path_spec tie g hb hz
    obtain ⟨r, hr, _, hP, _, _⟩ := search_total_with tie g.rooms g.position
      (descent_inv g.position)
      (fun t st st1 hi hp hs => descent_step g.rooms g.position hb hopen t st st1 hi hp hs)
      search_fuel (search_init g.position) (search_init_inv _ _ hb) (descent_init _ h64)
      (search_init_measure _ hb)
    have hrst : r = st := Option.some.inj (hr.symm.trans hst)
    subst hrst
    rcases hP with ⟨dest, hd, hl⟩ | ⟨_, m, ⟨q, hq, _⟩, _, _⟩
    · rcases hroute with ⟨hnone, _⟩ | ⟨dest1, hd1, hchain, hlen⟩
      · rw [hd] at hnone
        cases hnone
      · have hdd : dest1 = dest := Option.some.inj (hd1.symm.trans hd)
        subst hdd
        have h1 := route_chain_length g.rooms route zero g.position hchain
        have hz0 : manhattan zero = 0 := by decide
        have hlen2 : route.length = manhattan g.position := by omega
        refine ⟨route, hfp, hlen2, ?_⟩
        intro walk hw hend
        have := walk_end_manhattan walk g.position (permitted_walk_lt _ walk _ hw) hend
        omega
    · rw [hempty] at hq
      cases hq

theorem find_path_shortest_in_open_rect_witness :
    (in_bounds open_rect_state.position = true ∧ manhattan open_rect_state.position ≤ 64
      ∧ open_rect open_rect_state.rooms open_rect_state.position)
    ∧ ∃ route, find_path first_tie open_rect_state
          = some { open_rect_state with portal_path := route }
      ∧ route.length = manhattan open_rect_state.position
      ∧ ∀ walk, permitted_walk open_rect_state.rooms open_rect_state.position walk = true →
          walk_end open_rect_state.position walk = zero → route.length ≤ walk.length :=
  ⟨⟨by decide, by decide, open_rect_state_open⟩,
    find_path_shortest_in_open_rect first_tie open_rect_state (by decide) (by decide)
      open_rect_state_open⟩

/-- Outside the open rectangles the route can be longer than a permitted walk also on a
table without avoid, unvisited or missing rooms on the way: in the winding example every
tie-break yields the six-step route through the winding way, while north and three
times west is a permitted walk of four steps through visited rooms. The corridor room
`(2,0)` is first recorded from `(1,0)` with path length `6`; the pass from `(3,0)`
records a second candidate direction on it and leaves its path length as it is. -/
theorem find_path_winding_detour :
    in_bounds winding_state.position = true
      ∧ (∀ tie, (find_path tie winding_state).map (fun g => g.portal_path)
          = some [⟨1, 0⟩, ⟨0, 1⟩, ⟨0, 1⟩, ⟨1, 0⟩, ⟨0, -1⟩, ⟨1, 0⟩])
      ∧ permitted_walk winding_state.rooms winding_state.position [2, 3, 3, 3] = true
      ∧ walk_end winding_state.position [2, 3, 3, 3] = zero := by
  refine ⟨by decide, ?_, by decide, by decide⟩
  intro tie
  rw [find_path_tie_free tie winding_state (by decide!)]
  decide!

end VaultMapper
